import Mathlib

/-!
# The glyph cache of package `text`

A shallow embedding of `text/text.go`: the logical clock, the face table, the
memoised glyph bounds, the colour-matrix cache, the texture atlases with their
rune-to-glyph tables, and `Draw`.

Conventions of the embedding.

* A Go `map` is an association list whose order is the order in which a
  `range` loop visits the entries.  Go leaves that order unspecified, so the
  theorems quantify over every order.  The keys of a map are pairwise distinct
  (`Nodup`), which is what the Go type guarantees.
* A pointer stored in a map is modelled by the value it points to; a write
  through the pointer is a write to the map entry.
* A run-time panic is `Except.error`.
* `int` and `int64` values are `Int`.  The clock is an `int64` that starts at
  `0`; the model covers runs in which it has not reached `math.MaxInt64`.
  `fixed.Int26_6` is an `int32`, its arithmetic wraps (`wrap32`).
* Calls that leave the package (the face's `GlyphBounds`, image allocation,
  rasterisation into an atlas cell, the composite on the destination) are
  recorded in the `log` of the state, in program order.

After the embedding of `text/text.go` come three smaller ones: `clamp` of the
example `examples/hsv`, `Touches` of `input.go`, and the order `KeyNames.Less`
of the key names of the generator `genkeys.go`.  A Go slice is an optional
list (`none` is the nil slice), a Go string the list of its bytes.
-/

namespace Text

/-! ## Machine integers and panics -/

/-- Run-time panics of the modelled code. -/
inductive Panic where
  | appendGlyphNotReached
  | atNotReached
  | divideByZero
  | nilDereference
  deriving DecidableEq, Repr

/-- Constant `math.MaxInt64`. -/
def MaxInt64 : Int := 9223372036854775807

/-- Two's-complement reduction to the range of `int32`. -/
def wrap32 (x : Int) : Int := (x + 2147483648) % 4294967296 - 2147483648

/-- Go's `a / b` on `int`: truncated division, a panic when `b` is zero. -/
def goDiv (a b : Int) : Except Panic Int :=
  if b = 0 then .error .divideByZero else .ok (Int.tdiv a b)

/-- Go's `a % b` on `int`: truncated remainder, a panic when `b` is zero. -/
def goMod (a b : Int) : Except Panic Int :=
  if b = 0 then .error .divideByZero else .ok (Int.tmod a b)

/-! ## Go maps as association lists -/

/-- Map index expression `m[k]` with the comma-ok result. -/
def mapGet {κ ν : Type} [DecidableEq κ] : List (κ × ν) → κ → Option ν
  | [], _ => none
  | (k', v) :: rest, k => if k' = k then some v else mapGet rest k

/-- Assignment `m[k] = v`: an existing entry is overwritten in place, a new
entry is added. -/
def mapSet {κ ν : Type} [DecidableEq κ] : List (κ × ν) → κ → ν → List (κ × ν)
  | [], k, v => [(k, v)]
  | (k', v') :: rest, k, v =>
    if k' = k then (k', v) :: rest else (k', v') :: mapSet rest k v

/-- Builtin `delete(m, k)`. -/
def mapDelete {κ ν : Type} [DecidableEq κ] : List (κ × ν) → κ → List (κ × ν)
  | [], _ => []
  | (k', v) :: rest, k => if k' = k then mapDelete rest k else (k', v) :: mapDelete rest k

/-- Builtin `len(m)`. -/
def mapLen {κ ν : Type} (m : List (κ × ν)) : Int := (m.length : Int)

/-! ## Data model -/

/-- Type `fixed.Point26_6`. -/
structure Point26_6 where
  X : Int
  Y : Int
  deriving DecidableEq, Repr

/-- Type `fixed.Rectangle26_6`. -/
structure Rectangle26_6 where
  Min : Point26_6
  Max : Point26_6
  deriving DecidableEq, Repr

/-- A `font.Face` value.  `ptr` is the identity of the instance (what the
interface value compares by when used as a map key), `data` stands for the
contents that `reflect.DeepEqual` compares. -/
structure Face where
  ptr : Nat
  data : Nat
  deriving DecidableEq, Repr

/-- The methods of `font.Face` that the package calls. -/
structure Fonts where
  GlyphBounds : Face → Int → Rectangle26_6
  GlyphAdvance : Face → Int → Int
  Kern : Face → Int → Int → Int

/-- A `color.Color`, given by what its `RGBA()` method returns.  As the key
of `colorMCache` in `State` it stands for a colour of a value type, whose
interface value is determined by these components; the colour cache for
colours of any dynamic type (a pointer, whose components can change under
one key) is `colorMLookupAny` with `glyph.drawAny`. -/
structure Color where
  R : Nat
  G : Nat
  B : Nat
  A : Nat
  deriving DecidableEq, Repr

/-- The float quotient `float64(num) / float64(den)`, kept symbolic. -/
structure Quot64 where
  num : Nat
  den : Nat
  deriving DecidableEq, Repr

/-- An `ebiten.ColorM` obtained from the identity by `Scale(rf, gf, bf, af)`. -/
structure ColorM where
  rf : Quot64
  gf : Quot64
  bf : Quot64
  af : Quot64
  deriving DecidableEq, Repr

/-- Type `char`. -/
structure char where
  face : Face
  rune : Int
  atlasG : Int
  deriving DecidableEq, Repr

/-- Type `glyph`. -/
structure glyph where
  char : char
  index : Int
  atime : Int
  deriving DecidableEq, Repr

/-- Type `colorMCacheEntry`. -/
structure colorMCacheEntry where
  m : ColorM
  atime : Int
  deriving DecidableEq, Repr

/-- Type `atlas`.  `imageWidth` and `imageHeight` are what `a.image.Size()`
returns; `tmpImage` tells whether the temporary image has been allocated. -/
structure atlas where
  imageWidth : Int
  imageHeight : Int
  tmpImage : Bool
  glyphSize : Int
  runeToGlyph : List (Int × glyph)
  deriving DecidableEq, Repr

/-- Calls that leave the package. -/
inductive Event where
  | glyphBounds (face : Face) (r : Int)
  | newImage (width height : Int)
  | rasterize (face : Face) (r : Int) (glyphSize x y : Int)
  | drawImage (dst : Nat) (face : Face) (r : Int) (px py : Int)
      (sx sy size : Int) (cm : ColorM)
  deriving DecidableEq, Repr

/-- The package-level variables, and the log of outside calls. -/
structure State where
  monotonicClock : Int
  faces : List Face
  charBounds : List (Face × List (Int × Rectangle26_6))
  colorMCache : List (Color × colorMCacheEntry)
  atlases : List (Face × List (Int × atlas))
  log : List Event
  deriving DecidableEq, Repr

/-- The state at program start. -/
def State.init : State :=
  { monotonicClock := 0, faces := [], charBounds := [], colorMCache := [],
    atlases := [], log := [] }

/-! ## The clock, the face table and the glyph metrics -/

/-- Function `now`.  The clock is an `int64`; the sum is the one of the code
as long as the clock is below `math.MaxInt64`, and the theorems that state
the value of the clock are for that case. -/
def now (st : State) : Int × State :=
  let st1 := { st with monotonicClock := st.monotonicClock + 1 }
  (st1.monotonicClock, st1)

/-- Function `fontFaceToFace`.  `reflect.DeepEqual(key, f)` compares the
contents of the two faces. -/
def fontFaceToFace (f : Face) (st : State) : Face × State :=
  if f ∈ st.faces then (f, st)
  else
    match st.faces.find? (fun key => decide (key.data = f.data)) with
    | some key => (key, st)
    | none => (f, { st with faces := st.faces ++ [f] })

/-- Method `char.bounds`. -/
def char.bounds (env : Fonts) (c : char) (st : State) : Rectangle26_6 × State :=
  match mapGet st.charBounds c.face with
  | some m =>
    match mapGet m c.rune with
    | some b => (b, st)
    | none =>
      let b := env.GlyphBounds c.face c.rune
      (b, { st with
            charBounds := mapSet st.charBounds c.face (mapSet m c.rune b),
            log := st.log ++ [Event.glyphBounds c.face c.rune] })
  | none =>
    let b := env.GlyphBounds c.face c.rune
    (b, { st with
          charBounds := mapSet st.charBounds c.face (mapSet [] c.rune b),
          log := st.log ++ [Event.glyphBounds c.face c.rune] })

/-- Method `char.size`; the subtractions are those of `fixed.Int26_6`. -/
def char.size (env : Fonts) (c : char) (st : State) : (Int × Int) × State :=
  let (b, st1) := c.bounds env st
  ((wrap32 (b.Max.X - b.Min.X), wrap32 (b.Max.Y - b.Min.Y)), st1)

/-- Method `char.empty`. -/
def char.empty (env : Fonts) (c : char) (st : State) : Bool × State :=
  let ((x, y), st1) := c.size env st
  (decide (x = 0) || decide (y = 0), st1)

/-- Method `fixed.Int26_6.Ceil`: `int((x + 0x3f) >> 6)`. -/
def Ceil (x : Int) : Int := wrap32 (x + 63) / 64

/-- The loop `r := 1; for r < x { r <<= 1 }`, with a bound on its length. -/
def nextPow2From : Nat → Nat → Nat → Nat
  | 0, _, r => r
  | fuel + 1, x, r => if r < x then nextPow2From fuel x (2 * r) else r

/-- Modelled from the spec: `emath.NextPowerOf2Int` of package
`internal/math`, which is not among the sources.  The spec names it
`nextPowerOfTwo(m)`, the smallest power of two that is at least `m`. -/
def NextPowerOf2Int (x : Int) : Int := (nextPow2From x.toNat x.toNat 1 : Nat)

/-- Method `char.atlasGroup`.  The receiver is a pointer: the method returns
the character with its memo field as well. -/
def char.atlasGroup (env : Fonts) (c : char) (st : State) : Int × char × State :=
  if c.atlasG ≠ 0 then (c.atlasG, c, st)
  else
    let ((x, y), st1) := c.size env st
    let w := Ceil x
    let h := Ceil y
    let t := if w < h then h else w
    if t < 32 then (32, c, st1)
    else
      let g := NextPowerOf2Int t
      (g, { c with atlasG := g }, st1)

/-! ## The atlas -/

/-- Method `atlas.at` (`at` is a reserved word in Lean).  The glyph is passed
by pointer; it is returned with the memo that `atlasGroup` may have written. -/
def atlas.atCell (env : Fonts) (a : atlas) (g : glyph) (st : State) :
    Except Panic ((Int × Int) × glyph × State) :=
  let (grp, c, st1) := g.char.atlasGroup env st
  let g1 : glyph := { g with char := c }
  if a.glyphSize ≠ grp then .error .atNotReached
  else
    match goDiv a.imageWidth a.glyphSize with
    | .error e => .error e
    | .ok xnum =>
      match goMod g1.index xnum with
      | .error e => .error e
      | .ok x =>
        match goDiv g1.index xnum with
        | .error e => .error e
        | .ok y => .ok ((x * a.glyphSize, y * a.glyphSize), g1, st1)

/-- Method `atlas.maxGlyphNum`. -/
def atlas.maxGlyphNum (a : atlas) : Except Panic Int :=
  match goDiv a.imageWidth a.glyphSize with
  | .error e => .error e
  | .ok xnum =>
    match goDiv a.imageHeight a.glyphSize with
    | .error e => .error e
    | .ok ynum => .ok (xnum * ynum)

/-- The eviction scan of `atlas.appendGlyph`,
`for _, g := range a.runeToGlyph { if g.atime < t { t = g.atime; oldest = g } }`,
as a function of the entries still to visit and the loop variables. -/
def oldestGlyph : List (Int × glyph) → Option glyph → Int → Option glyph
  | [], oldest, _ => oldest
  | (_, g) :: rest, oldest, t =>
    if g.atime < t then oldestGlyph rest (some g) g.atime
    else oldestGlyph rest oldest t

/-- Method `atlas.draw`: allocates the temporary image on first use,
rasterises the rune into it and copies it to the glyph's cell. -/
def atlas.draw (env : Fonts) (a : atlas) (g : glyph) (st : State) :
    Except Panic (glyph × atlas × State) :=
  let st1 : State :=
    if a.tmpImage then st
    else { st with log := st.log ++ [Event.newImage a.glyphSize a.glyphSize] }
  let a1 : atlas := { a with tmpImage := true }
  let (_, st2) := g.char.bounds env st1
  match a1.atCell env g st2 with
  | .error e => .error e
  | .ok ((x, y), g1, st3) =>
    .ok (g1, a1, { st3 with
      log := st3.log ++ [Event.rasterize g.char.face g.char.rune a1.glyphSize x y] })

/-- The `if len(a.runeToGlyph) == a.maxGlyphNum() { ... } else { ... }`
statement of `atlas.appendGlyph`: the cell index for the new glyph and the
table after the eviction, if any. -/
def atlas.selectCell (a : atlas) (max : Int) : Except Panic (Int × List (Int × glyph)) :=
  if mapLen a.runeToGlyph = max then
    match oldestGlyph a.runeToGlyph none MaxInt64 with
    | none => .error .appendGlyphNotReached
    | some oldest => .ok (oldest.index, mapDelete a.runeToGlyph oldest.char.rune)
  else .ok (mapLen a.runeToGlyph, a.runeToGlyph)

/-- Method `atlas.appendGlyph`.  The new glyph is stored in the table before
`a.draw` runs on it, and `a.draw` works on the stored glyph (it holds the
pointer), so what `a.draw` leaves in the glyph is what the table holds. -/
def atlas.appendGlyph (env : Fonts) (a : atlas) (ch : char) (now : Int) (st : State) :
    Except Panic (glyph × atlas × State) :=
  match a.maxGlyphNum with
  | .error e => .error e
  | .ok max =>
    match a.selectCell max with
    | .error e => .error e
    | .ok (idx, m) =>
      let g : glyph := { char := ch, index := idx, atime := now }
      let a1 : atlas := { a with runeToGlyph := mapSet m g.char.rune g }
      match a1.draw env g st with
      | .error e => .error e
      | .ok (g1, a2, st1) =>
        .ok (g1, { a2 with runeToGlyph := mapSet a2.runeToGlyph g1.char.rune g1 }, st1)

/-! ## Drawing one glyph: the colour-matrix cache -/

/-- The eviction scan of `glyph.draw`,
`for key, e := range colorMCache { if e.atime < t { t = g.atime; oldest = key } }`,
as a function of the entries still to visit, the loop variables `oldest` and
`t`, and the `atime` of the glyph being drawn. -/
def oldestColor {κ : Type} : List (κ × colorMCacheEntry) → Option κ → Int → Int → Option κ
  | [], oldest, _, _ => oldest
  | (key, e) :: rest, oldest, t, gatime =>
    if e.atime < t then oldestColor rest (some key) gatime gatime
    else oldestColor rest oldest t gatime

/-- The statement `delete(colorMCache, oldest)`; `oldest` is the nil
interface when the scan selected nothing, and no entry has that key. -/
def deleteOldest {κ : Type} [DecidableEq κ] (m : List (κ × colorMCacheEntry)) : Option κ →
    List (κ × colorMCacheEntry)
  | none => m
  | some key => mapDelete m key

/-- The colour matrix that `glyph.draw` computes for a colour. -/
def colorMOf (clr : Color) : ColorM :=
  { rf := ⟨clr.R, clr.A⟩, gf := ⟨clr.G, clr.A⟩, bf := ⟨clr.B, clr.A⟩,
    af := ⟨clr.A, 0xffff⟩ }

/-- The colour-cache part of `glyph.draw` (the `if ok` statement): returns the
entry `e` and the state. -/
def colorMLookup (g : glyph) (clr : Color) (st : State) : colorMCacheEntry × State :=
  match mapGet st.colorMCache clr with
  | some e =>
    let (t, st1) := now st
    let e1 : colorMCacheEntry := { e with atime := t }
    (e1, { st1 with colorMCache := mapSet st1.colorMCache clr e1 })
  | none =>
    let cache :=
      if mapLen st.colorMCache ≥ 256 then
        deleteOldest st.colorMCache (oldestColor st.colorMCache none MaxInt64 g.atime)
      else st.colorMCache
    let cm := colorMOf clr
    let (t, st1) := now { st with colorMCache := cache }
    let e : colorMCacheEntry := { m := cm, atime := t }
    (e, { st1 with colorMCache := mapSet st1.colorMCache clr e })

/-- Method `glyph.draw`.  `dst` names the destination image; `x` and `y` are
`fixed.Int26_6` values.  The glyph is passed by pointer and returned with the
memo that `atlasGroup` may have written. -/
def glyph.draw (env : Fonts) (g : glyph) (dst : Nat) (x y : Int) (clr : Color)
    (st : State) : Except Panic (glyph × State) :=
  if clr.A = 0 then .ok (g, st)
  else
    let (b, st1) := g.char.bounds env st
    let px := wrap32 (x + b.Min.X)
    let py := wrap32 (y + b.Min.Y)
    let (e, st2) := colorMLookup g clr st1
    let (grp, c, st3) := g.char.atlasGroup env st2
    let g1 : glyph := { g with char := c }
    match (mapGet st3.atlases g1.char.face).bind (fun m => mapGet m grp) with
    | none => .error .nilDereference
    | some a =>
      match a.atCell env g1 st3 with
      | .error err => .error err
      | .ok ((sx, sy), g2, st4) =>
        .ok (g2, { st4 with log := st4.log ++
          [Event.drawImage dst g2.char.face g2.char.rune px py sx sy a.glyphSize e.m] })

/-! ## Resolving a glyph -/

/-- The statement `atlases[face][key] = a`; writing to a nil map panics. -/
def storeAtlas (face : Face) (key : Int) (a : atlas) (st : State) : Except Panic State :=
  match mapGet st.atlases face with
  | none => .error .nilDereference
  | some m => .ok { st with atlases := mapSet st.atlases face (mapSet m key a) }

/-- The block `if at == nil { ... }` of `getGlyphFromCache` when `at` is nil:
allocates the 1024 by 1024 image, builds the atlas and stores it.  Returns the
key under which the atlas is stored, the atlas, the character and the state. -/
def createAtlas (env : Fonts) (face : Face) (ch : char) (st : State) :
    Except Panic (Int × atlas × char × State) :=
  let st2 : State := { st with log := st.log ++ [Event.newImage 1024 1024] }
  let (size, ch1, st3) := ch.atlasGroup env st2
  let a : atlas :=
    { imageWidth := 1024, imageHeight := 1024, tmpImage := false,
      glyphSize := size, runeToGlyph := [] }
  let (key, ch2, st4) := ch1.atlasGroup env st3
  match storeAtlas face key a st4 with
  | .error e => .error e
  | .ok st5 => .ok (key, a, ch2, st5)

/-- The statement `return at.appendGlyph(ch, now)` of `getGlyphFromCache`.
`at` points to the atlas that `atlases[face]` holds under `key`, so what
`appendGlyph` does to the atlas is written to that entry. -/
def insertGlyph (env : Fonts) (face : Face) (key : Int) (a : atlas) (ch : char) (now : Int)
    (st : State) : Except Panic (glyph × State) :=
  match a.appendGlyph env ch now st with
  | .error e => .error e
  | .ok (g, a1, st1) =>
    match storeAtlas face key a1 st1 with
    | .error e => .error e
    | .ok st2 => .ok (g, st2)

/-- The part of `getGlyphFromCache` from `if ch.empty()` on.  `slot` is the
pointer `at`: `none` for nil, otherwise the atlas and the key under which
`atlases[face]` holds it. -/
def getGlyphMiss (env : Fonts) (face : Face) (ch : char) (now : Int)
    (slot : Option (Int × atlas)) (st : State) : Except Panic (glyph × State) :=
  let (isEmpty, st1) := ch.empty env st
  if isEmpty then .ok ({ char := ch, index := 0, atime := now }, st1)
  else
    match slot with
    | some (key, a) => insertGlyph env face key a ch now st1
    | none =>
      match createAtlas env face ch st1 with
      | .error e => .error e
      | .ok (key, a, ch2, st2) => insertGlyph env face key a ch2 now st2

/-- Function `getGlyphFromCache`. -/
def getGlyphFromCache (env : Fonts) (face : Face) (r : Int) (now : Int) (st : State) :
    Except Panic (glyph × State) :=
  let ch : char := { face := face, rune := r, atlasG := 0 }
  match mapGet st.atlases face with
  | some m =>
    let (grp, ch1, st1) := ch.atlasGroup env st
    match mapGet m grp with
    | some a =>
      match mapGet a.runeToGlyph r with
      | some g =>
        let g1 : glyph := { g with atime := now }
        let a1 : atlas := { a with runeToGlyph := mapSet a.runeToGlyph r g1 }
        .ok (g1, { st1 with atlases := mapSet st1.atlases face (mapSet m grp a1) })
      | none => getGlyphMiss env face ch1 now (some (grp, a)) st1
    | none => getGlyphMiss env face ch1 now none st1
  | none =>
    getGlyphMiss env face ch now none { st with atlases := mapSet st.atlases face [] }

/-! ## Draw -/

/-- Function `fixed.I`: `Int26_6(i << 6)`. -/
def fixedI (i : Int) : Int := wrap32 (i * 64)

/-- The body of the loop of `Draw` for the rune `c`; the loop variables are
the state, the pen `fx` and the previous rune `prevC`. -/
def drawRune (env : Fonts) (dst : Nat) (face : Face) (y : Int) (clr : Color) (n : Int)
    (st : State) (fx prevC c : Int) : Except Panic (State × Int × Int) :=
  let fx1 := if prevC ≥ 0 then wrap32 (fx + env.Kern face prevC c) else fx
  let (fa, st1) := fontFaceToFace face st
  match getGlyphFromCache env fa c n st1 with
  | .error e => .error e
  | .ok (g, st2) =>
    let (isEmpty, st3) := g.char.empty env st2
    let drawn : Except Panic State :=
      if !isEmpty then
        match g.draw env dst fx1 (fixedI y) clr st3 with
        | .error e => .error e
        | .ok (_, st4) => .ok st4
      else .ok st3
    match drawn with
    | .error e => .error e
    | .ok st5 => .ok (st5, wrap32 (fx1 + env.GlyphAdvance face c), c)

/-- The loop `for _, c := range runes` of `Draw`. -/
def drawLoop (env : Fonts) (dst : Nat) (face : Face) (y : Int) (clr : Color) (n : Int) :
    List Int → State → Int → Int → Except Panic (State × Int × Int)
  | [], st, fx, prevC => .ok (st, fx, prevC)
  | c :: rest, st, fx, prevC =>
    match drawRune env dst face y clr n st fx prevC c with
    | .error e => .error e
    | .ok (st1, fx1, prevC1) => drawLoop env dst face y clr n rest st1 fx1 prevC1

/-- Function `Draw`; `text` is the rune sequence `[]rune(text)`.  The glyph
that `getGlyphFromCache` hands to `glyph.draw` is passed by value: the only
field `glyph.draw` writes is the `atlasG` memo. -/
def Draw (env : Fonts) (dst : Nat) (text : List Int) (face : Face) (x y : Int)
    (clr : Color) (st : State) : Except Panic State :=
  let (n, st1) := now st
  match drawLoop env dst face y clr n text st1 (fixedI x) (-1) with
  | .error e => .error e
  | .ok (st2, _, _) => .ok st2

/-! ## Auxiliary notions used in the statements -/

/-- The entry `charBounds[face][r]`, if there is one. -/
def memoBounds (st : State) (face : Face) (r : Int) : Option Rectangle26_6 :=
  (mapGet st.charBounds face).bind (fun m => mapGet m r)

/-- The rectangle that `char.bounds` returns for `(face, r)` in the state `st`:
the memoised one, or else what the face reports. -/
def boundsOf (env : Fonts) (st : State) (face : Face) (r : Int) : Rectangle26_6 :=
  (memoBounds st face r).getD (env.GlyphBounds face r)

/-- The state that `char.bounds` leaves for `(face, r)`. -/
def queried (env : Fonts) (st : State) (face : Face) (r : Int) : State :=
  (char.bounds env { face := face, rune := r, atlasG := 0 } st).2

/-- Emptiness of a glyph with bounds `b`, as `char.empty` computes it. -/
def emptyB (b : Rectangle26_6) : Bool :=
  decide (wrap32 (b.Max.X - b.Min.X) = 0) || decide (wrap32 (b.Max.Y - b.Min.Y) = 0)

/-- The larger of the pixel width and height of `b`, the `t` of `char.atlasGroup`. -/
def extentB (b : Rectangle26_6) : Int :=
  if Ceil (wrap32 (b.Max.X - b.Min.X)) < Ceil (wrap32 (b.Max.Y - b.Min.Y)) then
    Ceil (wrap32 (b.Max.Y - b.Min.Y))
  else Ceil (wrap32 (b.Max.X - b.Min.X))

/-- The atlas group of a glyph with bounds `b`, as `char.atlasGroup` computes it. -/
def groupB (b : Rectangle26_6) : Int :=
  if extentB b < 32 then 32 else NextPowerOf2Int (extentB b)

/-- The memo that `char.atlasGroup` leaves in a character with bounds `b`
whose memo was empty. -/
def memoG (b : Rectangle26_6) : Int :=
  if extentB b < 32 then 0 else NextPowerOf2Int (extentB b)

/-- The state `st'` extends the state `st` as far as glyph bounds go: every
character has the same bounds, and no memoised entry is lost. -/
def SameBounds (env : Fonts) (st st' : State) : Prop :=
  (∀ f r, boundsOf env st' f r = boundsOf env st f r) ∧
  (∀ f r, memoBounds st f r ≠ none → memoBounds st' f r ≠ none)

/-- The log of `st'` is the log of `st` followed by events that satisfy `P`. -/
def LogExt (P : Event → Prop) (st st' : State) : Prop :=
  ∃ l, st'.log = st.log ++ l ∧ ∀ e ∈ l, P e

/-- The event is a query of the face for glyph bounds. -/
def Event.isQuery : Event → Bool
  | .glyphBounds _ _ => true
  | _ => false

/-- The event is a composite on a destination image, issued by `glyph.draw`. -/
def Event.isDrawImage : Event → Bool
  | .drawImage _ _ _ _ _ _ _ _ _ => true
  | _ => false

/-- The event is the rasterisation of a glyph into an atlas cell, issued by
`atlas.draw` (that is, by `atlas.appendGlyph`). -/
def Event.isRasterize : Event → Bool
  | .rasterize _ _ _ _ _ => true
  | _ => false

/-- The state that a successful `a.draw(g)` leaves. -/
def drawState (env : Fonts) (a : atlas) (g : glyph) (st : State) : State :=
  let st1 : State :=
    if a.tmpImage then st
    else { st with log := st.log ++ [Event.newImage a.glyphSize a.glyphSize] }
  let st3 := (g.char.atlasGroup env (queried env st1 g.char.face g.char.rune)).2.2
  { st3 with log := st3.log ++ [Event.rasterize g.char.face g.char.rune a.glyphSize
      (Int.tmod g.index (Int.tdiv a.imageWidth a.glyphSize) * a.glyphSize)
      (Int.tdiv g.index (Int.tdiv a.imageWidth a.glyphSize) * a.glyphSize)] }

/-- The number of cells of an atlas whose glyph size is not zero. -/
def atlas.cells (a : atlas) : Int :=
  Int.tdiv a.imageWidth a.glyphSize * Int.tdiv a.imageHeight a.glyphSize

/-- The glyph that a successful `appendGlyph` returns when the selected cell
is `idx`. -/
def newGlyph (env : Fonts) (ch : char) (now : Int) (st : State) (idx : Int) : glyph :=
  { char := (ch.atlasGroup env st).2.1, index := idx, atime := now }

/-- The atlas that a successful `appendGlyph` leaves when the selected cell is
`idx` and the table after the eviction is `m`. -/
def newAtlas (env : Fonts) (a : atlas) (ch : char) (now : Int) (st : State) (idx : Int)
    (m : List (Int × glyph)) : atlas :=
  { a with
    tmpImage := true,
    runeToGlyph :=
      mapSet (mapSet m ch.rune { char := ch, index := idx, atime := now }) ch.rune
        (newGlyph env ch now st idx) }

/-- The frame of the operations that resolve a glyph: the clock, the face
table and the colour cache are as before, the glyph bounds are as before, and
the log has grown by events that are no composite on a destination. -/
structure Resolves (env : Fonts) (st st' : State) : Prop where
  clock : st'.monotonicClock = st.monotonicClock
  faces : st'.faces = st.faces
  colorM : st'.colorMCache = st.colorMCache
  bounds : SameBounds env st st'
  log : LogExt (fun e => e.isDrawImage = false) st st'

/-- The atlas that `getGlyphFromCache` creates for the glyph size `size`. -/
def freshAtlas (size : Int) : atlas :=
  { imageWidth := 1024, imageHeight := 1024, tmpImage := false, glyphSize := size,
    runeToGlyph := [] }

/-- The character `(face, r)` as `char.atlasGroup` leaves it: with the memo
of its group. -/
def settled (env : Fonts) (st : State) (face : Face) (r : Int) : char :=
  { face := face, rune := r, atlasG := memoG (boundsOf env st face r) }

/-- The number of composites on a destination image among the events `l`. -/
def countDraws (l : List Event) : Int :=
  ((l.filter (fun e => e.isDrawImage)).length : Int)

/-! ## Concrete inputs -/

/-- A face. -/
def exFace : Face := { ptr := 1, data := 7 }

/-- Another instance of a face with the contents of `exFace`. -/
def exFace2 : Face := { ptr := 2, data := 7 }

/-- Fonts whose glyphs are all 300 by 400 pixels (atlas group 512), with an
advance of 320 pixels and a kerning of minus one pixel. -/
def exFonts : Fonts :=
  { GlyphBounds := fun _ _ => ⟨⟨0, -25600⟩, ⟨19200, 0⟩⟩,
    GlyphAdvance := fun _ _ => 20480,
    Kern := fun _ _ _ => -64 }

/-- Fonts whose glyphs are all 600 by 600 pixels (atlas group 1024: the atlas
has one cell). -/
def exLarge : Fonts :=
  { GlyphBounds := fun _ _ => ⟨⟨0, -38400⟩, ⟨38400, 0⟩⟩,
    GlyphAdvance := fun _ _ => 40960,
    Kern := fun _ _ _ => 0 }

/-- Fonts whose glyphs are all 1025 pixels wide and one pixel high (atlas
group 2048). -/
def exHuge : Fonts :=
  { GlyphBounds := fun _ _ => ⟨⟨0, -64⟩, ⟨65600, 0⟩⟩,
    GlyphAdvance := fun _ _ => 65600,
    Kern := fun _ _ _ => 0 }

/-- Fonts in which the space (rune 32) has empty bounds and an advance of ten
pixels; the other glyphs are as in `exFonts`. -/
def exSpaced : Fonts :=
  { GlyphBounds := fun _ r => if r = 32 then ⟨⟨0, 0⟩, ⟨0, 0⟩⟩ else ⟨⟨0, -25600⟩, ⟨19200, 0⟩⟩,
    GlyphAdvance := fun _ r => if r = 32 then 640 else 20480,
    Kern := fun _ _ _ => -64 }

/-- Opaque white. -/
def exWhite : Color := { R := 0xffff, G := 0xffff, B := 0xffff, A := 0xffff }

/-- The transparent colour. -/
def exClear : Color := { R := 0, G := 0, B := 0, A := 0 }

/-- A glyph of the atlas of group 512 of `exFace`. -/
def exGlyph (r idx t : Int) : glyph :=
  { char := { face := exFace, rune := r, atlasG := 512 }, index := idx, atime := t }

/-- A full atlas of group 512: four cells, four glyphs. -/
def exAtlasFull : atlas :=
  { imageWidth := 1024, imageHeight := 1024, tmpImage := true, glyphSize := 512,
    runeToGlyph :=
      [(65, exGlyph 65 0 3), (66, exGlyph 66 1 1), (67, exGlyph 67 2 4), (68, exGlyph 68 3 2)] }

/-- A state whose only atlas is `exAtlasFull`. -/
def exState : State :=
  { monotonicClock := 4, faces := [exFace],
    charBounds := [(exFace, [(65, ⟨⟨0, -25600⟩, ⟨19200, 0⟩⟩), (66, ⟨⟨0, -25600⟩, ⟨19200, 0⟩⟩),
      (67, ⟨⟨0, -25600⟩, ⟨19200, 0⟩⟩), (68, ⟨⟨0, -25600⟩, ⟨19200, 0⟩⟩)])],
    colorMCache := [],
    atlases := [(exFace, [(512, exAtlasFull)])],
    log := [] }

/-- The opaque colour with red component `i`. -/
def exColor (i : Nat) : Color := { R := i, G := 0, B := 0, A := 0xffff }

/-- A colour cache with 256 entries: the colour `exColor i` was used at time
`2 * (i + 1)`. -/
def exColorCache : List (Color × colorMCacheEntry) :=
  (List.range 256).map
    (fun i => (exColor i, { m := colorMOf (exColor i), atime := 2 * ((i : Int) + 1) }))

/-- The state in which `glyph.draw` runs for the glyph of "A" in the 257th
call of `Draw`, each call with "A" and a colour of its own. -/
def exColorState : State :=
  { monotonicClock := 513, faces := [exFace],
    charBounds := [(exFace, [(65, ⟨⟨0, -25600⟩, ⟨19200, 0⟩⟩)])],
    colorMCache := exColorCache,
    atlases := [(exFace, [(512,
      { imageWidth := 1024, imageHeight := 1024, tmpImage := true, glyphSize := 512,
        runeToGlyph := [(65, exGlyph 65 0 513)] })])],
    log := [] }

/-! ## Reachable states and their invariant -/

/-- The states of the package: the initial state and what the functions of
the package make of a state.  `getGlyphFromCache` is called with a reading
of the clock. -/
inductive Reachable (env : Fonts) : State → Prop where
  | init : Reachable env State.init
  | tick {st : State} : Reachable env st → Reachable env (now st).2
  | face {st : State} (f : Face) : Reachable env st → Reachable env (fontFaceToFace f st).2
  | bounds {st : State} (c : char) : Reachable env st → Reachable env (c.bounds env st).2
  | getGlyph {st st' : State} {face : Face} {r now : Int} {g : glyph} :
      Reachable env st → now ≤ st.monotonicClock →
      getGlyphFromCache env face r now st = .ok (g, st') → Reachable env st'
  | glyphDraw {st st' : State} {g g' : glyph} {dst : Nat} {x y : Int} {clr : Color} :
      Reachable env st → g.draw env dst x y clr st = .ok (g', st') → Reachable env st'

/-- The state `st'` is reached from the state `st` by operations of the
package: the same steps as in `Reachable`, from `st` on. -/
inductive Later (env : Fonts) (st : State) : State → Prop where
  | here : Later env st st
  | tick {s : State} : Later env st s → Later env st (now s).2
  | face {s : State} (f : Face) : Later env st s → Later env st (fontFaceToFace f s).2
  | bounds {s : State} (c : char) : Later env st s → Later env st (c.bounds env s).2
  | getGlyph {s s' : State} {face : Face} {r now : Int} {g : glyph} :
      Later env st s → now ≤ s.monotonicClock →
      getGlyphFromCache env face r now s = .ok (g, s') → Later env st s'
  | glyphDraw {s s' : State} {g g' : glyph} {dst : Nat} {x y : Int} {clr : Color} :
      Later env st s → g.draw env dst x y clr s = .ok (g', s') → Later env st s'

/-- What holds of a glyph that the atlas of `face` and group `key` holds under
the rune `k`. -/
structure GlyphOK (env : Fonts) (st : State) (face : Face) (key k : Int) (g : glyph) :
    Prop where
  char : g.char = settled env st face k
  group : groupB (boundsOf env st face k) = key
  nonEmpty : emptyB (boundsOf env st face k) = false
  atime : g.atime ≤ st.monotonicClock

/-- What holds of the atlas `atlases[face][key]`. -/
structure AtlasOK (env : Fonts) (st : State) (face : Face) (key : Int) (a : atlas) :
    Prop where
  size : a.glyphSize = key
  width : a.imageWidth = 1024
  height : a.imageHeight = 1024
  pos : 0 < key
  fits : key ≤ 1024
  keys : (a.runeToGlyph.map Prod.fst).Nodup
  glyphs : ∀ k g, (k, g) ∈ a.runeToGlyph → GlyphOK env st face key k g
  bound : mapLen a.runeToGlyph ≤ a.cells

/-- The invariant of the atlases of a state. -/
def WF (env : Fonts) (st : State) : Prop :=
  ∀ face m key a, mapGet st.atlases face = some m → mapGet m key = some a →
    AtlasOK env st face key a

/-- The atlas of the group of `(fa, c)` holds the rune `c`, with the
timestamp `t`. -/
def InAtlas (env : Fonts) (s : State) (fa : Face) (c t : Int) : Prop :=
  ∃ m a g, mapGet s.atlases fa = some m ∧
    mapGet m (groupB (boundsOf env s fa c)) = some a ∧
    mapGet a.runeToGlyph c = some g ∧ g.atime = t

/-- The composites among the events `l`: destination, rune and position. -/
def pens (l : List Event) : List (Nat × Int × Int × Int) :=
  l.filterMap (fun e =>
    match e with
    | .drawImage dst _ r px py _ _ _ _ => some (dst, r, px, py)
    | _ => none)


/-- The atlas `a'` is the atlas `a` but for its table of glyphs: the same
image, the same glyph size, the same temporary image. -/
def atlas.sameImage (a a' : atlas) : Prop :=
  a'.imageWidth = a.imageWidth ∧ a'.imageHeight = a.imageHeight ∧
  a'.glyphSize = a.glyphSize ∧ a'.tmpImage = a.tmpImage

/-- Every atlas of `st` is an atlas of `st'`, under the same face and key,
but for its table of glyphs. -/
def AtlasesKept (st st' : State) : Prop :=
  ∀ f fam key a, mapGet st.atlases f = some fam → mapGet fam key = some a →
    ∃ fam' a', mapGet st'.atlases f = some fam' ∧ mapGet fam' key = some a' ∧
      a.sameImage a'


/-- The sum of the advances of the runes `l`: `GlyphAdvance(r_0) + ... `. -/
def advSum (env : Fonts) (face : Face) (l : List Int) : Int :=
  (l.map (fun c => env.GlyphAdvance face c)).sum

/-- The sum of the kernings between the adjacent runes of `l`:
`Kern(r_0, r_1) + Kern(r_1, r_2) + ...`. -/
def kernSum (env : Fonts) (face : Face) : List Int → Int
  | a :: b :: rest => env.Kern face a b + kernSum env face (b :: rest)
  | _ => 0

/-- The pen for the rune of index `k` of `text`, in `fixed.Int26_6`
arithmetic: `fixed.I(x)`, plus the advances of the runes before it, plus the
kernings between the adjacent runes up to it. -/
def penAt (env : Fonts) (face : Face) (x : Int) (text : List Int) (k : Nat) : Int :=
  wrap32 (fixedI x + advSum env face (text.take k) + kernSum env face (text.take (k + 1)))


/-- The composite that `Draw` issues for the rune of index `k` of `text`, if
any: none for a transparent colour or an empty glyph, otherwise the
destination, the rune and the position, which is the pen plus the minimum of
the glyph's bounds.  `fa` is the face that `fontFaceToFace` returns. -/
def compositeAt (env : Fonts) (dst : Nat) (face fa : Face) (x y : Int) (clr : Color)
    (st : State) (text : List Int) (k : Nat) : Option (Nat × Int × Int × Int) :=
  if clr.A = 0 ∨ emptyB (boundsOf env st fa (text.getD k 0)) = true then none
  else some (dst, text.getD k 0,
    wrap32 (penAt env face x text k + (boundsOf env st fa (text.getD k 0)).Min.X),
    wrap32 (fixedI y + (boundsOf env st fa (text.getD k 0)).Min.Y))



/-- The cell indices of the glyphs of a table, in the order of the table. -/
def cellIndices (m : List (Int × glyph)) : List Int := m.map (fun e => e.2.index)

/-- The cells in use are the first ones: the cell indices of the glyphs of
the atlas are the numbers `0, ..., len(runeToGlyph) - 1`, each once. -/
def CellsOK (a : atlas) : Prop :=
  (cellIndices a.runeToGlyph).Perm
    ((List.range a.runeToGlyph.length).map Int.ofNat)

/-- The invariant of the cells, for every atlas of a state. -/
def CellsWF (st : State) : Prop :=
  ∀ face m key a, mapGet st.atlases face = some m → mapGet m key = some a → CellsOK a


/-- The least recently accessed of the runes `rs` after the accesses `acc`
(in the order in which they were made): the rune of `rs` whose last access
is the earliest. -/
def leastRecentlyAccessed (acc rs : List Int) : Option Int :=
  ((acc.reverse.eraseDups).filter (fun r => decide (r ∈ rs))).getLast?


/-- The event is the allocation of an image (`ebiten.NewImage`): the image of
a new atlas, or the temporary image of an atlas. -/
def Event.isNewImage : Event → Bool
  | .newImage _ _ => true
  | _ => false

/-- The number of images allocated among the events `l`. -/
def countImages (l : List Event) : Nat := (l.filter (fun e => e.isNewImage)).length

/-- The number of atlases of a state: the entries `atlases[face][key]`. -/
def atlasCount (st : State) : Nat := (st.atlases.map (fun e => e.2.length)).sum

/-- The log of `st'` is the log of `st` followed by events among which `n`
images are allocated. -/
def Allocates (n : Nat) (st st' : State) : Prop :=
  ∃ l, st'.log = st.log ++ l ∧ countImages l = n

/-- The atlases created between two states account for the images allocated
between them: there are at least as many atlases as before, and two images
were allocated for each new one (its image and its temporary image). -/
def Created (st st' : State) : Prop :=
  atlasCount st ≤ atlasCount st' ∧ Allocates (2 * (atlasCount st' - atlasCount st)) st st'

/-- The colour-cache statement of `glyph.draw`,
`e, ok := colorMCache[clr]; if ok { ... } else { ... }`, for a colour of any
dynamic type.  The key `clr` is the interface value (for a colour passed by
pointer, as `*image.Uniform`, the address), of a type `κ` with the equality
of map keys; `rgba` is what `clr.RGBA()` returned at the start of this call;
`gatime` is the `atime` of the glyph and `clock` is `monotonicClock`.  Returns
the entry `e`, the cache and the clock. -/
def colorMLookupAny {κ : Type} [DecidableEq κ] (gatime : Int) (clr : κ) (rgba : Color)
    (cache : List (κ × colorMCacheEntry)) (clock : Int) :
    colorMCacheEntry × List (κ × colorMCacheEntry) × Int :=
  match mapGet cache clr with
  | some e =>
    let t := clock + 1
    let e1 : colorMCacheEntry := { e with atime := t }
    (e1, mapSet cache clr e1, t)
  | none =>
    let cache1 :=
      if mapLen cache ≥ 256 then
        deleteOldest cache (oldestColor cache none MaxInt64 gatime)
      else cache
    let cm := colorMOf rgba
    let t := clock + 1
    let e : colorMCacheEntry := { m := cm, atime := t }
    (e, mapSet cache1 clr e, t)

/-- Method `glyph.draw` for a colour of any dynamic type: `clr` is the
interface value, which is the key of `colorMCache`, and `rgba` is what
`clr.RGBA()` returns in this call.  The colour cache, keyed by the interface
values, is passed next to the state; the field `colorMCache` of the state,
which is keyed by `RGBA()` values, is not used. -/
def glyph.drawAny {κ : Type} [DecidableEq κ] (env : Fonts) (g : glyph) (dst : Nat)
    (x y : Int) (clr : κ) (rgba : Color) (st : State)
    (cache : List (κ × colorMCacheEntry)) :
    Except Panic (glyph × State × List (κ × colorMCacheEntry)) :=
  if rgba.A = 0 then .ok (g, st, cache)
  else
    let (b, st1) := g.char.bounds env st
    let px := wrap32 (x + b.Min.X)
    let py := wrap32 (y + b.Min.Y)
    let (e, cache1, t) := colorMLookupAny g.atime clr rgba cache st1.monotonicClock
    let st2 : State := { st1 with monotonicClock := t }
    let (grp, c, st3) := g.char.atlasGroup env st2
    let g1 : glyph := { g with char := c }
    match (mapGet st3.atlases g1.char.face).bind (fun m => mapGet m grp) with
    | none => .error .nilDereference
    | some a =>
      match a.atCell env g1 st3 with
      | .error err => .error err
      | .ok ((sx, sy), g2, st4) =>
        .ok (g2, { st4 with log := st4.log ++
          [Event.drawImage dst g2.char.face g2.char.rune px py sx sy a.glyphSize e.m] },
          cache1)

/-- The states of the colour cache when the `RGBA()` components of every
colour are fixed by its interface value (they are `rgbaOf clr`): the empty
cache, and what the colour-cache statement of `glyph.draw` makes of such a
cache for a colour whose alpha is not zero. -/
inductive CacheReachable {κ : Type} [DecidableEq κ] (rgbaOf : κ → Color) :
    List (κ × colorMCacheEntry) → Prop where
  | empty : CacheReachable rgbaOf []
  | lookup {cache : List (κ × colorMCacheEntry)} (gatime : Int) (clr : κ) (clock : Int) :
      CacheReachable rgbaOf cache → (rgbaOf clr).A ≠ 0 →
      CacheReachable rgbaOf (colorMLookupAny gatime clr (rgbaOf clr) cache clock).2.1

/-- Red with full alpha. -/
def exRed : Color := { R := 0xffff, G := 0, B := 0, A := 0xffff }

end Text

/-! # The example `hsv`: `clamp` -/

namespace Hsv

/-- Function `clamp` of `examples/hsv/main.go`.  The arguments are Go `int`
values; the function only compares them.  The panic carries its message. -/
def clamp (v min max : Int) : Except String Int :=
  if min > max then .error "min must <= max"
  else if v < min then .ok min
  else if max < v then .ok max
  else .ok v

end Hsv

/-! # Package `ebiten`: `Touches` -/

namespace Ebiten

/-- A value of the interface type `Touch`: the nil interface, or a touch with
what its methods `ID()` and `Position()` return.  A `ui.Touch` that is
assigned to a `Touch` keeps its dynamic value. -/
inductive Touch where
  | nil
  | touch (ID X Y : Int)
  deriving DecidableEq, Repr

/-- A Go slice value: `none` is the nil slice, `some l` a slice that is not
nil and holds the elements `l`. -/
abbrev Slice (α : Type) := Option (List α)

/-- Builtin `len(s)`; the length of the nil slice is zero. -/
def len {α : Type} : Slice α → Nat
  | none => 0
  | some l => l.length

/-- Builtin `make([]Touch, n)`: a slice of `n` zero values.  It is never the
nil slice, also when `n` is zero. -/
def make (n : Nat) : Slice Touch := some (List.replicate n Touch.nil)

/-- Index expression `s[i]`; out of range is a run-time panic. -/
def index {α : Type} (s : Slice α) (i : Nat) : Except String α :=
  match s with
  | none => .error "index out of range"
  | some l =>
    match l[i]? with
    | none => .error "index out of range"
    | some v => .ok v

/-- Assignment `s[i] = v`; out of range is a run-time panic. -/
def assign {α : Type} (s : Slice α) (i : Nat) (v : α) : Except String (Slice α) :=
  match s with
  | none => .error "index out of range"
  | some l => if i < l.length then .ok (some (l.set i v)) else .error "index out of range"

/-- The loop `for i := 0; i < len(tt); i++ { tt[i] = t[i] }` of `Touches`,
from the value `i` of the counter on; `fuel` bounds the rounds left. -/
def copyLoop (t : Slice Touch) : Nat → Nat → Slice Touch → Except String (Slice Touch)
  | 0, _, tt => .ok tt
  | fuel + 1, i, tt =>
    if i < len tt then
      match index t i with
      | .error e => .error e
      | .ok v =>
        match assign tt i v with
        | .error e => .error e
        | .ok tt1 => copyLoop t fuel (i + 1) tt1
    else .ok tt

/-- Function `Touches` of `input.go`; `t` is what `ui.CurrentInput().Touches()`
returns. -/
def Touches (t : Slice Touch) : Except String (Slice Touch) :=
  let tt := make (len t)
  copyLoop t (len tt + 1) 0 tt

/-- The elements of a slice; the nil slice has none. -/
def elems {α : Type} : Slice α → List α
  | none => []
  | some l => l

end Ebiten

/-! # The generator `genkeys.go`: the order of the key names -/

namespace Genkeys

/-- A Go `string`: the sequence of its bytes. -/
abbrev GoString := List Nat

/-- The bytes of a string literal of the source; the literals are ASCII, one
byte for each character. -/
def str (s : String) : GoString := s.toList.map Char.toNat

/-- Conversion `string(c)` of a rune below 128: the string of that one byte. -/
def runeString (c : Nat) : GoString := [c]

/-- Function `strconv.Itoa` on a number that is not negative: its decimal
digits. -/
def Itoa (i : Nat) : GoString := (Nat.toDigits 10 i).map Char.toNat

/-- The value of a sequence of decimal digits, read from the left with the
value `acc` so far; `none` when a byte is not a digit. -/
def digitsValue : GoString → Nat → Option Nat
  | [], acc => some acc
  | c :: rest, acc =>
    if 48 ≤ c ∧ c ≤ 57 then digitsValue rest (10 * acc + (c - 48)) else none

/-- Function `strconv.Atoi`: an optional sign, then decimal digits, at least
one; `none` is the error result (a syntax error, or a value outside the
range of the 64-bit `int`). -/
def Atoi (s : GoString) : Option Int :=
  let body : GoString :=
    match s with
    | c :: rest => if c = 43 ∨ c = 45 then rest else s
    | [] => []
  let neg : Bool :=
    match s with
    | c :: _ => decide (c = 45)
    | [] => false
  match body with
  | [] => none
  | _ =>
    match digitsValue body 0 with
    | none => none
    | some n =>
      let v : Int := if neg then -(n : Int) else (n : Int)
      if -9223372036854775808 ≤ v ∧ v ≤ 9223372036854775807 then some v else none

/-- Comparison `k0 < k1` of two strings: lexical, byte by byte. -/
def strLess : GoString → GoString → Bool
  | [], [] => false
  | [], _ :: _ => true
  | _ :: _, [] => false
  | a :: s, b :: t => if a < b then true else if b < a then false else strLess s t

/-- Type `KeyNames`. -/
abbrev KeyNames := List GoString

/-- Method `KeyNames.digit`. -/
def KeyNames.digit (name : GoString) : Int :=
  if name.length ≠ 1 then -1
  else
    let c := name.headD 0
    if c < 48 ∨ 57 < c then -1 else ((c - 48 : Nat) : Int)

/-- Method `KeyNames.alphabet`. -/
def KeyNames.alphabet (name : GoString) : Int :=
  if name.length ≠ 1 then -1
  else
    let c := name.headD 0
    if c < 65 ∨ 90 < c then -1 else (c : Int)

/-- Method `KeyNames.function`. -/
def KeyNames.function (name : GoString) : Int :=
  if name.length < 2 then -1
  else if name.headD 0 ≠ 70 then -1
  else
    match Atoi name.tail with
    | none => -1
    | some i => i

/-- The body of `KeyNames.Less` after `k0, k1 := k[i], k[j]`. -/
def KeyNames.lessNames (k0 k1 : GoString) : Bool :=
  let d0 := KeyNames.digit k0
  let d1 := KeyNames.digit k1
  let a0 := KeyNames.alphabet k0
  let a1 := KeyNames.alphabet k1
  let f0 := KeyNames.function k0
  let f1 := KeyNames.function k1
  if d0 ≠ -1 then
    if d1 ≠ -1 then decide (d0 < d1) else true
  else if a0 ≠ -1 then
    if d1 ≠ -1 then false
    else if a1 ≠ -1 then decide (a0 < a1)
    else true
  else if d1 ≠ -1 then false
  else if a1 ≠ -1 then false
  else if f0 ≠ -1 ∧ f1 ≠ -1 then decide (f0 < f1)
  else strLess k0 k1

/-- Method `KeyNames.Less`; an index out of range is a run-time panic. -/
def KeyNames.Less (k : KeyNames) (i j : Nat) : Except String Bool :=
  match k[i]?, k[j]? with
  | some k0, some k1 => .ok (KeyNames.lessNames k0 k1)
  | _, _ => .error "index out of range"

/-- The map literal that `init` assigns to `nameToCodes`. -/
def nameToCodesLiteral : List (GoString × List GoString) :=
  [ (str "Comma", [str "Comma"]),
    (str "Period", [str "Period"]),
    (str "Alt", [str "AltLeft", str "AltRight"]),
    (str "CapsLock", [str "CapsLock"]),
    (str "Control", [str "ControlLeft", str "ControlRight"]),
    (str "Shift", [str "ShiftLeft", str "ShiftRight"]),
    (str "Enter", [str "Enter"]),
    (str "Space", [str "Space"]),
    (str "Tab", [str "Tab"]),
    (str "Delete", [str "Delete"]),
    (str "End", [str "End"]),
    (str "Home", [str "Home"]),
    (str "Insert", [str "Insert"]),
    (str "PageDown", [str "PageDown"]),
    (str "PageUp", [str "PageUp"]),
    (str "Down", [str "ArrowDown"]),
    (str "Left", [str "ArrowLeft"]),
    (str "Right", [str "ArrowRight"]),
    (str "Up", [str "ArrowUp"]),
    (str "Escape", [str "Escape"]),
    (str "Backspace", [str "Backspace"]),
    (str "Apostrophe", [str "Quote"]),
    (str "Minus", [str "Minus"]),
    (str "Slash", [str "Slash"]),
    (str "Semicolon", [str "Semicolon"]),
    (str "Equal", [str "Equal"]),
    (str "LeftBracket", [str "BracketLeft"]),
    (str "Backslash", [str "Backslash"]),
    (str "RightBracket", [str "BracketRight"]),
    (str "GraveAccent", [str "Backquote"]) ]

/-- The three loops of `init`, which add the digits, the letters and the
function keys to `nameToCodes`. -/
def nameToCodes : List (GoString × List GoString) :=
  let m0 := nameToCodesLiteral
  let m1 := (List.range 10).foldl
    (fun m i => Text.mapSet m (runeString (48 + i)) [str "Digit" ++ runeString (48 + i)]) m0
  let m2 := (List.range 26).foldl
    (fun m i => Text.mapSet m (runeString (65 + i)) [str "Key" ++ runeString (65 + i)]) m1
  (List.range 12).foldl
    (fun m i => Text.mapSet m (str "F" ++ Itoa (i + 1)) [str "F" ++ Itoa (i + 1)]) m2

/-- The key names: the keys of `nameToCodes`, which `main` collects in
`namesSet` and then in `names`. -/
def keyNames : List GoString := nameToCodes.map Prod.fst

/-- Function `sort.IsSorted` on a `KeyNames` value: no element is less than
the one before it,
`for i := n - 1; i > 0; i-- { if data.Less(i, i-1) { return false } }`. -/
def IsSorted (k : KeyNames) : Bool :=
  (List.range (k.length - 1)).all (fun i =>
    match KeyNames.Less k (i + 1) i with
    | .ok b => !b
    | .error _ => false)

/-- The expression `names[len(names)-1]` of `main`, the `LastKeyName` of the
templates. -/
def LastKeyName (names : KeyNames) : Except String GoString :=
  match names.getLast? with
  | some n => .ok n
  | none => .error "index out of range"

/-- The key names in the order of `Less`: the digits, the letters, and the
other names in lexical order but for the function keys, which are in the
order of their numbers. -/
def sortedNames : List GoString :=
  (List.range 10).map (fun i => runeString (48 + i)) ++
  (List.range 26).map (fun i => runeString (65 + i)) ++
  [str "Alt", str "Apostrophe", str "Backslash", str "Backspace", str "CapsLock",
   str "Comma", str "Control", str "Delete", str "Down", str "End", str "Enter",
   str "Equal", str "Escape"] ++
  (List.range 12).map (fun i => str "F" ++ Itoa (i + 1)) ++
  [str "GraveAccent", str "Home", str "Insert", str "Left", str "LeftBracket",
   str "Minus", str "PageDown", str "PageUp", str "Period", str "Right",
   str "RightBracket", str "Semicolon", str "Shift", str "Slash", str "Space",
   str "Tab", str "Up"]

/-- The table of `lessNames` on `sortedNames`: the entry for the names of
index `i` and `j` is `i < j`. -/
def lessTable : Bool :=
  (List.range 78).all (fun i => (List.range 78).all (fun j =>
    KeyNames.lessNames (sortedNames.getD i []) (sortedNames.getD j []) == decide (i < j)))

/-- The index of the first occurrence of `a` in `l`; the length of `l` when
there is none. -/
def indexIn : List GoString → GoString → Nat
  | [], _ => 0
  | b :: rest, a => if b = a then 0 else indexIn rest a + 1

/-- The place of a name in `sortedNames`. -/
def rank (a : GoString) : Nat := indexIn sortedNames a

end Genkeys

/-! # Theorems -/

namespace Text


/-! ## Lemmas on maps -/

theorem mapGet_mapSet {κ ν : Type} [DecidableEq κ] (m : List (κ × ν)) (k k' : κ) (v : ν) :
    mapGet (mapSet m k v) k' = if k = k' then some v else mapGet m k' := by
  induction m with
  | nil => simp [mapSet, mapGet]
  | cons e rest ih =>
    obtain ⟨k0, v0⟩ := e
    by_cases h0 : k0 = k
    · subst h0
      by_cases h1 : k0 = k' <;> simp [mapSet, mapGet, h1]
    · by_cases h1 : k0 = k'
      · subst h1
        have : ¬ k = k0 := fun h => h0 h.symm
        simp [mapSet, mapGet, h0, this]
      · simp [mapSet, mapGet, h0, h1, ih]

theorem mapGet_mapSet_self {κ ν : Type} [DecidableEq κ] (m : List (κ × ν)) (k : κ) (v : ν) :
    mapGet (mapSet m k v) k = some v := by
  simp [mapGet_mapSet]

theorem mapGet_mapSet_ne {κ ν : Type} [DecidableEq κ] (m : List (κ × ν)) {k k' : κ} (v : ν)
    (h : k ≠ k') : mapGet (mapSet m k v) k' = mapGet m k' := by
  simp [mapGet_mapSet, h]

theorem mapGet_eq_none_iff {κ ν : Type} [DecidableEq κ] (m : List (κ × ν)) (k : κ) :
    mapGet m k = none ↔ k ∉ m.map Prod.fst := by
  induction m with
  | nil => simp [mapGet]
  | cons e rest ih =>
    obtain ⟨k0, v0⟩ := e
    by_cases h0 : k0 = k
    · simp [mapGet, h0]
    · have : ¬ k = k0 := fun h => h0 h.symm
      simp [mapGet, h0, ih, this]

theorem mapGet_of_mem {κ ν : Type} [DecidableEq κ] {m : List (κ × ν)} {k : κ} {v : ν}
    (hnd : (m.map Prod.fst).Nodup) (h : (k, v) ∈ m) : mapGet m k = some v := by
  induction m with
  | nil => simp at h
  | cons e rest ih =>
    obtain ⟨k0, v0⟩ := e
    simp only [List.map_cons, List.nodup_cons] at hnd
    rcases List.mem_cons.mp h with h1 | h1
    · cases h1
      simp [mapGet]
    · have hk : k ∈ rest.map Prod.fst := List.mem_map.mpr ⟨(k, v), h1, rfl⟩
      have : k0 ≠ k := fun e => hnd.1 (e ▸ hk)
      simp [mapGet, this, ih hnd.2 h1]

theorem mem_of_mapGet {κ ν : Type} [DecidableEq κ] {m : List (κ × ν)} {k : κ} {v : ν}
    (h : mapGet m k = some v) : (k, v) ∈ m := by
  induction m with
  | nil => simp [mapGet] at h
  | cons e rest ih =>
    obtain ⟨k0, v0⟩ := e
    by_cases h0 : k0 = k
    · simp [mapGet, h0] at h
      simp [h0, h]
    · simp [mapGet, h0] at h
      exact List.mem_cons_of_mem _ (ih h)

theorem mapSet_keys_of_mem {κ ν : Type} [DecidableEq κ] (m : List (κ × ν)) (k : κ) (v : ν)
    (h : k ∈ m.map Prod.fst) : (mapSet m k v).map Prod.fst = m.map Prod.fst := by
  induction m with
  | nil => simp at h
  | cons e rest ih =>
    obtain ⟨k0, v0⟩ := e
    by_cases h0 : k0 = k
    · simp [mapSet, h0]
    · have hk : k ∈ rest.map Prod.fst := by
        simp only [List.map_cons, List.mem_cons] at h
        rcases h with h | h
        · exact absurd h.symm h0
        · exact h
      simp [mapSet, h0, ih hk]

theorem mapSet_keys_of_not_mem {κ ν : Type} [DecidableEq κ] (m : List (κ × ν)) (k : κ) (v : ν)
    (h : k ∉ m.map Prod.fst) : (mapSet m k v).map Prod.fst = m.map Prod.fst ++ [k] := by
  induction m with
  | nil => simp [mapSet]
  | cons e rest ih =>
    obtain ⟨k0, v0⟩ := e
    simp only [List.map_cons, List.mem_cons, not_or] at h
    have h0 : ¬ k0 = k := fun e => h.1 e.symm
    simp [mapSet, h0, ih h.2]

theorem mapSet_nodup {κ ν : Type} [DecidableEq κ] (m : List (κ × ν)) (k : κ) (v : ν)
    (hnd : (m.map Prod.fst).Nodup) : ((mapSet m k v).map Prod.fst).Nodup := by
  by_cases h : k ∈ m.map Prod.fst
  · rw [mapSet_keys_of_mem m k v h]; exact hnd
  · rw [mapSet_keys_of_not_mem m k v h]
    exact List.Nodup.append hnd (List.nodup_singleton k) (by simpa using h)

theorem mapSet_length_of_mem {κ ν : Type} [DecidableEq κ] (m : List (κ × ν)) (k : κ) (v : ν)
    (h : k ∈ m.map Prod.fst) : (mapSet m k v).length = m.length := by
  have := congrArg List.length (mapSet_keys_of_mem m k v h)
  simpa using this

theorem mapSet_length_of_not_mem {κ ν : Type} [DecidableEq κ] (m : List (κ × ν)) (k : κ) (v : ν)
    (h : k ∉ m.map Prod.fst) : (mapSet m k v).length = m.length + 1 := by
  have := congrArg List.length (mapSet_keys_of_not_mem m k v h)
  simpa using this

theorem mem_mapSet {κ ν : Type} [DecidableEq κ] {m : List (κ × ν)} {k : κ} {v : ν}
    {e : κ × ν} (h : e ∈ mapSet m k v) : e = (k, v) ∨ e ∈ m := by
  induction m with
  | nil => simp [mapSet] at h; exact Or.inl h
  | cons e0 rest ih =>
    obtain ⟨k0, v0⟩ := e0
    by_cases h0 : k0 = k
    · simp only [mapSet, h0, if_true, List.mem_cons] at h
      rcases h with h | h
      · exact Or.inl h
      · exact Or.inr (List.mem_cons_of_mem _ h)
    · simp only [mapSet, h0, if_false, List.mem_cons] at h
      rcases h with h | h
      · exact Or.inr (h ▸ List.mem_cons_self _ _)
      · rcases ih h with h1 | h1
        · exact Or.inl h1
        · exact Or.inr (List.mem_cons_of_mem _ h1)

theorem mem_mapDelete {κ ν : Type} [DecidableEq κ] {m : List (κ × ν)} {k : κ} {e : κ × ν} :
    e ∈ mapDelete m k ↔ e ∈ m ∧ e.1 ≠ k := by
  induction m with
  | nil => simp [mapDelete]
  | cons e0 rest ih =>
    obtain ⟨k0, v0⟩ := e0
    by_cases h0 : k0 = k
    · subst h0
      simp only [mapDelete, if_true, ih, List.mem_cons]
      constructor
      · rintro ⟨h1, h2⟩; exact ⟨Or.inr h1, h2⟩
      · rintro ⟨h1 | h1, h2⟩
        · exact absurd (by rw [h1]) h2
        · exact ⟨h1, h2⟩
    · simp only [mapDelete, h0, if_false, List.mem_cons, ih]
      constructor
      · rintro (h1 | ⟨h1, h2⟩)
        · exact ⟨Or.inl h1, by rw [h1]; exact h0⟩
        · exact ⟨Or.inr h1, h2⟩
      · rintro ⟨h1 | h1, h2⟩
        · exact Or.inl h1
        · exact Or.inr ⟨h1, h2⟩

theorem mapGet_mapDelete {κ ν : Type} [DecidableEq κ] (m : List (κ × ν)) (k k' : κ) :
    mapGet (mapDelete m k) k' = if k = k' then none else mapGet m k' := by
  induction m with
  | nil => simp [mapDelete, mapGet]
  | cons e rest ih =>
    obtain ⟨k0, v0⟩ := e
    by_cases h0 : k0 = k
    · subst h0
      by_cases h1 : k0 = k'
      · subst h1
        simpa [mapDelete] using ih
      · simp [mapDelete, mapGet, h1, ih]
    · by_cases h1 : k0 = k'
      · subst h1
        have : ¬ k = k0 := fun h => h0 h.symm
        simp [mapDelete, mapGet, h0, this]
      · simp [mapDelete, mapGet, h0, h1, ih]

theorem mapDelete_keys_sublist {κ ν : Type} [DecidableEq κ] (m : List (κ × ν)) (k : κ) :
    ((mapDelete m k).map Prod.fst).Sublist (m.map Prod.fst) := by
  induction m with
  | nil => simp [mapDelete]
  | cons e rest ih =>
    obtain ⟨k0, v0⟩ := e
    by_cases h0 : k0 = k
    · simp only [mapDelete, h0, if_true, List.map_cons]
      exact List.Sublist.cons _ ih
    · simp only [mapDelete, h0, if_false, List.map_cons]
      exact List.Sublist.cons₂ _ ih

theorem mapDelete_nodup {κ ν : Type} [DecidableEq κ] (m : List (κ × ν)) (k : κ)
    (hnd : (m.map Prod.fst).Nodup) : ((mapDelete m k).map Prod.fst).Nodup :=
  List.Nodup.sublist (mapDelete_keys_sublist m k) hnd

theorem mapDelete_of_not_mem {κ ν : Type} [DecidableEq κ] (m : List (κ × ν)) (k : κ)
    (h : k ∉ m.map Prod.fst) : mapDelete m k = m := by
  induction m with
  | nil => simp [mapDelete]
  | cons e rest ih =>
    obtain ⟨k0, v0⟩ := e
    simp only [List.map_cons, List.mem_cons, not_or] at h
    have h0 : ¬ k0 = k := fun e => h.1 e.symm
    simp [mapDelete, h0, ih h.2]

theorem mapDelete_length_of_mem {κ ν : Type} [DecidableEq κ] (m : List (κ × ν)) (k : κ)
    (hnd : (m.map Prod.fst).Nodup) (h : k ∈ m.map Prod.fst) :
    (mapDelete m k).length + 1 = m.length := by
  induction m with
  | nil => simp at h
  | cons e rest ih =>
    obtain ⟨k0, v0⟩ := e
    simp only [List.map_cons, List.nodup_cons] at hnd
    by_cases h0 : k0 = k
    · subst h0
      simp [mapDelete, mapDelete_of_not_mem rest k0 hnd.1]
    · have hk : k ∈ rest.map Prod.fst := by
        simp only [List.map_cons, List.mem_cons] at h
        rcases h with h | h
        · exact absurd h.symm h0
        · exact h
      have := ih hnd.2 hk
      simp [mapDelete, h0, this]

theorem mapDelete_length_le {κ ν : Type} [DecidableEq κ] (m : List (κ × ν)) (k : κ) :
    (mapDelete m k).length ≤ m.length := by
  have := (mapDelete_keys_sublist m k).length_le
  simpa using this

theorem mapSet_mapSet_length {κ ν : Type} [DecidableEq κ] (m : List (κ × ν)) (k : κ) (v v' : ν)
    (h : k ∉ m.map Prod.fst) : (mapSet (mapSet m k v) k v').length = m.length + 1 := by
  have h2 : k ∈ (mapSet m k v).map Prod.fst := by
    rw [mapSet_keys_of_not_mem _ _ _ h]; simp
  rw [mapSet_length_of_mem _ k v' h2, mapSet_length_of_not_mem _ _ _ h]

theorem mapSet_mapSet {κ ν : Type} [DecidableEq κ] (m : List (κ × ν)) (k : κ) (v v' : ν) :
    mapSet (mapSet m k v) k v' = mapSet m k v' := by
  induction m with
  | nil => simp [mapSet]
  | cons e rest ih =>
    obtain ⟨k0, v0⟩ := e
    by_cases h0 : k0 = k
    · simp [mapSet, h0]
    · simp [mapSet, h0, ih]

theorem mapSet_length_le {κ ν : Type} [DecidableEq κ] (m : List (κ × ν)) (k : κ) (v : ν) :
    (mapSet m k v).length ≤ m.length + 1 := by
  by_cases h : k ∈ m.map Prod.fst
  · rw [mapSet_length_of_mem m k v h]; omega
  · rw [mapSet_length_of_not_mem m k v h]

/-! ## The glyph metrics in closed form -/

theorem bounds_eq (env : Fonts) (c : char) (st : State) :
    c.bounds env st = (boundsOf env st c.face c.rune, queried env st c.face c.rune) := by
  unfold char.bounds boundsOf queried memoBounds char.bounds
  cases h1 : mapGet st.charBounds c.face with
  | none => simp
  | some m =>
    cases h2 : mapGet m c.rune with
    | none => simp [h2]
    | some b => simp [h2]

theorem queried_of_memo (env : Fonts) (st : State) (f : Face) (r : Int)
    (h : memoBounds st f r ≠ none) : queried env st f r = st := by
  unfold queried char.bounds
  unfold memoBounds at h
  cases h1 : mapGet st.charBounds f with
  | none => simp [h1] at h
  | some m =>
    cases h2 : mapGet m r with
    | none => simp [h1, h2] at h
    | some b => simp [h2]

@[simp] theorem queried_clock (env : Fonts) (st : State) (f : Face) (r : Int) :
    (queried env st f r).monotonicClock = st.monotonicClock := by
  unfold queried char.bounds
  split
  · split <;> rfl
  · rfl

@[simp] theorem queried_faces (env : Fonts) (st : State) (f : Face) (r : Int) :
    (queried env st f r).faces = st.faces := by
  unfold queried char.bounds
  split
  · split <;> rfl
  · rfl

@[simp] theorem queried_colorMCache (env : Fonts) (st : State) (f : Face) (r : Int) :
    (queried env st f r).colorMCache = st.colorMCache := by
  unfold queried char.bounds
  split
  · split <;> rfl
  · rfl

@[simp] theorem queried_atlases (env : Fonts) (st : State) (f : Face) (r : Int) :
    (queried env st f r).atlases = st.atlases := by
  unfold queried char.bounds
  split
  · split <;> rfl
  · rfl

theorem queried_log (env : Fonts) (st : State) (f : Face) (r : Int) :
    (queried env st f r).log = st.log ∨
      (queried env st f r).log = st.log ++ [Event.glyphBounds f r] := by
  unfold queried char.bounds
  split
  · split
    · exact Or.inl rfl
    · exact Or.inr rfl
  · exact Or.inr rfl

theorem memoBounds_queried (env : Fonts) (st : State) (f : Face) (r : Int) (f' : Face)
    (r' : Int) :
    memoBounds (queried env st f r) f' r' =
      if f = f' ∧ r = r' then some (boundsOf env st f r) else memoBounds st f' r' := by
  unfold queried char.bounds boundsOf memoBounds
  cases h1 : mapGet st.charBounds f with
  | none =>
    by_cases hf : f = f'
    · subst hf
      by_cases hr : r = r'
      · subst hr; simp [h1, mapGet_mapSet, mapGet]
      · simp [h1, mapGet_mapSet, mapGet, mapSet, hr]
    · simp [h1, mapGet_mapSet, hf]
  | some m =>
    cases h2 : mapGet m r with
    | none =>
      by_cases hf : f = f'
      · subst hf
        by_cases hr : r = r'
        · subst hr; simp [h1, h2, mapGet_mapSet]
        · simp [h1, h2, mapGet_mapSet, hr]
      · simp [h1, h2, mapGet_mapSet, hf]
    | some b =>
      by_cases hf : f = f'
      · subst hf
        by_cases hr : r = r'
        · subst hr; simp [h1, h2]
        · simp [h1, h2, hr]
      · simp [h1, h2, hf]

@[simp] theorem boundsOf_queried (env : Fonts) (st : State) (f : Face) (r : Int) (f' : Face)
    (r' : Int) : boundsOf env (queried env st f r) f' r' = boundsOf env st f' r' := by
  have h := memoBounds_queried env st f r f' r'
  by_cases hc : f = f' ∧ r = r'
  · obtain ⟨hf, hr⟩ := hc
    subst hf; subst hr
    rw [if_pos ⟨rfl, rfl⟩] at h
    conv_lhs => unfold boundsOf
    rw [h]; rfl
  · rw [if_neg hc] at h
    unfold boundsOf
    rw [h]

theorem memoBounds_queried_self (env : Fonts) (st : State) (f : Face) (r : Int) :
    memoBounds (queried env st f r) f r = some (boundsOf env st f r) := by
  rw [memoBounds_queried]; simp

theorem memoBounds_queried_mono (env : Fonts) (st : State) (f : Face) (r : Int) (f' : Face)
    (r' : Int) (h : memoBounds st f' r' ≠ none) :
    memoBounds (queried env st f r) f' r' ≠ none := by
  rw [memoBounds_queried]
  split
  · simp
  · exact h

theorem size_eq (env : Fonts) (c : char) (st : State) :
    c.size env st =
      ((wrap32 ((boundsOf env st c.face c.rune).Max.X - (boundsOf env st c.face c.rune).Min.X),
        wrap32 ((boundsOf env st c.face c.rune).Max.Y - (boundsOf env st c.face c.rune).Min.Y)),
       queried env st c.face c.rune) := by
  simp [char.size, bounds_eq]

theorem empty_eq (env : Fonts) (c : char) (st : State) :
    c.empty env st = (emptyB (boundsOf env st c.face c.rune), queried env st c.face c.rune) := by
  simp [char.empty, size_eq, emptyB]

theorem atlasGroup_eq (env : Fonts) (c : char) (st : State) :
    c.atlasGroup env st =
      if c.atlasG ≠ 0 then (c.atlasG, c, st)
      else (groupB (boundsOf env st c.face c.rune),
            { c with atlasG := memoG (boundsOf env st c.face c.rune) },
            queried env st c.face c.rune) := by
  unfold char.atlasGroup
  by_cases h : c.atlasG ≠ 0
  · simp [h]
  · have h0 : c.atlasG = 0 := not_not.mp h
    obtain ⟨cf, cr, cg⟩ := c
    simp only at h0
    subst h0
    simp only [h, if_false, size_eq, groupB, memoG, extentB]
    split <;> split <;> simp_all

/-! ## Frame lemmas for the glyph metrics -/

theorem SameBounds.sbRefl (env : Fonts) (st : State) : SameBounds env st st :=
  ⟨fun _ _ => rfl, fun _ _ h => h⟩

theorem SameBounds.sbTrans {env : Fonts} {s1 s2 s3 : State} (h12 : SameBounds env s1 s2)
    (h23 : SameBounds env s2 s3) : SameBounds env s1 s3 :=
  ⟨fun f r => (h23.1 f r).trans (h12.1 f r), fun f r h => h23.2 f r (h12.2 f r h)⟩

theorem SameBounds.of_charBounds {env : Fonts} {st st' : State}
    (h : st'.charBounds = st.charBounds) : SameBounds env st st' := by
  constructor
  · intro f r; simp [boundsOf, memoBounds, h]
  · intro f r; simp [memoBounds, h]

theorem sameBounds_queried (env : Fonts) (st : State) (f : Face) (r : Int) :
    SameBounds env st (queried env st f r) :=
  ⟨fun f' r' => boundsOf_queried env st f r f' r',
   fun f' r' h => memoBounds_queried_mono env st f r f' r' h⟩

theorem LogExt.logRefl (P : Event → Prop) (st : State) : LogExt P st st :=
  ⟨[], by simp, by simp⟩

theorem LogExt.logTrans {P : Event → Prop} {s1 s2 s3 : State} (h12 : LogExt P s1 s2)
    (h23 : LogExt P s2 s3) : LogExt P s1 s3 := by
  obtain ⟨l1, e1, p1⟩ := h12
  obtain ⟨l2, e2, p2⟩ := h23
  refine ⟨l1 ++ l2, by rw [e2, e1, List.append_assoc], ?_⟩
  intro e he
  rcases List.mem_append.mp he with h | h
  · exact p1 e h
  · exact p2 e h

theorem LogExt.logMono {P Q : Event → Prop} {s1 s2 : State} (h : LogExt P s1 s2)
    (hpq : ∀ e, P e → Q e) : LogExt Q s1 s2 := by
  obtain ⟨l, e1, p1⟩ := h
  exact ⟨l, e1, fun e he => hpq e (p1 e he)⟩

theorem LogExt.of_log {P : Event → Prop} {st st' : State} (h : st'.log = st.log) :
    LogExt P st st' :=
  ⟨[], by simp [h], by simp⟩

theorem LogExt.snoc {P : Event → Prop} {st st' : State} (e : Event)
    (h : st'.log = st.log ++ [e]) (he : P e) : LogExt P st st' :=
  ⟨[e], h, by simpa using he⟩

theorem logExt_queried (env : Fonts) (st : State) (f : Face) (r : Int) :
    LogExt (fun e => e.isQuery = true) st (queried env st f r) := by
  rcases queried_log env st f r with h | h
  · exact LogExt.of_log h
  · exact LogExt.snoc _ h rfl

@[simp] theorem atlasGroup_clock (env : Fonts) (c : char) (st : State) :
    (c.atlasGroup env st).2.2.monotonicClock = st.monotonicClock := by
  rw [atlasGroup_eq]; split <;> simp

@[simp] theorem atlasGroup_faces (env : Fonts) (c : char) (st : State) :
    (c.atlasGroup env st).2.2.faces = st.faces := by
  rw [atlasGroup_eq]; split <;> simp

@[simp] theorem atlasGroup_colorMCache (env : Fonts) (c : char) (st : State) :
    (c.atlasGroup env st).2.2.colorMCache = st.colorMCache := by
  rw [atlasGroup_eq]; split <;> simp

@[simp] theorem atlasGroup_atlases (env : Fonts) (c : char) (st : State) :
    (c.atlasGroup env st).2.2.atlases = st.atlases := by
  rw [atlasGroup_eq]; split <;> simp

theorem atlasGroup_sameBounds (env : Fonts) (c : char) (st : State) :
    SameBounds env st (c.atlasGroup env st).2.2 := by
  rw [atlasGroup_eq]; split
  · exact SameBounds.sbRefl env st
  · exact sameBounds_queried env st _ _

theorem atlasGroup_logExt (env : Fonts) (c : char) (st : State) :
    LogExt (fun e => e.isQuery = true) st (c.atlasGroup env st).2.2 := by
  rw [atlasGroup_eq]; split
  · exact LogExt.logRefl _ st
  · exact logExt_queried env st _ _

@[simp] theorem atlasGroup_face (env : Fonts) (c : char) (st : State) :
    (c.atlasGroup env st).2.1.face = c.face := by
  rw [atlasGroup_eq]; split <;> simp

@[simp] theorem atlasGroup_rune (env : Fonts) (c : char) (st : State) :
    (c.atlasGroup env st).2.1.rune = c.rune := by
  rw [atlasGroup_eq]; split <;> simp

/-- The value of `atlasGroup` depends on the state through the bounds only. -/
theorem atlasGroup_congr (env : Fonts) (c : char) {st st' : State}
    (h : boundsOf env st' c.face c.rune = boundsOf env st c.face c.rune) :
    (c.atlasGroup env st').1 = (c.atlasGroup env st).1 := by
  rw [atlasGroup_eq, atlasGroup_eq]; split <;> simp [h]

/-- Calling `atlasGroup` again on the character it returned gives the same
group and leaves the character as it is. -/
theorem atlasGroup_idem (env : Fonts) (c : char) {st st' : State}
    (h : boundsOf env st' c.face c.rune = boundsOf env st c.face c.rune) :
    ((c.atlasGroup env st).2.1.atlasGroup env st').1 = (c.atlasGroup env st).1 ∧
    ((c.atlasGroup env st).2.1.atlasGroup env st').2.1 = (c.atlasGroup env st).2.1 := by
  obtain ⟨cf, cr, cg⟩ := c
  simp only at h
  by_cases h0 : cg ≠ 0
  · simp [atlasGroup_eq, h0]
  · have hz : cg = 0 := not_not.mp h0
    subst hz
    by_cases h1 : memoG (boundsOf env st cf cr) ≠ 0
    · have h2 : ¬ extentB (boundsOf env st cf cr) < 32 := by
        intro hlt; simp [memoG, hlt] at h1
      have h3 : NextPowerOf2Int (extentB (boundsOf env st cf cr)) ≠ 0 := by
        simpa [memoG, h2] using h1
      simp [atlasGroup_eq, groupB, memoG, h2, h3]
    · have hz : memoG (boundsOf env st cf cr) = 0 := not_not.mp h1
      simp [atlasGroup_eq, hz, h]

/-! ## The atlas operations in closed form -/

theorem maxGlyphNum_eq (a : atlas) :
    a.maxGlyphNum = if a.glyphSize = 0 then .error .divideByZero else .ok a.cells := by
  unfold atlas.maxGlyphNum goDiv atlas.cells
  by_cases h : a.glyphSize = 0 <;> simp [h]

theorem atCell_eq (env : Fonts) (a : atlas) (g : glyph) (st : State) :
    a.atCell env g st =
      if a.glyphSize ≠ (g.char.atlasGroup env st).1 then .error .atNotReached
      else if a.glyphSize = 0 then .error .divideByZero
      else if Int.tdiv a.imageWidth a.glyphSize = 0 then .error .divideByZero
      else .ok ((Int.tmod g.index (Int.tdiv a.imageWidth a.glyphSize) * a.glyphSize,
                 Int.tdiv g.index (Int.tdiv a.imageWidth a.glyphSize) * a.glyphSize),
                { g with char := (g.char.atlasGroup env st).2.1 },
                (g.char.atlasGroup env st).2.2) := by
  unfold atlas.atCell goDiv goMod
  by_cases h1 : a.glyphSize ≠ (g.char.atlasGroup env st).1
  · simp [h1]
  · by_cases h2 : a.glyphSize = 0
    · simp [h1, h2]
    · by_cases h3 : Int.tdiv a.imageWidth a.glyphSize = 0
      · simp [h1, h2, h3]
      · simp [h1, h2, h3]

theorem draw_eq (env : Fonts) (a : atlas) (g : glyph) (st : State) :
    a.draw env g st =
      if a.glyphSize ≠ (g.char.atlasGroup env st).1 then .error .atNotReached
      else if a.glyphSize = 0 then .error .divideByZero
      else if Int.tdiv a.imageWidth a.glyphSize = 0 then .error .divideByZero
      else .ok ({ g with char := (g.char.atlasGroup env st).2.1 },
                { a with tmpImage := true }, drawState env a g st) := by
  have hb : ∀ s : State, s.charBounds = st.charBounds →
      boundsOf env (queried env s g.char.face g.char.rune) g.char.face g.char.rune =
        boundsOf env st g.char.face g.char.rune := by
    intro s hs
    rw [boundsOf_queried]
    simp [boundsOf, memoBounds, hs]
  have hgc : ∀ s : State, s.charBounds = st.charBounds →
      (g.char.atlasGroup env (queried env s g.char.face g.char.rune)).1 =
          (g.char.atlasGroup env st).1 ∧
      (g.char.atlasGroup env (queried env s g.char.face g.char.rune)).2.1 =
          (g.char.atlasGroup env st).2.1 := by
    intro s hs
    have hbb := hb s hs
    constructor
    · exact atlasGroup_congr env g.char hbb
    · rw [atlasGroup_eq, atlasGroup_eq]; split <;> simp [hbb]
  unfold atlas.draw drawState
  have hs : (if a.tmpImage = true then st
      else { st with log := st.log ++ [Event.newImage a.glyphSize a.glyphSize] }).charBounds =
      st.charBounds := by split <;> rfl
  obtain ⟨hg, hc⟩ := hgc _ hs
  simp only [bounds_eq, atCell_eq, hg, hc]
  split_ifs <;> rfl
theorem appendGlyph_eq (env : Fonts) (a : atlas) (ch : char) (now : Int) (st : State) :
    a.appendGlyph env ch now st =
      if a.glyphSize = 0 then .error .divideByZero
      else
        match a.selectCell a.cells with
        | .error e => .error e
        | .ok (idx, m) =>
          if a.glyphSize ≠ (ch.atlasGroup env st).1 then .error .atNotReached
          else if Int.tdiv a.imageWidth a.glyphSize = 0 then .error .divideByZero
          else .ok (newGlyph env ch now st idx, newAtlas env a ch now st idx m,
                    drawState env a { char := ch, index := idx, atime := now } st) := by
  unfold atlas.appendGlyph
  rw [maxGlyphNum_eq]
  by_cases h0 : a.glyphSize = 0
  · simp [h0]
  · simp only [h0, if_false]
    cases hsel : a.selectCell a.cells with
    | error e => rfl
    | ok r =>
      obtain ⟨idx, m⟩ := r
      simp only [draw_eq, h0, if_false]
      split_ifs
      · rfl
      · rfl
      · simp only [newGlyph, newAtlas, atlasGroup_rune]
        rfl

/-! ### The state after `atlas.draw` -/

@[simp] theorem drawState_clock (env : Fonts) (a : atlas) (g : glyph) (st : State) :
    (drawState env a g st).monotonicClock = st.monotonicClock := by
  unfold drawState; simp only [atlasGroup_clock, queried_clock]; split <;> rfl

@[simp] theorem drawState_faces (env : Fonts) (a : atlas) (g : glyph) (st : State) :
    (drawState env a g st).faces = st.faces := by
  unfold drawState; simp only [atlasGroup_faces, queried_faces]; split <;> rfl

@[simp] theorem drawState_colorMCache (env : Fonts) (a : atlas) (g : glyph) (st : State) :
    (drawState env a g st).colorMCache = st.colorMCache := by
  unfold drawState; simp only [atlasGroup_colorMCache, queried_colorMCache]; split <;> rfl

@[simp] theorem drawState_atlases (env : Fonts) (a : atlas) (g : glyph) (st : State) :
    (drawState env a g st).atlases = st.atlases := by
  unfold drawState; simp only [atlasGroup_atlases, queried_atlases]; split <;> rfl

theorem drawState_sameBounds (env : Fonts) (a : atlas) (g : glyph) (st : State) :
    SameBounds env st (drawState env a g st) := by
  unfold drawState
  have h1 : SameBounds env st (if a.tmpImage = true then st
      else { st with log := st.log ++ [Event.newImage a.glyphSize a.glyphSize] }) := by
    split
    · exact SameBounds.sbRefl env st
    · exact SameBounds.of_charBounds rfl
  refine SameBounds.sbTrans h1 (SameBounds.sbTrans (sameBounds_queried env _ _ _)
    (SameBounds.sbTrans (atlasGroup_sameBounds env _ _) (SameBounds.of_charBounds rfl)))

theorem drawState_logExt (env : Fonts) (a : atlas) (g : glyph) (st : State) :
    LogExt (fun e => e.isDrawImage = false) st (drawState env a g st) := by
  unfold drawState
  have h1 : LogExt (fun e => e.isDrawImage = false) st (if a.tmpImage = true then st
      else { st with log := st.log ++ [Event.newImage a.glyphSize a.glyphSize] }) := by
    split
    · exact LogExt.logRefl _ st
    · exact LogExt.snoc _ rfl rfl
  have hq : ∀ e : Event, e.isQuery = true → e.isDrawImage = false := by
    intro e he; cases e <;> simp_all [Event.isQuery, Event.isDrawImage]
  refine LogExt.logTrans h1 (LogExt.logTrans ((logExt_queried env _ _ _).logMono hq)
    (LogExt.logTrans ((atlasGroup_logExt env _ _).logMono hq) (LogExt.snoc _ rfl rfl)))

theorem drawState_rasterize (env : Fonts) (a : atlas) (g : glyph) (st : State) :
    ∃ l x y, (drawState env a g st).log =
      st.log ++ l ++ [Event.rasterize g.char.face g.char.rune a.glyphSize x y] := by
  obtain ⟨l1, h1, _⟩ : LogExt (fun _ => True) st
      (g.char.atlasGroup env (queried env (if a.tmpImage = true then st
        else { st with log := st.log ++ [Event.newImage a.glyphSize a.glyphSize] })
        g.char.face g.char.rune)).2.2 := by
    have h1 : LogExt (fun _ => True) st (if a.tmpImage = true then st
        else { st with log := st.log ++ [Event.newImage a.glyphSize a.glyphSize] }) := by
      split
      · exact LogExt.logRefl _ st
      · exact LogExt.snoc _ rfl trivial
    exact LogExt.logTrans h1 (LogExt.logTrans ((logExt_queried env _ _ _).logMono (fun _ _ => trivial))
      ((atlasGroup_logExt env _ _).logMono (fun _ _ => trivial)))
  refine ⟨l1, Int.tmod g.index (Int.tdiv a.imageWidth a.glyphSize) * a.glyphSize,
    Int.tdiv g.index (Int.tdiv a.imageWidth a.glyphSize) * a.glyphSize, ?_⟩
  unfold drawState
  simp only [h1]

/-! ## The eviction scan -/

theorem oldestGlyph_spec (m : List (Int × glyph)) (o : Option glyph) (t : Int) :
    (oldestGlyph m o t = o ∧ ∀ e ∈ m, t ≤ e.2.atime) ∨
    (∃ k g, (k, g) ∈ m ∧ oldestGlyph m o t = some g ∧ g.atime < t ∧
      ∀ e ∈ m, g.atime ≤ e.2.atime) := by
  induction m generalizing o t with
  | nil => left; simp [oldestGlyph]
  | cons e0 rest ih =>
    obtain ⟨k0, g0⟩ := e0
    by_cases hlt : g0.atime < t
    · simp only [oldestGlyph, hlt, if_true]
      rcases ih (some g0) g0.atime with ⟨h1, h2⟩ | ⟨k, g, hmem, h1, h2, h3⟩
      · right
        refine ⟨k0, g0, List.mem_cons_self _ _, h1, hlt, ?_⟩
        intro e he
        rcases List.mem_cons.mp he with h | h
        · rw [h]
        · exact h2 e h
      · right
        refine ⟨k, g, List.mem_cons_of_mem _ hmem, h1, by omega, ?_⟩
        intro e he
        rcases List.mem_cons.mp he with h | h
        · rw [h]; exact le_of_lt h2
        · exact h3 e h
    · simp only [oldestGlyph, hlt, if_false]
      rcases ih o t with ⟨h1, h2⟩ | ⟨k, g, hmem, h1, h2, h3⟩
      · left
        refine ⟨h1, ?_⟩
        intro e he
        rcases List.mem_cons.mp he with h | h
        · rw [h]; exact not_lt.mp hlt
        · exact h2 e h
      · right
        refine ⟨k, g, List.mem_cons_of_mem _ hmem, h1, h2, ?_⟩
        intro e he
        rcases List.mem_cons.mp he with h | h
        · rw [h]; have := not_lt.mp hlt; simp only; omega
        · exact h3 e h

theorem selectCell_of_ne (a : atlas) (max : Int) (h : mapLen a.runeToGlyph ≠ max) :
    a.selectCell max = .ok (mapLen a.runeToGlyph, a.runeToGlyph) := by
  simp [atlas.selectCell, h]

theorem selectCell_of_eq (a : atlas) (max : Int) (h : mapLen a.runeToGlyph = max)
    (hc : ∃ e ∈ a.runeToGlyph, e.2.atime < MaxInt64) :
    ∃ k old, (k, old) ∈ a.runeToGlyph ∧ (∀ e ∈ a.runeToGlyph, old.atime ≤ e.2.atime) ∧
      a.selectCell max = .ok (old.index, mapDelete a.runeToGlyph old.char.rune) := by
  rcases oldestGlyph_spec a.runeToGlyph none MaxInt64 with ⟨_, h2⟩ | ⟨k, g, hmem, h1, _, h3⟩
  · obtain ⟨e, he, hlt⟩ := hc
    have := h2 e he
    omega
  · exact ⟨k, g, hmem, h3, by simp [atlas.selectCell, h, h1]⟩

/-- What `selectCell` can return: the next free cell and the table as it is,
or the cell of a glyph of least `atime` and the table without that glyph's
rune. -/
theorem selectCell_inv (a : atlas) (max idx : Int) (m : List (Int × glyph))
    (h : a.selectCell max = .ok (idx, m)) :
    (mapLen a.runeToGlyph ≠ max ∧ idx = mapLen a.runeToGlyph ∧ m = a.runeToGlyph) ∨
    (mapLen a.runeToGlyph = max ∧ ∃ k old, (k, old) ∈ a.runeToGlyph ∧
      (∀ e ∈ a.runeToGlyph, old.atime ≤ e.2.atime) ∧ idx = old.index ∧
      m = mapDelete a.runeToGlyph old.char.rune) := by
  by_cases hfull : mapLen a.runeToGlyph = max
  · right
    refine ⟨hfull, ?_⟩
    rcases oldestGlyph_spec a.runeToGlyph none MaxInt64 with ⟨h1, _⟩ | ⟨k, g, hmem, h1, _, h3⟩
    · simp [atlas.selectCell, hfull, h1] at h
    · simp only [atlas.selectCell, hfull, if_true, h1, Except.ok.injEq, Prod.mk.injEq] at h
      exact ⟨k, g, hmem, h3, h.1.symm, h.2.symm⟩
  · left
    rw [selectCell_of_ne a max hfull] at h
    simp only [Except.ok.injEq, Prod.mk.injEq] at h
    exact ⟨hfull, h.1.symm, h.2.symm⟩

theorem tdiv_pos_of_le {a b : Int} (hb : 0 < b) (hab : b ≤ a) : 0 < Int.tdiv a b := by
  rw [Int.tdiv_eq_ediv (by omega) (by omega)]
  have : 1 ≤ a / b := Int.le_ediv_of_mul_le hb (by omega)
  omega


/-! ## Claims on `atlas.appendGlyph` -/

/-- C1: in a full atlas (`len(runeToGlyph) == maxGlyphNum() > 0`) whose glyphs
carry pairwise distinct `atime` values, `appendGlyph` of a rune that is not
in the table returns, and evicts exactly the glyph with the strictly smallest
`atime`: its rune `k` is no longer mapped, every other rune is mapped as
before, and the new rune is mapped to the new glyph.  The timestamps are
readings of the clock (below `math.MaxInt64`), each glyph is stored under its
own rune, and the atlas is the one of the character's group, as in every
call from `getGlyphFromCache`. -/
theorem appendGlyph_evicts_least_recent (env : Fonts) (a : atlas) (ch : char) (now : Int)
    (st : State)
    (hown : ∀ e ∈ a.runeToGlyph, e.2.char.rune = e.1)
    (hfull : a.maxGlyphNum = .ok (mapLen a.runeToGlyph))
    (hpos : 0 < mapLen a.runeToGlyph)
    (hdist : (a.runeToGlyph.map (fun e => e.2.atime)).Nodup)
    (hclock : ∀ e ∈ a.runeToGlyph, e.2.atime < MaxInt64)
    (hnew : mapGet a.runeToGlyph ch.rune = none)
    (hsize : (ch.atlasGroup env st).1 = a.glyphSize) :
    ∃ k old g a' st',
      (k, old) ∈ a.runeToGlyph ∧
      (∀ e ∈ a.runeToGlyph, e ≠ (k, old) → old.atime < e.2.atime) ∧
      a.appendGlyph env ch now st = .ok (g, a', st') ∧
      mapGet a'.runeToGlyph k = none ∧
      (∀ k', k' ≠ k → k' ≠ ch.rune → mapGet a'.runeToGlyph k' = mapGet a.runeToGlyph k') ∧
      mapGet a'.runeToGlyph ch.rune = some g := by
  rw [maxGlyphNum_eq] at hfull
  have hgs : a.glyphSize ≠ 0 := by
    intro h; simp [h] at hfull
  simp only [hgs, if_false, Except.ok.injEq] at hfull
  have hx : Int.tdiv a.imageWidth a.glyphSize ≠ 0 := by
    intro h
    rw [← hfull, atlas.cells, h] at hpos
    simp at hpos
  obtain ⟨e0, he0⟩ : ∃ e, e ∈ a.runeToGlyph := by
    cases hm : a.runeToGlyph with
    | nil => simp [mapLen, hm] at hpos
    | cons e _ => exact ⟨e, List.mem_cons_self _ _⟩
  obtain ⟨k, old, hmem, hmin, hsel⟩ :=
    selectCell_of_eq a a.cells hfull.symm ⟨e0, he0, hclock e0 he0⟩
  have hk : old.char.rune = k := hown (k, old) hmem
  have hkne : k ≠ ch.rune := by
    intro h
    have := (mapGet_eq_none_iff a.runeToGlyph ch.rune).mp hnew
    exact this (List.mem_map.mpr ⟨(k, old), hmem, h⟩)
  refine ⟨k, old, newGlyph env ch now st old.index,
    newAtlas env a ch now st old.index (mapDelete a.runeToGlyph old.char.rune),
    drawState env a { char := ch, index := old.index, atime := now } st, hmem, ?_, ?_, ?_, ?_, ?_⟩
  · intro e he hne
    have hle := hmin e he
    rcases lt_or_eq_of_le hle with h | h
    · exact h
    · exact absurd (List.inj_on_of_nodup_map hdist he hmem h.symm) hne
  · rw [appendGlyph_eq, hsel]
    simp [hgs, hsize, hx]
  · simp [newAtlas, mapGet_mapSet, mapGet_mapDelete, hk, Ne.symm hkne]
  · intro k' h1 h2
    simp [newAtlas, mapGet_mapSet, mapGet_mapDelete, hk, Ne.symm h1, Ne.symm h2]
  · simp [newAtlas, mapGet_mapSet]

/-- C7: `appendGlyph` of a rune that is not in the table returns a glyph that
the table then holds under that rune.  When the atlas is not full the
glyph's cell index is `len(runeToGlyph)` before the insert, and the table
grows by one, so a fresh atlas fills the cells 0, 1, 2, ... in order.  When
the atlas is full the glyph receives the cell index of the evicted glyph, a
glyph of least `atime` whose rune is no longer mapped.  The atlas has at
least one cell (`0 < glyphSize <= image size`) and is the one of the
character's group; timestamps are below `math.MaxInt64`. -/
theorem appendGlyph_cell_index (env : Fonts) (a : atlas) (ch : char) (now : Int) (st : State)
    (hown : ∀ e ∈ a.runeToGlyph, e.2.char.rune = e.1)
    (hgs : 0 < a.glyphSize) (hw : a.glyphSize ≤ a.imageWidth)
    (hh : a.glyphSize ≤ a.imageHeight)
    (hclock : ∀ e ∈ a.runeToGlyph, e.2.atime < MaxInt64)
    (hnew : mapGet a.runeToGlyph ch.rune = none)
    (hsize : (ch.atlasGroup env st).1 = a.glyphSize) :
    ∃ g a' st',
      a.appendGlyph env ch now st = .ok (g, a', st') ∧
      mapGet a'.runeToGlyph ch.rune = some g ∧
      (a.maxGlyphNum ≠ .ok (mapLen a.runeToGlyph) →
        g.index = mapLen a.runeToGlyph ∧
        mapLen a'.runeToGlyph = mapLen a.runeToGlyph + 1) ∧
      (a.maxGlyphNum = .ok (mapLen a.runeToGlyph) →
        ∃ k old, (k, old) ∈ a.runeToGlyph ∧ (∀ e ∈ a.runeToGlyph, old.atime ≤ e.2.atime) ∧
          mapGet a'.runeToGlyph k = none ∧ g.index = old.index) := by
  have hgs0 : a.glyphSize ≠ 0 := by omega
  have hxpos := tdiv_pos_of_le hgs hw
  have hypos := tdiv_pos_of_le hgs hh
  have hx : Int.tdiv a.imageWidth a.glyphSize ≠ 0 := by omega
  have hcells : 0 < a.cells := by
    unfold atlas.cells; exact Int.mul_pos hxpos hypos
  have hmax : a.maxGlyphNum = .ok a.cells := by simp [maxGlyphNum_eq, hgs0]
  have hnk : ch.rune ∉ a.runeToGlyph.map Prod.fst := (mapGet_eq_none_iff _ _).mp hnew
  by_cases hfull : mapLen a.runeToGlyph = a.cells
  · obtain ⟨e0, he0⟩ : ∃ e, e ∈ a.runeToGlyph := by
      cases hm : a.runeToGlyph with
      | nil => simp [mapLen, hm] at hfull; omega
      | cons e _ => exact ⟨e, List.mem_cons_self _ _⟩
    obtain ⟨k, old, hmem, hmin, hsel⟩ :=
      selectCell_of_eq a a.cells hfull ⟨e0, he0, hclock e0 he0⟩
    have hk : old.char.rune = k := hown (k, old) hmem
    have hkne : k ≠ ch.rune := by
      intro h
      exact hnk (List.mem_map.mpr ⟨(k, old), hmem, h⟩)
    refine ⟨newGlyph env ch now st old.index,
      newAtlas env a ch now st old.index (mapDelete a.runeToGlyph old.char.rune),
      drawState env a { char := ch, index := old.index, atime := now } st, ?_, ?_, ?_, ?_⟩
    · rw [appendGlyph_eq, hsel]
      simp [hgs0, hsize, hx]
    · simp [newAtlas, mapGet_mapSet]
    · intro hne
      exact absurd (by rw [hmax, hfull]) hne
    · intro _
      refine ⟨k, old, hmem, hmin, ?_, rfl⟩
      simp [newAtlas, mapGet_mapSet, mapGet_mapDelete, hk, Ne.symm hkne]
  · refine ⟨newGlyph env ch now st (mapLen a.runeToGlyph),
      newAtlas env a ch now st (mapLen a.runeToGlyph) a.runeToGlyph,
      drawState env a { char := ch, index := mapLen a.runeToGlyph, atime := now } st,
      ?_, ?_, ?_, ?_⟩
    · rw [appendGlyph_eq, selectCell_of_ne a a.cells hfull]
      simp [hgs0, hsize, hx]
    · simp [newAtlas, mapGet_mapSet]
    · intro _
      refine ⟨rfl, ?_⟩
      simp only [newAtlas, mapLen]
      rw [mapSet_mapSet_length _ _ _ _ hnk]
      push_cast; ring
    · intro h
      rw [hmax] at h
      simp only [Except.ok.injEq] at h
      exact absurd h.symm hfull


/-! ## Resolving a glyph -/

theorem Resolves.resRefl (env : Fonts) (st : State) : Resolves env st st :=
  ⟨rfl, rfl, rfl, SameBounds.sbRefl env st, LogExt.logRefl _ st⟩

theorem Resolves.resTrans {env : Fonts} {s1 s2 s3 : State} (h12 : Resolves env s1 s2)
    (h23 : Resolves env s2 s3) : Resolves env s1 s3 :=
  ⟨h23.clock.trans h12.clock, h23.faces.trans h12.faces, h23.colorM.trans h12.colorM,
   h12.bounds.sbTrans h23.bounds, h12.log.logTrans h23.log⟩

theorem isQuery_not_drawImage (e : Event) (h : e.isQuery = true) : e.isDrawImage = false := by
  cases e <;> simp_all [Event.isQuery, Event.isDrawImage]

theorem resolves_queried (env : Fonts) (st : State) (f : Face) (r : Int) :
    Resolves env st (queried env st f r) :=
  ⟨queried_clock env st f r, queried_faces env st f r, queried_colorMCache env st f r,
   sameBounds_queried env st f r, (logExt_queried env st f r).logMono isQuery_not_drawImage⟩

theorem resolves_atlasGroup (env : Fonts) (c : char) (st : State) :
    Resolves env st (c.atlasGroup env st).2.2 :=
  ⟨atlasGroup_clock env c st, atlasGroup_faces env c st, atlasGroup_colorMCache env c st,
   atlasGroup_sameBounds env c st, (atlasGroup_logExt env c st).logMono isQuery_not_drawImage⟩

theorem resolves_drawState (env : Fonts) (a : atlas) (g : glyph) (st : State) :
    Resolves env st (drawState env a g st) :=
  ⟨drawState_clock env a g st, drawState_faces env a g st, drawState_colorMCache env a g st,
   drawState_sameBounds env a g st, drawState_logExt env a g st⟩

/-- Changing the atlases alone is within the frame. -/
theorem resolves_setAtlases (env : Fonts) (st : State)
    (x : List (Face × List (Int × atlas))) : Resolves env st { st with atlases := x } :=
  ⟨rfl, rfl, rfl, SameBounds.of_charBounds rfl, LogExt.of_log rfl⟩

theorem atlasGroup_congr_char (env : Fonts) (c : char) {st st' : State}
    (h : boundsOf env st' c.face c.rune = boundsOf env st c.face c.rune) :
    (c.atlasGroup env st').2.1 = (c.atlasGroup env st).2.1 := by
  rw [atlasGroup_eq, atlasGroup_eq]; split <;> simp [h]

/-- What `createAtlas` does when `atlases[face]` exists. -/
theorem createAtlas_of_some (env : Fonts) (face : Face) (ch : char) (st : State)
    (m : List (Int × atlas)) (hm : mapGet st.atlases face = some m) :
    ∃ st', createAtlas env face ch st =
        .ok ((ch.atlasGroup env st).1, freshAtlas (ch.atlasGroup env st).1,
             (ch.atlasGroup env st).2.1, st') ∧
      st'.atlases = mapSet st.atlases face
        (mapSet m (ch.atlasGroup env st).1 (freshAtlas (ch.atlasGroup env st).1)) ∧
      Resolves env st st' ∧
      LogExt (fun e => e.isRasterize = false) st st' := by
  have hb : boundsOf env { st with log := st.log ++ [Event.newImage 1024 1024] } ch.face ch.rune
      = boundsOf env st ch.face ch.rune := rfl
  have h1 := atlasGroup_congr env ch hb
  have h1c := atlasGroup_congr_char env ch hb
  have hb2 : boundsOf env
      (ch.atlasGroup env { st with log := st.log ++ [Event.newImage 1024 1024] }).2.2
      ch.face ch.rune =
      boundsOf env { st with log := st.log ++ [Event.newImage 1024 1024] } ch.face ch.rune :=
    (atlasGroup_sameBounds env ch _).1 _ _
  have h2 := atlasGroup_idem env ch hb2
  unfold createAtlas storeAtlas
  simp only [atlasGroup_atlases, hm]
  rw [h2.1, h2.2, h1, h1c]
  refine ⟨_, rfl, rfl, ?_, ?_⟩
  · have r0 : Resolves env st { st with log := st.log ++ [Event.newImage 1024 1024] } :=
      ⟨rfl, rfl, rfl, SameBounds.of_charBounds rfl, LogExt.snoc _ rfl rfl⟩
    exact r0.resTrans ((resolves_atlasGroup env _ _).resTrans
      ((resolves_atlasGroup env _ _).resTrans (resolves_setAtlases env _ _)))
  · have hq : ∀ e : Event, e.isQuery = true → e.isRasterize = false := by
      intro e he; cases e <;> simp_all [Event.isQuery, Event.isRasterize]
    have r0 : LogExt (fun e => e.isRasterize = false) st
        { st with log := st.log ++ [Event.newImage 1024 1024] } := LogExt.snoc _ rfl rfl
    exact r0.logTrans (((atlasGroup_logExt env _ _).logMono hq).logTrans
      (((atlasGroup_logExt env _ _).logMono hq).logTrans (LogExt.of_log rfl)))

theorem createAtlas_of_none (env : Fonts) (face : Face) (ch : char) (st : State)
    (hm : mapGet st.atlases face = none) :
    createAtlas env face ch st = .error .nilDereference := by
  unfold createAtlas storeAtlas
  simp only [atlasGroup_atlases, hm]


/-- What a successful `insertGlyph` does. -/
theorem insertGlyph_ok (env : Fonts) (face : Face) (key : Int) (a : atlas) (ch : char)
    (now : Int) (st : State) (m : List (Int × atlas)) (idx : Int) (mm : List (Int × glyph))
    (hm : mapGet st.atlases face = some m)
    (hsel : a.selectCell a.cells = .ok (idx, mm))
    (hsize : a.glyphSize = (ch.atlasGroup env st).1)
    (hgs : a.glyphSize ≠ 0) (hx : Int.tdiv a.imageWidth a.glyphSize ≠ 0) :
    ∃ st', insertGlyph env face key a ch now st = .ok (newGlyph env ch now st idx, st') ∧
      st'.atlases = mapSet st.atlases face (mapSet m key (newAtlas env a ch now st idx mm)) ∧
      Resolves env st st' ∧
      ∃ l x y, st'.log = st.log ++ l ++ [Event.rasterize ch.face ch.rune a.glyphSize x y] := by
  unfold insertGlyph storeAtlas
  rw [appendGlyph_eq, hsel]
  simp only [hgs, if_false]
  rw [if_neg (not_not.mpr hsize), if_neg hx]
  simp only [drawState_atlases, hm]
  refine ⟨_, rfl, rfl, ?_, ?_⟩
  · exact (resolves_drawState env a _ st).resTrans (resolves_setAtlases env _ _)
  · exact drawState_rasterize env a { char := ch, index := idx, atime := now } st

/-- A call of `insertGlyph` that returns went through the selection of a cell
in an atlas of the character's group. -/
theorem insertGlyph_inv (env : Fonts) (face : Face) (key : Int) (a : atlas) (ch : char)
    (now : Int) (st : State) (g : glyph) (st' : State)
    (h : insertGlyph env face key a ch now st = .ok (g, st')) :
    ∃ m idx mm, mapGet st.atlases face = some m ∧
      a.selectCell a.cells = .ok (idx, mm) ∧
      a.glyphSize = (ch.atlasGroup env st).1 ∧
      a.glyphSize ≠ 0 ∧ Int.tdiv a.imageWidth a.glyphSize ≠ 0 ∧
      g = newGlyph env ch now st idx ∧
      st'.atlases = mapSet st.atlases face (mapSet m key (newAtlas env a ch now st idx mm)) ∧
      Resolves env st st' ∧
      ∃ l x y, st'.log = st.log ++ l ++ [Event.rasterize ch.face ch.rune a.glyphSize x y] := by
  have h0 := h
  unfold insertGlyph storeAtlas at h0
  rw [appendGlyph_eq] at h0
  by_cases hgs : a.glyphSize = 0
  · simp [hgs] at h0
  · simp only [hgs, if_false] at h0
    cases hsel : a.selectCell a.cells with
    | error e => simp [hsel] at h0
    | ok r =>
      obtain ⟨idx, mm⟩ := r
      simp only [hsel] at h0
      by_cases hsize : a.glyphSize = (ch.atlasGroup env st).1
      · by_cases hx : Int.tdiv a.imageWidth a.glyphSize = 0
        · rw [if_neg (not_not.mpr hsize), if_pos hx] at h0
          simp at h0
        · cases hm : mapGet st.atlases face with
          | none =>
            rw [if_neg (not_not.mpr hsize), if_neg hx] at h0
            simp [hm] at h0
          | some m =>
            obtain ⟨st2, h1, h2, h3, h4⟩ :=
              insertGlyph_ok env face key a ch now st m idx mm hm hsel hsize hgs hx
            rw [h] at h1
            simp only [Except.ok.injEq, Prod.mk.injEq] at h1
            obtain ⟨hg, hst⟩ := h1
            subst hst
            exact ⟨m, idx, mm, rfl, rfl, hsize, hgs, hx, hg, h2, h3, h4⟩
      · rw [if_pos hsize] at h0
        simp at h0


theorem newAtlas_eq (env : Fonts) (a : atlas) (ch : char) (now : Int) (st : State) (idx : Int)
    (mm : List (Int × glyph)) :
    newAtlas env a ch now st idx mm =
      { a with tmpImage := true,
               runeToGlyph := mapSet mm ch.rune (newGlyph env ch now st idx) } := by
  simp [newAtlas, mapSet_mapSet]

/-- The two outcomes of a call of `getGlyphMiss` that returns: the glyph is
empty and no atlas is touched, or the glyph is inserted into the atlas that
`atlases[face]` holds under `key`. -/
theorem getGlyphMiss_cases (env : Fonts) (face : Face) (ch : char) (now : Int)
    (slot : Option (Int × atlas)) (st : State) (g : glyph) (st' : State)
    (hface : ch.face = face)
    (h : getGlyphMiss env face ch now slot st = .ok (g, st')) :
    Resolves env st st' ∧
    ((emptyB (boundsOf env st face ch.rune) = true ∧
        g = { char := ch, index := 0, atime := now } ∧ st'.atlases = st.atlases ∧
        LogExt (fun e => e.isQuery = true) st st') ∨
     (emptyB (boundsOf env st face ch.rune) = false ∧
        ∃ fam key a idx mm, mapGet st.atlases face = some fam ∧
          (slot = some (key, a) ∨
            (slot = none ∧ key = (ch.atlasGroup env st).1 ∧
              a = freshAtlas (ch.atlasGroup env st).1)) ∧
          a.glyphSize = (ch.atlasGroup env st).1 ∧
          a.glyphSize ≠ 0 ∧ Int.tdiv a.imageWidth a.glyphSize ≠ 0 ∧
          a.selectCell a.cells = .ok (idx, mm) ∧
          g = { char := (ch.atlasGroup env st).2.1, index := idx, atime := now } ∧
          st'.atlases = mapSet st.atlases face (mapSet fam key
            { a with tmpImage := true,
                     runeToGlyph := mapSet mm ch.rune
                       { char := (ch.atlasGroup env st).2.1, index := idx, atime := now } }) ∧
          ∃ l x y, st'.log = st.log ++ l ++
            [Event.rasterize face ch.rune a.glyphSize x y])) := by
  subst hface
  unfold getGlyphMiss at h
  rw [empty_eq] at h
  have hq := resolves_queried env st ch.face ch.rune
  have hbq : boundsOf env (queried env st ch.face ch.rune) ch.face ch.rune =
      boundsOf env st ch.face ch.rune := boundsOf_queried env st _ _ _ _
  have hG := atlasGroup_congr env ch hbq
  have hC := atlasGroup_congr_char env ch hbq
  cases he : emptyB (boundsOf env st ch.face ch.rune) with
  | true =>
    simp only [he, if_true, Except.ok.injEq, Prod.mk.injEq] at h
    obtain ⟨hg, hst⟩ := h
    subst hst
    exact ⟨hq, Or.inl ⟨rfl, hg.symm, queried_atlases env st _ _, logExt_queried env st _ _⟩⟩
  | false =>
    simp only [he] at h
    cases slot with
    | some ka =>
      obtain ⟨key, a⟩ := ka
      simp only [Bool.false_eq_true, if_false] at h
      obtain ⟨m, idx, mm, hm, hsel, hsize, hgs, hx, hg, hat, hres, l, x, y, hlog⟩ :=
        insertGlyph_inv env ch.face key a ch now _ g st' h
      rw [queried_atlases] at hm hat
      rw [hG] at hsize
      rw [newAtlas_eq] at hat
      simp only [newGlyph, hC] at hg hat
      refine ⟨hq.resTrans hres, Or.inr ⟨rfl, m, key, a, idx, mm, hm, Or.inl rfl, hsize, hgs, hx,
        hsel, hg, hat, ?_⟩⟩
      obtain ⟨l0, hl0, _⟩ := hq.log
      exact ⟨l0 ++ l, x, y, by rw [hlog, hl0]; simp⟩
    | none =>
      simp only [Bool.false_eq_true, if_false] at h
      cases hm : mapGet st.atlases ch.face with
      | none =>
        have hm' : mapGet (queried env st ch.face ch.rune).atlases ch.face = none := by
          rw [queried_atlases]; exact hm
        rw [createAtlas_of_none env ch.face ch _ hm'] at h
        simp at h
      | some fam =>
        have hm' : mapGet (queried env st ch.face ch.rune).atlases ch.face = some fam := by
          rw [queried_atlases]; exact hm
        obtain ⟨st2, hc, hcat, hcres, _⟩ := createAtlas_of_some env ch.face ch _ fam hm'
        rw [hG, hC] at hc
        rw [hG, queried_atlases] at hcat
        rw [hc] at h
        simp only at h
        obtain ⟨m, idx, mm, hm2, hsel, hsize, hgs, hx, hg, hat, hres, l, x, y, hlog⟩ :=
          insertGlyph_inv env ch.face _ _ _ now st2 g st' h
        rw [hcat, mapGet_mapSet_self] at hm2
        simp only [Option.some.injEq] at hm2
        subst hm2
        have hb2 : boundsOf env st2 ch.face ch.rune = boundsOf env st ch.face ch.rune :=
          (hcres.bounds.1 _ _).trans hbq
        have hidem := atlasGroup_idem env ch hb2
        rw [hidem.1] at hsize
        rw [newAtlas_eq, hcat, mapSet_mapSet, mapSet_mapSet] at hat
        simp only [newGlyph, hidem.2, atlasGroup_rune, atlasGroup_face] at hg hat hlog
        refine ⟨hq.resTrans (hcres.resTrans hres), Or.inr ⟨rfl, fam, _, _, idx, mm, rfl,
          Or.inr ⟨rfl, rfl, rfl⟩, hsize, hgs, hx, hsel, hg, hat, ?_⟩⟩
        obtain ⟨l0, hl0, _⟩ := (hq.resTrans hcres).log
        exact ⟨l0 ++ l, x, y, by rw [hlog, hl0]; simp⟩


theorem atlasGroup_fresh (env : Fonts) (face : Face) (r : Int) (st : State) :
    ({ face := face, rune := r, atlasG := 0 } : char).atlasGroup env st =
      (groupB (boundsOf env st face r), settled env st face r, queried env st face r) := by
  rw [atlasGroup_eq]; simp [settled]

theorem atlasGroup_settled (env : Fonts) (face : Face) (r : Int) (st st1 : State)
    (hb : boundsOf env st1 face r = boundsOf env st face r) :
    ((settled env st face r).atlasGroup env st1).1 = groupB (boundsOf env st face r) ∧
    ((settled env st face r).atlasGroup env st1).2.1 = settled env st face r := by
  have h := @atlasGroup_idem env { face := face, rune := r, atlasG := 0 } st st1 hb
  rw [atlasGroup_fresh] at h
  exact h

/-- A hit: the glyph is in the atlas of its group.  `getGlyphFromCache`
returns it with the new `atime` and writes that `atime` to the entry. -/
theorem getGlyph_hit (env : Fonts) (face : Face) (r : Int) (now : Int) (st : State)
    (m : List (Int × atlas)) (a : atlas) (g0 : glyph)
    (hm : mapGet st.atlases face = some m)
    (ha : mapGet m (groupB (boundsOf env st face r)) = some a)
    (hg : mapGet a.runeToGlyph r = some g0) :
    getGlyphFromCache env face r now st =
      .ok ({ g0 with atime := now },
           { queried env st face r with
             atlases := mapSet st.atlases face (mapSet m (groupB (boundsOf env st face r))
               { a with runeToGlyph := mapSet a.runeToGlyph r { g0 with atime := now } }) }) := by
  unfold getGlyphFromCache
  simp only [hm, atlasGroup_fresh, ha, hg, queried_atlases]

/-- The three outcomes of a call of `getGlyphFromCache` that returns: a hit,
an empty glyph, or the insertion of a new glyph. -/
theorem getGlyph_cases (env : Fonts) (face : Face) (r : Int) (now : Int) (st : State)
    (g : glyph) (st' : State) (h : getGlyphFromCache env face r now st = .ok (g, st')) :
    Resolves env st st' ∧
    ((∃ m a g0, mapGet st.atlases face = some m ∧
        mapGet m (groupB (boundsOf env st face r)) = some a ∧
        mapGet a.runeToGlyph r = some g0 ∧ g = { g0 with atime := now } ∧
        st'.atlases = mapSet st.atlases face (mapSet m (groupB (boundsOf env st face r))
          { a with runeToGlyph := mapSet a.runeToGlyph r { g0 with atime := now } }) ∧
        LogExt (fun e => e.isQuery = true) st st') ∨
     (emptyB (boundsOf env st face r) = true ∧
        g.char.face = face ∧ g.char.rune = r ∧ g.index = 0 ∧ g.atime = now ∧
        (∀ f, f ≠ face → mapGet st'.atlases f = mapGet st.atlases f) ∧
        mapGet st'.atlases face = some ((mapGet st.atlases face).getD []) ∧
        LogExt (fun e => e.isQuery = true) st st') ∨
     (emptyB (boundsOf env st face r) = false ∧
        ∃ a idx mm,
          ((mapGet ((mapGet st.atlases face).getD []) (groupB (boundsOf env st face r)) = some a ∧
              mapGet a.runeToGlyph r = none) ∨
           (mapGet ((mapGet st.atlases face).getD []) (groupB (boundsOf env st face r)) = none ∧
              a = freshAtlas (groupB (boundsOf env st face r)))) ∧
          a.glyphSize = groupB (boundsOf env st face r) ∧
          a.glyphSize ≠ 0 ∧ Int.tdiv a.imageWidth a.glyphSize ≠ 0 ∧
          a.selectCell a.cells = .ok (idx, mm) ∧
          g = { char := settled env st face r, index := idx, atime := now } ∧
          st'.atlases = mapSet st.atlases face
            (mapSet ((mapGet st.atlases face).getD []) (groupB (boundsOf env st face r))
              { a with tmpImage := true,
                       runeToGlyph := mapSet mm r
                         { char := settled env st face r, index := idx, atime := now } }) ∧
          ∃ l x y, st'.log = st.log ++ l ++
            [Event.rasterize face r (groupB (boundsOf env st face r)) x y])) := by
  have hq := resolves_queried env st face r
  have hbq : boundsOf env (queried env st face r) face r = boundsOf env st face r :=
    boundsOf_queried env st _ _ _ _
  cases hm : mapGet st.atlases face with
  | none =>
    unfold getGlyphFromCache at h
    simp only [hm] at h
    have hr0 := resolves_setAtlases env st (mapSet st.atlases face [])
    obtain ⟨hres, hcase⟩ := getGlyphMiss_cases env face _ now none _ g st' rfl h
    have hb0 : ∀ f' r', boundsOf env { st with atlases := mapSet st.atlases face [] } f' r' =
        boundsOf env st f' r' := fun _ _ => rfl
    refine ⟨hr0.resTrans hres, ?_⟩
    rcases hcase with ⟨he, hg, hat, hlog⟩ | ⟨he, fam, key, a, idx, mm, hfam, hslot, hsize, hgs,
        hx, hsel, hg, hat, hlog⟩
    · right; left
      refine ⟨he, by rw [hg], by rw [hg], by rw [hg], by rw [hg], ?_, ?_, ?_⟩
      · intro f hf
        rw [hat]
        exact mapGet_mapSet_ne _ _ (Ne.symm hf)
      · rw [hat]; simp [mapGet_mapSet_self]
      · exact (LogExt.of_log rfl).logTrans hlog
    · right; right
      simp only [mapGet_mapSet_self, Option.some.injEq] at hfam
      subst hfam
      rcases hslot with hs | ⟨_, hkey, ha⟩
      · simp at hs
      · rw [atlasGroup_fresh] at hkey ha hsize hg hat
        simp only [hb0] at hkey ha hsize hg hat he
        have hset : settled env { st with atlases := mapSet st.atlases face [] } face r =
            settled env st face r := rfl
        rw [hset] at hg hat
        subst hkey
        rw [mapSet_mapSet] at hat
        simp only at hlog
        rw [hsize] at hlog
        refine ⟨he, a, idx, mm, Or.inr ⟨by simp [mapGet], ha⟩, hsize, hgs, hx, hsel, hg,
          by simpa using hat, hlog⟩
  | some m =>
    unfold getGlyphFromCache at h
    simp only [hm, atlasGroup_fresh] at h
    have hst := atlasGroup_settled env face r st (queried env st face r) hbq
    cases ha : mapGet m (groupB (boundsOf env st face r)) with
    | none =>
      simp only [ha] at h
      obtain ⟨hres, hcase⟩ := getGlyphMiss_cases env face _ now none _ g st' rfl h
      refine ⟨hq.resTrans hres, ?_⟩
      simp only [settled, hbq] at hcase
      rcases hcase with ⟨he, hg, hat, hlog⟩ | ⟨he, fam, key, a, idx, mm, hfam, hslot, hsize, hgs,
          hx, hsel, hg, hat, hlog⟩
      · right; left
        refine ⟨he, by rw [hg], by rw [hg], by rw [hg], by rw [hg], ?_, ?_, ?_⟩
        · intro f _
          rw [hat, queried_atlases]
        · rw [hat, queried_atlases, hm]; rfl
        · exact (logExt_queried env st face r).logTrans hlog
      · right; right
        rw [queried_atlases, hm] at hfam
        simp only [Option.some.injEq] at hfam
        subst hfam
        rcases hslot with hs | ⟨_, hkey, ha2⟩
        · simp at hs
        · have h1 : ((settled env st face r).atlasGroup env (queried env st face r)).1 =
              groupB (boundsOf env st face r) := hst.1
          have h2 : ((settled env st face r).atlasGroup env (queried env st face r)).2.1 =
              settled env st face r := hst.2
          simp only [settled] at h1 h2
          rw [h1] at hkey ha2 hsize
          rw [h2] at hg hat
          subst hkey
          rw [queried_atlases] at hat
          rw [hsize] at hlog
          obtain ⟨l, x, y, hl⟩ := hlog
          obtain ⟨l0, hl0, _⟩ := hq.log
          refine ⟨he, a, idx, mm, Or.inr ⟨by simpa using ha, ha2⟩, hsize, hgs, hx, hsel, hg,
            by simpa [settled] using hat, l0 ++ l, x, y, by rw [hl, hl0]; simp⟩
    | some a =>
      simp only [ha] at h
      cases hg0 : mapGet a.runeToGlyph r with
      | some g0 =>
        simp only [hg0, Except.ok.injEq, Prod.mk.injEq] at h
        obtain ⟨hg, hst'⟩ := h
        subst hst'
        refine ⟨hq.resTrans (resolves_setAtlases env _ _),
          Or.inl ⟨m, a, g0, rfl, ha, hg0, hg.symm, ?_, ?_⟩⟩
        · simp only [queried_atlases]
        · exact (logExt_queried env st face r).logTrans (LogExt.of_log rfl)
      | none =>
        simp only [hg0] at h
        obtain ⟨hres, hcase⟩ := getGlyphMiss_cases env face _ now _ _ g st' rfl h
        refine ⟨hq.resTrans hres, ?_⟩
        simp only [settled, hbq] at hcase
        rcases hcase with ⟨he, hg, hat, hlog⟩ | ⟨he, fam, key, a', idx, mm, hfam, hslot, hsize,
            hgs, hx, hsel, hg, hat, hlog⟩
        · right; left
          refine ⟨he, by rw [hg], by rw [hg], by rw [hg], by rw [hg], ?_, ?_, ?_⟩
          · intro f _
            rw [hat, queried_atlases]
          · rw [hat, queried_atlases, hm]; rfl
          · exact (logExt_queried env st face r).logTrans hlog
        · right; right
          rw [queried_atlases, hm] at hfam
          simp only [Option.some.injEq] at hfam
          subst hfam
          rcases hslot with hs | ⟨hs, _, _⟩
          · have h1 : ((settled env st face r).atlasGroup env (queried env st face r)).1 =
                groupB (boundsOf env st face r) := hst.1
            have h2 : ((settled env st face r).atlasGroup env (queried env st face r)).2.1 =
                settled env st face r := hst.2
            simp only [settled] at h1 h2
            simp only [Option.some.injEq, Prod.mk.injEq] at hs
            obtain ⟨hk, ha'⟩ := hs
            subst hk; subst ha'
            rw [h1] at hsize
            rw [h2] at hg hat
            rw [queried_atlases] at hat
            rw [hsize] at hlog
            obtain ⟨l, x, y, hl⟩ := hlog
            obtain ⟨l0, hl0, _⟩ := hq.log
            refine ⟨he, a, idx, mm, Or.inl ⟨by simpa using ha, hg0⟩, hsize, hgs, hx, hsel, hg,
              by simpa [settled] using hat, l0 ++ l, x, y, by rw [hl, hl0]; simp⟩
          · simp at hs


/-! ## The colour cache and `glyph.draw` -/

@[simp] theorem now_clock (st : State) : (now st).2.monotonicClock = st.monotonicClock + 1 := rfl

@[simp] theorem now_value (st : State) : (now st).1 = st.monotonicClock + 1 := rfl

@[simp] theorem colorMLookup_clock (g : glyph) (clr : Color) (st : State) :
    (colorMLookup g clr st).2.monotonicClock = st.monotonicClock + 1 := by
  unfold colorMLookup; split <;> rfl

@[simp] theorem colorMLookup_faces (g : glyph) (clr : Color) (st : State) :
    (colorMLookup g clr st).2.faces = st.faces := by
  unfold colorMLookup; split <;> rfl

@[simp] theorem colorMLookup_charBounds (g : glyph) (clr : Color) (st : State) :
    (colorMLookup g clr st).2.charBounds = st.charBounds := by
  unfold colorMLookup; split <;> rfl

@[simp] theorem colorMLookup_atlases (g : glyph) (clr : Color) (st : State) :
    (colorMLookup g clr st).2.atlases = st.atlases := by
  unfold colorMLookup; split <;> rfl

@[simp] theorem colorMLookup_log (g : glyph) (clr : Color) (st : State) :
    (colorMLookup g clr st).2.log = st.log := by
  unfold colorMLookup; split <;> rfl

theorem atlasGroup_state_of_memo (env : Fonts) (c : char) (st : State)
    (h : memoBounds st c.face c.rune ≠ none) : (c.atlasGroup env st).2.2 = st := by
  rw [atlasGroup_eq]; split
  · rfl
  · exact queried_of_memo env st _ _ h

theorem memoBounds_congr {st st' : State} (h : st'.charBounds = st.charBounds) (f : Face)
    (r : Int) : memoBounds st' f r = memoBounds st f r := by
  simp [memoBounds, h]

/-- A transparent colour: `glyph.draw` returns at once. -/
theorem glyph_draw_transparent (env : Fonts) (g : glyph) (dst : Nat) (x y : Int) (clr : Color)
    (st : State) (hA : clr.A = 0) : g.draw env dst x y clr st = .ok (g, st) := by
  simp [glyph.draw, hA]

/-- The state in which `glyph.draw` looks up the atlas. -/
theorem glyph_draw_eq (env : Fonts) (g : glyph) (dst : Nat) (x y : Int) (clr : Color)
    (st : State) (hA : clr.A ≠ 0) :
    g.draw env dst x y clr st =
      match (mapGet st.atlases g.char.face).bind
          (fun m => mapGet m (g.char.atlasGroup env st).1) with
      | none => .error .nilDereference
      | some a =>
        if a.glyphSize ≠ (g.char.atlasGroup env st).1 then .error .atNotReached
        else if a.glyphSize = 0 then .error .divideByZero
        else if Int.tdiv a.imageWidth a.glyphSize = 0 then .error .divideByZero
        else .ok ({ g with char := (g.char.atlasGroup env st).2.1 },
          { (colorMLookup g clr (queried env st g.char.face g.char.rune)).2 with
            log := (queried env st g.char.face g.char.rune).log ++
              [Event.drawImage dst g.char.face g.char.rune
                (wrap32 (x + (boundsOf env st g.char.face g.char.rune).Min.X))
                (wrap32 (y + (boundsOf env st g.char.face g.char.rune).Min.Y))
                (Int.tmod g.index (Int.tdiv a.imageWidth a.glyphSize) * a.glyphSize)
                (Int.tdiv g.index (Int.tdiv a.imageWidth a.glyphSize) * a.glyphSize)
                a.glyphSize
                (colorMLookup g clr (queried env st g.char.face g.char.rune)).1.m] }) := by
  have hmemo : memoBounds (colorMLookup g clr (queried env st g.char.face g.char.rune)).2
      g.char.face g.char.rune ≠ none := by
    rw [memoBounds_congr (colorMLookup_charBounds _ _ _), memoBounds_queried_self]
    simp
  have hb : boundsOf env (colorMLookup g clr (queried env st g.char.face g.char.rune)).2
      g.char.face g.char.rune = boundsOf env st g.char.face g.char.rune := by
    have : boundsOf env (colorMLookup g clr (queried env st g.char.face g.char.rune)).2
        g.char.face g.char.rune =
        boundsOf env (queried env st g.char.face g.char.rune) g.char.face g.char.rune := by
      simp [boundsOf, memoBounds]
    rw [this, boundsOf_queried]
  have hs := atlasGroup_state_of_memo env g.char _ hmemo
  have hG := atlasGroup_congr env g.char hb
  have hC := atlasGroup_congr_char env g.char hb
  have hidem := atlasGroup_idem env g.char hb
  have hmemo2 : memoBounds (colorMLookup g clr (queried env st g.char.face g.char.rune)).2
      (g.char.atlasGroup env st).2.1.face (g.char.atlasGroup env st).2.1.rune ≠ none := by
    simpa using hmemo
  have hs2 := atlasGroup_state_of_memo env (g.char.atlasGroup env st).2.1 _ hmemo2
  unfold glyph.draw
  simp only [hA, if_false, bounds_eq, atCell_eq]
  rw [hs, hG, hC]
  simp only [colorMLookup_atlases, queried_atlases, atlasGroup_face, atlasGroup_rune]
  rw [hidem.1, hidem.2, hs2]
  cases (mapGet st.atlases g.char.face).bind fun m => mapGet m (g.char.atlasGroup env st).1 with
  | none => rfl
  | some a =>
    simp only
    split_ifs <;> simp


/-- A call of `glyph.draw` with a colour that is not transparent, when it
returns: the clock has advanced by one, the faces and atlases are as before,
and the log has grown by queries of the glyph bounds (none when the bounds
are memoised) followed by one composite at the pen plus the bounds' minimum. -/
theorem glyph_draw_inv (env : Fonts) (g : glyph) (dst : Nat) (x y : Int) (clr : Color)
    (st : State) (g' : glyph) (st' : State) (hA : clr.A ≠ 0)
    (h : g.draw env dst x y clr st = .ok (g', st')) :
    ∃ l sx sy size cm,
      st'.log = st.log ++ l ++
        [Event.drawImage dst g.char.face g.char.rune
          (wrap32 (x + (boundsOf env st g.char.face g.char.rune).Min.X))
          (wrap32 (y + (boundsOf env st g.char.face g.char.rune).Min.Y)) sx sy size cm] ∧
      (∀ e ∈ l, e.isQuery = true) ∧
      (memoBounds st g.char.face g.char.rune ≠ none → l = []) ∧
      st'.monotonicClock = st.monotonicClock + 1 ∧
      st'.faces = st.faces ∧ st'.atlases = st.atlases ∧ SameBounds env st st' := by
  rw [glyph_draw_eq env g dst x y clr st hA] at h
  split at h
  next => simp at h
  next a _ =>
    split_ifs at h
    simp only [Except.ok.injEq, Prod.mk.injEq] at h
    obtain ⟨_, hst⟩ := h
    subst hst
    obtain ⟨l, hl, hp⟩ := logExt_queried env st g.char.face g.char.rune
    refine ⟨l, Int.tmod g.index (Int.tdiv a.imageWidth a.glyphSize) * a.glyphSize,
      Int.tdiv g.index (Int.tdiv a.imageWidth a.glyphSize) * a.glyphSize, a.glyphSize,
      (colorMLookup g clr (queried env st g.char.face g.char.rune)).1.m,
      ?_, hp, ?_, ?_, ?_, ?_, ?_⟩
    · simp only [hl]
    · intro hmemo
      have := queried_of_memo env st _ _ hmemo
      rw [this] at hl
      simpa using hl
    · simp
    · simp
    · simp
    · have h1 := sameBounds_queried env st g.char.face g.char.rune
      refine SameBounds.sbTrans h1 (SameBounds.of_charBounds ?_)
      simp


/-! ## The loop of `Draw` -/

@[simp] theorem fontFaceToFace_clock (f : Face) (st : State) :
    (fontFaceToFace f st).2.monotonicClock = st.monotonicClock := by
  unfold fontFaceToFace; split
  · rfl
  · split <;> rfl

@[simp] theorem fontFaceToFace_charBounds (f : Face) (st : State) :
    (fontFaceToFace f st).2.charBounds = st.charBounds := by
  unfold fontFaceToFace; split
  · rfl
  · split <;> rfl

@[simp] theorem fontFaceToFace_colorMCache (f : Face) (st : State) :
    (fontFaceToFace f st).2.colorMCache = st.colorMCache := by
  unfold fontFaceToFace; split
  · rfl
  · split <;> rfl

@[simp] theorem fontFaceToFace_atlases (f : Face) (st : State) :
    (fontFaceToFace f st).2.atlases = st.atlases := by
  unfold fontFaceToFace; split
  · rfl
  · split <;> rfl

@[simp] theorem fontFaceToFace_log (f : Face) (st : State) :
    (fontFaceToFace f st).2.log = st.log := by
  unfold fontFaceToFace; split
  · rfl
  · split <;> rfl

/-- The pen at which `drawRune` draws the rune `c`: the kerning is added when
there is a previous rune. -/
theorem drawRune_inv (env : Fonts) (dst : Nat) (face : Face) (y : Int) (clr : Color) (n : Int)
    (st : State) (fx prevC c : Int) (st' : State) (fx' p' : Int)
    (h : drawRune env dst face y clr n st fx prevC c = .ok (st', fx', p')) :
    ∃ g st2,
      getGlyphFromCache env (fontFaceToFace face st).1 c n (fontFaceToFace face st).2 =
        .ok (g, st2) ∧
      fx' = wrap32 ((if prevC ≥ 0 then wrap32 (fx + env.Kern face prevC c) else fx) +
        env.GlyphAdvance face c) ∧
      p' = c ∧
      ((emptyB (boundsOf env st2 g.char.face g.char.rune) = true ∧
          st' = queried env st2 g.char.face g.char.rune) ∨
       (emptyB (boundsOf env st2 g.char.face g.char.rune) = false ∧
          ∃ g', g.draw env dst (if prevC ≥ 0 then wrap32 (fx + env.Kern face prevC c) else fx)
            (fixedI y) clr (queried env st2 g.char.face g.char.rune) = .ok (g', st'))) := by
  unfold drawRune at h
  simp only at h
  cases hg : getGlyphFromCache env (fontFaceToFace face st).1 c n (fontFaceToFace face st).2 with
  | error e => simp [hg] at h
  | ok r =>
    obtain ⟨g, st2⟩ := r
    simp only [hg, empty_eq] at h
    refine ⟨g, st2, rfl, ?_⟩
    cases he : emptyB (boundsOf env st2 g.char.face g.char.rune) with
    | true =>
      simp only [he, Bool.not_true, Bool.false_eq_true, if_false, Except.ok.injEq,
        Prod.mk.injEq] at h
      exact ⟨h.2.1.symm, h.2.2.symm, Or.inl ⟨rfl, h.1.symm⟩⟩
    | false =>
      simp only [he, Bool.not_false, if_true] at h
      cases hd : g.draw env dst (if prevC ≥ 0 then wrap32 (fx + env.Kern face prevC c) else fx)
          (fixedI y) clr (queried env st2 g.char.face g.char.rune) with
      | error e => simp [hd] at h
      | ok r2 =>
        obtain ⟨g', st4⟩ := r2
        simp only [hd, Except.ok.injEq, Prod.mk.injEq] at h
        exact ⟨h.2.1.symm, h.2.2.symm, Or.inr ⟨rfl, g', by rw [h.1]⟩⟩


theorem countDraws_append (l1 l2 : List Event) :
    countDraws (l1 ++ l2) = countDraws l1 + countDraws l2 := by
  simp [countDraws]

theorem countDraws_eq_zero {l : List Event} (h : ∀ e ∈ l, e.isDrawImage = false) :
    countDraws l = 0 := by
  simp only [countDraws, Nat.cast_eq_zero, List.length_eq_zero, List.filter_eq_nil_iff]
  intro e he
  simp [h e he]

theorem countDraws_nonneg (l : List Event) : 0 ≤ countDraws l := by
  simp [countDraws]

/-- The effect of one round of the loop of `Draw` on the clock, the log and
the colour cache. -/
theorem drawRune_frame (env : Fonts) (dst : Nat) (face : Face) (y : Int) (clr : Color) (n : Int)
    (st : State) (fx prevC c : Int) (st' : State) (fx' p' : Int)
    (h : drawRune env dst face y clr n st fx prevC c = .ok (st', fx', p')) :
    ∃ l, st'.log = st.log ++ l ∧
      st'.monotonicClock = st.monotonicClock + countDraws l ∧
      countDraws l ≤ 1 ∧
      (clr.A = 0 → countDraws l = 0 ∧ st'.colorMCache = st.colorMCache) := by
  obtain ⟨g, st2, hg, _, _, hcase⟩ := drawRune_inv env dst face y clr n st fx prevC c st' fx' p' h
  obtain ⟨hres, _⟩ := getGlyph_cases env _ c n _ g st2 hg
  have hres2 := hres.resTrans (resolves_queried env st2 g.char.face g.char.rune)
  obtain ⟨l0, hl0, hp0⟩ := hres2.log
  have hc0 : countDraws l0 = 0 := countDraws_eq_zero hp0
  have hquiet : ∀ s : State, s = queried env st2 g.char.face g.char.rune →
      s.log = st.log ++ l0 ∧ s.monotonicClock = st.monotonicClock ∧
      s.colorMCache = st.colorMCache := by
    intro s hs
    subst hs
    refine ⟨?_, ?_, ?_⟩
    · rw [hl0]; simp
    · rw [hres2.clock]; simp
    · rw [hres2.colorM]; simp
  have hdone : ∀ s : State, s = queried env st2 g.char.face g.char.rune →
      ∃ l, s.log = st.log ++ l ∧ s.monotonicClock = st.monotonicClock + countDraws l ∧
        countDraws l ≤ 1 ∧ (clr.A = 0 → countDraws l = 0 ∧ s.colorMCache = st.colorMCache) := by
    intro s hs
    obtain ⟨h1, h2, h3⟩ := hquiet s hs
    exact ⟨l0, h1, by rw [h2, hc0]; simp, by rw [hc0]; decide, fun _ => ⟨hc0, h3⟩⟩
  rcases hcase with ⟨_, hst⟩ | ⟨_, g', hd⟩
  · exact hdone st' hst
  · by_cases hA : clr.A = 0
    · rw [glyph_draw_transparent env g dst _ _ clr _ hA] at hd
      simp only [Except.ok.injEq, Prod.mk.injEq] at hd
      exact hdone st' hd.2.symm
    · obtain ⟨h1, h2, _⟩ := hquiet _ rfl
      obtain ⟨l, sx, sy, size, cm, hl, hq, _, hclk, _, _, _⟩ :=
        glyph_draw_inv env g dst _ _ clr _ g' st' hA hd
      have hcl : countDraws l = 0 :=
        countDraws_eq_zero (fun e he => isQuery_not_drawImage e (hq e he))
      refine ⟨l0 ++ l ++ [Event.drawImage dst g.char.face g.char.rune
          (wrap32 ((if prevC ≥ 0 then wrap32 (fx + env.Kern face prevC c) else fx) +
            (boundsOf env (queried env st2 g.char.face g.char.rune)
              g.char.face g.char.rune).Min.X))
          (wrap32 (fixedI y +
            (boundsOf env (queried env st2 g.char.face g.char.rune)
              g.char.face g.char.rune).Min.Y)) sx sy size cm],
        ?_, ?_, ?_, ?_⟩
      · rw [hl, h1]; simp
      · rw [hclk, h2, countDraws_append, countDraws_append, hc0, hcl]
        simp [countDraws, Event.isDrawImage]
      · rw [countDraws_append, countDraws_append, hc0, hcl]
        simp [countDraws, Event.isDrawImage]
      · intro h0; exact absurd h0 hA

/-- The effect of the loop of `Draw` on the clock, the log and the colour
cache. -/
theorem drawLoop_frame (env : Fonts) (dst : Nat) (face : Face) (y : Int) (clr : Color) (n : Int)
    (text : List Int) (st : State) (fx prevC : Int) (st' : State) (fx' p' : Int)
    (h : drawLoop env dst face y clr n text st fx prevC = .ok (st', fx', p')) :
    ∃ l, st'.log = st.log ++ l ∧
      st'.monotonicClock = st.monotonicClock + countDraws l ∧
      countDraws l ≤ text.length ∧
      (clr.A = 0 → countDraws l = 0 ∧ st'.colorMCache = st.colorMCache) := by
  induction text generalizing st fx prevC with
  | nil =>
    simp only [drawLoop, Except.ok.injEq, Prod.mk.injEq] at h
    obtain ⟨hst, _⟩ := h
    subst hst
    exact ⟨[], by simp, by simp [countDraws], by simp [countDraws], fun _ => ⟨rfl, rfl⟩⟩
  | cons c rest ih =>
    unfold drawLoop at h
    cases hr : drawRune env dst face y clr n st fx prevC c with
    | error e => simp [hr] at h
    | ok r =>
      obtain ⟨st1, fx1, p1⟩ := r
      simp only [hr] at h
      obtain ⟨l1, hl1, hc1, hle1, hA1⟩ := drawRune_frame env dst face y clr n st fx prevC c _ _ _ hr
      obtain ⟨l2, hl2, hc2, hle2, hA2⟩ := ih st1 fx1 p1 h
      refine ⟨l1 ++ l2, ?_, ?_, ?_, ?_⟩
      · rw [hl2, hl1, List.append_assoc]
      · rw [hc2, hc1, countDraws_append]; ring
      · rw [countDraws_append]
        simp only [List.length_cons, Nat.cast_add, Nat.cast_one]
        omega
      · intro hA
        obtain ⟨a1, b1⟩ := hA1 hA
        obtain ⟨a2, b2⟩ := hA2 hA
        exact ⟨by rw [countDraws_append, a1, a2]; rfl, b2.trans b1⟩


/-! ## Claims on `Draw`: the clock and transparent colours -/

theorem Draw_eq (env : Fonts) (dst : Nat) (text : List Int) (face : Face) (x y : Int)
    (clr : Color) (st : State) :
    Draw env dst text face x y clr st =
      match drawLoop env dst face y clr (now st).1 text (now st).2 (fixedI x) (-1) with
      | .error e => .error e
      | .ok r => .ok r.1 := by
  unfold Draw
  simp only
  split <;> simp_all

/-- C4, as the code has it: when `Draw` returns, the clock has advanced by one
(the `now()` of `Draw`) plus the number of composites that the call issued on
the destination (each `glyph.draw` that passes the alpha check calls `now()`
for the colour cache, on a hit as on a miss).  There is at most one composite
for each rune, and none when the colour is transparent.  The clock is an
`int64`: the call starts far enough below `math.MaxInt64` for one `now()` of
`Draw` and one for each rune, so that no `now()` of the call overflows, and
the clock is at most `math.MaxInt64` afterwards. -/
theorem Draw_advances_clock (env : Fonts) (dst : Nat) (text : List Int) (face : Face)
    (x y : Int) (clr : Color) (st st' : State)
    (hclock : st.monotonicClock + 1 + text.length ≤ MaxInt64)
    (h : Draw env dst text face x y clr st = .ok st') :
    ∃ l, st'.log = st.log ++ l ∧
      st'.monotonicClock = st.monotonicClock + 1 + countDraws l ∧
      countDraws l ≤ text.length ∧
      (clr.A = 0 → countDraws l = 0) ∧
      st'.monotonicClock ≤ MaxInt64 := by
  rw [Draw_eq] at h
  cases hl : drawLoop env dst face y clr (now st).1 text (now st).2 (fixedI x) (-1) with
  | error e => rw [hl] at h; simp at h
  | ok r =>
    obtain ⟨st2, fx, p⟩ := r
    rw [hl] at h
    simp only [Except.ok.injEq] at h
    subst h
    obtain ⟨l, h1, h2, h3, h4⟩ := drawLoop_frame env dst face y clr _ text _ _ _ _ _ _ hl
    have hval : st2.monotonicClock = st.monotonicClock + 1 + countDraws l := by
      rw [h2]; simp
    exact ⟨l, h1, hval, h3, fun hA => (h4 hA).1, by rw [hval]; omega⟩

/-- C4 as stated fails: drawing the one-rune text "A" in white from the
initial state leaves the clock at 2, not at 0 + 1. -/
theorem Draw_clock_counterexample :
    ∃ st', Draw exFonts 0 [65] exFace 0 0 exWhite State.init = .ok st' ∧
      st'.monotonicClock ≠ State.init.monotonicClock + 1 :=
  ⟨_, rfl, by decide⟩

/-- C4, at a concrete input: "AB" in white from the initial state. -/
theorem Draw_advances_clock_witness :
    State.init.monotonicClock + 1 + ([65, 66] : List Int).length ≤ MaxInt64 ∧
    ∃ st', Draw exFonts 0 [65, 66] exFace 0 0 exWhite State.init = .ok st' ∧
      ∃ l, st'.log = State.init.log ++ l ∧
        st'.monotonicClock = State.init.monotonicClock + 1 + countDraws l ∧
        countDraws l ≤ ([65, 66] : List Int).length ∧
        (exWhite.A = 0 → countDraws l = 0) ∧
        st'.monotonicClock ≤ MaxInt64 :=
  ⟨by decide, _, rfl,
    Draw_advances_clock exFonts 0 [65, 66] exFace 0 0 exWhite State.init _ (by decide) rfl⟩

/-- C5, as the code has it: with a colour whose alpha is 0, a call of `Draw`
that returns has issued no composite on a destination image, has left
`colorMCache` as it was, and has advanced the clock by one.  (The face table,
the glyph bounds and the atlases are not covered: the glyphs are resolved
all the same.)  The clock is an `int64` below `math.MaxInt64` when the call
starts, so that the one `now()` of the call does not overflow. -/
theorem Draw_transparent (env : Fonts) (dst : Nat) (text : List Int) (face : Face)
    (x y : Int) (clr : Color) (st st' : State) (hA : clr.A = 0)
    (hclock : st.monotonicClock < MaxInt64)
    (h : Draw env dst text face x y clr st = .ok st') :
    st'.colorMCache = st.colorMCache ∧
    st'.monotonicClock = st.monotonicClock + 1 ∧
    st'.monotonicClock ≤ MaxInt64 ∧
    ∃ l, st'.log = st.log ++ l ∧ ∀ e ∈ l, e.isDrawImage = false := by
  rw [Draw_eq] at h
  cases hl : drawLoop env dst face y clr (now st).1 text (now st).2 (fixedI x) (-1) with
  | error e => rw [hl] at h; simp at h
  | ok r =>
    obtain ⟨st2, fx, p⟩ := r
    rw [hl] at h
    simp only [Except.ok.injEq] at h
    subst h
    obtain ⟨l, h1, h2, _, h4⟩ := drawLoop_frame env dst face y clr _ text _ _ _ _ _ _ hl
    obtain ⟨hc, hm⟩ := h4 hA
    have hval : st2.monotonicClock = st.monotonicClock + 1 := by
      rw [h2, hc]; simp
    refine ⟨hm, hval, by rw [hval]; omega, l, h1, ?_⟩
    intro e he
    simp only [countDraws, Nat.cast_eq_zero, List.length_eq_zero, List.filter_eq_nil_iff] at hc
    simpa using hc e he

/-- C5 as stated fails: drawing "A" with a transparent colour from the
initial state registers the face, memoises the bounds, creates an atlas and
rasterises the glyph into it. -/
theorem Draw_transparent_counterexample :
    ∃ st', Draw exFonts 0 [65] exFace 0 0 exClear State.init = .ok st' ∧
      st'.faces ≠ State.init.faces ∧ st'.charBounds ≠ State.init.charBounds ∧
      st'.atlases ≠ State.init.atlases ∧
      Event.rasterize exFace 65 512 0 0 ∈ st'.log :=
  ⟨_, rfl, by decide, by decide, by decide, by decide⟩

/-- C5, at a concrete input: "A" with a transparent colour from the initial
state. -/
theorem Draw_transparent_witness :
    exClear.A = 0 ∧ State.init.monotonicClock < MaxInt64 ∧
    ∃ st', Draw exFonts 0 [65] exFace 0 0 exClear State.init = .ok st' ∧
      st'.colorMCache = State.init.colorMCache ∧
      st'.monotonicClock = State.init.monotonicClock + 1 ∧
      st'.monotonicClock ≤ MaxInt64 ∧
      ∃ l, st'.log = State.init.log ++ l ∧ ∀ e ∈ l, e.isDrawImage = false :=
  ⟨rfl, by decide, _, rfl,
    Draw_transparent exFonts 0 [65] exFace 0 0 exClear State.init _ rfl (by decide) rfl⟩

/-- C6 fails on the code: for a glyph wider than the 1024-pixel atlas image
the atlas group is 2048, `maxGlyphNum()` is 0, the fresh atlas counts as full
with nothing to evict, and `appendGlyph` reaches its `panic("not reached")`. -/
theorem getGlyphFromCache_reaches_panic :
    getGlyphFromCache exHuge exFace 90 1 State.init = .error .appendGlyphNotReached ∧
    Draw exHuge 0 [90] exFace 0 0 exWhite State.init = .error .appendGlyphNotReached :=
  ⟨rfl, rfl⟩


/-! ## Claims on `getGlyphFromCache`: the hit -/

/-- C9: when the rune `r` is in the atlas of its group, `getGlyphFromCache`
returns the glyph found there with its cell index unchanged and its `atime`
set to `now`.  Nothing is rasterised and no image is allocated (the log grows
by queries of glyph bounds at most), the atlases of other faces, the other
atlases of the face, the image and glyph size of the atlas and every other
glyph of its table are as before, and the entry of `r` holds the returned
glyph.  Hence a further call hits again and returns the same cell index. -/
theorem getGlyphFromCache_hit (env : Fonts) (face : Face) (r : Int) (now : Int) (st : State)
    (m : List (Int × atlas)) (a : atlas) (g0 : glyph)
    (hm : mapGet st.atlases face = some m)
    (ha : mapGet m (({ face := face, rune := r, atlasG := 0 } : char).atlasGroup env st).1 =
      some a)
    (hg : mapGet a.runeToGlyph r = some g0) :
    ∃ st', getGlyphFromCache env face r now st = .ok ({ g0 with atime := now }, st') ∧
      (∃ l, st'.log = st.log ++ l ∧ ∀ e ∈ l, e.isQuery = true) ∧
      st'.monotonicClock = st.monotonicClock ∧ st'.faces = st.faces ∧
      st'.colorMCache = st.colorMCache ∧
      (∀ f, f ≠ face → mapGet st'.atlases f = mapGet st.atlases f) ∧
      (∃ m' a', mapGet st'.atlases face = some m' ∧
        (∀ key, key ≠ (({ face := face, rune := r, atlasG := 0 } : char).atlasGroup env st).1 →
          mapGet m' key = mapGet m key) ∧
        mapGet m' (({ face := face, rune := r, atlasG := 0 } : char).atlasGroup env st).1 =
          some a' ∧
        a'.glyphSize = a.glyphSize ∧ a'.imageWidth = a.imageWidth ∧
        a'.imageHeight = a.imageHeight ∧ a'.tmpImage = a.tmpImage ∧
        a'.runeToGlyph.map Prod.fst = a.runeToGlyph.map Prod.fst ∧
        (∀ k, k ≠ r → mapGet a'.runeToGlyph k = mapGet a.runeToGlyph k) ∧
        mapGet a'.runeToGlyph r = some { g0 with atime := now }) ∧
      (∀ now2, ∃ g2 st'', getGlyphFromCache env face r now2 st' = .ok (g2, st'') ∧
        g2.index = g0.index ∧ g2.atime = now2) := by
  rw [atlasGroup_fresh] at ha
  simp only [atlasGroup_fresh]
  have hhit := getGlyph_hit env face r now st m a g0 hm ha hg
  refine ⟨_, hhit, ?_, ?_, ?_, ?_, ?_, ?_, ?_⟩
  · obtain ⟨l, hl, hp⟩ := logExt_queried env st face r
    exact ⟨l, hl, hp⟩
  · simp
  · simp
  · simp
  · intro f hf
    exact mapGet_mapSet_ne _ _ (Ne.symm hf)
  · refine ⟨_, _, mapGet_mapSet_self _ _ _, ?_, mapGet_mapSet_self _ _ _, rfl, rfl, rfl, rfl,
      ?_, ?_, ?_⟩
    · intro key hk
      exact mapGet_mapSet_ne _ _ (Ne.symm hk)
    · apply mapSet_keys_of_mem
      exact List.mem_map.mpr ⟨(r, g0), mem_of_mapGet hg, rfl⟩
    · intro k hk
      exact mapGet_mapSet_ne _ _ (Ne.symm hk)
    · exact mapGet_mapSet_self _ _ _
  · intro now2
    have hb : boundsOf env ({ queried env st face r with
        atlases := mapSet st.atlases face (mapSet m (groupB (boundsOf env st face r))
          { a with runeToGlyph := mapSet a.runeToGlyph r { g0 with atime := now } }) })
        face r = boundsOf env st face r :=
      boundsOf_queried env st face r face r
    have h2 := getGlyph_hit env face r now2
      ({ queried env st face r with
        atlases := mapSet st.atlases face (mapSet m (groupB (boundsOf env st face r))
          { a with runeToGlyph := mapSet a.runeToGlyph r { g0 with atime := now } }) })
      (mapSet m (groupB (boundsOf env st face r))
          { a with runeToGlyph := mapSet a.runeToGlyph r { g0 with atime := now } })
      { a with runeToGlyph := mapSet a.runeToGlyph r { g0 with atime := now } }
      { g0 with atime := now }
      (mapGet_mapSet_self st.atlases face _)
      (by rw [hb]; exact mapGet_mapSet_self m _ _)
      (mapGet_mapSet_self a.runeToGlyph r { g0 with atime := now })
    exact ⟨_, _, h2, rfl, rfl⟩


/-! ## The invariant of the atlases -/

theorem settled_congr (env : Fonts) {st st' : State} (h : SameBounds env st st') (face : Face)
    (r : Int) : settled env st' face r = settled env st face r := by
  simp [settled, h.1]

theorem GlyphOK.glyphMono {env : Fonts} {st st' : State} {face : Face} {key k : Int} {g : glyph}
    (h : GlyphOK env st face key k g) (hb : SameBounds env st st')
    (hc : st.monotonicClock ≤ st'.monotonicClock) : GlyphOK env st' face key k g :=
  ⟨by rw [settled_congr env hb]; exact h.char, by rw [hb.1]; exact h.group,
   by rw [hb.1]; exact h.nonEmpty, le_trans h.atime hc⟩

theorem AtlasOK.atlasMono {env : Fonts} {st st' : State} {face : Face} {key : Int} {a : atlas}
    (h : AtlasOK env st face key a) (hb : SameBounds env st st')
    (hc : st.monotonicClock ≤ st'.monotonicClock) : AtlasOK env st' face key a :=
  ⟨h.size, h.width, h.height, h.pos, h.fits, h.keys,
   fun k g hm => (h.glyphs k g hm).glyphMono hb hc, h.bound⟩

theorem WF.wfMono {env : Fonts} {st st' : State} (h : WF env st)
    (ha : st'.atlases = st.atlases) (hb : SameBounds env st st')
    (hc : st.monotonicClock ≤ st'.monotonicClock) : WF env st' := by
  intro face m key a hm hk
  rw [ha] at hm
  exact (h face m key a hm hk).atlasMono hb hc

theorem groupB_nonneg (b : Rectangle26_6) : 0 ≤ groupB b := by
  unfold groupB
  split
  · decide
  · unfold NextPowerOf2Int; exact Int.ofNat_nonneg _

theorem AtlasOK.cells_pos {env : Fonts} {st : State} {face : Face} {key : Int} {a : atlas}
    (h : AtlasOK env st face key a) : 0 < a.cells := by
  unfold atlas.cells
  have hp : 0 < a.glyphSize := by rw [h.size]; exact h.pos
  have hw : a.glyphSize ≤ a.imageWidth := by rw [h.size, h.width]; exact h.fits
  have hh : a.glyphSize ≤ a.imageHeight := by rw [h.size, h.height]; exact h.fits
  exact Int.mul_pos (tdiv_pos_of_le hp hw) (tdiv_pos_of_le hp hh)

/-- The atlas after a hit. -/
theorem AtlasOK.touch {env : Fonts} {st : State} {face : Face} {key : Int} {a : atlas}
    (h : AtlasOK env st face key a) {r : Int} {g0 : glyph} (now : Int)
    (hg : mapGet a.runeToGlyph r = some g0) (hnow : now ≤ st.monotonicClock) :
    AtlasOK env st face key
      { a with runeToGlyph := mapSet a.runeToGlyph r { g0 with atime := now } } := by
  have hmem : (r, g0) ∈ a.runeToGlyph := mem_of_mapGet hg
  have hkey : r ∈ a.runeToGlyph.map Prod.fst := List.mem_map.mpr ⟨(r, g0), hmem, rfl⟩
  refine ⟨h.size, h.width, h.height, h.pos, h.fits, ?_, ?_, ?_⟩
  · exact mapSet_nodup _ _ _ h.keys
  · intro k g hm
    rcases mem_mapSet hm with he | he
    · simp only [Prod.mk.injEq] at he
      obtain ⟨hk, hgg⟩ := he
      subst hk; subst hgg
      have h0 := h.glyphs k g0 hmem
      exact ⟨h0.char, h0.group, h0.nonEmpty, hnow⟩
    · exact h.glyphs k g he
  · have : mapLen (mapSet a.runeToGlyph r { g0 with atime := now }) = mapLen a.runeToGlyph := by
      simp only [mapLen]; rw [mapSet_length_of_mem _ _ _ hkey]
    show mapLen (mapSet a.runeToGlyph r { g0 with atime := now }) ≤ _
    rw [this]; exact h.bound

/-- The atlas after the insertion of a new glyph into the cell that
`selectCell` chose. -/
theorem AtlasOK.insert {env : Fonts} {st : State} {face : Face} {key : Int} {a : atlas}
    (h : AtlasOK env st face key a) {r idx now : Int} {mm : List (Int × glyph)}
    (hsel : a.selectCell a.cells = .ok (idx, mm))
    (hgrp : groupB (boundsOf env st face r) = key)
    (hne : emptyB (boundsOf env st face r) = false)
    (hnow : now ≤ st.monotonicClock) :
    AtlasOK env st face key
      { a with tmpImage := true,
               runeToGlyph := mapSet mm r
                 { char := settled env st face r, index := idx, atime := now } } := by
  have hnew : GlyphOK env st face key r
      { char := settled env st face r, index := idx, atime := now } := ⟨rfl, hgrp, hne, hnow⟩
  rcases selectCell_inv a a.cells idx mm hsel with ⟨hnf, _, hmm⟩ | ⟨hfull, k, old, hmem, _, _, hmm⟩
  · subst hmm
    refine ⟨h.size, h.width, h.height, h.pos, h.fits, mapSet_nodup _ _ _ h.keys, ?_, ?_⟩
    · intro k g hm
      rcases mem_mapSet hm with he | he
      · simp only [Prod.mk.injEq] at he
        obtain ⟨hk, hgg⟩ := he
        subst hk; subst hgg
        exact hnew
      · exact h.glyphs k g he
    · have h1 := mapSet_length_le a.runeToGlyph r
        { char := settled env st face r, index := idx, atime := now }
      have h2 := h.bound
      show mapLen (mapSet a.runeToGlyph r _) ≤ a.cells
      simp only [mapLen] at h2 hnf ⊢
      omega
  · subst hmm
    have hk : old.char.rune = k := by rw [(h.glyphs k old hmem).char]; rfl
    have hkin : old.char.rune ∈ a.runeToGlyph.map Prod.fst :=
      List.mem_map.mpr ⟨(k, old), hmem, hk.symm⟩
    refine ⟨h.size, h.width, h.height, h.pos, h.fits,
      mapSet_nodup _ _ _ (mapDelete_nodup _ _ h.keys), ?_, ?_⟩
    · intro k' g hm
      rcases mem_mapSet hm with he | he
      · simp only [Prod.mk.injEq] at he
        obtain ⟨hk', hgg⟩ := he
        subst hk'; subst hgg
        exact hnew
      · exact h.glyphs k' g (mem_mapDelete.mp he).1
    · have h1 := mapSet_length_le (mapDelete a.runeToGlyph old.char.rune) r
        { char := settled env st face r, index := idx, atime := now }
      have h2 := mapDelete_length_of_mem a.runeToGlyph old.char.rune h.keys hkin
      have h3 := h.bound
      show mapLen (mapSet (mapDelete a.runeToGlyph old.char.rune) r _) ≤ a.cells
      simp only [mapLen] at h3 ⊢
      omega

/-- The atlas that `getGlyphFromCache` creates, once `appendGlyph` has
succeeded on it, has at least one cell. -/
theorem freshAtlas_ok (env : Fonts) (st : State) (face : Face) (r : Int)
    (hgs : groupB (boundsOf env st face r) ≠ 0)
    (hx : Int.tdiv 1024 (groupB (boundsOf env st face r)) ≠ 0) :
    AtlasOK env st face (groupB (boundsOf env st face r))
      (freshAtlas (groupB (boundsOf env st face r))) := by
  have hpos : 0 < groupB (boundsOf env st face r) := by
    have := groupB_nonneg (boundsOf env st face r); omega
  have hfit : groupB (boundsOf env st face r) ≤ 1024 := by
    by_contra hc
    exact hx (Int.tdiv_eq_zero_of_lt (by decide) (by omega))
  refine ⟨rfl, rfl, rfl, hpos, hfit, by simp [freshAtlas], ?_, ?_⟩
  · intro k g hm; simp [freshAtlas] at hm
  · have hc : 0 < (freshAtlas (groupB (boundsOf env st face r))).cells := by
      unfold atlas.cells
      exact Int.mul_pos (tdiv_pos_of_le hpos hfit) (tdiv_pos_of_le hpos hfit)
    simp only [freshAtlas, mapLen, List.length_nil] at hc ⊢
    exact le_of_lt hc

theorem wf_init (env : Fonts) : WF env State.init := by
  intro face m key a hm _
  simp [State.init, mapGet] at hm


theorem getD_of_mapGet {κ ν : Type} [DecidableEq κ] {x : Option (List (κ × ν))} {k : κ} {v : ν}
    (h : mapGet (x.getD []) k = some v) : x = some (x.getD []) := by
  cases x with
  | none => simp [mapGet] at h
  | some m => rfl

/-- `getGlyphFromCache`, called with a reading of the clock, keeps the
invariant of the atlases. -/
theorem wf_getGlyph (env : Fonts) (face : Face) (r : Int) (now : Int) (st : State)
    (g : glyph) (st' : State) (hwf : WF env st) (hnow : now ≤ st.monotonicClock)
    (h : getGlyphFromCache env face r now st = .ok (g, st')) : WF env st' := by
  obtain ⟨hres, hcase⟩ := getGlyph_cases env face r now st g st' h
  have hclk : st.monotonicClock ≤ st'.monotonicClock := by rw [hres.clock]
  intro f m' key a' hm' hk'
  rcases hcase with ⟨m, a, g0, hm, ha, hg, _, hat, _⟩ |
      ⟨_, _, _, _, _, hother, hface, _⟩ |
      ⟨he, a, idx, mm, hslot, hsize, hgs, hx, hsel, _, hat, _⟩
  · rw [hat] at hm'
    by_cases hf : f = face
    · subst hf
      rw [mapGet_mapSet_self] at hm'
      simp only [Option.some.injEq] at hm'
      subst hm'
      by_cases hkey : key = groupB (boundsOf env st f r)
      · subst hkey
        rw [mapGet_mapSet_self] at hk'
        simp only [Option.some.injEq] at hk'
        subst hk'
        exact ((hwf f m _ a hm ha).touch now hg hnow).atlasMono hres.bounds hclk
      · rw [mapGet_mapSet_ne _ _ (Ne.symm hkey)] at hk'
        exact (hwf f m key a' hm hk').atlasMono hres.bounds hclk
    · rw [mapGet_mapSet_ne _ _ (Ne.symm hf)] at hm'
      exact (hwf f m' key a' hm' hk').atlasMono hres.bounds hclk
  · by_cases hf : f = face
    · subst hf
      rw [hface] at hm'
      simp only [Option.some.injEq] at hm'
      subst hm'
      have := getD_of_mapGet hk'
      exact (hwf f _ key a' this hk').atlasMono hres.bounds hclk
    · rw [hother f hf] at hm'
      exact (hwf f m' key a' hm' hk').atlasMono hres.bounds hclk
  · rw [hat] at hm'
    by_cases hf : f = face
    · subst hf
      rw [mapGet_mapSet_self] at hm'
      simp only [Option.some.injEq] at hm'
      subst hm'
      by_cases hkey : key = groupB (boundsOf env st f r)
      · subst hkey
        rw [mapGet_mapSet_self] at hk'
        simp only [Option.some.injEq] at hk'
        subst hk'
        have hok : AtlasOK env st f (groupB (boundsOf env st f r)) a := by
          rcases hslot with ⟨hex, _⟩ | ⟨_, hfresh⟩
          · exact hwf f _ _ a (getD_of_mapGet hex) hex
          · subst hfresh
            exact freshAtlas_ok env st f r (by simpa [freshAtlas] using hgs)
              (by simpa [freshAtlas] using hx)
        exact (hok.insert hsel rfl he hnow).atlasMono hres.bounds hclk
      · rw [mapGet_mapSet_ne _ _ (Ne.symm hkey)] at hk'
        exact (hwf f _ key a' (getD_of_mapGet hk') hk').atlasMono hres.bounds hclk
    · rw [mapGet_mapSet_ne _ _ (Ne.symm hf)] at hm'
      exact (hwf f m' key a' hm' hk').atlasMono hres.bounds hclk

/-- Every reachable state satisfies the invariant of the atlases. -/
theorem Reachable.wf {env : Fonts} {st : State} (h : Reachable env st) : WF env st := by
  induction h with
  | init => exact wf_init env
  | tick _ ih =>
    exact ih.wfMono rfl (SameBounds.of_charBounds rfl) (by simp)
  | face f _ ih =>
    exact ih.wfMono (fontFaceToFace_atlases f _)
      (SameBounds.of_charBounds (fontFaceToFace_charBounds f _)) (by simp)
  | bounds c _ ih =>
    rw [bounds_eq]
    exact ih.wfMono (queried_atlases env _ _ _) (sameBounds_queried env _ _ _) (by simp)
  | getGlyph _ hnow hg ih => exact wf_getGlyph env _ _ _ _ _ _ ih hnow hg
  | @glyphDraw st st' g g' dst x y clr _ hd ih =>
    by_cases hA : clr.A = 0
    · rw [glyph_draw_transparent env g dst x y clr st hA] at hd
      simp only [Except.ok.injEq, Prod.mk.injEq] at hd
      rw [← hd.2]; exact ih
    · obtain ⟨_, _, _, _, _, _, _, _, hclk, _, hat, hb⟩ :=
        glyph_draw_inv env g dst x y clr st g' st' hA hd
      exact ih.wfMono hat hb (by rw [hclk]; omega)


/-! ## Claims on the capacity of an atlas and on eviction -/

/-- A call of `appendGlyph` that returns went through `selectCell`. -/
theorem appendGlyph_inv (env : Fonts) (a : atlas) (ch : char) (now : Int) (st : State)
    (g : glyph) (a' : atlas) (st' : State)
    (h : a.appendGlyph env ch now st = .ok (g, a', st')) :
    ∃ idx mm, a.glyphSize ≠ 0 ∧ a.selectCell a.cells = .ok (idx, mm) ∧
      g = newGlyph env ch now st idx ∧ a' = newAtlas env a ch now st idx mm := by
  rw [appendGlyph_eq] at h
  by_cases hgs : a.glyphSize = 0
  · simp [hgs] at h
  · simp only [hgs, if_false] at h
    cases hsel : a.selectCell a.cells with
    | error e => simp [hsel] at h
    | ok r =>
      obtain ⟨idx, mm⟩ := r
      simp only [hsel] at h
      split_ifs at h
      simp only [Except.ok.injEq, Prod.mk.injEq] at h
      exact ⟨idx, mm, hgs, rfl, h.1.symm, h.2.1.symm⟩

/-- The table after an insertion into a full atlas is as long as before. -/
theorem length_after_eviction (a : atlas) (r idx : Int) (mm : List (Int × glyph)) (v : glyph)
    (hkeys : (a.runeToGlyph.map Prod.fst).Nodup)
    (hown : ∀ e ∈ a.runeToGlyph, e.2.char.rune = e.1)
    (hnew : mapGet a.runeToGlyph r = none)
    (hfull : mapLen a.runeToGlyph = a.cells)
    (hsel : a.selectCell a.cells = .ok (idx, mm)) :
    mapLen (mapSet mm r v) = mapLen a.runeToGlyph := by
  rcases selectCell_inv a a.cells idx mm hsel with ⟨hnf, _, _⟩ | ⟨_, k, old, hmem, _, _, hmm⟩
  · exact absurd hfull hnf
  · subst hmm
    have hk : old.char.rune = k := hown (k, old) hmem
    have hkin : old.char.rune ∈ a.runeToGlyph.map Prod.fst :=
      List.mem_map.mpr ⟨(k, old), hmem, hk.symm⟩
    have hr : r ∉ (mapDelete a.runeToGlyph old.char.rune).map Prod.fst := by
      intro hin
      have := (mapDelete_keys_sublist a.runeToGlyph old.char.rune).subset hin
      exact (mapGet_eq_none_iff _ _).mp hnew this
    have h1 := mapSet_length_of_not_mem _ r v hr
    have h2 := mapDelete_length_of_mem a.runeToGlyph old.char.rune hkeys hkin
    simp only [mapLen]
    omega

/-- C2: in every reachable state, every atlas `atlases[face][key]` has
`maxGlyphNum() = (imageWidth/glyphSize) * (imageHeight/glyphSize)` and holds
at most that many glyphs; and an `appendGlyph` of a new rune into such an
atlas when it is full (`len(runeToGlyph) == maxGlyphNum()`) leaves the table
as long as it was. -/
theorem atlas_capacity (env : Fonts) (st : State) (hreach : Reachable env st)
    (face : Face) (m : List (Int × atlas)) (key : Int) (a : atlas)
    (hm : mapGet st.atlases face = some m) (ha : mapGet m key = some a) :
    a.maxGlyphNum =
      .ok (Int.tdiv a.imageWidth a.glyphSize * Int.tdiv a.imageHeight a.glyphSize) ∧
    mapLen a.runeToGlyph ≤
      Int.tdiv a.imageWidth a.glyphSize * Int.tdiv a.imageHeight a.glyphSize ∧
    ∀ (ch : char) (now : Int) (s : State) (g : glyph) (a' : atlas) (s' : State),
      mapGet a.runeToGlyph ch.rune = none →
      a.maxGlyphNum = .ok (mapLen a.runeToGlyph) →
      a.appendGlyph env ch now s = .ok (g, a', s') →
      mapLen a'.runeToGlyph = mapLen a.runeToGlyph := by
  have hok := hreach.wf face m key a hm ha
  have hgs : a.glyphSize ≠ 0 := by
    rw [hok.size]; exact ne_of_gt hok.pos
  refine ⟨by rw [maxGlyphNum_eq]; simp [hgs, atlas.cells], hok.bound, ?_⟩
  intro ch now s g a' s' hnew hfull happ
  rw [maxGlyphNum_eq] at hfull
  simp only [hgs, if_false, Except.ok.injEq] at hfull
  obtain ⟨idx, mm, _, hsel, _, ha'⟩ := appendGlyph_inv env a ch now s g a' s' happ
  rw [ha', newAtlas_eq]
  refine length_after_eviction a ch.rune idx mm _ hok.keys ?_ hnew hfull.symm hsel
  intro e he
  rw [(hok.glyphs e.1 e.2 he).char]
  rfl

/-- C2, at a concrete input: the atlas that resolving "A" creates from the
initial state. -/
theorem atlas_capacity_witness :
    ∃ g st m a, getGlyphFromCache exFonts exFace 65 0 State.init = .ok (g, st) ∧
      mapGet st.atlases exFace = some m ∧ mapGet m 512 = some a ∧
      (a.maxGlyphNum =
        .ok (Int.tdiv a.imageWidth a.glyphSize * Int.tdiv a.imageHeight a.glyphSize) ∧
      mapLen a.runeToGlyph ≤
        Int.tdiv a.imageWidth a.glyphSize * Int.tdiv a.imageHeight a.glyphSize ∧
      ∀ (ch : char) (now : Int) (s : State) (g : glyph) (a' : atlas) (s' : State),
        mapGet a.runeToGlyph ch.rune = none →
        a.maxGlyphNum = .ok (mapLen a.runeToGlyph) →
        a.appendGlyph exFonts ch now s = .ok (g, a', s') →
        mapLen a'.runeToGlyph = mapLen a.runeToGlyph) :=
  ⟨_, _, _, _, rfl, rfl, rfl,
    atlas_capacity exFonts _
      (@Reachable.getGlyph exFonts State.init _ exFace 65 0 _ Reachable.init (by decide) rfl)
      exFace _ 512 _ rfl rfl⟩


/-! ## The claims on `appendGlyph` and on the hit, at concrete inputs -/

/-- C1, at a concrete input: a fifth rune is appended to the full four-cell
atlas `exAtlasFull`. -/
theorem appendGlyph_evicts_least_recent_witness :
    ∃ k old g a' st',
      (k, old) ∈ exAtlasFull.runeToGlyph ∧
      (∀ e ∈ exAtlasFull.runeToGlyph, e ≠ (k, old) → old.atime < e.2.atime) ∧
      exAtlasFull.appendGlyph exFonts { face := exFace, rune := 69, atlasG := 0 } 5 State.init =
        .ok (g, a', st') ∧
      mapGet a'.runeToGlyph k = none ∧
      (∀ k', k' ≠ k → k' ≠ 69 → mapGet a'.runeToGlyph k' = mapGet exAtlasFull.runeToGlyph k') ∧
      mapGet a'.runeToGlyph 69 = some g :=
  appendGlyph_evicts_least_recent exFonts exAtlasFull { face := exFace, rune := 69, atlasG := 0 }
    5 State.init (by decide) rfl (by decide) (by decide) (by decide) (by decide) (by decide)

/-- C7, at a concrete input: a fifth rune is appended to the full four-cell
atlas `exAtlasFull`. -/
theorem appendGlyph_cell_index_witness :
    ∃ g a' st',
      exAtlasFull.appendGlyph exFonts { face := exFace, rune := 69, atlasG := 0 } 5 State.init =
        .ok (g, a', st') ∧
      mapGet a'.runeToGlyph 69 = some g ∧
      (exAtlasFull.maxGlyphNum ≠ .ok (mapLen exAtlasFull.runeToGlyph) →
        g.index = mapLen exAtlasFull.runeToGlyph ∧
        mapLen a'.runeToGlyph = mapLen exAtlasFull.runeToGlyph + 1) ∧
      (exAtlasFull.maxGlyphNum = .ok (mapLen exAtlasFull.runeToGlyph) →
        ∃ k old, (k, old) ∈ exAtlasFull.runeToGlyph ∧
          (∀ e ∈ exAtlasFull.runeToGlyph, old.atime ≤ e.2.atime) ∧
          mapGet a'.runeToGlyph k = none ∧ g.index = old.index) :=
  appendGlyph_cell_index exFonts exAtlasFull { face := exFace, rune := 69, atlasG := 0 }
    5 State.init (by decide) (by decide) (by decide) (by decide) (by decide) (by decide)
    (by decide)

/-- C9, at a concrete input: the rune 66 is looked up in the state `exState`,
whose atlas of group 512 holds it in cell 1. -/
theorem getGlyphFromCache_hit_witness :
    ∃ st', getGlyphFromCache exFonts exFace 66 7 exState =
        .ok ({ exGlyph 66 1 1 with atime := 7 }, st') ∧
      ∀ now2, ∃ g2 st'', getGlyphFromCache exFonts exFace 66 now2 st' = .ok (g2, st'') ∧
        g2.index = 1 ∧ g2.atime = now2 :=
  (getGlyphFromCache_hit exFonts exFace 66 7 exState [(512, exAtlasFull)] exAtlasFull
    (exGlyph 66 1 1) rfl rfl rfl).imp
    (fun _ h => ⟨h.1, h.2.2.2.2.2.2.2⟩)


/-- An insertion into an existing atlas: the rune is not in the atlas of its
group, the glyph is not empty, and `selectCell` finds a cell. -/
theorem getGlyph_insert (env : Fonts) (face : Face) (r : Int) (now : Int) (st : State)
    (m : List (Int × atlas)) (a : atlas) (idx : Int) (mm : List (Int × glyph))
    (hm : mapGet st.atlases face = some m)
    (ha : mapGet m (groupB (boundsOf env st face r)) = some a)
    (hnew : mapGet a.runeToGlyph r = none)
    (he : emptyB (boundsOf env st face r) = false)
    (hsize : a.glyphSize = groupB (boundsOf env st face r))
    (hgs : a.glyphSize ≠ 0) (hx : Int.tdiv a.imageWidth a.glyphSize ≠ 0)
    (hsel : a.selectCell a.cells = .ok (idx, mm)) :
    ∃ st', getGlyphFromCache env face r now st =
        .ok ({ char := settled env st face r, index := idx, atime := now }, st') ∧
      st'.atlases = mapSet st.atlases face (mapSet m (groupB (boundsOf env st face r))
        { a with tmpImage := true,
                 runeToGlyph := mapSet mm r
                   { char := settled env st face r, index := idx, atime := now } }) ∧
      Resolves env st st' ∧
      ∃ l x y, st'.log = st.log ++ l ++
        [Event.rasterize face r (groupB (boundsOf env st face r)) x y] := by
  have hq := resolves_queried env st face r
  have hbq : boundsOf env (queried env st face r) face r = boundsOf env st face r :=
    boundsOf_queried env st _ _ _ _
  have hst := atlasGroup_settled env face r st (queried env st face r) hbq
  have hbq2 : boundsOf env (queried env (queried env st face r) face r) face r =
      boundsOf env st face r := by rw [boundsOf_queried, hbq]
  have hst2 := atlasGroup_settled env face r st (queried env (queried env st face r) face r) hbq2
  have hm' : mapGet (queried env (queried env st face r) face r).atlases face = some m := by
    simp only [queried_atlases]; exact hm
  obtain ⟨st', h1, h2, h3, l, x, y, h4⟩ := insertGlyph_ok env face (groupB (boundsOf env st face r))
    a (settled env st face r) now (queried env (queried env st face r) face r) m idx mm hm' hsel
    (by rw [hst2.1]; exact hsize) hgs hx
  refine ⟨st', ?_, ?_, (hq.resTrans (resolves_queried env _ face r)).resTrans h3, ?_⟩
  · unfold getGlyphFromCache
    simp only [hm, atlasGroup_fresh, ha, hnew]
    unfold getGlyphMiss
    rw [empty_eq]
    have hface : (settled env st face r).face = face := rfl
    have hrune : (settled env st face r).rune = r := rfl
    simp only [hface, hrune, hbq, he, Bool.false_eq_true, if_false]
    rw [h1]
    simp only [newGlyph, hst2.2]
  · rw [h2, newAtlas_eq]
    simp only [queried_atlases, newGlyph, hst2.2]
    rfl
  · obtain ⟨l0, hl0, _⟩ := (hq.resTrans (resolves_queried env _ face r)).log
    refine ⟨l0 ++ l, x, y, ?_⟩
    rw [h4, hl0, hsize]
    simp [settled]

/-- The eviction scan selects the entry that it visits first among those of
least `atime`: the entries before it are strictly younger, the entries after
it are not older. -/
theorem oldestGlyph_first (m : List (Int × glyph)) (o : Option glyph) (t : Int) :
    (oldestGlyph m o t = o ∧ ∀ e ∈ m, t ≤ e.2.atime) ∨
    (∃ pre k g post, m = pre ++ (k, g) :: post ∧ oldestGlyph m o t = some g ∧ g.atime < t ∧
      (∀ e ∈ pre, g.atime < e.2.atime) ∧ (∀ e ∈ post, g.atime ≤ e.2.atime)) := by
  induction m generalizing o t with
  | nil => left; simp [oldestGlyph]
  | cons e0 rest ih =>
    obtain ⟨k0, g0⟩ := e0
    by_cases hlt : g0.atime < t
    · simp only [oldestGlyph, hlt, if_true]
      rcases ih (some g0) g0.atime with ⟨h1, h2⟩ | ⟨pre, k, g, post, hm, h1, h2, h3, h4⟩
      · right
        exact ⟨[], k0, g0, rest, rfl, h1, hlt, by simp, h2⟩
      · right
        refine ⟨(k0, g0) :: pre, k, g, post, by rw [hm]; rfl, h1, by omega, ?_, h4⟩
        intro e he
        rcases List.mem_cons.mp he with h | h
        · rw [h]; exact h2
        · exact h3 e h
    · simp only [oldestGlyph, hlt, if_false]
      rcases ih o t with ⟨h1, h2⟩ | ⟨pre, k, g, post, hm, h1, h2, h3, h4⟩
      · left
        refine ⟨h1, ?_⟩
        intro e he
        rcases List.mem_cons.mp he with h | h
        · rw [h]; exact not_lt.mp hlt
        · exact h2 e h
      · right
        refine ⟨(k0, g0) :: pre, k, g, post, by rw [hm]; rfl, h1, h2, ?_, h4⟩
        intro e he
        rcases List.mem_cons.mp he with h | h
        · rw [h]; have := not_lt.mp hlt; simp only; omega
        · exact h3 e h

/-- In a full atlas with a timestamp below `math.MaxInt64`, `selectCell`
takes the cell of the entry that the scan visits first among those of least
`atime`. -/
theorem selectCell_first (a : atlas) (max : Int) (h : mapLen a.runeToGlyph = max)
    (hc : ∃ e ∈ a.runeToGlyph, e.2.atime < MaxInt64) :
    ∃ pre k old post, a.runeToGlyph = pre ++ (k, old) :: post ∧
      (∀ e ∈ pre, old.atime < e.2.atime) ∧ (∀ e ∈ post, old.atime ≤ e.2.atime) ∧
      a.selectCell max = .ok (old.index, mapDelete a.runeToGlyph old.char.rune) := by
  rcases oldestGlyph_first a.runeToGlyph none MaxInt64 with
    ⟨_, h2⟩ | ⟨pre, k, g, post, hm, h1, _, h3, h4⟩
  · obtain ⟨e, he, hlt⟩ := hc
    have := h2 e he
    omega
  · exact ⟨pre, k, g, post, hm, h3, h4, by simp [atlas.selectCell, h, h1]⟩

/-- C8, as the code has it: in a reachable state whose clock is below
`math.MaxInt64`, let the atlas of the bucket of a non-empty rune `r` of `face`
be full and not hold `r`.  Then `getGlyphFromCache(face, r, now)` returns, and
the rune `k` that is no longer mapped is the one whose glyph the scan visits
first among those of least `atime`: the entries visited before it are
strictly younger, the entries after it are not older.  (The `atime` of a
glyph is the reading of the clock in the call of `Draw` that resolved it
last, so `k` is the least recently accessed rune when the timestamps are
pairwise distinct; runes resolved by one call of `Draw` share a timestamp.)
The rune `r` is mapped to the returned glyph in the cell of `k`, every other
entry is as before (cell index and timestamp included) and the table is as
long as before.  A following `getGlyphFromCache` for the evicted rune `k` is
a miss that inserts again: it rasterises `k` into the atlas. -/
theorem evicts_then_misses (env : Fonts) (st : State) (hreach : Reachable env st)
    (hclock : st.monotonicClock < MaxInt64)
    (face : Face) (r now : Int) (m : List (Int × atlas)) (a : atlas)
    (hnow : now ≤ st.monotonicClock)
    (hm : mapGet st.atlases face = some m)
    (ha : mapGet m (({ face := face, rune := r, atlasG := 0 } : char).atlasGroup env st).1 =
      some a)
    (hfull : a.maxGlyphNum = .ok (mapLen a.runeToGlyph))
    (hnew : mapGet a.runeToGlyph r = none)
    (hne : (({ face := face, rune := r, atlasG := 0 } : char).empty env st).1 = false) :
    ∃ g st1 k old m1 a1,
      getGlyphFromCache env face r now st = .ok (g, st1) ∧
      (k, old) ∈ a.runeToGlyph ∧ (∀ e ∈ a.runeToGlyph, old.atime ≤ e.2.atime) ∧
      (∃ pre post, a.runeToGlyph = pre ++ (k, old) :: post ∧
        (∀ e ∈ pre, old.atime < e.2.atime) ∧ (∀ e ∈ post, old.atime ≤ e.2.atime)) ∧
      ((∀ e ∈ a.runeToGlyph, e ≠ (k, old) → e.2.atime ≠ old.atime) →
        ∀ e ∈ a.runeToGlyph, e ≠ (k, old) → old.atime < e.2.atime) ∧
      mapGet st1.atlases face = some m1 ∧
      mapGet m1 (({ face := face, rune := r, atlasG := 0 } : char).atlasGroup env st).1 =
        some a1 ∧
      mapGet a1.runeToGlyph k = none ∧
      mapGet a1.runeToGlyph r = some g ∧ g.index = old.index ∧
      (∀ k', k' ≠ k → k' ≠ r → mapGet a1.runeToGlyph k' = mapGet a.runeToGlyph k') ∧
      mapLen a1.runeToGlyph = mapLen a.runeToGlyph ∧
      ∀ now2, now2 ≤ st1.monotonicClock →
        ∃ g2 st2 l x y, getGlyphFromCache env face k now2 st1 = .ok (g2, st2) ∧
          st2.log = st1.log ++ l ++
            [Event.rasterize face k
              (({ face := face, rune := r, atlasG := 0 } : char).atlasGroup env st).1 x y] := by
  rw [atlasGroup_fresh] at ha
  rw [empty_eq] at hne
  simp only [atlasGroup_fresh] at hne ⊢
  have hwf := hreach.wf
  have hok := hwf face m _ a hm ha
  have hgs : a.glyphSize ≠ 0 := by rw [hok.size]; exact ne_of_gt hok.pos
  have hx : Int.tdiv a.imageWidth a.glyphSize ≠ 0 := by
    have := tdiv_pos_of_le (a := a.imageWidth) (b := a.glyphSize)
      (by rw [hok.size]; exact hok.pos) (by rw [hok.size, hok.width]; exact hok.fits)
    omega
  rw [maxGlyphNum_eq] at hfull
  simp only [hgs, if_false, Except.ok.injEq] at hfull
  have hown : ∀ e ∈ a.runeToGlyph, e.2.char.rune = e.1 := by
    intro e he
    rw [(hok.glyphs e.1 e.2 he).char]; rfl
  have hcells := hok.cells_pos
  obtain ⟨e0, he0⟩ : ∃ e, e ∈ a.runeToGlyph := by
    cases hrt : a.runeToGlyph with
    | nil => rw [hrt] at hfull; simp [mapLen] at hfull; omega
    | cons e _ => exact ⟨e, List.mem_cons_self _ _⟩
  have hcand : ∃ e ∈ a.runeToGlyph, e.2.atime < MaxInt64 :=
    ⟨e0, he0, lt_of_le_of_lt (hok.glyphs e0.1 e0.2 he0).atime hclock⟩
  obtain ⟨pre, k, old, post, hdec, hpre, hpost, hsel⟩ :=
    selectCell_first a a.cells hfull.symm hcand
  have hmem : (k, old) ∈ a.runeToGlyph := by rw [hdec]; simp
  have hmin : ∀ e ∈ a.runeToGlyph, old.atime ≤ e.2.atime := by
    intro e he
    rw [hdec] at he
    rcases List.mem_append.mp he with h | h
    · exact le_of_lt (hpre e h)
    · rcases List.mem_cons.mp h with h | h
      · rw [h]
      · exact hpost e h
  have hstrict : (∀ e ∈ a.runeToGlyph, e ≠ (k, old) → e.2.atime ≠ old.atime) →
      ∀ e ∈ a.runeToGlyph, e ≠ (k, old) → old.atime < e.2.atime := by
    intro hd e he hne'
    have h1 := hmin e he
    have h2 := hd e he hne'
    omega
  have hk : old.char.rune = k := hown (k, old) hmem
  have hkr : k ≠ r := by
    intro h
    exact (mapGet_eq_none_iff _ _).mp hnew (List.mem_map.mpr ⟨(k, old), hmem, h⟩)
  obtain ⟨st1, hget, hat, hres, _⟩ := getGlyph_insert env face r now st m a old.index
    (mapDelete a.runeToGlyph old.char.rune) hm ha hnew hne hok.size hgs hx hsel
  have hlen := length_after_eviction a r old.index _
    { char := settled env st face r, index := old.index, atime := now }
    hok.keys hown hnew hfull.symm hsel
  have hwf1 : WF env st1 := wf_getGlyph env face r now st _ st1 hwf hnow hget
  have hTk : mapGet (mapSet (mapDelete a.runeToGlyph old.char.rune) r
      { char := settled env st face r, index := old.index, atime := now }) k = none := by
    simp [mapGet_mapSet, mapGet_mapDelete, hk, Ne.symm hkr]
  have hTr := mapGet_mapSet_self (mapDelete a.runeToGlyph old.char.rune) r
      ({ char := settled env st face r, index := old.index, atime := now } : glyph)
  have hTo : ∀ k', k' ≠ k → k' ≠ r →
      mapGet (mapSet (mapDelete a.runeToGlyph old.char.rune) r
        { char := settled env st face r, index := old.index, atime := now }) k' =
      mapGet a.runeToGlyph k' := by
    intro k' h1 h2
    simp [mapGet_mapSet, mapGet_mapDelete, hk, Ne.symm h1, Ne.symm h2]
  generalize mapSet (mapDelete a.runeToGlyph old.char.rune) r
      { char := settled env st face r, index := old.index, atime := now } = T
    at hat hlen hTk hTr hTo
  have hm1 : mapGet st1.atlases face = some (mapSet m (groupB (boundsOf env st face r))
      { a with tmpImage := true, runeToGlyph := T }) := by
    rw [hat]; exact mapGet_mapSet_self _ _ _
  have ha0 := mapGet_mapSet_self m (groupB (boundsOf env st face r))
    ({ a with tmpImage := true, runeToGlyph := T } : atlas)
  refine ⟨_, st1, k, old, _, _, hget, hmem, hmin, ⟨pre, post, hdec, hpre, hpost⟩, hstrict,
    hm1, ha0, hTk, hTr, rfl, hTo, hlen, ?_⟩
  intro now2 _
  have hold := hok.glyphs k old hmem
  have hb1 : boundsOf env st1 face k = boundsOf env st face k := hres.bounds.1 face k
  have hgrp1 : groupB (boundsOf env st1 face k) = groupB (boundsOf env st face r) := by
    rw [hb1]; exact hold.group
  have ha1 : mapGet (mapSet m (groupB (boundsOf env st face r))
      ({ a with tmpImage := true, runeToGlyph := T } : atlas))
      (groupB (boundsOf env st1 face k)) = some { a with tmpImage := true, runeToGlyph := T } := by
    rw [hgrp1]; exact ha0
  have hok1 := hwf1 face _ _ _ hm1 ha1
  have hcells1 : ({ a with tmpImage := true, runeToGlyph := T } : atlas).cells = a.cells := rfl
  have hfull1 : mapLen ({ a with tmpImage := true, runeToGlyph := T } : atlas).runeToGlyph =
      ({ a with tmpImage := true, runeToGlyph := T } : atlas).cells := by
    rw [hcells1, hfull]; exact hlen
  have hcand1 : ∃ e ∈ ({ a with tmpImage := true, runeToGlyph := T } : atlas).runeToGlyph,
      e.2.atime < MaxInt64 := by
    have hin := mem_of_mapGet hTr
    refine ⟨_, hin, ?_⟩
    have := (hok1.glyphs _ _ hin).atime
    rw [hres.clock] at this
    exact lt_of_le_of_lt this hclock
  obtain ⟨k2, old2, _, _, hsel1⟩ := selectCell_of_eq _ _ hfull1 hcand1
  obtain ⟨st2, hget2, _, _, l, x, y, hlog2⟩ := getGlyph_insert env face k now2 st1 _ _
    old2.index _ hm1 ha1 hTk (by rw [hb1]; exact hold.nonEmpty)
    (by rw [hgrp1]; exact hok.size) hgs hx hsel1
  rw [hgrp1] at hlog2
  exact ⟨_, st2, l, x, y, hget2, hlog2⟩


/-- C8 as stated fails: "AB" is drawn, then "BACD", which fills the four cells
of the atlas of group 512; in that call B is resolved before A, so B is the
least recently accessed of the four runes.  All four glyphs carry the
timestamp of that call, and the scan, which visits A first, evicts A when "E"
is drawn: A is no longer mapped, B still is. -/
theorem evicts_counterexample :
    ∃ s1 s2 s3 m2 a2 m3 a3,
      Draw exFonts 0 [65, 66] exFace 0 0 exWhite State.init = .ok s1 ∧
      Draw exFonts 0 [66, 65, 67, 68] exFace 0 0 exWhite s1 = .ok s2 ∧
      mapGet s2.atlases exFace = some m2 ∧ mapGet m2 512 = some a2 ∧
      a2.maxGlyphNum = .ok (mapLen a2.runeToGlyph) ∧
      a2.runeToGlyph.map Prod.fst = [65, 66, 67, 68] ∧
      leastRecentlyAccessed ([65, 66] ++ [66, 65, 67, 68]) (a2.runeToGlyph.map Prod.fst) =
        some 66 ∧
      Draw exFonts 0 [69] exFace 0 0 exWhite s2 = .ok s3 ∧
      mapGet s3.atlases exFace = some m3 ∧ mapGet m3 512 = some a3 ∧
      mapGet a3.runeToGlyph 65 = none ∧ mapGet a3.runeToGlyph 66 ≠ none :=
  ⟨_, _, _, _, _, _, _, rfl, rfl, rfl, rfl, rfl, rfl, by decide, rfl, rfl, rfl, rfl, by decide⟩

/-! ## The colour cache: the eviction scan -/

set_option maxRecDepth 100000 in
/-- C3 fails on the code.  The colour cache holds the 256 colours
`exColor 0 .. exColor 255` with the timestamps 2, 4, ..., 512, as 256 calls
`Draw(dst, "A", face, 0, 0, exColor i)` leave them, and a glyph stamped 513
is drawn with a new colour.  The least recently used colour `exColor 0`
(timestamp 2) stays in the cache; the colour used last, `exColor 255`, is
removed: after its first assignment the scan compares every entry with the
`atime` of the glyph (`t = g.atime`), so it ends on the entry visited last. -/
theorem colorMCache_evicts_wrong_entry :
    ∃ g' st', glyph.draw exFonts (exGlyph 65 0 513) 0 0 0 (exColor 256) exColorState =
        .ok (g', st') ∧
      mapLen exColorState.colorMCache = 256 ∧
      mapGet exColorState.colorMCache (exColor 256) = none ∧
      (∀ e ∈ exColorState.colorMCache, e.1 ≠ exColor 0 → 2 < e.2.atime) ∧
      mapGet exColorState.colorMCache (exColor 0) =
        some { m := colorMOf (exColor 0), atime := 2 } ∧
      mapGet st'.colorMCache (exColor 0) = some { m := colorMOf (exColor 0), atime := 2 } ∧
      mapGet exColorState.colorMCache (exColor 255) =
        some { m := colorMOf (exColor 255), atime := 512 } ∧
      mapGet st'.colorMCache (exColor 255) = none :=
  ⟨_, _, rfl, by decide, by decide, by decide, by decide, by decide, by decide, by decide⟩


/-! ## Drawing the same text twice -/

theorem fontFaceToFace_faces_stable (f : Face) (st st' : State)
    (h : st'.faces = (fontFaceToFace f st).2.faces) :
    fontFaceToFace f st' = ((fontFaceToFace f st).1, st') := by
  unfold fontFaceToFace at h ⊢
  by_cases h1 : f ∈ st.faces
  · simp only [h1, if_true] at h ⊢
    rw [h]; simp [h1]
  · simp only [h1, if_false] at h ⊢
    cases h2 : st.faces.find? (fun key => decide (key.data = f.data)) with
    | some key =>
      simp only [h2] at h ⊢
      rw [h]; simp [h1, h2]
    | none =>
      simp only [h2] at h ⊢
      have : f ∈ st'.faces := by rw [h]; simp
      simp [this]

theorem wrap32_wrap32_add (a b : Int) : wrap32 (wrap32 a + b) = wrap32 (a + b) := by
  unfold wrap32
  omega

theorem getGlyph_inAtlas_self (env : Fonts) (fa : Face) (c n : Int) (s : State) (g : glyph)
    (s2 : State) (h : getGlyphFromCache env fa c n s = .ok (g, s2))
    (hne : emptyB (boundsOf env s fa c) = false) : InAtlas env s2 fa c n := by
  obtain ⟨hres, hcase⟩ := getGlyph_cases env fa c n s g s2 h
  have hb : boundsOf env s2 fa c = boundsOf env s fa c := hres.bounds.1 fa c
  unfold InAtlas
  rw [hb]
  rcases hcase with ⟨m, a, g0, _, _, _, _, hat, _⟩ | ⟨he, _⟩ |
      ⟨_, a, idx, mm, _, _, _, _, _, _, hat, _⟩
  · exact ⟨_, _, _, by rw [hat]; exact mapGet_mapSet_self _ _ _, mapGet_mapSet_self _ _ _,
      mapGet_mapSet_self _ _ _, rfl⟩
  · rw [he] at hne; exact absurd hne (by decide)
  · exact ⟨_, _, _, by rw [hat]; exact mapGet_mapSet_self _ _ _, mapGet_mapSet_self _ _ _,
      mapGet_mapSet_self _ _ _, rfl⟩


/-- Resolving the rune `c` keeps another rune `c0` in its atlas, when the two
have different groups or when a full atlas of the group of `c` holds a glyph
other than that of `c0` that is older. -/
theorem getGlyph_inAtlas_other (env : Fonts) (fa : Face) (c n : Int) (s : State) (g : glyph)
    (s2 : State) (h : getGlyphFromCache env fa c n s = .ok (g, s2)) (hwf : WF env s)
    (c0 t0 : Int) (h0 : InAtlas env s fa c0 t0) (hc : c0 ≠ c)
    (hkeep : groupB (boundsOf env s fa c0) ≠ groupB (boundsOf env s fa c) ∨
      (∃ t, InAtlas env s fa c t) ∨
      (∀ m a, mapGet s.atlases fa = some m →
        mapGet m (groupB (boundsOf env s fa c)) = some a →
        mapLen a.runeToGlyph = a.cells → ∃ e ∈ a.runeToGlyph, e.1 ≠ c0 ∧ e.2.atime < t0)) :
    InAtlas env s2 fa c0 t0 := by
  obtain ⟨hres, hcase⟩ := getGlyph_cases env fa c n s g s2 h
  have hb : boundsOf env s2 fa c0 = boundsOf env s fa c0 := hres.bounds.1 fa c0
  obtain ⟨m0, a0, g0, hm0, ha0, hg0, ht0⟩ := h0
  unfold InAtlas
  rw [hb]
  rcases hcase with ⟨m, a, g1, hm, ha, _, _, hat, _⟩ | ⟨_, _, _, _, _, _, hface, _⟩ |
      ⟨_, a, idx, mm, hslot, _, _, _, hsel, _, hat, _⟩
  · rw [hm0] at hm
    simp only [Option.some.injEq] at hm
    subst hm
    by_cases hgrp : groupB (boundsOf env s fa c0) = groupB (boundsOf env s fa c)
    · rw [hgrp] at ha0 ⊢
      rw [ha0] at ha
      simp only [Option.some.injEq] at ha
      subst ha
      refine ⟨_, _, g0, by rw [hat]; exact mapGet_mapSet_self _ _ _, mapGet_mapSet_self _ _ _,
        ?_, ht0⟩
      show mapGet (mapSet a0.runeToGlyph c _) c0 = some g0
      rw [mapGet_mapSet_ne _ _ (Ne.symm hc)]; exact hg0
    · refine ⟨_, a0, g0, by rw [hat]; exact mapGet_mapSet_self _ _ _, ?_, hg0, ht0⟩
      rw [mapGet_mapSet_ne _ _ (Ne.symm hgrp)]; exact ha0
  · rw [hm0] at hface
    exact ⟨m0, a0, g0, hface, ha0, hg0, ht0⟩
  · rw [hm0] at hat hslot
    simp only [Option.getD_some] at hat hslot
    by_cases hgrp : groupB (boundsOf env s fa c0) = groupB (boundsOf env s fa c)
    · rw [hgrp] at ha0 ⊢
      rcases hslot with ⟨hex, hcno⟩ | ⟨hno, _⟩
      · rw [ha0] at hex
        simp only [Option.some.injEq] at hex
        subst hex
        refine ⟨_, _, g0, by rw [hat]; exact mapGet_mapSet_self _ _ _,
          mapGet_mapSet_self _ _ _, ?_, ht0⟩
        show mapGet (mapSet mm c _) c0 = some g0
        rw [mapGet_mapSet_ne _ _ (Ne.symm hc)]
        have hok := hwf fa m0 _ a0 hm0 ha0
        rcases selectCell_inv a0 a0.cells idx mm hsel with ⟨_, _, hmm⟩ |
            ⟨hfull, k, old, hmem, hmin, _, hmm⟩
        · rw [hmm]; exact hg0
        · have hk : old.char.rune = k := by rw [(hok.glyphs k old hmem).char]; rfl
          have hkc : k ≠ c0 := by
            intro hkc
            subst hkc
            have hold := mapGet_of_mem hok.keys hmem
            rw [hg0] at hold
            simp only [Option.some.injEq] at hold
            subst hold
            rcases hkeep with hk1 | ⟨t, m1, a1, g1, hm1, ha1, hg1, _⟩ | hk2
            · exact hk1 hgrp
            · rw [hm0] at hm1
              simp only [Option.some.injEq] at hm1
              subst hm1
              rw [ha0] at ha1
              simp only [Option.some.injEq] at ha1
              subst ha1
              rw [hcno] at hg1
              simp at hg1
            · obtain ⟨e, he, _, hlt⟩ := hk2 m0 a0 hm0 ha0 hfull
              have := hmin e he
              omega
          rw [hmm, hk, mapGet_mapDelete]
          simp [hkc, hg0]
      · rw [ha0] at hno
        simp at hno
    · refine ⟨_, a0, g0, by rw [hat]; exact mapGet_mapSet_self _ _ _, ?_, hg0, ht0⟩
      rw [mapGet_mapSet_ne _ _ (Ne.symm hgrp)]; exact ha0


/-- One round of the loop of `Draw` for a rune whose glyph is not empty, with
a colour that is not transparent, in a state that satisfies the invariant:
the glyph is resolved and composited once, at the pen plus the minimum of the
glyph bounds.  When the rune is in its atlas and its bounds are memoised the
composite is the only event. -/
theorem round_core (env : Fonts) (dst : Nat) (face : Face) (y : Int) (clr : Color) (n : Int)
    (s : State) (fx prevC c : Int) (s' : State) (fx' p' : Int)
    (hwf : WF env s) (hn : n ≤ s.monotonicClock) (hA : clr.A ≠ 0)
    (hne : emptyB (boundsOf env s (fontFaceToFace face s).1 c) = false)
    (h : drawRune env dst face y clr n s fx prevC c = .ok (s', fx', p')) :
    ∃ g s2,
      getGlyphFromCache env (fontFaceToFace face s).1 c n (fontFaceToFace face s).2 =
        .ok (g, s2) ∧
      s'.atlases = s2.atlases ∧ WF env s' ∧ s.monotonicClock ≤ s'.monotonicClock ∧
      SameBounds env s s' ∧ s'.faces = (fontFaceToFace face s).2.faces ∧
      memoBounds s' (fontFaceToFace face s).1 c ≠ none ∧
      ∃ l sx sy size cm,
        s'.log = s.log ++ l ++
          [Event.drawImage dst (fontFaceToFace face s).1 c
            (wrap32 ((if prevC ≥ 0 then wrap32 (fx + env.Kern face prevC c) else fx) +
              (boundsOf env s (fontFaceToFace face s).1 c).Min.X))
            (wrap32 (fixedI y + (boundsOf env s (fontFaceToFace face s).1 c).Min.Y))
            sx sy size cm] ∧
        (∀ e ∈ l, e.isDrawImage = false) ∧
        ((∃ t, InAtlas env s (fontFaceToFace face s).1 c t) →
          memoBounds s (fontFaceToFace face s).1 c ≠ none → l = []) := by
  have hsb1 : SameBounds env s (fontFaceToFace face s).2 :=
    SameBounds.of_charBounds (fontFaceToFace_charBounds face s)
  have hwf1 : WF env (fontFaceToFace face s).2 :=
    hwf.wfMono (fontFaceToFace_atlases face s) hsb1 (by simp)
  obtain ⟨g, s2, hg, _, _, hcase⟩ := drawRune_inv env dst face y clr n s fx prevC c s' fx' p' h
  obtain ⟨hres, hgc⟩ := getGlyph_cases env _ c n _ g s2 hg
  have hne1 : emptyB (boundsOf env (fontFaceToFace face s).2 (fontFaceToFace face s).1 c) =
      false := by rw [hsb1.1]; exact hne
  have hchar : g.char.face = (fontFaceToFace face s).1 ∧ g.char.rune = c := by
    rcases hgc with ⟨m, a, g0, hm, ha, hg0, hgeq, _, _⟩ | ⟨_, h1, h2, _⟩ |
        ⟨_, a, idx, mm, _, _, _, _, _, hgeq, _, _⟩
    · have := (hwf1 _ m _ a hm ha).glyphs c g0 (mem_of_mapGet hg0)
      rw [hgeq]
      simp only [this.char, settled, and_self]
    · exact ⟨h1, h2⟩
    · rw [hgeq]; simp [settled]
  obtain ⟨hcf, hcr⟩ := hchar
  rw [hcf, hcr] at hcase
  have hb2 : boundsOf env s2 (fontFaceToFace face s).1 c =
      boundsOf env s (fontFaceToFace face s).1 c := by
    rw [hres.bounds.1, hsb1.1]
  rw [hb2, hne] at hcase
  rcases hcase with ⟨habs, _⟩ | ⟨_, g', hd⟩
  · exact absurd habs (by decide)
  obtain ⟨lq, sx, sy, size, cm, hlog, hlq, hlq0, hclk, hfaces, hat, hsb⟩ :=
    glyph_draw_inv env g dst _ _ clr _ g' s' hA hd
  rw [hcf, hcr, boundsOf_queried, hb2] at hlog
  rw [hcf, hcr] at hlq0
  have hwf2 : WF env s2 :=
    wf_getGlyph env _ c n _ g s2 hwf1 (by simpa using hn) hg
  have hsbq := sameBounds_queried env s2 (fontFaceToFace face s).1 c
  have hsb2 : SameBounds env s2 s' := hsbq.sbTrans hsb
  refine ⟨g, s2, hg, by rw [hat, queried_atlases], ?_, ?_, ?_, ?_, ?_, ?_⟩
  · exact hwf2.wfMono (by rw [hat, queried_atlases]) hsb2
      (by rw [hclk, queried_clock]; omega)
  · rw [hclk, queried_clock, hres.clock, fontFaceToFace_clock]; omega
  · exact hsb1.sbTrans (hres.bounds.sbTrans hsb2)
  · rw [hfaces, queried_faces, hres.faces]
  · exact hsb.2 _ _ (by rw [memoBounds_queried_self]; simp)
  · obtain ⟨lg, hlg, hpg⟩ := hres.log
    obtain ⟨l0, hl0, hp0⟩ := logExt_queried env s2 (fontFaceToFace face s).1 c
    refine ⟨lg ++ l0 ++ lq, sx, sy, size, cm, ?_, ?_, ?_⟩
    · rw [hlog, hl0, hlg, fontFaceToFace_log]
      simp
    · intro e he
      rcases List.mem_append.mp he with he | he
      · rcases List.mem_append.mp he with he | he
        · exact hpg e he
        · exact isQuery_not_drawImage e (hp0 e he)
      · exact isQuery_not_drawImage e (hlq e he)
    · rintro ⟨t, m, a, g0, hm, ha, hg0, _⟩ hmemo
      have hm1 : mapGet (fontFaceToFace face s).2.atlases (fontFaceToFace face s).1 = some m := by
        rw [fontFaceToFace_atlases]; exact hm
      have ha1 : mapGet m (groupB (boundsOf env (fontFaceToFace face s).2
          (fontFaceToFace face s).1 c)) = some a := by rw [hsb1.1]; exact ha
      have hhit := getGlyph_hit env _ c n _ m a g0 hm1 ha1 hg0
      rw [hg] at hhit
      simp only [Except.ok.injEq, Prod.mk.injEq] at hhit
      have hmemo1 : memoBounds (fontFaceToFace face s).2 (fontFaceToFace face s).1 c ≠ none := by
        rw [memoBounds_congr (fontFaceToFace_charBounds face s)]; exact hmemo
      have hq1 := queried_of_memo env _ _ _ hmemo1
      have hs2log : s2.log = (fontFaceToFace face s).2.log := by
        rw [hhit.2, hq1]
      have hs2memo : memoBounds s2 (fontFaceToFace face s).1 c ≠ none := by
        have : s2.charBounds = (fontFaceToFace face s).2.charBounds := by
          rw [hhit.2, hq1]
        rw [memoBounds_congr this]; exact hmemo1
      have hq2 := queried_of_memo env _ _ _ hs2memo
      have hlg0 : lg = [] := by
        rw [hs2log] at hlg
        simpa using hlg
      have hl00 : l0 = [] := by
        rw [hq2] at hl0
        simpa using hl0
      have hlq00 : lq = [] := hlq0 (by rw [hq2]; exact hs2memo)
      simp [hlg0, hl00, hlq00]


theorem glyph_draw_ok (env : Fonts) (g : glyph) (dst : Nat) (x y : Int) (clr : Color)
    (st : State) (m : List (Int × atlas)) (a : atlas) (hA : clr.A ≠ 0)
    (hm : mapGet st.atlases g.char.face = some m)
    (ha : mapGet m (g.char.atlasGroup env st).1 = some a)
    (hsize : a.glyphSize = (g.char.atlasGroup env st).1)
    (hgs : a.glyphSize ≠ 0) (hx : Int.tdiv a.imageWidth a.glyphSize ≠ 0) :
    ∃ g' st', g.draw env dst x y clr st = .ok (g', st') := by
  rw [glyph_draw_eq env g dst x y clr st hA]
  rw [hm]
  simp only [Option.some_bind]
  rw [ha]
  simp only
  rw [if_neg (not_not.mpr hsize), if_neg hgs, if_neg hx]
  exact ⟨_, _, rfl⟩

theorem drawRune_of_ok (env : Fonts) (dst : Nat) (face : Face) (y : Int) (clr : Color)
    (n : Int) (s : State) (fx prevC c : Int) (g g' : glyph) (s2 s' : State)
    (hg : getGlyphFromCache env (fontFaceToFace face s).1 c n (fontFaceToFace face s).2 =
      .ok (g, s2))
    (hne : emptyB (boundsOf env s2 g.char.face g.char.rune) = false)
    (hd : g.draw env dst (if prevC ≥ 0 then wrap32 (fx + env.Kern face prevC c) else fx)
      (fixedI y) clr (queried env s2 g.char.face g.char.rune) = .ok (g', s')) :
    drawRune env dst face y clr n s fx prevC c =
      .ok (s', wrap32 ((if prevC ≥ 0 then wrap32 (fx + env.Kern face prevC c) else fx) +
        env.GlyphAdvance face c), c) := by
  unfold drawRune
  simp only [hg, empty_eq, hne, Bool.not_false, if_true, hd]

/-- A round of the loop of `Draw` for a rune that is in its atlas returns. -/
theorem round_hit (env : Fonts) (dst : Nat) (face : Face) (y : Int) (clr : Color) (n : Int)
    (s : State) (fx prevC c t : Int)
    (hwf : WF env s) (hA : clr.A ≠ 0)
    (hne : emptyB (boundsOf env s (fontFaceToFace face s).1 c) = false)
    (hin : InAtlas env s (fontFaceToFace face s).1 c t) :
    ∃ s', drawRune env dst face y clr n s fx prevC c =
      .ok (s', wrap32 ((if prevC ≥ 0 then wrap32 (fx + env.Kern face prevC c) else fx) +
        env.GlyphAdvance face c), c) := by
  have hsb1 : SameBounds env s (fontFaceToFace face s).2 :=
    SameBounds.of_charBounds (fontFaceToFace_charBounds face s)
  have hwf1 : WF env (fontFaceToFace face s).2 :=
    hwf.wfMono (fontFaceToFace_atlases face s) hsb1 (by simp)
  obtain ⟨m, a, g0, hm, ha, hg0, _⟩ := hin
  have hm1 : mapGet (fontFaceToFace face s).2.atlases (fontFaceToFace face s).1 = some m := by
    rw [fontFaceToFace_atlases]; exact hm
  have ha1 : mapGet m (groupB (boundsOf env (fontFaceToFace face s).2
      (fontFaceToFace face s).1 c)) = some a := by rw [hsb1.1]; exact ha
  have hhit := getGlyph_hit env _ c n _ m a g0 hm1 ha1 hg0
  have hok := hwf1 _ m _ a hm1 ha1
  have hchar := (hok.glyphs c g0 (mem_of_mapGet hg0)).char
  obtain ⟨g1, s2, hhit2, hg1c, hs2at, hb2⟩ : ∃ (g1 : glyph) (s2 : State),
      getGlyphFromCache env (fontFaceToFace face s).1 c n (fontFaceToFace face s).2 =
        .ok (g1, s2) ∧
      g1.char = settled env (fontFaceToFace face s).2 (fontFaceToFace face s).1 c ∧
      s2.atlases = mapSet (fontFaceToFace face s).2.atlases (fontFaceToFace face s).1
        (mapSet m (groupB (boundsOf env (fontFaceToFace face s).2 (fontFaceToFace face s).1 c))
          { a with runeToGlyph := mapSet a.runeToGlyph c { g0 with atime := n } }) ∧
      ∀ f r, boundsOf env s2 f r = boundsOf env (fontFaceToFace face s).2 f r :=
    ⟨_, _, hhit, hchar, rfl, fun f r => boundsOf_queried env _ _ _ f r⟩
  have hg1f : g1.char.face = (fontFaceToFace face s).1 := by rw [hg1c]; rfl
  have hg1r : g1.char.rune = c := by rw [hg1c]; rfl
  have hbq : boundsOf env (queried env s2 g1.char.face g1.char.rune)
      (fontFaceToFace face s).1 c =
      boundsOf env (fontFaceToFace face s).2 (fontFaceToFace face s).1 c := by
    rw [boundsOf_queried, hb2]
  have hgrp := atlasGroup_settled env (fontFaceToFace face s).1 c (fontFaceToFace face s).2
    (queried env s2 g1.char.face g1.char.rune) hbq
  rw [← hg1c] at hgrp
  have hgs : a.glyphSize ≠ 0 := by rw [hok.size]; exact ne_of_gt hok.pos
  have hx : Int.tdiv a.imageWidth a.glyphSize ≠ 0 := by
    have := tdiv_pos_of_le (a := a.imageWidth) (b := a.glyphSize)
      (by rw [hok.size]; exact hok.pos) (by rw [hok.size, hok.width]; exact hok.fits)
    omega
  obtain ⟨g', s', hd⟩ := glyph_draw_ok env g1 dst
    (if prevC ≥ 0 then wrap32 (fx + env.Kern face prevC c) else fx) (fixedI y) clr
    (queried env s2 g1.char.face g1.char.rune)
    (mapSet m (groupB (boundsOf env (fontFaceToFace face s).2 (fontFaceToFace face s).1 c))
      { a with runeToGlyph := mapSet a.runeToGlyph c { g0 with atime := n } })
    { a with runeToGlyph := mapSet a.runeToGlyph c { g0 with atime := n } } hA
    (by rw [queried_atlases, hg1f, hs2at]; exact mapGet_mapSet_self _ _ _)
    (by rw [hgrp.1]; exact mapGet_mapSet_self _ _ _)
    (by rw [hgrp.1]; exact hok.size) hgs hx
  refine ⟨s', drawRune_of_ok env dst face y clr n s fx prevC c g1 g' s2 s' hhit2 ?_ hd⟩
  rw [hg1f, hg1r, hb2, hsb1.1]
  exact hne


theorem drawLoop_two (env : Fonts) (dst : Nat) (face : Face) (y : Int) (clr : Color) (n : Int)
    (A B : Int) (s : State) (fx p : Int) (r : State × Int × Int) :
    drawLoop env dst face y clr n [A, B] s fx p = .ok r ↔
      ∃ sA fxA pA, drawRune env dst face y clr n s fx p A = .ok (sA, fxA, pA) ∧
        drawRune env dst face y clr n sA fxA pA B = .ok r := by
  unfold drawLoop
  cases hA : drawRune env dst face y clr n s fx p A with
  | error e => simp
  | ok rA =>
    obtain ⟨sA, fxA, pA⟩ := rA
    unfold drawLoop
    cases hB : drawRune env dst face y clr n sA fxA pA B with
    | error e =>
      constructor
      · intro h
        cases h
      · rintro ⟨s1, f1, p1, h1, h2⟩
        simp only [Except.ok.injEq, Prod.mk.injEq] at h1
        obtain ⟨e1, e2, e3⟩ := h1
        subst e1; subst e2; subst e3
        rw [hB] at h2
        cases h2
    | ok rB =>
      obtain ⟨sB, fxB, pB⟩ := rB
      simp only [drawLoop]
      constructor
      · intro h
        exact ⟨sA, fxA, pA, rfl, by rw [hB]; exact h⟩
      · rintro ⟨s1, f1, p1, h1, h2⟩
        simp only [Except.ok.injEq, Prod.mk.injEq] at h1
        obtain ⟨e1, e2, e3⟩ := h1
        subst e1; subst e2; subst e3
        rw [hB] at h2; exact h2

theorem fontFaceToFace_congr (f : Face) (s s' : State) (h : s'.faces = s.faces) :
    (fontFaceToFace f s').1 = (fontFaceToFace f s).1 ∧
    (fontFaceToFace f s').2.faces = (fontFaceToFace f s).2.faces := by
  unfold fontFaceToFace
  rw [h]
  by_cases h1 : f ∈ s.faces
  · simp [h1, h]
  · simp only [h1, if_false]
    cases h2 : s.faces.find? (fun key => decide (key.data = f.data)) with
    | some key => simp [h]
    | none => simp [h]

theorem inAtlas_congr (env : Fonts) {s s' : State} (fa : Face) (c t : Int)
    (hat : s'.atlases = s.atlases) (hb : boundsOf env s' fa c = boundsOf env s fa c)
    (h : InAtlas env s fa c t) : InAtlas env s' fa c t := by
  unfold InAtlas at h ⊢
  rw [hat, hb]; exact h

theorem selectCell_subset (a : atlas) (max idx : Int) (mm : List (Int × glyph))
    (h : a.selectCell max = .ok (idx, mm)) : ∀ e ∈ mm, e ∈ a.runeToGlyph := by
  intro e he
  rcases selectCell_inv a max idx mm h with ⟨_, _, hmm⟩ | ⟨_, k, old, _, _, _, hmm⟩
  · rw [hmm] at he; exact he
  · rw [hmm] at he; exact (mem_mapDelete.mp he).1

/-- After the rune `c` has been resolved at time `n`, every glyph of the
atlases of the face other than that of `c` is as old as before. -/
theorem getGlyph_older (env : Fonts) (fa : Face) (c n : Int) (s : State) (g : glyph)
    (s2 : State) (h : getGlyphFromCache env fa c n s = .ok (g, s2))
    (hold : ∀ m key a e, mapGet s.atlases fa = some m → mapGet m key = some a →
      e ∈ a.runeToGlyph → e.2.atime < n) :
    ∀ m key a e, mapGet s2.atlases fa = some m → mapGet m key = some a →
      e ∈ a.runeToGlyph → e.1 ≠ c → e.2.atime < n := by
  obtain ⟨_, hcase⟩ := getGlyph_cases env fa c n s g s2 h
  intro m' key a' e hm' ha' he hec
  rcases hcase with ⟨m, a, g0, hm, ha, _, _, hat, _⟩ | ⟨_, _, _, _, _, _, hface, _⟩ |
      ⟨_, a, idx, mm, hslot, _, _, _, hsel, _, hat, _⟩
  · rw [hat, mapGet_mapSet_self] at hm'
    simp only [Option.some.injEq] at hm'
    subst hm'
    by_cases hkey : key = groupB (boundsOf env s fa c)
    · subst hkey
      rw [mapGet_mapSet_self] at ha'
      simp only [Option.some.injEq] at ha'
      subst ha'
      rcases mem_mapSet he with h1 | h1
      · rw [h1] at hec; exact absurd rfl hec
      · exact hold m _ a e hm ha h1
    · rw [mapGet_mapSet_ne _ _ (Ne.symm hkey)] at ha'
      exact hold m key a' e hm ha' he
  · rw [hface] at hm'
    simp only [Option.some.injEq] at hm'
    subst hm'
    exact hold _ key a' e (getD_of_mapGet ha') ha' he
  · rw [hat, mapGet_mapSet_self] at hm'
    simp only [Option.some.injEq] at hm'
    subst hm'
    by_cases hkey : key = groupB (boundsOf env s fa c)
    · subst hkey
      rw [mapGet_mapSet_self] at ha'
      simp only [Option.some.injEq] at ha'
      subst ha'
      rcases mem_mapSet he with h1 | h1
      · rw [h1] at hec; exact absurd rfl hec
      · have h2 := selectCell_subset a a.cells idx mm hsel e h1
        rcases hslot with ⟨hex, _⟩ | ⟨_, hfresh⟩
        · exact hold _ _ a e (getD_of_mapGet hex) hex h2
        · rw [hfresh] at h2; simp [freshAtlas] at h2
    · rw [mapGet_mapSet_ne _ _ (Ne.symm hkey)] at ha'
      exact hold _ key a' e (getD_of_mapGet ha') ha' he

theorem exists_key_ne (l : List (Int × glyph)) (A : Int) (hnd : (l.map Prod.fst).Nodup)
    (hlen : 2 ≤ l.length) : ∃ e ∈ l, e.1 ≠ A := by
  match l, hnd, hlen with
  | e1 :: e2 :: rest, hnd, _ =>
    by_cases h1 : e1.1 = A
    · refine ⟨e2, by simp, ?_⟩
      intro h2
      simp only [List.map_cons, List.nodup_cons, List.mem_cons, not_or] at hnd
      exact hnd.1.1 (h1.trans h2.symm)
    · exact ⟨e1, by simp, h1⟩

theorem two_le_tdiv {a b : Int} (hb : 0 < b) (hab : 2 * b ≤ a) : 2 ≤ Int.tdiv a b := by
  rw [Int.tdiv_eq_ediv (by omega) (by omega)]
  exact Int.le_ediv_of_mul_le hb (by omega)

theorem pens_append (l1 l2 : List Event) : pens (l1 ++ l2) = pens l1 ++ pens l2 := by
  simp [pens]

theorem pens_eq_nil {l : List Event} (h : ∀ e ∈ l, e.isDrawImage = false) : pens l = [] := by
  simp only [pens, List.filterMap_eq_nil_iff]
  intro e he
  have := h e he
  cases e <;> simp_all [Event.isDrawImage]


theorem inAtlas_face (env : Fonts) (face : Face) (s : State) (fa : Face) :
    InAtlas env (fontFaceToFace face s).2 fa = InAtlas env s fa := by
  funext c t
  unfold InAtlas
  have hb : boundsOf env (fontFaceToFace face s).2 fa c = boundsOf env s fa c :=
    (SameBounds.of_charBounds (fontFaceToFace_charBounds face s)).1 fa c
  rw [fontFaceToFace_atlases, hb]

/-- One round of the loop of `Draw` for a non-empty glyph, in a state that
satisfies the invariant: where the pen goes, what is logged, and what the
atlases of the face hold afterwards. -/
theorem round_full (env : Fonts) (dst : Nat) (face : Face) (y : Int) (clr : Color) (n : Int)
    (s : State) (fx prevC c : Int) (s' : State) (fx' p' : Int) (fa : Face)
    (hfa : (fontFaceToFace face s).1 = fa)
    (hwf : WF env s) (hn : n ≤ s.monotonicClock) (hA : clr.A ≠ 0)
    (hne : emptyB (boundsOf env s fa c) = false)
    (h : drawRune env dst face y clr n s fx prevC c = .ok (s', fx', p')) :
    fx' = wrap32 ((if prevC ≥ 0 then wrap32 (fx + env.Kern face prevC c) else fx) +
      env.GlyphAdvance face c) ∧
    p' = c ∧ WF env s' ∧ s.monotonicClock ≤ s'.monotonicClock ∧ SameBounds env s s' ∧
    (∀ s'' : State, s''.faces = s'.faces → fontFaceToFace face s'' = (fa, s'')) ∧
    memoBounds s' fa c ≠ none ∧
    InAtlas env s' fa c n ∧
    (∃ l sx sy size cm,
      s'.log = s.log ++ l ++
        [Event.drawImage dst fa c
          (wrap32 ((if prevC ≥ 0 then wrap32 (fx + env.Kern face prevC c) else fx) +
            (boundsOf env s fa c).Min.X))
          (wrap32 (fixedI y + (boundsOf env s fa c).Min.Y))
          sx sy size cm] ∧
      (∀ e ∈ l, e.isDrawImage = false) ∧
      ((∃ t, InAtlas env s fa c t) → memoBounds s fa c ≠ none → l = [])) ∧
    ((∀ m key a e, mapGet s.atlases fa = some m → mapGet m key = some a →
        e ∈ a.runeToGlyph → e.2.atime < n) →
      ∀ m key a e, mapGet s'.atlases fa = some m → mapGet m key = some a →
        e ∈ a.runeToGlyph → e.1 ≠ c → e.2.atime < n) ∧
    (∀ c0 t0, InAtlas env s fa c0 t0 → c0 ≠ c →
      (groupB (boundsOf env s fa c0) ≠ groupB (boundsOf env s fa c) ∨
        (∃ t, InAtlas env s fa c t) ∨
        (∀ m a, mapGet s.atlases fa = some m →
          mapGet m (groupB (boundsOf env s fa c)) = some a →
          mapLen a.runeToGlyph = a.cells →
          ∃ e ∈ a.runeToGlyph, e.1 ≠ c0 ∧ e.2.atime < t0)) →
      InAtlas env s' fa c0 t0) := by
  subst hfa
  have hsb1 : SameBounds env s (fontFaceToFace face s).2 :=
    SameBounds.of_charBounds (fontFaceToFace_charBounds face s)
  have hat1 : (fontFaceToFace face s).2.atlases = s.atlases := fontFaceToFace_atlases face s
  have hwf1 : WF env (fontFaceToFace face s).2 := hwf.wfMono hat1 hsb1 (by simp)
  obtain ⟨_, _, _, hfx, hp, _⟩ := drawRune_inv env dst face y clr n s fx prevC c s' fx' p' h
  obtain ⟨g, s2, hg, hat, hwf', hclk, hsb, hfaces, hmemo, hlog⟩ :=
    round_core env dst face y clr n s fx prevC c s' fx' p' hwf hn hA hne h
  obtain ⟨hres, _⟩ := getGlyph_cases env _ c n _ g s2 hg
  have hb2 : ∀ f r, boundsOf env s' f r = boundsOf env s2 f r := by
    intro f r
    rw [hsb.1, hres.bounds.1, hsb1.1]
  have hne1 : emptyB (boundsOf env (fontFaceToFace face s).2 (fontFaceToFace face s).1 c) =
      false := by rw [hsb1.1]; exact hne
  refine ⟨hfx, hp, hwf', hclk, hsb, ?_, hmemo, ?_, hlog, ?_, ?_⟩
  · intro s'' hs''
    exact fontFaceToFace_faces_stable face s s'' (hs''.trans hfaces)
  · exact inAtlas_congr env _ c n hat (hb2 _ _) (getGlyph_inAtlas_self env _ c n _ g s2 hg hne1)
  · intro hold m key a e hm
    rw [hat] at hm
    exact getGlyph_older env _ c n _ g s2 hg (by rw [hat1]; exact hold) m key a e hm
  · intro c0 t0 h0 hc hkeep
    apply inAtlas_congr env _ c0 t0 hat (hb2 _ _)
    apply getGlyph_inAtlas_other env _ c n _ g s2 hg hwf1 c0 t0 _ hc
    · rw [hsb1.1, hsb1.1, inAtlas_face, hat1]; exact hkeep
    · rw [inAtlas_face]; exact h0


/-! ## Calls that return -/

theorem nextPow2From_pos (fuel x r : Nat) (hr : 0 < r) : 0 < nextPow2From fuel x r := by
  induction fuel generalizing r with
  | zero => simpa [nextPow2From] using hr
  | succ k ih =>
    unfold nextPow2From
    split
    · exact ih (2 * r) (by omega)
    · exact hr

theorem groupB_pos (b : Rectangle26_6) : 0 < groupB b := by
  unfold groupB
  split
  · decide
  · unfold NextPowerOf2Int
    exact Int.ofNat_lt.mpr (nextPow2From_pos _ _ 1 (by decide))

/-- The part of `getGlyphFromCache` after a miss returns, when the face has
its map of atlases, the group of the character is at most 1024 and, if there
is an atlas already, a cell can be selected in it. -/
theorem getGlyphMiss_ok (env : Fonts) (face : Face) (ch : char) (now : Int)
    (slot : Option (Int × atlas)) (st : State) (fam : List (Int × atlas))
    (hface : ch.face = face)
    (hfam : mapGet st.atlases face = some fam)
    (hpos : 0 < (ch.atlasGroup env st).1) (hfit : (ch.atlasGroup env st).1 ≤ 1024)
    (hslot : ∀ key a, slot = some (key, a) →
      a.glyphSize = (ch.atlasGroup env st).1 ∧ a.imageWidth = 1024 ∧
      ∃ r, a.selectCell a.cells = .ok r) :
    ∃ res, getGlyphMiss env face ch now slot st = .ok res := by
  subst hface
  unfold getGlyphMiss
  rw [empty_eq]
  have hbq : boundsOf env (queried env st ch.face ch.rune) ch.face ch.rune =
      boundsOf env st ch.face ch.rune := boundsOf_queried env st _ _ _ _
  have hG := atlasGroup_congr env ch hbq
  have hm' : mapGet (queried env st ch.face ch.rune).atlases ch.face = some fam := by
    rw [queried_atlases]; exact hfam
  cases he : emptyB (boundsOf env st ch.face ch.rune) with
  | true => simp only [if_true]; exact ⟨_, rfl⟩
  | false =>
    simp only [Bool.false_eq_true, if_false]
    cases slot with
    | some ka =>
      obtain ⟨key, a⟩ := ka
      obtain ⟨hsize, hw, ⟨idx, mm⟩, hsel⟩ := hslot key a rfl
      have hgs : a.glyphSize ≠ 0 := by rw [hsize]; omega
      have hx : Int.tdiv a.imageWidth a.glyphSize ≠ 0 := by
        have := tdiv_pos_of_le (a := a.imageWidth) (b := a.glyphSize)
          (by rw [hsize]; exact hpos) (by rw [hsize, hw]; exact hfit)
        omega
      obtain ⟨st', h1, _⟩ := insertGlyph_ok env ch.face key a ch now _ fam idx mm hm' hsel
        (by rw [hG]; exact hsize) hgs hx
      simp only
      rw [h1]; exact ⟨_, rfl⟩
    | none =>
      obtain ⟨st2, hc, hcat, hcres, _⟩ := createAtlas_of_some env ch.face ch _ fam hm'
      simp only
      rw [hc]
      simp only
      have hb2 : boundsOf env st2 ch.face ch.rune =
          boundsOf env (queried env st ch.face ch.rune) ch.face ch.rune := hcres.bounds.1 _ _
      have hidem := atlasGroup_idem env ch hb2
      have hm2 : mapGet st2.atlases ch.face = some
          (mapSet fam (ch.atlasGroup env (queried env st ch.face ch.rune)).1
            (freshAtlas (ch.atlasGroup env (queried env st ch.face ch.rune)).1)) := by
        rw [hcat]; exact mapGet_mapSet_self _ _ _
      have hgs : (freshAtlas (ch.atlasGroup env (queried env st ch.face ch.rune)).1).glyphSize
          ≠ 0 := by
        show (ch.atlasGroup env (queried env st ch.face ch.rune)).1 ≠ 0
        rw [hG]; omega
      have hx : Int.tdiv
          (freshAtlas (ch.atlasGroup env (queried env st ch.face ch.rune)).1).imageWidth
          (freshAtlas (ch.atlasGroup env (queried env st ch.face ch.rune)).1).glyphSize ≠ 0 := by
        show Int.tdiv 1024 (ch.atlasGroup env (queried env st ch.face ch.rune)).1 ≠ 0
        rw [hG]
        have := tdiv_pos_of_le (a := 1024) (b := (ch.atlasGroup env st).1) hpos hfit
        omega
      have hcells : mapLen
          (freshAtlas (ch.atlasGroup env (queried env st ch.face ch.rune)).1).runeToGlyph ≠
          (freshAtlas (ch.atlasGroup env (queried env st ch.face ch.rune)).1).cells := by
        show ((0 : Nat) : Int) ≠
          Int.tdiv 1024 (ch.atlasGroup env (queried env st ch.face ch.rune)).1 *
            Int.tdiv 1024 (ch.atlasGroup env (queried env st ch.face ch.rune)).1
        rw [hG]
        have := tdiv_pos_of_le (a := 1024) (b := (ch.atlasGroup env st).1) hpos hfit
        have := Int.mul_pos this this
        omega
      obtain ⟨st', h1, _⟩ := insertGlyph_ok env ch.face
        (ch.atlasGroup env (queried env st ch.face ch.rune)).1
        (freshAtlas (ch.atlasGroup env (queried env st ch.face ch.rune)).1)
        (ch.atlasGroup env (queried env st ch.face ch.rune)).2.1 now st2 _ _ _ hm2
        (selectCell_of_ne _ _ hcells) (by rw [hidem.1]; rfl) hgs hx
      rw [h1]; exact ⟨_, rfl⟩

/-- In a state that satisfies the invariant `getGlyphFromCache` returns for a
character whose group is at most 1024, provided the timestamps of the atlas
of that group are below `math.MaxInt64`. -/
theorem getGlyph_total (env : Fonts) (face : Face) (r now : Int) (st : State)
    (hwf : WF env st)
    (hfit : groupB (boundsOf env st face r) ≤ 1024)
    (hlt : ∀ m a e, mapGet st.atlases face = some m →
      mapGet m (groupB (boundsOf env st face r)) = some a → e ∈ a.runeToGlyph →
      e.2.atime < MaxInt64) :
    ∃ res, getGlyphFromCache env face r now st = .ok res := by
  have hpos := groupB_pos (boundsOf env st face r)
  have hbq : boundsOf env (queried env st face r) face r = boundsOf env st face r :=
    boundsOf_queried env st _ _ _ _
  have hst := atlasGroup_settled env face r st (queried env st face r) hbq
  unfold getGlyphFromCache
  cases hm : mapGet st.atlases face with
  | none =>
    simp only
    apply getGlyphMiss_ok env face _ now none _ [] rfl
      (by simp [mapGet_mapSet_self])
    · rw [atlasGroup_fresh]; exact hpos
    · rw [atlasGroup_fresh]; exact hfit
    · intro key a h; cases h
  | some m =>
    simp only [atlasGroup_fresh]
    cases ha : mapGet m (groupB (boundsOf env st face r)) with
    | none =>
      simp only
      apply getGlyphMiss_ok env face _ now none _ m rfl (by rw [queried_atlases]; exact hm)
      · rw [hst.1]; exact hpos
      · rw [hst.1]; exact hfit
      · intro key a h; cases h
    | some a =>
      simp only
      cases hg : mapGet a.runeToGlyph r with
      | some g => exact ⟨_, rfl⟩
      | none =>
        simp only
        have hok := hwf face m _ a hm ha
        apply getGlyphMiss_ok env face _ now _ _ m rfl (by rw [queried_atlases]; exact hm)
        · rw [hst.1]; exact hpos
        · rw [hst.1]; exact hfit
        · intro key a' h
          simp only [Option.some.injEq, Prod.mk.injEq] at h
          obtain ⟨_, h2⟩ := h
          subst h2
          refine ⟨by rw [hst.1]; exact hok.size, hok.width, ?_⟩
          by_cases hfull : mapLen a.runeToGlyph = a.cells
          · have hc := hok.cells_pos
            have hlen : 0 < a.runeToGlyph.length := by
              unfold mapLen at hfull; omega
            obtain ⟨e, he⟩ := List.exists_mem_of_length_pos hlen
            obtain ⟨k, old, _, _, hsel⟩ := selectCell_of_eq a a.cells hfull
              ⟨e, he, hlt m a e hm ha he⟩
            exact ⟨_, hsel⟩
          · exact ⟨_, selectCell_of_ne a a.cells hfull⟩


/-- One round of the loop of `Draw` returns, for a non-empty glyph whose
group is at most 1024, in a state that satisfies the invariant and whose
timestamps in the atlas of that group are below `math.MaxInt64`. -/
theorem round_total (env : Fonts) (dst : Nat) (face : Face) (y : Int) (clr : Color) (n : Int)
    (s : State) (fx prevC c : Int) (fa : Face)
    (hfa : (fontFaceToFace face s).1 = fa)
    (hwf : WF env s) (hn : n ≤ s.monotonicClock) (hA : clr.A ≠ 0)
    (hne : emptyB (boundsOf env s fa c) = false)
    (hfit : groupB (boundsOf env s fa c) ≤ 1024)
    (hlt : ∀ m a e, mapGet s.atlases fa = some m →
      mapGet m (groupB (boundsOf env s fa c)) = some a → e ∈ a.runeToGlyph →
      e.2.atime < MaxInt64) :
    ∃ res, drawRune env dst face y clr n s fx prevC c = .ok res := by
  subst hfa
  have hsb1 : SameBounds env s (fontFaceToFace face s).2 :=
    SameBounds.of_charBounds (fontFaceToFace_charBounds face s)
  have hat1 : (fontFaceToFace face s).2.atlases = s.atlases := fontFaceToFace_atlases face s
  have hwf1 : WF env (fontFaceToFace face s).2 := hwf.wfMono hat1 hsb1 (by simp)
  have hne1 : emptyB (boundsOf env (fontFaceToFace face s).2 (fontFaceToFace face s).1 c) =
      false := by rw [hsb1.1]; exact hne
  obtain ⟨⟨g, s2⟩, hg⟩ := getGlyph_total env (fontFaceToFace face s).1 c n
    (fontFaceToFace face s).2 hwf1 (by rw [hsb1.1]; exact hfit)
    (by rw [hat1, hsb1.1]; exact hlt)
  have hwf2 : WF env s2 := wf_getGlyph env _ c n _ g s2 hwf1 (by simpa using hn) hg
  obtain ⟨hres, hgc⟩ := getGlyph_cases env _ c n _ g s2 hg
  have hb2 : boundsOf env s2 (fontFaceToFace face s).1 c =
      boundsOf env (fontFaceToFace face s).2 (fontFaceToFace face s).1 c := hres.bounds.1 _ _
  have hchar : g.char = settled env (fontFaceToFace face s).2 (fontFaceToFace face s).1 c := by
    rcases hgc with ⟨m, a, g0, hm, ha, hg0, hgeq, _, _⟩ | ⟨habs, _⟩ |
        ⟨_, a, idx, mm, _, _, _, _, _, hgeq, _, _⟩
    · have := (hwf1 _ m _ a hm ha).glyphs c g0 (mem_of_mapGet hg0)
      rw [hgeq]
      exact this.char
    · rw [hne1] at habs; exact absurd habs (by decide)
    · rw [hgeq]
  have hgf : g.char.face = (fontFaceToFace face s).1 := by rw [hchar]; rfl
  have hgr : g.char.rune = c := by rw [hchar]; rfl
  obtain ⟨m, a, g0, hm, ha, _, _⟩ := getGlyph_inAtlas_self env _ c n _ g s2 hg hne1
  have hok := hwf2 _ m _ a hm ha
  have hbq : boundsOf env (queried env s2 g.char.face g.char.rune)
      (fontFaceToFace face s).1 c =
      boundsOf env (fontFaceToFace face s).2 (fontFaceToFace face s).1 c := by
    rw [boundsOf_queried, hb2]
  have hgrp := atlasGroup_settled env (fontFaceToFace face s).1 c (fontFaceToFace face s).2
    (queried env s2 g.char.face g.char.rune) hbq
  rw [← hchar, ← hb2] at hgrp
  have hgs : a.glyphSize ≠ 0 := by rw [hok.size]; exact ne_of_gt hok.pos
  have hx : Int.tdiv a.imageWidth a.glyphSize ≠ 0 := by
    have := tdiv_pos_of_le (a := a.imageWidth) (b := a.glyphSize)
      (by rw [hok.size]; exact hok.pos) (by rw [hok.size, hok.width]; exact hok.fits)
    omega
  obtain ⟨g', s', hd⟩ := glyph_draw_ok env g dst
    (if prevC ≥ 0 then wrap32 (fx + env.Kern face prevC c) else fx) (fixedI y) clr
    (queried env s2 g.char.face g.char.rune) m a hA
    (by rw [queried_atlases, hgf]; exact hm)
    (by rw [hgrp.1]; exact ha)
    (by rw [hgrp.1]; exact hok.size) hgs hx
  refine ⟨_, drawRune_of_ok env dst face y clr n s fx prevC c g g' s2 s' hg ?_ hd⟩
  rw [hgf, hgr, hb2]
  exact hne1

/-- Resolving a rune at time `n` leaves no timestamp above `n` in the atlases
of the face, when there was none before. -/
theorem getGlyph_atime_le (env : Fonts) (fa : Face) (c n : Int) (s : State) (g : glyph)
    (s2 : State) (h : getGlyphFromCache env fa c n s = .ok (g, s2))
    (hold : ∀ m key a e, mapGet s.atlases fa = some m → mapGet m key = some a →
      e ∈ a.runeToGlyph → e.2.atime ≤ n) :
    ∀ m key a e, mapGet s2.atlases fa = some m → mapGet m key = some a →
      e ∈ a.runeToGlyph → e.2.atime ≤ n := by
  obtain ⟨_, hcase⟩ := getGlyph_cases env fa c n s g s2 h
  intro m' key a' e hm' ha' he
  rcases hcase with ⟨m, a, g0, hm, ha, _, _, hat, _⟩ | ⟨_, _, _, _, _, _, hface, _⟩ |
      ⟨_, a, idx, mm, hslot, _, _, _, hsel, _, hat, _⟩
  · rw [hat, mapGet_mapSet_self] at hm'
    simp only [Option.some.injEq] at hm'
    subst hm'
    by_cases hkey : key = groupB (boundsOf env s fa c)
    · subst hkey
      rw [mapGet_mapSet_self] at ha'
      simp only [Option.some.injEq] at ha'
      subst ha'
      rcases mem_mapSet he with h1 | h1
      · rw [h1]
      · exact hold m _ a e hm ha h1
    · rw [mapGet_mapSet_ne _ _ (Ne.symm hkey)] at ha'
      exact hold m key a' e hm ha' he
  · rw [hface] at hm'
    simp only [Option.some.injEq] at hm'
    subst hm'
    exact hold _ key a' e (getD_of_mapGet ha') ha' he
  · rw [hat, mapGet_mapSet_self] at hm'
    simp only [Option.some.injEq] at hm'
    subst hm'
    by_cases hkey : key = groupB (boundsOf env s fa c)
    · subst hkey
      rw [mapGet_mapSet_self] at ha'
      simp only [Option.some.injEq] at ha'
      subst ha'
      rcases mem_mapSet he with h1 | h1
      · rw [h1]
      · have h2 := selectCell_subset a a.cells idx mm hsel e h1
        rcases hslot with ⟨hex, _⟩ | ⟨_, hfresh⟩
        · exact hold _ _ a e (getD_of_mapGet hex) hex h2
        · rw [hfresh] at h2; simp [freshAtlas] at h2
    · rw [mapGet_mapSet_ne _ _ (Ne.symm hkey)] at ha'
      exact hold _ key a' e (getD_of_mapGet ha') ha' he

/-- The same for a round of the loop of `Draw`. -/
theorem round_atime_le (env : Fonts) (dst : Nat) (face : Face) (y : Int) (clr : Color) (n : Int)
    (s : State) (fx prevC c : Int) (s' : State) (fx' p' : Int) (fa : Face)
    (hfa : (fontFaceToFace face s).1 = fa)
    (hwf : WF env s) (hn : n ≤ s.monotonicClock) (hA : clr.A ≠ 0)
    (hne : emptyB (boundsOf env s fa c) = false)
    (h : drawRune env dst face y clr n s fx prevC c = .ok (s', fx', p'))
    (hold : ∀ m key a e, mapGet s.atlases fa = some m → mapGet m key = some a →
      e ∈ a.runeToGlyph → e.2.atime ≤ n) :
    ∀ m key a e, mapGet s'.atlases fa = some m → mapGet m key = some a →
      e ∈ a.runeToGlyph → e.2.atime ≤ n := by
  subst hfa
  obtain ⟨g, s2, hg, hat, _⟩ :=
    round_core env dst face y clr n s fx prevC c s' fx' p' hwf hn hA hne h
  intro m key a e hm
  rw [hat] at hm
  exact getGlyph_atime_le env _ c n _ g s2 hg
    (by rw [fontFaceToFace_atlases]; exact hold) m key a e hm


/-- Two calls of `Draw` in succession for a two-rune text, given that the
first call returns: the second call returns and resolves both glyphs from the
atlases, and the two calls composite the glyphs at the same positions. -/
theorem Draw_twice_of_first (env : Fonts) (st : State) (dst : Nat) (face : Face) (x y : Int)
    (clr : Color) (A B : Int) (st1 : State)
    (hreach : Reachable env st) (hclr : clr.A ≠ 0) (hA0 : 0 ≤ A)
    (hAne : (char.empty env
      { face := (fontFaceToFace face st).1, rune := A, atlasG := 0 } st).1 = false)
    (hBne : (char.empty env
      { face := (fontFaceToFace face st).1, rune := B, atlasG := 0 } st).1 = false)
    (hcap : A = B ∨
      (char.atlasGroup env
          { face := (fontFaceToFace face st).1, rune := A, atlasG := 0 } st).1 ≠
        (char.atlasGroup env
          { face := (fontFaceToFace face st).1, rune := B, atlasG := 0 } st).1 ∨
      (char.atlasGroup env
          { face := (fontFaceToFace face st).1, rune := A, atlasG := 0 } st).1 ≤ 512)
    (h1 : Draw env dst [A, B] face x y clr st = .ok st1) :
    ∃ st2 l1 l2,
      Draw env dst [A, B] face x y clr st1 = .ok st2 ∧
      st1.log = st.log ++ l1 ∧ st2.log = st1.log ++ l2 ∧
      l2.length = 2 ∧ (∀ e ∈ l2, e.isDrawImage = true) ∧
      pens l1 =
        [(dst, A,
          wrap32 (fixedI x + (char.bounds env
            { face := (fontFaceToFace face st).1, rune := A, atlasG := 0 } st).1.Min.X),
          wrap32 (fixedI y + (char.bounds env
            { face := (fontFaceToFace face st).1, rune := A, atlasG := 0 } st).1.Min.Y)),
         (dst, B,
          wrap32 (fixedI x + env.GlyphAdvance face A + env.Kern face A B +
            (char.bounds env
              { face := (fontFaceToFace face st).1, rune := B, atlasG := 0 } st).1.Min.X),
          wrap32 (fixedI y + (char.bounds env
            { face := (fontFaceToFace face st).1, rune := B, atlasG := 0 } st).1.Min.Y))] ∧
      pens l2 = pens l1 ∧
      drawLoop env dst face y clr (now st).1 [A, B] (now st).2 (fixedI x) (-1) =
        .ok (st1, wrap32 (fixedI x +
          (env.GlyphAdvance face A + env.Kern face A B + env.GlyphAdvance face B)), B) ∧
      drawLoop env dst face y clr (now st1).1 [A, B] (now st1).2 (fixedI x) (-1) =
        .ok (st2, wrap32 (fixedI x +
          (env.GlyphAdvance face A + env.Kern face A B + env.GlyphAdvance face B)), B) := by
  rw [empty_eq] at hAne hBne
  rw [atlasGroup_fresh, atlasGroup_fresh] at hcap
  rw [bounds_eq, bounds_eq]
  simp only at hAne hBne hcap ⊢
  generalize hfa : (fontFaceToFace face st).1 = fa at hAne hBne hcap ⊢
  have hwf : WF env st := hreach.wf
  have hneg : ¬ ((-1 : Int) ≥ 0) := by decide
  have hpen : ∀ a k b : Int, wrap32 (wrap32 (wrap32 (fixedI x + a) + k) + b) =
      wrap32 (fixedI x + (a + k + b)) := by
    intro a k b
    rw [wrap32_wrap32_add, add_assoc, wrap32_wrap32_add]
    congr 1; ring
  -- the first call
  rw [Draw_eq] at h1
  cases hl : drawLoop env dst face y clr (now st).1 [A, B] (now st).2 (fixedI x) (-1) with
  | error e => rw [hl] at h1; cases h1
  | ok r =>
    rw [hl] at h1
    obtain ⟨sB, fxB, pB⟩ := r
    simp only [Except.ok.injEq] at h1
    subst h1
    obtain ⟨sA, fxA, pA, hrA, hrB⟩ := (drawLoop_two env dst face y clr _ A B _ _ _ _).mp hl
    have hsb0 : SameBounds env st (now st).2 := SameBounds.of_charBounds rfl
    have hwf0 : WF env (now st).2 := hwf.wfMono rfl hsb0 (by simp)
    have hfa0 : (fontFaceToFace face (now st).2).1 = fa := by
      rw [(fontFaceToFace_congr face st (now st).2 rfl).1]; exact hfa
    have hold0 : ∀ m key a e, mapGet (now st).2.atlases fa = some m → mapGet m key = some a →
        e ∈ a.runeToGlyph → e.2.atime < (now st).1 := by
      intro m key a e hm ha he
      have := ((hwf fa m key a hm ha).glyphs e.1 e.2 he).atime
      rw [now_value]; omega
    obtain ⟨hfxA, hpA, hwfA, hclkA, hsbA, hstA, hmemoA, hinA, ⟨lA, sxA, syA, szA, cmA, hlogA, hlA, _⟩,
        holdA, _⟩ :=
      round_full env dst face y clr _ _ _ _ A sA fxA pA fa hfa0 hwf0 (by simp) hclr
        (by rw [hsb0.1]; exact hAne) hrA
    have holdA1 := holdA hold0
    rw [if_neg hneg] at hfxA hlogA
    subst hpA
    have hfaA : (fontFaceToFace face sA).1 = fa := by rw [hstA sA rfl]
    have hbA : ∀ f r, boundsOf env sA f r = boundsOf env st f r := by
      intro f r; rw [hsbA.1, hsb0.1]
    obtain ⟨hfxB, hpB, hwfB, hclkB, hsbB, hstB, hmemoB, hinB, ⟨lB, sxB, syB, szB, cmB, hlogB, hlB, _⟩,
        _, hotherB⟩ :=
      round_full env dst face y clr _ sA fxA pA B sB fxB pB fa hfaA hwfA
        (by rw [now_value]; simp only [now_clock] at hclkA; exact hclkA) hclr
        (by rw [hbA]; exact hBne) hrB
    rw [if_pos (ge_iff_le.mpr hA0)] at hfxB hlogB
    subst hpB
    have hbB : ∀ f r, boundsOf env sB f r = boundsOf env st f r := by
      intro f r; rw [hsbB.1, hbA]
    have hinAB : InAtlas env sB fa pA (now st).1 := by
      by_cases hAB : pA = pB
      · rw [hAB]; exact hinB
      · apply hotherB pA _ hinA hAB
        rw [hbA, hbA]
        rcases hcap with h | h | h
        · exact absurd h hAB
        · exact Or.inl h
        · by_cases hg : groupB (boundsOf env st fa pA) = groupB (boundsOf env st fa pB)
          · refine Or.inr (Or.inr ?_)
            intro m a hm ha hfull
            have hok := hwfA fa m _ a hm ha
            have hsz := hok.size
            have hpos := hok.pos
            have h2 : 2 ≤ Int.tdiv 1024 (groupB (boundsOf env st fa pB)) :=
              two_le_tdiv hpos (by omega)
            have hcells : 2 ≤ a.cells := by
              unfold atlas.cells
              rw [hok.width, hok.height, hsz]
              nlinarith
            have hlen : 2 ≤ a.runeToGlyph.length := by
              unfold mapLen at hfull
              omega
            obtain ⟨e, he, hne⟩ := exists_key_ne a.runeToGlyph pA hok.keys hlen
            exact ⟨e, he, hne, holdA1 m _ a e hm ha he hne⟩
          · exact Or.inl hg
    -- the second call
    have hsb1 : SameBounds env sB (now sB).2 := SameBounds.of_charBounds rfl
    have hwf1 : WF env (now sB).2 := hwfB.wfMono rfl hsb1 (by simp)
    have hfa1 : (fontFaceToFace face (now sB).2).1 = fa := by rw [hstB (now sB).2 rfl]
    have hb1 : ∀ f r, boundsOf env (now sB).2 f r = boundsOf env st f r := by
      intro f r; rw [hsb1.1, hbB]
    have hinA1 : InAtlas env (now sB).2 fa pA (now st).1 :=
      inAtlas_congr env fa pA _ rfl (hsb1.1 fa pA) hinAB
    have hinB1 : InAtlas env (now sB).2 fa pB (now st).1 :=
      inAtlas_congr env fa pB _ rfl (hsb1.1 fa pB) hinB
    have hmemoA1 : memoBounds (now sB).2 fa pA ≠ none := hsb1.2 _ _ (hsbB.2 _ _ hmemoA)
    have hmemoB1 : memoBounds (now sB).2 fa pB ≠ none := hsb1.2 _ _ hmemoB
    obtain ⟨tA, hrA2⟩ := round_hit env dst face y clr (now sB).1 (now sB).2 (fixedI x) (-1) pA
      (now st).1 hwf1 hclr (by rw [hfa1, hb1]; exact hAne) (by rw [hfa1]; exact hinA1)
    obtain ⟨_, _, hwfA2, hclkA2, hsbA2, hstA2, _, hinA2, ⟨lA2, sxA2, syA2, szA2, cmA2, hlogA2, _, hnilA2⟩,
        _, hotherA2⟩ :=
      round_full env dst face y clr _ _ _ _ pA tA _ _ fa hfa1 hwf1 (by simp) hclr
        (by rw [hb1]; exact hAne) hrA2
    rw [hnilA2 ⟨_, hinA1⟩ hmemoA1, if_neg hneg] at hlogA2
    rw [if_neg hneg] at hrA2
    have hfaA2 : (fontFaceToFace face tA).1 = fa := by rw [hstA2 tA rfl]
    have hbA2 : ∀ f r, boundsOf env tA f r = boundsOf env st f r := by
      intro f r; rw [hsbA2.1, hb1]
    have hinB2 : ∃ t, InAtlas env tA fa pB t := by
      by_cases hAB : pB = pA
      · rw [hAB]; exact ⟨_, hinA2⟩
      · exact ⟨_, hotherA2 pB _ hinB1 hAB (Or.inr (Or.inl ⟨_, hinA1⟩))⟩
    have hmemoB2 : memoBounds tA fa pB ≠ none := hsbA2.2 _ _ hmemoB1
    obtain ⟨tB, hinB2'⟩ := hinB2
    obtain ⟨st2, hrB2⟩ := round_hit env dst face y clr (now sB).1 tA
      (wrap32 (fixedI x + env.GlyphAdvance face pA)) pA pB tB hwfA2 hclr
      (by rw [hfaA2, hbA2]; exact hBne) (by rw [hfaA2]; exact hinB2')
    obtain ⟨_, _, _, _, _, _, _, _, ⟨lB2, sxB2, syB2, szB2, cmB2, hlogB2, _, hnilB2⟩, _, _⟩ :=
      round_full env dst face y clr _ _ _ _ pB st2 _ _ fa hfaA2 hwfA2
        (by rw [now_value]; simp only [now_clock] at hclkA2; omega) hclr
        (by rw [hbA2]; exact hBne) hrB2
    rw [hnilB2 ⟨_, hinB2'⟩ hmemoB2, if_pos (ge_iff_le.mpr hA0)] at hlogB2
    rw [if_pos (ge_iff_le.mpr hA0)] at hrB2
    have hloop2 := (drawLoop_two env dst face y clr (now sB).1 pA pB (now sB).2 (fixedI x) (-1)
      _).mpr ⟨_, _, _, hrA2, hrB2⟩
    rw [hpen] at hloop2
    rw [hsb0.1] at hlogA
    rw [hbA, hfxA] at hlogB
    rw [hb1] at hlogA2
    rw [hbA2] at hlogB2
    refine ⟨st2,
      lA ++ [Event.drawImage dst fa pA (wrap32 (fixedI x + (boundsOf env st fa pA).Min.X))
          (wrap32 (fixedI y + (boundsOf env st fa pA).Min.Y)) sxA syA szA cmA] ++ lB ++
        [Event.drawImage dst fa pB
          (wrap32 (wrap32 (wrap32 (fixedI x + env.GlyphAdvance face pA) +
            env.Kern face pA pB) + (boundsOf env st fa pB).Min.X))
          (wrap32 (fixedI y + (boundsOf env st fa pB).Min.Y)) sxB syB szB cmB],
      [Event.drawImage dst fa pA (wrap32 (fixedI x + (boundsOf env st fa pA).Min.X))
          (wrap32 (fixedI y + (boundsOf env st fa pA).Min.Y)) sxA2 syA2 szA2 cmA2,
        Event.drawImage dst fa pB
          (wrap32 (wrap32 (wrap32 (fixedI x + env.GlyphAdvance face pA) +
            env.Kern face pA pB) + (boundsOf env st fa pB).Min.X))
          (wrap32 (fixedI y + (boundsOf env st fa pB).Min.Y)) sxB2 syB2 szB2 cmB2],
      ?_, ?_, ?_, rfl, ?_, ?_, ?_, ?_, hloop2⟩
    · rw [Draw_eq, hloop2]
    · rw [hlogB, hlogA]
      show (st.log ++ lA ++ [_] ++ lB ++ [_] : List Event) = _
      simp only [List.append_assoc]
    · rw [hlogB2, hlogA2]
      show (sB.log ++ [] ++ [_] ++ [] ++ [_] : List Event) = _
      simp
    · intro e he
      simp only [List.mem_cons, List.mem_singleton, List.not_mem_nil, or_false] at he
      rcases he with rfl | rfl <;> rfl
    · simp only [pens_append, pens_eq_nil hlA, pens_eq_nil hlB, List.nil_append]
      rw [hpen]
      simp only [pens, List.filterMap_cons, List.filterMap_nil, List.singleton_append]
      congr 3
      congr 1
      ring_nf
    · simp only [pens_append, pens_eq_nil hlA, pens_eq_nil hlB, List.nil_append]
      simp [pens]
    · rw [hfxB, hfxA, hpen]

/-- A call of `Draw` for a two-rune text returns, in a reachable state whose
clock is below `math.MaxInt64 - 1`, when the colour is not transparent and
both glyphs are non-empty with a group of at most 1024. -/
theorem Draw_two_total (env : Fonts) (st : State) (dst : Nat) (face : Face) (x y : Int)
    (clr : Color) (A B : Int) (fa : Face) (hfa : (fontFaceToFace face st).1 = fa)
    (hwf : WF env st) (hclock : st.monotonicClock + 1 < MaxInt64) (hclr : clr.A ≠ 0)
    (hAne : emptyB (boundsOf env st fa A) = false)
    (hBne : emptyB (boundsOf env st fa B) = false)
    (hAfit : groupB (boundsOf env st fa A) ≤ 1024)
    (hBfit : groupB (boundsOf env st fa B) ≤ 1024) :
    ∃ st1, Draw env dst [A, B] face x y clr st = .ok st1 := by
  have hsb0 : SameBounds env st (now st).2 := SameBounds.of_charBounds rfl
  have hwf0 : WF env (now st).2 := hwf.wfMono rfl hsb0 (by simp)
  have hfa0 : (fontFaceToFace face (now st).2).1 = fa := by
    rw [(fontFaceToFace_congr face st (now st).2 rfl).1]; exact hfa
  have hold0 : ∀ m key a e, mapGet (now st).2.atlases fa = some m → mapGet m key = some a →
      e ∈ a.runeToGlyph → e.2.atime ≤ (now st).1 := by
    intro m key a e hm ha he
    have := ((hwf fa m key a hm ha).glyphs e.1 e.2 he).atime
    rw [now_value]; omega
  have hn : (now st).1 < MaxInt64 := by rw [now_value]; exact hclock
  obtain ⟨⟨sA, fxA, pA⟩, hrA⟩ := round_total env dst face y clr (now st).1 (now st).2
    (fixedI x) (-1) A fa hfa0 hwf0 (by simp) hclr (by rw [hsb0.1]; exact hAne)
    (by rw [hsb0.1]; exact hAfit)
    (fun m a e hm ha he => lt_of_le_of_lt (hold0 m _ a e hm ha he) hn)
  obtain ⟨_, _, hwfA, hclkA, hsbA, hstA, _⟩ :=
    round_full env dst face y clr _ _ _ _ A sA fxA pA fa hfa0 hwf0 (by simp) hclr
      (by rw [hsb0.1]; exact hAne) hrA
  have holdA := round_atime_le env dst face y clr _ _ _ _ A sA fxA pA fa hfa0 hwf0 (by simp)
    hclr (by rw [hsb0.1]; exact hAne) hrA hold0
  have hfaA : (fontFaceToFace face sA).1 = fa := by rw [hstA sA rfl]
  have hbA : ∀ f r, boundsOf env sA f r = boundsOf env st f r := by
    intro f r; rw [hsbA.1, hsb0.1]
  obtain ⟨rB, hrB⟩ := round_total env dst face y clr (now st).1 sA fxA pA B fa hfaA hwfA
    (by rw [now_value]; simp only [now_clock] at hclkA; exact hclkA) hclr
    (by rw [hbA]; exact hBne) (by rw [hbA]; exact hBfit)
    (fun m a e hm ha he => lt_of_le_of_lt (holdA m _ a e hm ha he) hn)
  have hloop := (drawLoop_two env dst face y clr (now st).1 A B (now st).2 (fixedI x) (-1)
    rB).mpr ⟨_, _, _, hrA, hrB⟩
  rw [Draw_eq, hloop]
  exact ⟨_, rfl⟩

/-- C10 (amended): in a reachable state whose clock is below
`math.MaxInt64 - 1`, for a colour whose alpha is not zero and a two-rune text
"AB" (A not negative) whose glyphs are not empty and have an atlas group of at
most 1024, such that A and B are the same rune, or have different atlas
groups, or have an atlas group of at most 512 (an atlas then has at least four
cells): two calls of `Draw` in succession with the same arguments both
return; the second call logs exactly two events, both composites on the
destination (no rasterisation: `atlas.draw` is not invoked), the two calls
composite A and B at the same positions, A at the pen `x` and B at the pen
`x + advance(A) + kern(A,B)`, each offset by the glyph's bounds, and both
loops end with the pen at `x + advance(A) + kern(A,B) + advance(B)` in
`Int26_6` arithmetic. -/
theorem Draw_twice_hits_cache (env : Fonts) (st : State) (dst : Nat) (face : Face) (x y : Int)
    (clr : Color) (A B : Int)
    (hreach : Reachable env st) (hclock : st.monotonicClock + 1 < MaxInt64)
    (hclr : clr.A ≠ 0) (hA0 : 0 ≤ A)
    (hAne : (char.empty env
      { face := (fontFaceToFace face st).1, rune := A, atlasG := 0 } st).1 = false)
    (hBne : (char.empty env
      { face := (fontFaceToFace face st).1, rune := B, atlasG := 0 } st).1 = false)
    (hAfit : (char.atlasGroup env
      { face := (fontFaceToFace face st).1, rune := A, atlasG := 0 } st).1 ≤ 1024)
    (hBfit : (char.atlasGroup env
      { face := (fontFaceToFace face st).1, rune := B, atlasG := 0 } st).1 ≤ 1024)
    (hcap : A = B ∨
      (char.atlasGroup env
          { face := (fontFaceToFace face st).1, rune := A, atlasG := 0 } st).1 ≠
        (char.atlasGroup env
          { face := (fontFaceToFace face st).1, rune := B, atlasG := 0 } st).1 ∨
      (char.atlasGroup env
          { face := (fontFaceToFace face st).1, rune := A, atlasG := 0 } st).1 ≤ 512) :
    ∃ st1 st2 l1 l2,
      Draw env dst [A, B] face x y clr st = .ok st1 ∧
      Draw env dst [A, B] face x y clr st1 = .ok st2 ∧
      st1.log = st.log ++ l1 ∧ st2.log = st1.log ++ l2 ∧
      l2.length = 2 ∧ (∀ e ∈ l2, e.isDrawImage = true) ∧
      pens l1 =
        [(dst, A,
          wrap32 (fixedI x + (char.bounds env
            { face := (fontFaceToFace face st).1, rune := A, atlasG := 0 } st).1.Min.X),
          wrap32 (fixedI y + (char.bounds env
            { face := (fontFaceToFace face st).1, rune := A, atlasG := 0 } st).1.Min.Y)),
         (dst, B,
          wrap32 (fixedI x + env.GlyphAdvance face A + env.Kern face A B +
            (char.bounds env
              { face := (fontFaceToFace face st).1, rune := B, atlasG := 0 } st).1.Min.X),
          wrap32 (fixedI y + (char.bounds env
            { face := (fontFaceToFace face st).1, rune := B, atlasG := 0 } st).1.Min.Y))] ∧
      pens l2 = pens l1 ∧
      drawLoop env dst face y clr (now st).1 [A, B] (now st).2 (fixedI x) (-1) =
        .ok (st1, wrap32 (fixedI x +
          (env.GlyphAdvance face A + env.Kern face A B + env.GlyphAdvance face B)), B) ∧
      drawLoop env dst face y clr (now st1).1 [A, B] (now st1).2 (fixedI x) (-1) =
        .ok (st2, wrap32 (fixedI x +
          (env.GlyphAdvance face A + env.Kern face A B + env.GlyphAdvance face B)), B) := by
  obtain ⟨st1, h1⟩ := Draw_two_total env st dst face x y clr A B _ rfl hreach.wf hclock hclr
    (by rw [empty_eq] at hAne; exact hAne) (by rw [empty_eq] at hBne; exact hBne)
    (by rw [atlasGroup_fresh] at hAfit; exact hAfit)
    (by rw [atlasGroup_fresh] at hBfit; exact hBfit)
  obtain ⟨st2, l1, l2, h2⟩ := Draw_twice_of_first env st dst face x y clr A B st1 hreach hclr
    hA0 hAne hBne hcap h1
  exact ⟨st1, st2, l1, l2, h1, h2⟩

/-- C10 as stated fails: for a face whose glyphs are 600 by 600 pixels the
atlas group is 1024 and the atlas has a single cell, so in "AB" each glyph
evicts the other, and the second call of `Draw` with the same arguments
rasterises both glyphs again. -/
theorem Draw_twice_counterexample :
    exWhite.A ≠ 0 ∧
    (char.empty exLarge { face := exFace, rune := 65, atlasG := 0 } State.init).1 = false ∧
    (char.empty exLarge { face := exFace, rune := 66, atlasG := 0 } State.init).1 = false ∧
    ∃ st1 st2, Draw exLarge 0 [65, 66] exFace 0 0 exWhite State.init = .ok st1 ∧
      Draw exLarge 0 [65, 66] exFace 0 0 exWhite st1 = .ok st2 ∧
      st2.log = st1.log ++ st2.log.drop st1.log.length ∧
      Event.rasterize exFace 65 1024 0 0 ∈ st2.log.drop st1.log.length ∧
      Event.rasterize exFace 66 1024 0 0 ∈ st2.log.drop st1.log.length :=
  ⟨by decide, rfl, rfl, _, _, rfl, rfl, by decide, by decide, by decide⟩

/-- C10 (amended), at a concrete input: "AB" in white from the initial state,
with glyphs of 300 by 400 pixels (atlas group 512). -/
theorem Draw_twice_hits_cache_witness :
    Reachable exFonts State.init ∧ State.init.monotonicClock + 1 < MaxInt64 ∧
    exWhite.A ≠ 0 ∧
    (char.atlasGroup exFonts
      { face := (fontFaceToFace exFace State.init).1, rune := 65, atlasG := 0 }
      State.init).1 ≤ 512 ∧
    ∃ st1 st2 l1 l2,
      Draw exFonts 0 [65, 66] exFace 0 0 exWhite State.init = .ok st1 ∧
      Draw exFonts 0 [65, 66] exFace 0 0 exWhite st1 = .ok st2 ∧
      st1.log = State.init.log ++ l1 ∧ st2.log = st1.log ++ l2 ∧
      l2.length = 2 ∧ (∀ e ∈ l2, e.isDrawImage = true) ∧
      pens l1 =
        [(0, 65,
          wrap32 (fixedI 0 + (char.bounds exFonts
            { face := (fontFaceToFace exFace State.init).1, rune := 65, atlasG := 0 }
            State.init).1.Min.X),
          wrap32 (fixedI 0 + (char.bounds exFonts
            { face := (fontFaceToFace exFace State.init).1, rune := 65, atlasG := 0 }
            State.init).1.Min.Y)),
         (0, 66,
          wrap32 (fixedI 0 + exFonts.GlyphAdvance exFace 65 + exFonts.Kern exFace 65 66 +
            (char.bounds exFonts
              { face := (fontFaceToFace exFace State.init).1, rune := 66, atlasG := 0 }
              State.init).1.Min.X),
          wrap32 (fixedI 0 + (char.bounds exFonts
            { face := (fontFaceToFace exFace State.init).1, rune := 66, atlasG := 0 }
            State.init).1.Min.Y))] ∧
      pens l2 = pens l1 ∧
      drawLoop exFonts 0 exFace 0 exWhite (now State.init).1 [65, 66] (now State.init).2
          (fixedI 0) (-1) =
        .ok (st1, wrap32 (fixedI 0 +
          (exFonts.GlyphAdvance exFace 65 + exFonts.Kern exFace 65 66 +
            exFonts.GlyphAdvance exFace 66)), 66) ∧
      drawLoop exFonts 0 exFace 0 exWhite (now st1).1 [65, 66] (now st1).2 (fixedI 0) (-1) =
        .ok (st2, wrap32 (fixedI 0 +
          (exFonts.GlyphAdvance exFace 65 + exFonts.Kern exFace 65 66 +
            exFonts.GlyphAdvance exFace 66)), 66) :=
  ⟨Reachable.init, by decide, by decide, by decide,
    Draw_twice_hits_cache exFonts State.init 0 exFace 0 0 exWhite 65 66 Reachable.init
      (by decide) (by decide) (by decide) rfl rfl (by decide) (by decide)
      (Or.inr (Or.inr (by decide)))⟩


/-! ## A transparent colour in `glyph.draw` -/

/-- C17: with a colour whose alpha component is 0, `glyph.draw` returns at
once, before it touches the colour cache: it returns, the glyph and the whole
state are as before, so `colorMCache` and the clock are unchanged and the log
has no new event (no `DrawImage` on the destination, no query of the face). -/
theorem glyph_draw_alpha_zero (env : Fonts) (g : glyph) (dst : Nat) (x y : Int) (clr : Color)
    (st : State) (hA : clr.A = 0) :
    ∃ g' st', g.draw env dst x y clr st = .ok (g', st') ∧ g' = g ∧ st' = st ∧
      st'.colorMCache = st.colorMCache ∧ st'.monotonicClock = st.monotonicClock ∧
      st'.log = st.log :=
  ⟨g, st, glyph_draw_transparent env g dst x y clr st hA, rfl, rfl, rfl, rfl, rfl⟩

/-- C17, at a concrete input: the glyph of "A" in the transparent colour. -/
theorem glyph_draw_alpha_zero_witness :
    exClear.A = 0 ∧
    ∃ g' st', (exGlyph 65 0 3).draw exFonts 0 0 0 exClear exState = .ok (g', st') ∧
      g' = exGlyph 65 0 3 ∧ st' = exState ∧
      st'.colorMCache = exState.colorMCache ∧ st'.monotonicClock = exState.monotonicClock ∧
      st'.log = exState.log :=
  ⟨rfl, glyph_draw_alpha_zero exFonts (exGlyph 65 0 3) 0 0 0 exClear exState rfl⟩

/-! ## The cells of an atlas -/

theorem cell_inside (W H gs i : Int) (hgs : 0 < gs) (hrow : 0 < Int.tdiv W gs) (hi : 0 ≤ i)
    (hmax : i < Int.tdiv W gs * Int.tdiv H gs) :
    0 ≤ Int.tmod i (Int.tdiv W gs) * gs ∧ Int.tmod i (Int.tdiv W gs) * gs + gs ≤ W ∧
    0 ≤ Int.tdiv i (Int.tdiv W gs) * gs ∧ Int.tdiv i (Int.tdiv W gs) * gs + gs ≤ H := by
  have hW : 0 ≤ W := by
    by_contra hneg
    have : Int.tdiv W gs ≤ 0 := by
      have h1 : Int.tdiv W gs = -(Int.tdiv (-W) gs) := by
        rw [Int.neg_tdiv, neg_neg]
      have h2 : 0 ≤ Int.tdiv (-W) gs := Int.tdiv_nonneg (by omega) (by omega)
      omega
    omega
  have hxn : Int.tdiv W gs = W / gs := Int.tdiv_eq_ediv hW (by omega)
  rw [hxn] at hrow hmax ⊢
  have hm : Int.tmod i (W / gs) = i % (W / gs) := Int.tmod_eq_emod hi (by omega)
  have hd : Int.tdiv i (W / gs) = i / (W / gs) := Int.tdiv_eq_ediv hi (by omega)
  rw [hm, hd]
  have h1 : 0 ≤ i % (W / gs) := Int.emod_nonneg _ (by omega)
  have h2 : i % (W / gs) < W / gs := Int.emod_lt_of_pos _ hrow
  have h3 : W / gs * gs ≤ W := Int.ediv_mul_le _ (by omega)
  have h4 : 0 ≤ i / (W / gs) := Int.ediv_nonneg hi (by omega)
  have hyn : 0 < Int.tdiv H gs := by
    by_contra hneg
    have : W / gs * Int.tdiv H gs ≤ 0 := by nlinarith
    omega
  have hH : 0 ≤ H := by
    by_contra hneg
    have : Int.tdiv H gs ≤ 0 := by
      have h1 : Int.tdiv H gs = -(Int.tdiv (-H) gs) := by
        rw [Int.neg_tdiv, neg_neg]
      have h2 : 0 ≤ Int.tdiv (-H) gs := Int.tdiv_nonneg (by omega) (by omega)
      omega
    omega
  have hynn : Int.tdiv H gs = H / gs := Int.tdiv_eq_ediv hH (by omega)
  rw [hynn] at hmax hyn
  have h5 : i / (W / gs) < H / gs := by
    apply Int.ediv_lt_of_lt_mul hrow
    rw [mul_comm]; exact hmax
  have h6 : H / gs * gs ≤ H := Int.ediv_mul_le _ (by omega)
  refine ⟨by positivity, ?_, by positivity, ?_⟩
  · nlinarith
  · nlinarith

theorem cell_disjoint (n gs i j : Int) (hgs : 0 < gs) (hn : 0 < n) (hi : 0 ≤ i) (hj : 0 ≤ j)
    (hij : i ≠ j) :
    Int.tmod i n * gs + gs ≤ Int.tmod j n * gs ∨ Int.tmod j n * gs + gs ≤ Int.tmod i n * gs ∨
    Int.tdiv i n * gs + gs ≤ Int.tdiv j n * gs ∨ Int.tdiv j n * gs + gs ≤ Int.tdiv i n * gs := by
  rw [Int.tmod_eq_emod hi (by omega), Int.tmod_eq_emod hj (by omega),
    Int.tdiv_eq_ediv hi (by omega), Int.tdiv_eq_ediv hj (by omega)]
  have e1 := Int.emod_add_ediv i n
  have e2 := Int.emod_add_ediv j n
  rcases lt_trichotomy (i % n) (j % n) with h | h | h
  · left; nlinarith
  · rcases lt_trichotomy (i / n) (j / n) with h' | h' | h'
    · right; right; left; nlinarith
    · exfalso; apply hij; rw [← e1, ← e2, h, h']
    · right; right; right; nlinarith
  · right; left; nlinarith

theorem atCell_inv (env : Fonts) (a : atlas) (g : glyph) (st : State) (x y : Int) (g' : glyph)
    (st' : State) (h : a.atCell env g st = .ok ((x, y), g', st')) :
    a.glyphSize = (g.char.atlasGroup env st).1 ∧
    x = Int.tmod g.index (Int.tdiv a.imageWidth a.glyphSize) * a.glyphSize ∧
    y = Int.tdiv g.index (Int.tdiv a.imageWidth a.glyphSize) * a.glyphSize := by
  rw [atCell_eq] at h
  split_ifs at h with h1 h2 h3
  simp only [Except.ok.injEq, Prod.mk.injEq] at h
  exact ⟨not_not.mp h1, h.1.1.symm, h.1.2.symm⟩

/-- C16: in an atlas with a positive glyph size whose image holds at least
one cell per row (`cellsPerRow = imageWidth / glyphSize > 0`), `atlas.at`
returns for a glyph of the atlas's group and index `i` the origin
`((i % cellsPerRow) * glyphSize, (i / cellsPerRow) * glyphSize)`; for
`0 <= i < maxGlyphNum()` the cell of side `glyphSize` at that origin lies
inside the image, and the cells of two distinct such indices do not overlap:
one lies wholly to the left of, or wholly above, the other. -/
theorem at_cell_geometry (env : Fonts) (a : atlas) (hgs : 0 < a.glyphSize)
    (hrow : 0 < Int.tdiv a.imageWidth a.glyphSize) :
    (∀ (g : glyph) (st : State), a.glyphSize = (g.char.atlasGroup env st).1 →
      ∃ g' st', a.atCell env g st =
        .ok ((Int.tmod g.index (Int.tdiv a.imageWidth a.glyphSize) * a.glyphSize,
              Int.tdiv g.index (Int.tdiv a.imageWidth a.glyphSize) * a.glyphSize), g', st')) ∧
    (∀ (g : glyph) (st : State) (x y : Int) (g' : glyph) (st' : State) (max : Int),
      a.atCell env g st = .ok ((x, y), g', st') → a.maxGlyphNum = .ok max →
      0 ≤ g.index → g.index < max →
      0 ≤ x ∧ x + a.glyphSize ≤ a.imageWidth ∧ 0 ≤ y ∧ y + a.glyphSize ≤ a.imageHeight) ∧
    (∀ (g1 g2 : glyph) (s1 s2 : State) (x1 y1 x2 y2 : Int) (g1' g2' : glyph)
      (s1' s2' : State),
      a.atCell env g1 s1 = .ok ((x1, y1), g1', s1') →
      a.atCell env g2 s2 = .ok ((x2, y2), g2', s2') →
      0 ≤ g1.index → 0 ≤ g2.index → g1.index ≠ g2.index →
      x1 + a.glyphSize ≤ x2 ∨ x2 + a.glyphSize ≤ x1 ∨
      y1 + a.glyphSize ≤ y2 ∨ y2 + a.glyphSize ≤ y1) := by
  refine ⟨?_, ?_, ?_⟩
  · intro g st hsize
    rw [atCell_eq]
    rw [if_neg (not_not.mpr hsize), if_neg (ne_of_gt hgs), if_neg (ne_of_gt hrow)]
    exact ⟨_, _, rfl⟩
  · intro g st x y g' st' max h hmax hi hlt
    obtain ⟨_, hx, hy⟩ := atCell_inv env a g st x y g' st' h
    rw [maxGlyphNum_eq, if_neg (ne_of_gt hgs)] at hmax
    simp only [Except.ok.injEq] at hmax
    rw [← hmax] at hlt
    rw [hx, hy]
    exact cell_inside a.imageWidth a.imageHeight a.glyphSize g.index hgs hrow hi hlt
  · intro g1 g2 s1 s2 x1 y1 x2 y2 g1' g2' s1' s2' h1 h2 hi hj hij
    obtain ⟨_, hx1, hy1⟩ := atCell_inv env a g1 s1 x1 y1 g1' s1' h1
    obtain ⟨_, hx2, hy2⟩ := atCell_inv env a g2 s2 x2 y2 g2' s2' h2
    rw [hx1, hy1, hx2, hy2]
    exact cell_disjoint _ a.glyphSize g1.index g2.index hgs hrow hi hj hij

/-- C16, at a concrete input: the atlas of group 512 with its four cells. -/
theorem at_cell_geometry_witness :
    0 < exAtlasFull.glyphSize ∧ 0 < Int.tdiv exAtlasFull.imageWidth exAtlasFull.glyphSize ∧
    (∃ g' st', exAtlasFull.atCell exFonts (exGlyph 68 3 2) exState =
      .ok ((512, 512), g', st')) ∧
    (∀ (g1 g2 : glyph) (s1 s2 : State) (x1 y1 x2 y2 : Int) (g1' g2' : glyph)
      (s1' s2' : State),
      exAtlasFull.atCell exFonts g1 s1 = .ok ((x1, y1), g1', s1') →
      exAtlasFull.atCell exFonts g2 s2 = .ok ((x2, y2), g2', s2') →
      0 ≤ g1.index → 0 ≤ g2.index → g1.index ≠ g2.index →
      x1 + exAtlasFull.glyphSize ≤ x2 ∨ x2 + exAtlasFull.glyphSize ≤ x1 ∨
      y1 + exAtlasFull.glyphSize ≤ y2 ∨ y2 + exAtlasFull.glyphSize ≤ y1) :=
  ⟨by decide, by decide,
    (at_cell_geometry exFonts exAtlasFull (by decide) (by decide)).1 (exGlyph 68 3 2) exState rfl,
    (at_cell_geometry exFonts exAtlasFull (by decide) (by decide)).2.2⟩

/-! ## States reached later -/

theorem Later.laterTrans {env : Fonts} {s1 s2 s3 : State} (h12 : Later env s1 s2)
    (h23 : Later env s2 s3) : Later env s1 s3 := by
  induction h23 with
  | here => exact h12
  | tick _ ih => exact Later.tick ih
  | face f _ ih => exact Later.face f ih
  | bounds c _ ih => exact Later.bounds c ih
  | getGlyph _ hn hg ih => exact Later.getGlyph ih hn hg
  | glyphDraw _ hd ih => exact Later.glyphDraw ih hd

theorem Reachable.reachLater {env : Fonts} {st st' : State} (h : Reachable env st)
    (hl : Later env st st') : Reachable env st' := by
  induction hl with
  | here => exact h
  | tick _ ih => exact Reachable.tick ih
  | face f _ ih => exact Reachable.face f ih
  | bounds c _ ih => exact Reachable.bounds c ih
  | getGlyph _ hn hg ih => exact Reachable.getGlyph ih hn hg
  | glyphDraw _ hd ih => exact Reachable.glyphDraw ih hd

theorem Reachable.laterInit {env : Fonts} {st : State} (h : Reachable env st) :
    Later env State.init st := by
  induction h with
  | init => exact Later.here
  | tick _ ih => exact Later.tick ih
  | face f _ ih => exact Later.face f ih
  | bounds c _ ih => exact Later.bounds c ih
  | getGlyph _ hn hg ih => exact Later.getGlyph ih hn hg
  | glyphDraw _ hd ih => exact Later.glyphDraw ih hd

/-- What a call of `glyph.draw` that returns leaves as it was: the faces, the
atlases and the glyph bounds; the clock does not go back. -/
theorem glyph_draw_frame (env : Fonts) (g : glyph) (dst : Nat) (x y : Int) (clr : Color)
    (st : State) (g' : glyph) (st' : State)
    (h : g.draw env dst x y clr st = .ok (g', st')) :
    st'.faces = st.faces ∧ st'.atlases = st.atlases ∧ SameBounds env st st' ∧
    st.monotonicClock ≤ st'.monotonicClock := by
  by_cases hA : clr.A = 0
  · rw [glyph_draw_transparent env g dst x y clr st hA] at h
    simp only [Except.ok.injEq, Prod.mk.injEq] at h
    rw [← h.2]
    exact ⟨rfl, rfl, SameBounds.sbRefl env st, le_refl _⟩
  · obtain ⟨_, _, _, _, _, _, _, _, hclk, hf, hat, hsb⟩ :=
      glyph_draw_inv env g dst x y clr st g' st' hA h
    exact ⟨hf, hat, hsb, by omega⟩

theorem Later.laterBounds {env : Fonts} {st st' : State} (h : Later env st st') :
    SameBounds env st st' := by
  induction h with
  | here => exact SameBounds.sbRefl env st
  | tick _ ih => exact ih.sbTrans (SameBounds.of_charBounds rfl)
  | face f _ ih => exact ih.sbTrans (SameBounds.of_charBounds (fontFaceToFace_charBounds f _))
  | @bounds s c _ ih =>
    have : (c.bounds env s).2 = queried env s c.face c.rune := by rw [bounds_eq]
    rw [this]
    exact ih.sbTrans (sameBounds_queried env s c.face c.rune)
  | getGlyph _ _ hg ih => exact ih.sbTrans (getGlyph_cases env _ _ _ _ _ _ hg).1.bounds
  | glyphDraw _ hd ih => exact ih.sbTrans (glyph_draw_frame env _ _ _ _ _ _ _ _ hd).2.2.1

theorem Later.laterClock {env : Fonts} {st st' : State} (h : Later env st st') :
    st.monotonicClock ≤ st'.monotonicClock := by
  induction h with
  | here => exact le_refl _
  | tick _ ih => simp only [now_clock]; omega
  | face f _ ih => simpa using ih
  | @bounds s c _ ih =>
    have : (c.bounds env s).2 = queried env s c.face c.rune := by rw [bounds_eq]
    rw [this, queried_clock]; exact ih
  | getGlyph _ _ hg ih => rw [(getGlyph_cases env _ _ _ _ _ _ hg).1.clock]; exact ih
  | glyphDraw _ hd ih => exact le_trans ih (glyph_draw_frame env _ _ _ _ _ _ _ _ hd).2.2.2

/-- A round of the loop of `Draw` is made of operations of the package. -/
theorem later_drawRune (env : Fonts) (dst : Nat) (face : Face) (y : Int) (clr : Color)
    (n : Int) (s : State) (fx prevC c : Int) (s' : State) (fx' p' : Int)
    (hn : n ≤ s.monotonicClock)
    (h : drawRune env dst face y clr n s fx prevC c = .ok (s', fx', p')) :
    Later env s s' := by
  obtain ⟨g, s2, hg, _, _, hcase⟩ := drawRune_inv env dst face y clr n s fx prevC c s' fx' p' h
  have h1 : Later env s (fontFaceToFace face s).2 := Later.face face Later.here
  have h2 : Later env s s2 := Later.getGlyph h1 (by simpa using hn) hg
  have h3 : Later env s (queried env s2 g.char.face g.char.rune) := by
    have : queried env s2 g.char.face g.char.rune = (g.char.bounds env s2).2 := by
      rw [bounds_eq]
    rw [this]
    exact Later.bounds g.char h2
  rcases hcase with ⟨_, hst⟩ | ⟨_, g', hd⟩
  · rw [hst]; exact h3
  · exact Later.glyphDraw h3 hd

theorem later_drawLoop (env : Fonts) (dst : Nat) (face : Face) (y : Int) (clr : Color)
    (n : Int) (text : List Int) (s : State) (fx prevC : Int) (s' : State) (fx' p' : Int)
    (hn : n ≤ s.monotonicClock)
    (h : drawLoop env dst face y clr n text s fx prevC = .ok (s', fx', p')) :
    Later env s s' := by
  induction text generalizing s fx prevC with
  | nil =>
    simp only [drawLoop, Except.ok.injEq, Prod.mk.injEq] at h
    rw [← h.1]; exact Later.here
  | cons c rest ih =>
    unfold drawLoop at h
    cases hr : drawRune env dst face y clr n s fx prevC c with
    | error e => simp [hr] at h
    | ok r =>
      obtain ⟨s1, fx1, p1⟩ := r
      simp only [hr] at h
      have h1 := later_drawRune env dst face y clr n s fx prevC c s1 fx1 p1 hn hr
      exact h1.laterTrans (ih s1 fx1 p1 (le_trans hn h1.laterClock) h)

/-- A call of `Draw` is made of operations of the package. -/
theorem later_Draw (env : Fonts) (dst : Nat) (text : List Int) (face : Face) (x y : Int)
    (clr : Color) (st st' : State) (h : Draw env dst text face x y clr st = .ok st') :
    Later env st st' := by
  rw [Draw_eq] at h
  cases hl : drawLoop env dst face y clr (now st).1 text (now st).2 (fixedI x) (-1) with
  | error e => rw [hl] at h; cases h
  | ok r =>
    rw [hl] at h
    obtain ⟨s, fx, p⟩ := r
    simp only [Except.ok.injEq] at h
    subst h
    exact (Later.tick Later.here).laterTrans
      (later_drawLoop env dst face y clr _ text _ _ _ _ _ _ (by simp) hl)

theorem reachable_Draw {env : Fonts} {st st' : State} (hr : Reachable env st) (dst : Nat)
    (text : List Int) (face : Face) (x y : Int) (clr : Color)
    (h : Draw env dst text face x y clr st = .ok st') : Reachable env st' :=
  hr.reachLater (later_Draw env dst text face x y clr st st' h)

/-! ## The memo of the glyph bounds -/

theorem memoBounds_later {env : Fonts} {s s' : State} (h : Later env s s') (f : Face) (r : Int)
    (b : Rectangle26_6) (hb : memoBounds s f r = some b) : memoBounds s' f r = some b := by
  have hsb := h.laterBounds
  have h1 : memoBounds s' f r ≠ none := hsb.2 f r (by rw [hb]; simp)
  have h2 : boundsOf env s' f r = boundsOf env s f r := hsb.1 f r
  unfold boundsOf at h2
  rw [hb] at h2
  cases hm : memoBounds s' f r with
  | none => exact absurd hm h1
  | some b' =>
    rw [hm] at h2
    simp only [Option.getD_some] at h2
    rw [h2]

theorem bounds_first (env : Fonts) (c : char) (st : State)
    (h : memoBounds st c.face c.rune = none) :
    (c.bounds env st).1 = env.GlyphBounds c.face c.rune ∧
    (c.bounds env st).2.log = st.log ++ [Event.glyphBounds c.face c.rune] := by
  unfold memoBounds at h
  unfold char.bounds
  cases h1 : mapGet st.charBounds c.face with
  | none => simp
  | some m =>
    rw [h1] at h
    simp only [Option.some_bind] at h
    simp [h]

theorem bounds_of_memo (env : Fonts) (c : char) (st : State) (b : Rectangle26_6)
    (h : memoBounds st c.face c.rune = some b) : c.bounds env st = (b, st) := by
  rw [bounds_eq, queried_of_memo env st _ _ (by rw [h]; simp)]
  simp [boundsOf, h]

/-- C19: a call of `char.bounds` for a pair (face, rune) that has no entry in
`charBounds` returns what `face.GlyphBounds` gives and logs that one query;
after any call of `char.bounds` the pair has an entry, which holds the
rectangle returned.  In every state reached later, a call of `char.bounds`
for the same face and rune returns that rectangle and leaves the state as it
is (so the face is not queried again); and no operation of the package
removes or changes an entry of `charBounds`. -/
theorem bounds_memoised (env : Fonts) (c : char) (st : State) :
    (memoBounds st c.face c.rune = none →
      (c.bounds env st).1 = env.GlyphBounds c.face c.rune ∧
      (c.bounds env st).2.log = st.log ++ [Event.glyphBounds c.face c.rune]) ∧
    memoBounds (c.bounds env st).2 c.face c.rune = some (c.bounds env st).1 ∧
    (∀ (st' : State) (c' : char), Later env (c.bounds env st).2 st' →
      c'.face = c.face → c'.rune = c.rune →
      c'.bounds env st' = ((c.bounds env st).1, st')) ∧
    (∀ (s s' : State) (f : Face) (r : Int) (b : Rectangle26_6),
      Later env s s' → memoBounds s f r = some b → memoBounds s' f r = some b) := by
  have hmemo : memoBounds (c.bounds env st).2 c.face c.rune = some (c.bounds env st).1 := by
    rw [bounds_eq]; exact memoBounds_queried_self env st c.face c.rune
  refine ⟨bounds_first env c st, hmemo, ?_, ?_⟩
  · intro st' c' hl hf hr
    apply bounds_of_memo
    rw [hf, hr]
    exact memoBounds_later hl _ _ _ hmemo
  · intro s s' f r b hl hb
    exact memoBounds_later hl f r b hb

/-- C19, at a concrete input: the bounds of "A" queried in the initial state,
and again after a call of `Draw`. -/
theorem bounds_memoised_witness :
    memoBounds State.init exFace 65 = none ∧
    (({ face := exFace, rune := 65, atlasG := 0 } : char).bounds exFonts State.init).2.log =
      [Event.glyphBounds exFace 65] ∧
    ∃ st', Draw exFonts 0 [65, 66] exFace 0 0 exWhite
        (({ face := exFace, rune := 65, atlasG := 0 } : char).bounds exFonts State.init).2 =
          .ok st' ∧
      ({ face := exFace, rune := 65, atlasG := 512 } : char).bounds exFonts st' =
        ((({ face := exFace, rune := 65, atlasG := 0 } : char).bounds exFonts State.init).1,
          st') :=
  ⟨rfl,
    ((bounds_memoised exFonts { face := exFace, rune := 65, atlasG := 0 } State.init).1 rfl).2,
    _, rfl,
    (bounds_memoised exFonts { face := exFace, rune := 65, atlasG := 0 } State.init).2.2.1 _
      { face := exFace, rune := 65, atlasG := 512 }
      (later_Draw exFonts 0 [65, 66] exFace 0 0 exWhite _ _ rfl) rfl rfl⟩

/-! ## Atlases are created lazily and kept -/

/-- An atlas that exists before a call of `getGlyphFromCache` exists after it
under the same face and key, with the same image and glyph size; it is the
same atlas altogether unless it is the atlas of the group of the rune that
the call resolves. -/
theorem getGlyph_atlas_kept (env : Fonts) (face : Face) (r now : Int) (st : State) (g : glyph)
    (st' : State) (h : getGlyphFromCache env face r now st = .ok (g, st'))
    (f : Face) (fam : List (Int × atlas)) (key : Int) (a : atlas)
    (hf : mapGet st.atlases f = some fam) (ha : mapGet fam key = some a) :
    ∃ fam' a', mapGet st'.atlases f = some fam' ∧ mapGet fam' key = some a' ∧
      a'.imageWidth = a.imageWidth ∧ a'.imageHeight = a.imageHeight ∧
      a'.glyphSize = a.glyphSize ∧ (a.tmpImage = true → a'.tmpImage = true) ∧
      ((f ≠ face ∨ key ≠ groupB (boundsOf env st face r)) → a' = a) := by
  obtain ⟨_, hcase⟩ := getGlyph_cases env face r now st g st' h
  have hsame : ∀ (fam0 : List (Int × atlas)) (a0 : atlas),
      mapGet st.atlases face = some fam0 ∨ (mapGet st.atlases face = none ∧ fam0 = []) →
      (mapGet fam0 (groupB (boundsOf env st face r)) = some a0 ∨
        (mapGet fam0 (groupB (boundsOf env st face r)) = none ∧
          a0 = freshAtlas (groupB (boundsOf env st face r)))) →
      ∀ (rt : List (Int × glyph)) (tmp : Bool), (a0.tmpImage = true → tmp = true) →
      st'.atlases = mapSet st.atlases face (mapSet fam0 (groupB (boundsOf env st face r))
        { a0 with tmpImage := tmp, runeToGlyph := rt }) →
      ∃ fam' a', mapGet st'.atlases f = some fam' ∧ mapGet fam' key = some a' ∧
        a'.imageWidth = a.imageWidth ∧ a'.imageHeight = a.imageHeight ∧
        a'.glyphSize = a.glyphSize ∧ (a.tmpImage = true → a'.tmpImage = true) ∧
        ((f ≠ face ∨ key ≠ groupB (boundsOf env st face r)) → a' = a) := by
    intro fam0 a0 hfam0 ha0 rt tmp htmp hat
    by_cases hface : f = face
    · subst hface
      have hfam : fam0 = fam := by
        rcases hfam0 with h1 | ⟨h1, _⟩
        · rw [hf] at h1; exact (Option.some.inj h1).symm
        · rw [hf] at h1; cases h1
      subst hfam
      by_cases hkey : key = groupB (boundsOf env st f r)
      · subst hkey
        have ha0' : a0 = a := by
          rcases ha0 with h1 | ⟨h1, _⟩
          · rw [ha] at h1; exact (Option.some.inj h1).symm
          · rw [ha] at h1; cases h1
        subst ha0'
        refine ⟨_, { a0 with tmpImage := tmp, runeToGlyph := rt },
          by rw [hat]; exact mapGet_mapSet_self _ _ _, mapGet_mapSet_self _ _ _,
          rfl, rfl, rfl, htmp, ?_⟩
        rintro (h1 | h1) <;> exact absurd rfl h1
      · refine ⟨_, a, by rw [hat]; exact mapGet_mapSet_self _ _ _, ?_, rfl, rfl, rfl,
          fun h => h, fun _ => rfl⟩
        rw [mapGet_mapSet_ne _ _ (Ne.symm hkey)]; exact ha
    · refine ⟨fam, a, ?_, ha, rfl, rfl, rfl, fun h => h, fun _ => rfl⟩
      rw [hat, mapGet_mapSet_ne _ _ (Ne.symm hface)]; exact hf
  rcases hcase with ⟨m, a0, g0, hm, ha0, _, _, hat, _⟩ | ⟨_, _, _, _, _, hother, hface, _⟩ |
      ⟨_, a0, idx, mm, hslot, _, _, _, _, _, hat, _⟩
  · exact hsame m a0 (Or.inl hm) (Or.inl ha0) _ a0.tmpImage (fun h => h) hat
  · by_cases hfc : f = face
    · subst hfc
      refine ⟨fam, a, ?_, ha, rfl, rfl, rfl, fun h => h, fun _ => rfl⟩
      rw [hface, hf]; rfl
    · exact ⟨fam, a, by rw [hother f hfc]; exact hf, ha, rfl, rfl, rfl, fun h => h, fun _ => rfl⟩
  · cases hm : mapGet st.atlases face with
    | none =>
      rw [hm] at hslot hat
      simp only [Option.getD_none] at hslot hat
      rcases hslot with ⟨h1, _⟩ | ⟨h1, h2⟩
      · simp [mapGet] at h1
      · exact hsame [] a0 (Or.inr ⟨hm, rfl⟩) (Or.inr ⟨h1, h2⟩) _ true (fun _ => rfl) hat
    | some m =>
      rw [hm] at hslot hat
      simp only [Option.getD_some] at hslot hat
      rcases hslot with ⟨h1, _⟩ | ⟨h1, h2⟩
      · exact hsame m a0 (Or.inl hm) (Or.inl h1) _ true (fun _ => rfl) hat
      · exact hsame m a0 (Or.inl hm) (Or.inr ⟨h1, h2⟩) _ true (fun _ => rfl) hat

/-- An atlas that exists after a call of `getGlyphFromCache` existed before
it under the same face and key, or it is the atlas of the group of the rune
that the call has resolved, created by this call for a glyph that is not
empty, and holds that glyph only. -/
theorem getGlyph_atlas_origin (env : Fonts) (face : Face) (r now : Int) (st : State)
    (g : glyph) (st' : State) (h : getGlyphFromCache env face r now st = .ok (g, st'))
    (f : Face) (fam' : List (Int × atlas)) (key : Int) (a' : atlas)
    (hf : mapGet st'.atlases f = some fam') (ha : mapGet fam' key = some a') :
    (∃ fam a, mapGet st.atlases f = some fam ∧ mapGet fam key = some a) ∨
    (f = face ∧ key = groupB (boundsOf env st face r) ∧
      emptyB (boundsOf env st face r) = false ∧
      a' = { freshAtlas key with tmpImage := true, runeToGlyph := [(r, g)] }) := by
  obtain ⟨_, hcase⟩ := getGlyph_cases env face r now st g st' h
  have hold : ∀ (fam0 : List (Int × atlas)) (a1 : atlas),
      mapGet st.atlases face = some fam0 ∨ (mapGet st.atlases face = none ∧ fam0 = []) →
      st'.atlases = mapSet st.atlases face (mapSet fam0 (groupB (boundsOf env st face r)) a1) →
      (f = face ∧ key = groupB (boundsOf env st face r) ∧ a' = a1) ∨
      (∃ fam a, mapGet st.atlases f = some fam ∧ mapGet fam key = some a) := by
    intro fam0 a1 hfam0 hat
    rw [hat] at hf
    by_cases hface : f = face
    · subst hface
      rw [mapGet_mapSet_self] at hf
      simp only [Option.some.injEq] at hf
      subst hf
      by_cases hkey : key = groupB (boundsOf env st f r)
      · subst hkey
        rw [mapGet_mapSet_self] at ha
        exact Or.inl ⟨rfl, rfl, (Option.some.inj ha).symm⟩
      · rw [mapGet_mapSet_ne _ _ (Ne.symm hkey)] at ha
        rcases hfam0 with h1 | ⟨_, h1⟩
        · exact Or.inr ⟨fam0, a', h1, ha⟩
        · rw [h1] at ha; simp [mapGet] at ha
    · rw [mapGet_mapSet_ne _ _ (Ne.symm hface)] at hf
      exact Or.inr ⟨fam', a', hf, ha⟩
  rcases hcase with ⟨m, a0, g0, hm, ha0, _, _, hat, _⟩ | ⟨_, _, _, _, _, hother, hface, _⟩ |
      ⟨hne, a0, idx, mm, hslot, _, _, _, hsel, hg, hat, _⟩
  · rcases hold m _ (Or.inl hm) hat with ⟨h1, h2, _⟩ | h1
    · left; subst h1; subst h2; exact ⟨m, a0, hm, ha0⟩
    · exact Or.inl h1
  · left
    by_cases hfc : f = face
    · subst hfc
      rw [hface] at hf
      simp only [Option.some.injEq] at hf
      subst hf
      exact ⟨_, a', getD_of_mapGet ha, ha⟩
    · exact ⟨fam', a', by rw [← hother f hfc]; exact hf, ha⟩
  · have hfam0 : mapGet st.atlases face = some ((mapGet st.atlases face).getD []) ∨
        (mapGet st.atlases face = none ∧ (mapGet st.atlases face).getD [] = []) := by
      cases mapGet st.atlases face with
      | none => exact Or.inr ⟨rfl, rfl⟩
      | some m => exact Or.inl rfl
    rcases hold _ _ hfam0 hat with ⟨h1, h2, h3⟩ | h1
    · rcases hslot with ⟨hex, _⟩ | ⟨_, hfresh⟩
      · left; subst h1; subst h2
        exact ⟨_, a0, getD_of_mapGet hex, hex⟩
      · right
        refine ⟨h1, h2, hne, ?_⟩
        rw [h3, hg, h2]
        subst hfresh
        rcases selectCell_inv _ _ idx mm hsel with ⟨_, hidx, hmm⟩ | ⟨_, k, old, hmem, _⟩
        · subst hmm; subst hidx
          simp [freshAtlas, mapSet, mapLen]
        · simp [freshAtlas] at hmem
    · exact Or.inl h1

/-! ## The atlas group is a power of two -/

theorem nextPow2From_pow2 (fuel x r : Nat) (hr : ∃ j : Nat, r = 2 ^ j) :
    ∃ k : Nat, nextPow2From fuel x r = 2 ^ k := by
  induction fuel generalizing r with
  | zero => simpa [nextPow2From] using hr
  | succ n ih =>
    unfold nextPow2From
    split
    · obtain ⟨j, hj⟩ := hr
      exact ih (2 * r) ⟨j + 1, by rw [hj, pow_succ]; ring⟩
    · exact hr

theorem nextPow2From_ge (fuel x r : Nat) (h : x ≤ r * 2 ^ fuel) : x ≤ nextPow2From fuel x r := by
  induction fuel generalizing r with
  | zero => simpa [nextPow2From] using h
  | succ n ih =>
    unfold nextPow2From
    split
    · exact ih (2 * r) (by rw [pow_succ] at h; nlinarith)
    · omega

theorem nextPow2From_least (fuel x r : Nat) (hr : ∃ j : Nat, r = 2 ^ j)
    (hle : ∀ k : Nat, x ≤ 2 ^ k → r ≤ 2 ^ k) :
    ∀ k : Nat, x ≤ 2 ^ k → nextPow2From fuel x r ≤ 2 ^ k := by
  induction fuel generalizing r with
  | zero => simpa [nextPow2From] using hle
  | succ n ih =>
    unfold nextPow2From
    split
    next hlt =>
      obtain ⟨j, hj⟩ := hr
      apply ih (2 * r) ⟨j + 1, by rw [hj, pow_succ]; ring⟩
      intro k hk
      have h1 : 2 ^ j < 2 ^ k := by rw [← hj]; omega
      have h2 : j < k := (Nat.pow_lt_pow_iff_right (by decide)).mp h1
      have h3 : 2 ^ (j + 1) ≤ 2 ^ k := Nat.pow_le_pow_right (by decide) h2
      rw [hj]; rw [pow_succ] at h3; omega
    next => exact hle

/-- What `NextPowerOf2Int` returns for a positive argument: the least power
of two that is at least the argument. -/
theorem NextPowerOf2Int_spec (x : Int) (hx : 1 ≤ x) :
    (∃ k : Nat, NextPowerOf2Int x = 2 ^ k) ∧ x ≤ NextPowerOf2Int x ∧
    ∀ k : Nat, x ≤ 2 ^ k → NextPowerOf2Int x ≤ 2 ^ k := by
  unfold NextPowerOf2Int
  have hx' : ((x.toNat : Nat) : Int) = x := Int.toNat_of_nonneg (by omega)
  refine ⟨?_, ?_, ?_⟩
  · obtain ⟨k, hk⟩ := nextPow2From_pow2 x.toNat x.toNat 1 ⟨0, rfl⟩
    exact ⟨k, by rw [hk]; push_cast; rfl⟩
  · have := nextPow2From_ge x.toNat x.toNat 1 (by
      rw [one_mul]; exact le_of_lt (Nat.lt_two_pow x.toNat))
    omega
  · intro k hk
    have h1 : x.toNat ≤ 2 ^ k := by
      have : ((x.toNat : Nat) : Int) ≤ ((2 ^ k : Nat) : Int) := by rw [hx']; push_cast; exact hk
      exact_mod_cast this
    have := nextPow2From_least x.toNat x.toNat 1 ⟨0, rfl⟩
      (fun k _ => Nat.one_le_two_pow) k h1
    exact_mod_cast this

theorem groupB_spec (b : Rectangle26_6) :
    (extentB b < 32 → groupB b = 32) ∧
    (32 ≤ extentB b → (∃ k : Nat, groupB b = 2 ^ k) ∧ extentB b ≤ groupB b ∧
      ∀ k : Nat, extentB b ≤ 2 ^ k → groupB b ≤ 2 ^ k) ∧
    (∃ k : Nat, groupB b = 2 ^ k) ∧ 32 ≤ groupB b ∧ extentB b ≤ groupB b := by
  by_cases h : extentB b < 32
  · have hg : groupB b = 32 := by simp [groupB, h]
    refine ⟨fun _ => hg, fun h' => absurd h (by omega), ⟨5, by rw [hg]; norm_num⟩,
      by omega, by omega⟩
  · have hg : groupB b = NextPowerOf2Int (extentB b) := by simp [groupB, h]
    obtain ⟨h1, h2, h3⟩ := NextPowerOf2Int_spec (extentB b) (by omega)
    rw [← hg] at h1 h2 h3
    exact ⟨fun h' => absurd h' h, fun _ => ⟨h1, h2, h3⟩, h1, by omega, h2⟩

theorem Reachable.key_group {env : Fonts} {st : State} (h : Reachable env st) :
    ∀ f fam key a, mapGet st.atlases f = some fam → mapGet fam key = some a →
      ∃ b, key = groupB b := by
  induction h with
  | init => intro f fam key a hf; simp [State.init, mapGet] at hf
  | tick _ ih => exact ih
  | face f0 _ ih =>
    intro f fam key a hf
    rw [fontFaceToFace_atlases] at hf
    exact ih f fam key a hf
  | @bounds s c _ ih =>
    intro f fam key a hf
    rw [bounds_eq] at hf
    simp only [queried_atlases] at hf
    exact ih f fam key a hf
  | getGlyph _ _ hg ih =>
    intro f fam key a hf ha
    rcases getGlyph_atlas_origin env _ _ _ _ _ _ hg f fam key a hf ha with
      ⟨fam0, a0, h1, h2⟩ | ⟨_, h2, _⟩
    · exact ih f fam0 key a0 h1 h2
    · exact ⟨_, h2⟩
  | glyphDraw _ hd ih =>
    intro f fam key a hf
    rw [(glyph_draw_frame env _ _ _ _ _ _ _ _ hd).2.1] at hf
    exact ih f fam key a hf

/-- C12: for a character `(face, r)` whose memo is not set, with `w` and `h`
what `char.size` returns and `m = max(w.Ceil(), h.Ceil())`, `char.atlasGroup`
returns 32 when `m < 32` and otherwise the least power of two that is at
least `m`; so the result is a power of two, at least 32 and at least `m`.  A
further call on the character as the first call left it, in any state reached
later, returns the same value.  The glyph size of every atlas of a reachable
state is a power of two that is at least 32. -/
theorem atlasGroup_power_of_two (env : Fonts) (face : Face) (r : Int) (st : State) :
    (max (Ceil (({ face := face, rune := r, atlasG := 0 } : char).size env st).1.1)
        (Ceil (({ face := face, rune := r, atlasG := 0 } : char).size env st).1.2) < 32 →
      (({ face := face, rune := r, atlasG := 0 } : char).atlasGroup env st).1 = 32) ∧
    (32 ≤ max (Ceil (({ face := face, rune := r, atlasG := 0 } : char).size env st).1.1)
        (Ceil (({ face := face, rune := r, atlasG := 0 } : char).size env st).1.2) →
      (∀ k : Nat,
        max (Ceil (({ face := face, rune := r, atlasG := 0 } : char).size env st).1.1)
          (Ceil (({ face := face, rune := r, atlasG := 0 } : char).size env st).1.2) ≤ 2 ^ k →
        (({ face := face, rune := r, atlasG := 0 } : char).atlasGroup env st).1 ≤ 2 ^ k)) ∧
    (∃ k : Nat, (({ face := face, rune := r, atlasG := 0 } : char).atlasGroup env st).1 = 2 ^ k) ∧
    32 ≤ (({ face := face, rune := r, atlasG := 0 } : char).atlasGroup env st).1 ∧
    max (Ceil (({ face := face, rune := r, atlasG := 0 } : char).size env st).1.1)
        (Ceil (({ face := face, rune := r, atlasG := 0 } : char).size env st).1.2) ≤
      (({ face := face, rune := r, atlasG := 0 } : char).atlasGroup env st).1 ∧
    (∀ st' : State,
      Later env (({ face := face, rune := r, atlasG := 0 } : char).atlasGroup env st).2.2 st' →
      ((({ face := face, rune := r, atlasG := 0 } : char).atlasGroup env st).2.1.atlasGroup
        env st').1 = (({ face := face, rune := r, atlasG := 0 } : char).atlasGroup env st).1) ∧
    (∀ (s : State) (f : Face) (fam : List (Int × atlas)) (key : Int) (a : atlas),
      Reachable env s → mapGet s.atlases f = some fam → mapGet fam key = some a →
      (∃ k : Nat, a.glyphSize = 2 ^ k) ∧ 32 ≤ a.glyphSize) := by
  have hm : max (Ceil (({ face := face, rune := r, atlasG := 0 } : char).size env st).1.1)
        (Ceil (({ face := face, rune := r, atlasG := 0 } : char).size env st).1.2) =
      extentB (boundsOf env st face r) := by
    rw [size_eq]
    simp only [extentB]
    split
    · exact max_eq_right (by omega)
    · exact max_eq_left (by omega)
  rw [hm, atlasGroup_fresh]
  obtain ⟨h1, h2, h3, h4, h5⟩ := groupB_spec (boundsOf env st face r)
  refine ⟨h1, fun h => (h2 h).2.2, h3, h4, h5, ?_, ?_⟩
  · intro st' hl
    have hb : boundsOf env st' face r = boundsOf env st face r := by
      rw [hl.laterBounds.1, boundsOf_queried]
    exact (atlasGroup_settled env face r st st' hb).1
  · intro s f fam key a hr hf ha
    obtain ⟨b, hb⟩ := hr.key_group f fam key a hf ha
    have hsz := (hr.wf f fam key a hf ha).size
    obtain ⟨_, _, h3', h4', _⟩ := groupB_spec b
    rw [hsz, hb]
    exact ⟨h3', h4'⟩

/-- C12, at a concrete input: a glyph of 300 by 400 pixels has the group 512,
the least power of two from 400 on. -/
theorem atlasGroup_power_of_two_witness :
    max (Ceil (({ face := exFace, rune := 65, atlasG := 0 } : char).size exFonts
        State.init).1.1)
      (Ceil (({ face := exFace, rune := 65, atlasG := 0 } : char).size exFonts
        State.init).1.2) = 400 ∧
    (({ face := exFace, rune := 65, atlasG := 0 } : char).atlasGroup exFonts State.init).1 =
      512 ∧
    (∀ k : Nat,
      max (Ceil (({ face := exFace, rune := 65, atlasG := 0 } : char).size exFonts
          State.init).1.1)
        (Ceil (({ face := exFace, rune := 65, atlasG := 0 } : char).size exFonts
          State.init).1.2) ≤ 2 ^ k →
      (({ face := exFace, rune := 65, atlasG := 0 } : char).atlasGroup exFonts State.init).1 ≤
        2 ^ k) :=
  ⟨by decide, by decide,
    (atlasGroup_power_of_two exFonts exFace 65 State.init).2.1 (by decide)⟩

/-! ## The colour cache: its size and its contents -/

theorem mapDelete_length_lt {κ ν : Type} [DecidableEq κ] (m : List (κ × ν)) (k : κ)
    (h : k ∈ m.map Prod.fst) : (mapDelete m k).length < m.length := by
  induction m with
  | nil => simp at h
  | cons e rest ih =>
    obtain ⟨k0, v0⟩ := e
    by_cases h0 : k0 = k
    · have := mapDelete_length_le rest k
      simp only [mapDelete, h0, if_true, List.length_cons]
      omega
    · have hk : k ∈ rest.map Prod.fst := by
        simp only [List.map_cons, List.mem_cons] at h
        rcases h with h | h
        · exact absurd h.symm h0
        · exact h
      have := ih hk
      simp only [mapDelete, h0, if_false, List.length_cons]
      omega

theorem oldestColor_of_some (m : List (Color × colorMCacheEntry)) (k0 : Color) (t ga : Int) :
    ∃ k, oldestColor m (some k0) t ga = some k ∧ (k = k0 ∨ k ∈ m.map Prod.fst) := by
  induction m generalizing k0 t with
  | nil => exact ⟨k0, rfl, Or.inl rfl⟩
  | cons e rest ih =>
    obtain ⟨key, v⟩ := e
    unfold oldestColor
    split
    · obtain ⟨k, h1, h2⟩ := ih key ga
      refine ⟨k, h1, Or.inr ?_⟩
      rcases h2 with h2 | h2
      · simp [h2]
      · simp [h2]
    · obtain ⟨k, h1, h2⟩ := ih k0 t
      refine ⟨k, h1, ?_⟩
      rcases h2 with h2 | h2
      · exact Or.inl h2
      · right; simp [h2]

/-- The eviction scan of `glyph.draw` selects a key of the cache as soon as
one entry has a timestamp below the initial `t`. -/
theorem oldestColor_selects (m : List (Color × colorMCacheEntry)) (o : Option Color)
    (t ga : Int) (h : ∃ e ∈ m, e.2.atime < t) :
    ∃ k, oldestColor m o t ga = some k ∧ k ∈ m.map Prod.fst := by
  induction m generalizing o with
  | nil => obtain ⟨e, he, _⟩ := h; simp at he
  | cons e rest ih =>
    obtain ⟨key, v⟩ := e
    unfold oldestColor
    split
    · obtain ⟨k, h1, h2⟩ := oldestColor_of_some rest key ga ga
      refine ⟨k, h1, ?_⟩
      rcases h2 with h2 | h2
      · simp [h2]
      · simp [h2]
    next hlt =>
      obtain ⟨e, he, het⟩ := h
      simp only [List.mem_cons] at he
      rcases he with he | he
      · rw [he] at het; exact absurd het hlt
      · obtain ⟨k, h1, h2⟩ := ih o ⟨e, he, het⟩
        exact ⟨k, h1, by simp [h2]⟩

/-- The colour-cache part of `glyph.draw`: the entry it returns is the entry
of the colour afterwards and carries the matrix of the colour; the timestamps
stay below the clock, the entries keep the matrices of their colours, and
the cache does not grow beyond 256 entries. -/
theorem colorMLookup_inv (g : glyph) (clr : Color) (st : State)
    (hat : ∀ e ∈ st.colorMCache, e.2.atime ≤ st.monotonicClock)
    (hm : ∀ e ∈ st.colorMCache, e.2.m = colorMOf e.1) :
    (∀ e ∈ (colorMLookup g clr st).2.colorMCache, e.2.atime ≤ st.monotonicClock + 1) ∧
    (∀ e ∈ (colorMLookup g clr st).2.colorMCache, e.2.m = colorMOf e.1) ∧
    (colorMLookup g clr st).1.m = colorMOf clr ∧
    mapGet (colorMLookup g clr st).2.colorMCache clr = some (colorMLookup g clr st).1 ∧
    (st.monotonicClock < MaxInt64 → mapLen st.colorMCache ≤ 256 →
      mapLen (colorMLookup g clr st).2.colorMCache ≤ 256) := by
  unfold colorMLookup
  cases hget : mapGet st.colorMCache clr with
  | some e0 =>
    have hmem := mem_of_mapGet hget
    simp only [now]
    refine ⟨?_, ?_, ?_, mapGet_mapSet_self _ _ _, ?_⟩
    · intro e he
      rcases mem_mapSet he with h1 | h1
      · rw [h1]
      · have := hat e h1; omega
    · intro e he
      rcases mem_mapSet he with h1 | h1
      · rw [h1]; exact hm (clr, e0) hmem
      · exact hm e h1
    · exact hm _ hmem
    · intro _ hlen
      have hk : clr ∈ st.colorMCache.map Prod.fst := List.mem_map.mpr ⟨_, hmem, rfl⟩
      unfold mapLen at hlen ⊢
      rw [mapSet_length_of_mem _ _ _ hk]
      exact hlen
  | none =>
    simp only [now]
    have hsub : ∀ e ∈ (if mapLen st.colorMCache ≥ 256 then
          deleteOldest st.colorMCache (oldestColor st.colorMCache none MaxInt64 g.atime)
        else st.colorMCache), e ∈ st.colorMCache := by
      intro e he
      split at he
      · cases ho : oldestColor st.colorMCache none MaxInt64 g.atime with
        | none => rw [ho] at he; exact he
        | some k => rw [ho] at he; exact (mem_mapDelete.mp he).1
      · exact he
    refine ⟨?_, ?_, trivial, mapGet_mapSet_self _ _ _, ?_⟩
    · intro e he
      rcases mem_mapSet he with h1 | h1
      · rw [h1]
      · have := hat e (hsub e h1); omega
    · intro e he
      rcases mem_mapSet he with h1 | h1
      · rw [h1]
      · exact hm e (hsub e h1)
    · intro hclk hlen
      unfold mapLen at hlen ⊢
      have hset := mapSet_length_le
        (if mapLen st.colorMCache ≥ 256 then
          deleteOldest st.colorMCache (oldestColor st.colorMCache none MaxInt64 g.atime)
        else st.colorMCache) clr
        ({ m := colorMOf clr, atime := st.monotonicClock + 1 } : colorMCacheEntry)
      have hdel : (if mapLen st.colorMCache ≥ 256 then
          deleteOldest st.colorMCache (oldestColor st.colorMCache none MaxInt64 g.atime)
        else st.colorMCache).length < 256 := by
        split
        next hfull =>
          unfold mapLen at hfull
          have hpos : 0 < st.colorMCache.length := by omega
          obtain ⟨e, he⟩ := List.exists_mem_of_length_pos hpos
          obtain ⟨k, hk, hkm⟩ := oldestColor_selects st.colorMCache none MaxInt64 g.atime
            ⟨e, he, by have := hat e he; omega⟩
          rw [hk]
          have := mapDelete_length_lt st.colorMCache k hkm
          simp only [deleteOldest]
          omega
        next hnot =>
          unfold mapLen at hnot
          omega
      have : ((mapSet (if mapLen st.colorMCache ≥ 256 then
          deleteOldest st.colorMCache (oldestColor st.colorMCache none MaxInt64 g.atime)
        else st.colorMCache) clr
        ({ m := colorMOf clr, atime := st.monotonicClock + 1 } : colorMCacheEntry)).length :
          Int) ≤ 256 := by omega
      exact this

/-- A call of `glyph.draw` with a colour that is not transparent, when it
returns: the colour cache is what the lookup of the colour leaves, the clock
has advanced by one, and the composite carries the matrix of the entry that
the lookup returned. -/
theorem glyph_draw_color (env : Fonts) (g : glyph) (dst : Nat) (x y : Int) (clr : Color)
    (st : State) (g' : glyph) (st' : State) (hA : clr.A ≠ 0)
    (h : g.draw env dst x y clr st = .ok (g', st')) :
    st'.colorMCache =
      (colorMLookup g clr (queried env st g.char.face g.char.rune)).2.colorMCache ∧
    st'.monotonicClock = st.monotonicClock + 1 ∧
    ∃ l sx sy size,
      st'.log = st.log ++ l ++
        [Event.drawImage dst g.char.face g.char.rune
          (wrap32 (x + (boundsOf env st g.char.face g.char.rune).Min.X))
          (wrap32 (y + (boundsOf env st g.char.face g.char.rune).Min.Y)) sx sy size
          (colorMLookup g clr (queried env st g.char.face g.char.rune)).1.m] ∧
      (∀ e ∈ l, e.isQuery = true) := by
  rw [glyph_draw_eq env g dst x y clr st hA] at h
  split at h
  next => simp at h
  next a _ =>
    split_ifs at h
    simp only [Except.ok.injEq, Prod.mk.injEq] at h
    obtain ⟨_, hst⟩ := h
    subst hst
    obtain ⟨l, hl, hp⟩ := logExt_queried env st g.char.face g.char.rune
    refine ⟨rfl, by simp, l,
      Int.tmod g.index (Int.tdiv a.imageWidth a.glyphSize) * a.glyphSize,
      Int.tdiv g.index (Int.tdiv a.imageWidth a.glyphSize) * a.glyphSize, a.glyphSize, ?_, hp⟩
    simp only [hl]

/-- The invariant of the colour cache: every timestamp is a reading of the
clock, every entry holds the matrix of its colour, and, as long as the clock
has not passed `math.MaxInt64`, there are at most 256 entries. -/
theorem Reachable.colorInv {env : Fonts} {st : State} (h : Reachable env st) :
    (∀ e ∈ st.colorMCache, e.2.atime ≤ st.monotonicClock) ∧
    (∀ e ∈ st.colorMCache, e.2.m = colorMOf e.1) ∧
    (st.monotonicClock ≤ MaxInt64 → mapLen st.colorMCache ≤ 256) := by
  induction h with
  | init => simp [State.init, mapLen]
  | tick _ ih =>
    obtain ⟨h1, h2, h3⟩ := ih
    refine ⟨fun e he => ?_, h2, fun hc => h3 ?_⟩
    · have := h1 e he
      simp only [now_clock]; omega
    · simp only [now_clock] at hc; omega
  | face f _ ih => simpa using ih
  | @bounds s c _ ih =>
    have : (c.bounds env s).2 = queried env s c.face c.rune := by rw [bounds_eq]
    rw [this]
    simpa using ih
  | getGlyph _ _ hg ih =>
    have hres := (getGlyph_cases env _ _ _ _ _ _ hg).1
    rw [hres.colorM, hres.clock]
    exact ih
  | @glyphDraw s s' g g' dst x y clr _ hd ih =>
    obtain ⟨h1, h2, h3⟩ := ih
    by_cases hA : clr.A = 0
    · rw [glyph_draw_transparent env g dst x y clr s hA] at hd
      simp only [Except.ok.injEq, Prod.mk.injEq] at hd
      rw [← hd.2]
      exact ⟨h1, h2, h3⟩
    · obtain ⟨hc, hclk, _⟩ := glyph_draw_color env g dst x y clr s g' s' hA hd
      obtain ⟨k1, k2, _, _, k5⟩ := colorMLookup_inv g clr (queried env s g.char.face g.char.rune)
        (by simpa using h1) (by simpa using h2)
      rw [hc, hclk]
      refine ⟨by simpa using k1, k2, fun hle => ?_⟩
      exact k5 (by simp only [queried_clock]; omega)
        (by simp only [queried_colorMCache]; exact h3 (by omega))

/-- C13: in every state reached from the initial state (empty colour cache)
by calls of `glyph.draw` with arbitrary glyphs and colours, interleaved with
the other operations of the package, `len(colorMCache) <= 256`.  The clock is
an `int64` that has not overflowed. -/
theorem colorMCache_bounded (env : Fonts) (st : State) (hreach : Reachable env st)
    (hclock : st.monotonicClock ≤ MaxInt64) : mapLen st.colorMCache ≤ 256 :=
  hreach.colorInv.2.2 hclock

/-- C13, at a concrete input: the state after "AB" has been drawn in white. -/
theorem colorMCache_bounded_witness :
    ∃ st, Draw exFonts 0 [65, 66] exFace 0 0 exWhite State.init = .ok st ∧
      Reachable exFonts st ∧ st.monotonicClock ≤ MaxInt64 ∧ mapLen st.colorMCache ≤ 256 :=
  ⟨_, rfl, reachable_Draw Reachable.init 0 [65, 66] exFace 0 0 exWhite rfl, by decide,
    colorMCache_bounded exFonts _
      (reachable_Draw Reachable.init 0 [65, 66] exFace 0 0 exWhite rfl) (by decide)⟩

/-! ## The colour cache is keyed by the interface value -/

/-- With the `RGBA()` value as key, the colour-cache statement for colours of
any type is `colorMLookup`. -/
theorem colorMLookup_any (g : glyph) (clr : Color) (st : State) :
    colorMLookup g clr st =
      ((colorMLookupAny g.atime clr clr st.colorMCache st.monotonicClock).1,
        { st with
          monotonicClock :=
            (colorMLookupAny g.atime clr clr st.colorMCache st.monotonicClock).2.2,
          colorMCache :=
            (colorMLookupAny g.atime clr clr st.colorMCache st.monotonicClock).2.1 }) := by
  unfold colorMLookup colorMLookupAny
  cases mapGet st.colorMCache clr with
  | some e => rfl
  | none => rfl

theorem colorMLookupAny_clock {κ : Type} [DecidableEq κ] (gatime : Int) (clr : κ)
    (rgba : Color) (cache : List (κ × colorMCacheEntry)) (clock : Int) :
    (colorMLookupAny gatime clr rgba cache clock).2.2 = clock + 1 := by
  unfold colorMLookupAny
  cases mapGet cache clr <;> rfl

/-- The call `glyph.drawAny` in closed form, for a colour that is not
transparent. -/
theorem drawAny_eq {κ : Type} [DecidableEq κ] (env : Fonts) (g : glyph) (dst : Nat)
    (x y : Int) (clr : κ) (rgba : Color) (st : State) (cache : List (κ × colorMCacheEntry))
    (hA : rgba.A ≠ 0) :
    g.drawAny env dst x y clr rgba st cache =
      match (mapGet st.atlases g.char.face).bind
          (fun m => mapGet m (g.char.atlasGroup env st).1) with
      | none => .error .nilDereference
      | some a =>
        if a.glyphSize ≠ (g.char.atlasGroup env st).1 then .error .atNotReached
        else if a.glyphSize = 0 then .error .divideByZero
        else if Int.tdiv a.imageWidth a.glyphSize = 0 then .error .divideByZero
        else .ok ({ g with char := (g.char.atlasGroup env st).2.1 },
          { queried env st g.char.face g.char.rune with
            monotonicClock := st.monotonicClock + 1,
            log := (queried env st g.char.face g.char.rune).log ++
              [Event.drawImage dst g.char.face g.char.rune
                (wrap32 (x + (boundsOf env st g.char.face g.char.rune).Min.X))
                (wrap32 (y + (boundsOf env st g.char.face g.char.rune).Min.Y))
                (Int.tmod g.index (Int.tdiv a.imageWidth a.glyphSize) * a.glyphSize)
                (Int.tdiv g.index (Int.tdiv a.imageWidth a.glyphSize) * a.glyphSize)
                a.glyphSize
                (colorMLookupAny g.atime clr rgba cache st.monotonicClock).1.m] },
          (colorMLookupAny g.atime clr rgba cache st.monotonicClock).2.1) := by
  have hS : ∀ t : Int, memoBounds
      ({ queried env st g.char.face g.char.rune with monotonicClock := t } : State)
      g.char.face g.char.rune ≠ none := by
    intro t
    rw [memoBounds_congr (show ({ queried env st g.char.face g.char.rune with
      monotonicClock := t } : State).charBounds =
        (queried env st g.char.face g.char.rune).charBounds from rfl), memoBounds_queried_self]
    simp
  have hb : ∀ t : Int, boundsOf env
      ({ queried env st g.char.face g.char.rune with monotonicClock := t } : State)
      g.char.face g.char.rune = boundsOf env st g.char.face g.char.rune := by
    intro t
    have : boundsOf env
        ({ queried env st g.char.face g.char.rune with monotonicClock := t } : State)
        g.char.face g.char.rune =
        boundsOf env (queried env st g.char.face g.char.rune) g.char.face g.char.rune := by
      simp [boundsOf, memoBounds]
    rw [this, boundsOf_queried]
  unfold glyph.drawAny
  simp only [hA, if_false, bounds_eq, atCell_eq, queried_clock, colorMLookupAny_clock]
  have hs := atlasGroup_state_of_memo env g.char _ (hS (st.monotonicClock + 1))
  have hG := atlasGroup_congr env g.char (hb (st.monotonicClock + 1))
  have hC := atlasGroup_congr_char env g.char (hb (st.monotonicClock + 1))
  have hidem := atlasGroup_idem env g.char (hb (st.monotonicClock + 1))
  have hmemo2 : memoBounds
      ({ queried env st g.char.face g.char.rune with
        monotonicClock := st.monotonicClock + 1 } : State)
      (g.char.atlasGroup env st).2.1.face (g.char.atlasGroup env st).2.1.rune ≠ none := by
    simpa using hS (st.monotonicClock + 1)
  have hs2 := atlasGroup_state_of_memo env (g.char.atlasGroup env st).2.1 _ hmemo2
  dsimp only at hs hG hC hidem hs2
  rw [hs, hG, hC, hidem.1, hidem.2, hs2]
  simp only [queried_atlases, atlasGroup_face, atlasGroup_rune]
  cases (mapGet st.atlases g.char.face).bind fun m => mapGet m (g.char.atlasGroup env st).1 with
  | none => rfl
  | some a =>
    simp only
    split_ifs <;> simp

/-- With the `RGBA()` value as key, `glyph.drawAny` is `glyph.draw`: the
cache it returns is the colour cache of the state that `glyph.draw` leaves. -/
theorem glyph_draw_any (env : Fonts) (g : glyph) (dst : Nat) (x y : Int) (clr : Color)
    (st : State) :
    g.draw env dst x y clr st =
      match g.drawAny env dst x y clr clr st st.colorMCache with
      | .error e => .error e
      | .ok r => .ok (r.1, { r.2.1 with colorMCache := r.2.2 }) := by
  by_cases hA : clr.A = 0
  · rw [glyph_draw_transparent env g dst x y clr st hA]
    unfold glyph.drawAny
    simp [hA]
  · rw [glyph_draw_eq env g dst x y clr st hA, drawAny_eq env g dst x y clr clr st _ hA]
    cases (mapGet st.atlases g.char.face).bind fun m => mapGet m (g.char.atlasGroup env st).1 with
    | none => rfl
    | some a =>
      simp only
      split_ifs
      · rfl
      · rfl
      · rfl
      · rw [colorMLookup_any]
        simp [colorMLookupAny_clock]

/-- The colour-cache statement keeps the invariant of the cache when the
components passed are those that belong to the key: every entry holds the
matrix of the components of its key, and so does the entry returned, which
is the entry of the key afterwards. -/
theorem colorMLookupAny_inv {κ : Type} [DecidableEq κ] (rgbaOf : κ → Color) (gatime : Int)
    (clr : κ) (cache : List (κ × colorMCacheEntry)) (clock : Int)
    (hm : ∀ e ∈ cache, e.2.m = colorMOf (rgbaOf e.1)) :
    (∀ e ∈ (colorMLookupAny gatime clr (rgbaOf clr) cache clock).2.1,
      e.2.m = colorMOf (rgbaOf e.1)) ∧
    (colorMLookupAny gatime clr (rgbaOf clr) cache clock).1.m = colorMOf (rgbaOf clr) ∧
    mapGet (colorMLookupAny gatime clr (rgbaOf clr) cache clock).2.1 clr =
      some (colorMLookupAny gatime clr (rgbaOf clr) cache clock).1 := by
  unfold colorMLookupAny
  cases hget : mapGet cache clr with
  | some e0 =>
    have hmem := mem_of_mapGet hget
    refine ⟨?_, hm (clr, e0) hmem, mapGet_mapSet_self _ _ _⟩
    intro e he
    rcases mem_mapSet he with h1 | h1
    · rw [h1]; exact hm (clr, e0) hmem
    · exact hm e h1
  | none =>
    have hsub : ∀ e ∈ (if mapLen cache ≥ 256 then
          deleteOldest cache (oldestColor cache none MaxInt64 gatime)
        else cache), e ∈ cache := by
      intro e he
      split at he
      · cases ho : oldestColor cache none MaxInt64 gatime with
        | none => rw [ho] at he; exact he
        | some k => rw [ho] at he; exact (mem_mapDelete.mp he).1
      · exact he
    refine ⟨?_, rfl, mapGet_mapSet_self _ _ _⟩
    intro e he
    rcases mem_mapSet he with h1 | h1
    · rw [h1]
    · exact hm e (hsub e h1)

theorem CacheReachable.cacheInv {κ : Type} [DecidableEq κ] {rgbaOf : κ → Color}
    {cache : List (κ × colorMCacheEntry)} (h : CacheReachable rgbaOf cache) :
    ∀ e ∈ cache, e.2.m = colorMOf (rgbaOf e.1) := by
  induction h with
  | empty => intro e he; cases he
  | lookup gatime clr clock _ _ ih =>
    exact (colorMLookupAny_inv rgbaOf gatime clr _ clock ih).1

/-- A call of `glyph.drawAny` with a colour that is not transparent, when it
returns: the cache is what the colour-cache statement leaves, and the log has
grown by queries of the glyph bounds followed by the composite, which carries
the matrix of the entry that the statement returned. -/
theorem drawAny_color {κ : Type} [DecidableEq κ] (env : Fonts) (g : glyph) (dst : Nat)
    (x y : Int) (clr : κ) (rgba : Color) (st : State) (cache : List (κ × colorMCacheEntry))
    (g' : glyph) (st' : State) (cache' : List (κ × colorMCacheEntry)) (hA : rgba.A ≠ 0)
    (h : g.drawAny env dst x y clr rgba st cache = .ok (g', st', cache')) :
    cache' = (colorMLookupAny g.atime clr rgba cache st.monotonicClock).2.1 ∧
    ∃ l face r px py sx sy size,
      st'.log = st.log ++ l ++
        [Event.drawImage dst face r px py sx sy size
          (colorMLookupAny g.atime clr rgba cache st.monotonicClock).1.m] ∧
      (∀ e ∈ l, e.isQuery = true) := by
  rw [drawAny_eq env g dst x y clr rgba st cache hA] at h
  split at h
  next => simp at h
  next a _ =>
    split_ifs at h
    simp only [Except.ok.injEq, Prod.mk.injEq] at h
    obtain ⟨_, hst, hc⟩ := h
    subst hst
    obtain ⟨l, hl, hp⟩ := logExt_queried env st g.char.face g.char.rune
    refine ⟨hc.symm, l, ?_⟩
    simp only [hl]
    exact ⟨_, _, _, _, _, _, _, rfl, hp⟩

/-- C20, as the code has it.  The colour cache is keyed by the interface
value of the colour.  For colours whose `RGBA()` components are the key
itself (values compared by their components), in every reachable state each
entry of `colorMCache` holds `Scale(r/a, g/a, b/a, a/0xffff)` of the
components of its key, and a call of `glyph.draw` with a colour whose alpha
is not zero, when it returns, has issued as its last event the composite with
that matrix of the colour (on a hit of the cache as on a miss) and leaves the
colour in the cache with that matrix.  For colours of any type whose `RGBA()`
components are fixed by the interface value (`rgbaOf`), the same holds of
every cache reached from the empty one and of `glyph.drawAny`, in every
state. -/
theorem colorM_determined (env : Fonts) (st : State) (hreach : Reachable env st) :
    (∀ (c : Color) (e : colorMCacheEntry), mapGet st.colorMCache c = some e →
      e.m = { rf := ⟨c.R, c.A⟩, gf := ⟨c.G, c.A⟩, bf := ⟨c.B, c.A⟩, af := ⟨c.A, 0xffff⟩ }) ∧
    (∀ (g : glyph) (dst : Nat) (x y : Int) (clr : Color) (g' : glyph) (st' : State),
      clr.A ≠ 0 → g.draw env dst x y clr st = .ok (g', st') →
      (∃ l face r px py sx sy size,
        st'.log = st.log ++ l ++
          [Event.drawImage dst face r px py sx sy size
            { rf := ⟨clr.R, clr.A⟩, gf := ⟨clr.G, clr.A⟩, bf := ⟨clr.B, clr.A⟩, af := ⟨clr.A, 0xffff⟩ }] ∧
        (∀ e ∈ l, e.isQuery = true)) ∧
      ∃ e, mapGet st'.colorMCache clr = some e ∧
        e.m = { rf := ⟨clr.R, clr.A⟩, gf := ⟨clr.G, clr.A⟩, bf := ⟨clr.B, clr.A⟩, af := ⟨clr.A, 0xffff⟩ }) ∧
    (∀ (κ : Type) [DecidableEq κ] (rgbaOf : κ → Color) (cache : List (κ × colorMCacheEntry)),
      CacheReachable rgbaOf cache →
      (∀ (k : κ) (e : colorMCacheEntry), mapGet cache k = some e →
        e.m = { rf := ⟨(rgbaOf k).R, (rgbaOf k).A⟩, gf := ⟨(rgbaOf k).G, (rgbaOf k).A⟩,
                    bf := ⟨(rgbaOf k).B, (rgbaOf k).A⟩, af := ⟨(rgbaOf k).A, 0xffff⟩ }) ∧
      ∀ (s : State) (g : glyph) (dst : Nat) (x y : Int) (clr : κ) (g' : glyph) (s' : State)
        (cache' : List (κ × colorMCacheEntry)),
        (rgbaOf clr).A ≠ 0 →
        g.drawAny env dst x y clr (rgbaOf clr) s cache = .ok (g', s', cache') →
        CacheReachable rgbaOf cache' ∧
        (∃ l face r px py sx sy size,
          s'.log = s.log ++ l ++
            [Event.drawImage dst face r px py sx sy size
              { rf := ⟨(rgbaOf clr).R, (rgbaOf clr).A⟩, gf := ⟨(rgbaOf clr).G, (rgbaOf clr).A⟩,
                    bf := ⟨(rgbaOf clr).B, (rgbaOf clr).A⟩, af := ⟨(rgbaOf clr).A, 0xffff⟩ }] ∧
          (∀ e ∈ l, e.isQuery = true)) ∧
        ∃ e, mapGet cache' clr = some e ∧
          e.m = { rf := ⟨(rgbaOf clr).R, (rgbaOf clr).A⟩, gf := ⟨(rgbaOf clr).G, (rgbaOf clr).A⟩,
                    bf := ⟨(rgbaOf clr).B, (rgbaOf clr).A⟩, af := ⟨(rgbaOf clr).A, 0xffff⟩ }) := by
  obtain ⟨h1, h2, _⟩ := hreach.colorInv
  refine ⟨fun c e hce => h2 (c, e) (mem_of_mapGet hce), ?_, ?_⟩
  · intro g dst x y clr g' st' hA hd
    obtain ⟨hc, _, l, sx, sy, size, hlog, hq⟩ :=
      glyph_draw_color env g dst x y clr st g' st' hA hd
    obtain ⟨_, _, k3, k4, _⟩ := colorMLookup_inv g clr (queried env st g.char.face g.char.rune)
      (by simpa using h1) (by simpa using h2)
    rw [k3] at hlog
    refine ⟨⟨l, _, _, _, _, sx, sy, size, hlog, hq⟩, _, ?_, k3⟩
    rw [hc]; exact k4
  · intro κ _ rgbaOf cache hcache
    have hinv := hcache.cacheInv
    refine ⟨fun k e hke => hinv (k, e) (mem_of_mapGet hke), ?_⟩
    intro s g dst x y clr g' s' cache' hA hd
    obtain ⟨hc, l, face, r, px, py, sx, sy, size, hlog, hq⟩ :=
      drawAny_color env g dst x y clr (rgbaOf clr) s cache g' s' cache' hA hd
    obtain ⟨_, k2, k3⟩ := colorMLookupAny_inv rgbaOf g.atime clr cache s.monotonicClock hinv
    rw [k2] at hlog
    refine ⟨?_, ⟨l, face, r, px, py, sx, sy, size, hlog, hq⟩, _, ?_, k2⟩
    · rw [hc]; exact CacheReachable.lookup g.atime clr s.monotonicClock hcache hA
    · rw [hc]; exact k3

/-- C20 as stated fails for a colour passed by pointer.  The glyph of "A" is
drawn twice with the same interface value (the key 1): the colour it points
to is white in the first call and red in the second.  The second call hits
the cache and composites with the matrix of white, `Scale(1, 1, 1, 1)`, not
with `Scale(r/a, g/a, b/a, a/0xffff)` of the red that `RGBA()` returns, and
the entry under the key still holds the matrix of white. -/
theorem colorM_stale_counterexample :
    ∃ s0 g0 s1 g1 s2 c2 g2 s3 c3,
      Draw exFonts 0 [65] exFace 0 0 exClear State.init = .ok s0 ∧
      getGlyphFromCache exFonts exFace 65 1 s0 = .ok (g0, s1) ∧
      glyph.drawAny exFonts g0 0 0 0 (1 : Nat) exWhite s1 [] = .ok (g1, s2, c2) ∧
      glyph.drawAny exFonts g1 0 0 0 (1 : Nat) exRed s2 c2 = .ok (g2, s3, c3) ∧
      exRed.A ≠ 0 ∧
      s3.log.getLast? = some (Event.drawImage 0 exFace 65 0 (-25600) 0 0 512
        { rf := ⟨0xffff, 0xffff⟩, gf := ⟨0xffff, 0xffff⟩, bf := ⟨0xffff, 0xffff⟩,
          af := ⟨0xffff, 0xffff⟩ }) ∧
      ({ rf := ⟨0xffff, 0xffff⟩, gf := ⟨0xffff, 0xffff⟩, bf := ⟨0xffff, 0xffff⟩,
          af := ⟨0xffff, 0xffff⟩ } : ColorM) ≠
        { rf := ⟨exRed.R, exRed.A⟩, gf := ⟨exRed.G, exRed.A⟩, bf := ⟨exRed.B, exRed.A⟩, af := ⟨exRed.A, 0xffff⟩ } ∧
      mapGet c3 1 = some
        { m := { rf := ⟨0xffff, 0xffff⟩, gf := ⟨0xffff, 0xffff⟩, bf := ⟨0xffff, 0xffff⟩,
                 af := ⟨0xffff, 0xffff⟩ },
          atime := 3 } :=
  ⟨_, _, _, _, _, _, _, _, _, rfl, rfl, rfl, rfl, by decide, by decide, by decide, by decide⟩

/-- C20, at a concrete input: the state after "A" has been drawn in white,
whose colour cache holds the matrix `Scale(1, 1, 1, 1)` under white. -/
theorem colorM_determined_witness :
    ∃ st, Draw exFonts 0 [65] exFace 0 0 exWhite State.init = .ok st ∧
      Reachable exFonts st ∧
      mapGet st.colorMCache exWhite = some
        { m := { rf := ⟨0xffff, 0xffff⟩, gf := ⟨0xffff, 0xffff⟩, bf := ⟨0xffff, 0xffff⟩,
                 af := ⟨0xffff, 0xffff⟩ },
          atime := 2 } ∧
      ∀ (g : glyph) (dst : Nat) (x y : Int) (clr : Color) (g' : glyph) (st' : State),
        clr.A ≠ 0 → g.draw exFonts dst x y clr st = .ok (g', st') →
        (∃ l face r px py sx sy size,
          st'.log = st.log ++ l ++
            [Event.drawImage dst face r px py sx sy size
              { rf := ⟨clr.R, clr.A⟩, gf := ⟨clr.G, clr.A⟩, bf := ⟨clr.B, clr.A⟩, af := ⟨clr.A, 0xffff⟩ }] ∧
          (∀ e ∈ l, e.isQuery = true)) ∧
        ∃ e, mapGet st'.colorMCache clr = some e ∧
          e.m = { rf := ⟨clr.R, clr.A⟩, gf := ⟨clr.G, clr.A⟩, bf := ⟨clr.B, clr.A⟩, af := ⟨clr.A, 0xffff⟩ } :=
  ⟨_, rfl, reachable_Draw Reachable.init 0 [65] exFace 0 0 exWhite rfl, by decide,
    (colorM_determined exFonts _
      (reachable_Draw Reachable.init 0 [65] exFace 0 0 exWhite rfl)).2.1⟩

/-! ## The face table -/

/-- In a face table without two faces of the same contents, `fontFaceToFace`
returns the face of the table that has the contents of its argument, and
leaves the table as it is. -/
theorem fontFaceToFace_of_mem (f k : Face) (st : State)
    (hnd : (st.faces.map Face.data).Nodup) (hk : k ∈ st.faces) (hd : k.data = f.data) :
    fontFaceToFace f st = (k, st) := by
  have hinj := List.inj_on_of_nodup_map hnd
  unfold fontFaceToFace
  by_cases hf : f ∈ st.faces
  · rw [if_pos hf, hinj hf hk hd.symm]
  · rw [if_neg hf]
    cases hfind : st.faces.find? (fun key => decide (key.data = f.data)) with
    | none =>
      rw [List.find?_eq_none] at hfind
      exact absurd (by simpa using hd) (hfind k hk)
    | some key =>
      have h1 : key ∈ st.faces := List.mem_of_find?_eq_some hfind
      have h2 : key.data = f.data := by simpa using List.find?_some hfind
      simp only
      rw [hinj h1 hk (h2.trans hd.symm)]

/-- What `fontFaceToFace` returns is in the table afterwards and has the
contents of the argument; the table has grown at its end, if at all, and
still has no two faces of the same contents. -/
theorem fontFaceToFace_spec (f : Face) (st : State) (hnd : (st.faces.map Face.data).Nodup) :
    (fontFaceToFace f st).1 ∈ (fontFaceToFace f st).2.faces ∧
    (fontFaceToFace f st).1.data = f.data ∧
    ((fontFaceToFace f st).2.faces.map Face.data).Nodup ∧
    st.faces <+: (fontFaceToFace f st).2.faces ∧
    (∀ k ∈ st.faces, k.data = f.data →
      (fontFaceToFace f st).1 = k ∧ (fontFaceToFace f st).2 = st) ∧
    ((∀ k ∈ st.faces, k.data ≠ f.data) → (fontFaceToFace f st).1 = f ∧
      (fontFaceToFace f st).2.faces = st.faces ++ [f]) := by
  have hmem : ∀ k ∈ st.faces, k.data = f.data →
      (fontFaceToFace f st).1 = k ∧ (fontFaceToFace f st).2 = st := by
    intro k hk hd
    rw [fontFaceToFace_of_mem f k st hnd hk hd]
    exact ⟨rfl, rfl⟩
  by_cases hex : ∃ k ∈ st.faces, k.data = f.data
  · obtain ⟨k, hk, hd⟩ := hex
    obtain ⟨h1, h2⟩ := hmem k hk hd
    rw [h1, h2]
    exact ⟨hk, hd, hnd, List.prefix_refl _, fun k' hk' hd' => by
      rw [← h1]; exact ⟨(hmem k' hk' hd').1, rfl⟩, fun hall => absurd hd (hall k hk)⟩
  · have hall : ∀ k ∈ st.faces, k.data ≠ f.data := fun k hk hd => hex ⟨k, hk, hd⟩
    have hf : f ∉ st.faces := fun hf => hall f hf rfl
    have hfind : st.faces.find? (fun key => decide (key.data = f.data)) = none := by
      rw [List.find?_eq_none]
      intro k hk
      simpa using hall k hk
    have hres : fontFaceToFace f st = (f, { st with faces := st.faces ++ [f] }) := by
      unfold fontFaceToFace
      rw [if_neg hf, hfind]
    rw [hres]
    refine ⟨by simp, rfl, ?_, List.prefix_append _ _, fun k hk hd => absurd hd (hall k hk),
      fun _ => ⟨rfl, rfl⟩⟩
    simp only [List.map_append, List.map_cons, List.map_nil]
    apply List.Nodup.append hnd (List.nodup_singleton _)
    intro d hd1 hd2
    simp only [List.mem_singleton] at hd2
    subst hd2
    obtain ⟨k, hk, hkd⟩ := List.mem_map.mp hd1
    exact hall k hk hkd

theorem Reachable.facesInv {env : Fonts} {st : State} (h : Reachable env st) :
    (st.faces.map Face.data).Nodup := by
  induction h with
  | init => simp [State.init]
  | tick _ ih => exact ih
  | face f _ ih => exact (fontFaceToFace_spec f _ ih).2.2.1
  | @bounds s c _ ih =>
    have : (c.bounds env s).2 = queried env s c.face c.rune := by rw [bounds_eq]
    rw [this, queried_faces]; exact ih
  | getGlyph _ _ hg ih => rw [(getGlyph_cases env _ _ _ _ _ _ hg).1.faces]; exact ih
  | glyphDraw _ hd ih => rw [(glyph_draw_frame env _ _ _ _ _ _ _ _ hd).1]; exact ih

theorem Later.facesPrefix {env : Fonts} {st st' : State} (h : Later env st st')
    (hnd : (st.faces.map Face.data).Nodup) :
    st.faces <+: st'.faces ∧ (st'.faces.map Face.data).Nodup := by
  induction h with
  | here => exact ⟨List.prefix_refl _, hnd⟩
  | tick _ ih => exact ih
  | face f _ ih =>
    obtain ⟨h1, h2⟩ := ih
    have := fontFaceToFace_spec f _ h2
    exact ⟨h1.trans this.2.2.2.1, this.2.2.1⟩
  | @bounds s c _ ih =>
    have : (c.bounds env s).2 = queried env s c.face c.rune := by rw [bounds_eq]
    rw [this, queried_faces]; exact ih
  | getGlyph _ _ hg ih => rw [(getGlyph_cases env _ _ _ _ _ _ hg).1.faces]; exact ih
  | glyphDraw _ hd ih => rw [(glyph_draw_frame env _ _ _ _ _ _ _ _ hd).1]; exact ih

/-- Once `fontFaceToFace` has been called for a face, a later call for a face
of the same contents returns the same face and leaves the state as it is. -/
theorem fontFaceToFace_later (env : Fonts) (st : State) (f1 f2 : Face) (st' : State)
    (hnd : (st.faces.map Face.data).Nodup) (hdeep : f1.data = f2.data)
    (hl : Later env (fontFaceToFace f1 st).2 st') :
    fontFaceToFace f2 st' = ((fontFaceToFace f1 st).1, st') := by
  obtain ⟨h1, h2, h3, _⟩ := fontFaceToFace_spec f1 st hnd
  obtain ⟨h4, h5⟩ := hl.facesPrefix h3
  exact fontFaceToFace_of_mem f2 _ st' h5 (h4.mem h1) (h2.trans hdeep)

/-- After `fontFaceToFace`, the rest of a round of the loop of `Draw` is made
of operations of the package. -/
theorem later_drawRune_face (env : Fonts) (dst : Nat) (face : Face) (y : Int) (clr : Color)
    (n : Int) (s : State) (fx prevC c : Int) (s' : State) (fx' p' : Int)
    (hn : n ≤ s.monotonicClock)
    (h : drawRune env dst face y clr n s fx prevC c = .ok (s', fx', p')) :
    Later env (fontFaceToFace face s).2 s' := by
  obtain ⟨g, s2, hg, _, _, hcase⟩ := drawRune_inv env dst face y clr n s fx prevC c s' fx' p' h
  have h2 : Later env (fontFaceToFace face s).2 s2 :=
    Later.getGlyph Later.here (by simpa using hn) hg
  have h3 : Later env (fontFaceToFace face s).2 (queried env s2 g.char.face g.char.rune) := by
    have : queried env s2 g.char.face g.char.rune = (g.char.bounds env s2).2 := by
      rw [bounds_eq]
    rw [this]
    exact Later.bounds g.char h2
  rcases hcase with ⟨_, hst⟩ | ⟨_, g', hd⟩
  · rw [hst]; exact h3
  · exact Later.glyphDraw h3 hd

/-- A round of the loop of `Draw` in a reachable state leaves a reachable
state in which `fontFaceToFace` maps the face to the same face as before. -/
theorem drawRune_canon (env : Fonts) (dst : Nat) (face : Face) (y : Int) (clr : Color)
    (n : Int) (s : State) (fx prevC c : Int) (s' : State) (fx' p' : Int)
    (hr : Reachable env s) (hn : n ≤ s.monotonicClock)
    (h : drawRune env dst face y clr n s fx prevC c = .ok (s', fx', p')) :
    Reachable env s' ∧ n ≤ s'.monotonicClock ∧
    fontFaceToFace face s' = ((fontFaceToFace face s).1, s') := by
  have hl := later_drawRune env dst face y clr n s fx prevC c s' fx' p' hn h
  refine ⟨hr.reachLater hl, le_trans hn hl.laterClock, ?_⟩
  exact fontFaceToFace_later env s face face s' hr.facesInv rfl
    (later_drawRune_face env dst face y clr n s fx prevC c s' fx' p' hn h)

/-- Induction over the loop of `Draw`: a reflexive and transitive relation
that holds across every round holds across the loop.  `s0` is a state from
which the loop is reached, `fa` the face that `fontFaceToFace` returns
throughout, `C` a property of the runes of the text. -/
theorem drawLoop_rel (env : Fonts) (dst : Nat) (face : Face) (y : Int) (clr : Color) (n : Int)
    (s0 : State) (fa : Face) (C : Int → Prop) (R : State → State → Prop) (hrefl : ∀ s, R s s)
    (htrans : ∀ s1 s2 s3, R s1 s2 → R s2 s3 → R s1 s3)
    (hstep : ∀ s fx p c s' fx' p', C c → Later env s0 s → Reachable env s →
      n ≤ s.monotonicClock → (fontFaceToFace face s).1 = fa →
      drawRune env dst face y clr n s fx p c = .ok (s', fx', p') → R s s')
    (text : List Int) (hC : ∀ c ∈ text, C c) (s : State) (fx p : Int) (s' : State)
    (fx' p' : Int) (hl0 : Later env s0 s)
    (hr : Reachable env s) (hn : n ≤ s.monotonicClock) (hfa : (fontFaceToFace face s).1 = fa)
    (h : drawLoop env dst face y clr n text s fx p = .ok (s', fx', p')) : R s s' := by
  induction text generalizing s fx p with
  | nil =>
    simp only [drawLoop, Except.ok.injEq, Prod.mk.injEq] at h
    rw [← h.1]; exact hrefl s
  | cons c rest ih =>
    unfold drawLoop at h
    cases hrd : drawRune env dst face y clr n s fx p c with
    | error e => simp [hrd] at h
    | ok r =>
      obtain ⟨s1, fx1, p1⟩ := r
      simp only [hrd] at h
      obtain ⟨hr1, hn1, hc1⟩ := drawRune_canon env dst face y clr n s fx p c s1 fx1 p1 hr hn hrd
      have hfa1 : (fontFaceToFace face s1).1 = fa := by rw [hc1]; exact hfa
      have hl1 : Later env s0 s1 :=
        hl0.laterTrans (later_drawRune env dst face y clr n s fx p c s1 fx1 p1 hn hrd)
      exact htrans s s1 s' (hstep s fx p c s1 fx1 p1 (hC c (by simp)) hl0 hr hn hfa hrd)
        (ih (fun c' hc' => hC c' (by simp [hc'])) s1 fx1 p1 hl1 hr1 hn1 hfa1 h)

/-- The same for `Draw`; `fa` is the face that `fontFaceToFace` returns for
the face in the state of the call. -/
theorem Draw_rel (env : Fonts) (dst : Nat) (face : Face) (x y : Int) (clr : Color)
    (text : List Int) (st st' : State) (R : State → State → Prop) (hrefl : ∀ s, R s s)
    (htrans : ∀ s1 s2 s3, R s1 s2 → R s2 s3 → R s1 s3)
    (hnow : R st (now st).2)
    (hstep : ∀ s fx p c s' fx' p', c ∈ text → Later env st s → Reachable env s →
      st.monotonicClock + 1 ≤ s.monotonicClock →
      (fontFaceToFace face s).1 = (fontFaceToFace face st).1 →
      drawRune env dst face y clr (st.monotonicClock + 1) s fx p c = .ok (s', fx', p') → R s s')
    (hr : Reachable env st) (h : Draw env dst text face x y clr st = .ok st') : R st st' := by
  rw [Draw_eq] at h
  cases hl : drawLoop env dst face y clr (now st).1 text (now st).2 (fixedI x) (-1) with
  | error e => rw [hl] at h; cases h
  | ok r =>
    rw [hl] at h
    obtain ⟨s, fx, p⟩ := r
    simp only [Except.ok.injEq] at h
    subst h
    refine htrans _ _ _ hnow (drawLoop_rel env dst face y clr _ st (fontFaceToFace face st).1
      (fun c => c ∈ text) R hrefl htrans hstep text (fun c hc => hc) _ _ _ _ _ _
      (Later.tick Later.here) (Reachable.tick hr) (by simp) ?_ hl)
    exact (fontFaceToFace_congr face st (now st).2 rfl).1

theorem getGlyph_other_faces (env : Fonts) (face : Face) (r now : Int) (st : State) (g : glyph)
    (st' : State) (h : getGlyphFromCache env face r now st = .ok (g, st')) (f : Face)
    (hf : f ≠ face) : mapGet st'.atlases f = mapGet st.atlases f := by
  obtain ⟨_, hcase⟩ := getGlyph_cases env face r now st g st' h
  rcases hcase with ⟨_, _, _, _, _, _, _, hat, _⟩ | ⟨_, _, _, _, _, hother, _⟩ |
      ⟨_, _, _, _, _, _, _, _, _, _, hat, _⟩
  · rw [hat]; exact mapGet_mapSet_ne _ _ (Ne.symm hf)
  · exact hother f hf
  · rw [hat]; exact mapGet_mapSet_ne _ _ (Ne.symm hf)

/-- What a round of the loop of `Draw` does to the atlases is what its call
of `getGlyphFromCache` does. -/
theorem drawRune_atlases (env : Fonts) (dst : Nat) (face : Face) (y : Int) (clr : Color)
    (n : Int) (s : State) (fx prevC c : Int) (s' : State) (fx' p' : Int)
    (h : drawRune env dst face y clr n s fx prevC c = .ok (s', fx', p')) :
    ∃ g s1 s2, s1.atlases = s.atlases ∧ SameBounds env s s1 ∧
      s1.monotonicClock = s.monotonicClock ∧
      getGlyphFromCache env (fontFaceToFace face s).1 c n s1 = .ok (g, s2) ∧
      s'.atlases = s2.atlases := by
  obtain ⟨g, s2, hg, _, _, hcase⟩ := drawRune_inv env dst face y clr n s fx prevC c s' fx' p' h
  refine ⟨g, _, s2, fontFaceToFace_atlases face s,
    SameBounds.of_charBounds (fontFaceToFace_charBounds face s), fontFaceToFace_clock face s,
    hg, ?_⟩
  rcases hcase with ⟨_, hst⟩ | ⟨_, g', hd⟩
  · rw [hst, queried_atlases]
  · rw [(glyph_draw_frame env _ _ _ _ _ _ _ _ hd).2.1, queried_atlases]

/-- C15: `reflect.DeepEqual` is taken as equality of the contents of two
faces.  In a reachable state, `fontFaceToFace(f1)` returns a face of the
table with the contents of `f1`: the face that the table already had with
these contents (the instance seen first), or else `f1` itself, which it adds.
In every state reached later, `fontFaceToFace(f2)` for a face `f2` of the
same contents returns that same face and leaves the state as it is (`f2` is
not added to `faces`; if `f2` is in `faces`, it is that face).  So a call of
`Draw` with `f2` works on the family `atlases[face]` of that face: the
families of all other faces, `f2` included when it is another instance, are
as before, none is allocated. -/
theorem fontFaceToFace_dedup (env : Fonts) (st : State) (f1 f2 : Face) (st' : State)
    (hreach : Reachable env st) (hdeep : f1.data = f2.data)
    (hlater : Later env (fontFaceToFace f1 st).2 st') :
    (fontFaceToFace f1 st).1.data = f1.data ∧
    (fontFaceToFace f1 st).1 ∈ (fontFaceToFace f1 st).2.faces ∧
    (∀ k ∈ st.faces, k.data = f1.data → (fontFaceToFace f1 st).1 = k) ∧
    ((∀ k ∈ st.faces, k.data ≠ f1.data) → (fontFaceToFace f1 st).1 = f1) ∧
    fontFaceToFace f2 st' = ((fontFaceToFace f1 st).1, st') ∧
    (f2 ∈ st'.faces → f2 = (fontFaceToFace f1 st).1) ∧
    (∀ (dst : Nat) (text : List Int) (x y : Int) (clr : Color) (st'' : State),
      Draw env dst text f2 x y clr st' = .ok st'' →
      ∀ f, f ≠ (fontFaceToFace f1 st).1 → mapGet st''.atlases f = mapGet st'.atlases f) := by
  have hnd := hreach.facesInv
  obtain ⟨h1, h2, h3, _, h5, h6⟩ := fontFaceToFace_spec f1 st hnd
  have hcanon := fontFaceToFace_later env st f1 f2 st' hnd hdeep hlater
  have hr' : Reachable env st' := (Reachable.face f1 hreach).reachLater hlater
  refine ⟨h2, h1, fun k hk hd => (h5 k hk hd).1, fun hall => (h6 hall).1, hcanon, ?_, ?_⟩
  · intro hf2
    have := fontFaceToFace_of_mem f2 f2 st' hr'.facesInv hf2 rfl
    rw [hcanon] at this
    exact (congrArg Prod.fst this).symm
  · intro dst text x y clr st'' hd
    have hfa : (fontFaceToFace f2 st').1 = (fontFaceToFace f1 st).1 := by rw [hcanon]
    rw [← hfa]
    exact Draw_rel env dst f2 x y clr text st' st''
      (fun s s' => ∀ f, f ≠ (fontFaceToFace f2 st').1 → mapGet s'.atlases f = mapGet s.atlases f)
      (fun s f _ => rfl)
      (fun s1 s2 s3 h12 h23 f hf => (h23 f hf).trans (h12 f hf))
      (fun f _ => rfl)
      (fun s fx p c s' fx' p' _ _ _ _ hfa' hrd f hf => by
        obtain ⟨g, t1, t2, e1, _, _, hg, e2⟩ :=
          drawRune_atlases env dst f2 y clr _ s fx p c s' fx' p' hrd
        rw [e2, getGlyph_other_faces env _ c _ t1 g t2 hg f (by rw [hfa']; exact hf), e1])
      hr' hd

/-- C15, at a concrete input: "A" is drawn with `exFace`, then `exFace2`,
another instance with the same contents, is looked up and used for "B". -/
theorem fontFaceToFace_dedup_witness :
    Reachable exFonts State.init ∧ exFace.data = exFace2.data ∧ exFace ≠ exFace2 ∧
    ∃ st', Draw exFonts 0 [65] exFace 0 0 exWhite (fontFaceToFace exFace State.init).2 =
        .ok st' ∧
      fontFaceToFace exFace2 st' = (exFace, st') ∧
      ∃ st'', Draw exFonts 0 [66] exFace2 0 0 exWhite st' = .ok st'' ∧
        mapGet st''.atlases exFace2 = mapGet st'.atlases exFace2 :=
  ⟨Reachable.init, rfl, by decide, _, rfl,
    (fontFaceToFace_dedup exFonts State.init exFace exFace2 _ Reachable.init rfl
      (later_Draw exFonts 0 [65] exFace 0 0 exWhite _ _ rfl)).2.2.2.2.1,
    _, rfl,
    (fontFaceToFace_dedup exFonts State.init exFace exFace2 _ Reachable.init rfl
      (later_Draw exFonts 0 [65] exFace 0 0 exWhite _ _ rfl)).2.2.2.2.2.2 0 [66] 0 0 exWhite _
      rfl exFace2 (by decide)⟩

/-! ## Empty glyphs -/

theorem getGlyphMiss_empty (env : Fonts) (face : Face) (ch : char) (now : Int)
    (slot : Option (Int × atlas)) (st : State)
    (he : emptyB (boundsOf env st ch.face ch.rune) = true) :
    getGlyphMiss env face ch now slot st =
      .ok ({ char := ch, index := 0, atime := now }, queried env st ch.face ch.rune) := by
  unfold getGlyphMiss
  rw [empty_eq]
  simp only [he, if_true]

/-- In a state that satisfies the invariant, `getGlyphFromCache` returns for
a rune whose glyph is empty. -/
theorem getGlyph_empty_total (env : Fonts) (face : Face) (r now : Int) (st : State)
    (he : emptyB (boundsOf env st face r) = true) :
    ∃ res, getGlyphFromCache env face r now st = .ok res := by
  have key : ∀ (ch : char) (slot : Option (Int × atlas)) (s : State),
      emptyB (boundsOf env s ch.face ch.rune) = true →
      ∃ res, getGlyphMiss env face ch now slot s = .ok res :=
    fun ch slot s h => ⟨_, getGlyphMiss_empty env face ch now slot s h⟩
  have he' : emptyB (boundsOf env (queried env st face r) (settled env st face r).face
      (settled env st face r).rune) = true := by
    show emptyB (boundsOf env (queried env st face r) face r) = true
    rw [boundsOf_queried]; exact he
  unfold getGlyphFromCache
  cases hm : mapGet st.atlases face with
  | none =>
    simp only
    apply key
    exact he
  | some m =>
    simp only [atlasGroup_fresh]
    cases ha : mapGet m (groupB (boundsOf env st face r)) with
    | none =>
      simp only
      exact key _ _ _ he'
    | some a =>
      simp only
      cases hg : mapGet a.runeToGlyph r with
      | some g => exact ⟨_, rfl⟩
      | none =>
        simp only
        exact key _ _ _ he'

/-- What `getGlyphFromCache` does for a rune whose glyph is empty, in a state
that satisfies the invariant: it returns a glyph of the rune with index 0,
logs queries of glyph bounds at most, and leaves every family of atlases as
it is (for a face without family it stores an empty family). -/
theorem getGlyph_empty (env : Fonts) (face : Face) (r now : Int) (st : State)
    (hwf : WF env st) (he : emptyB (boundsOf env st face r) = true) :
    ∃ g st', getGlyphFromCache env face r now st = .ok (g, st') ∧
      g.char.face = face ∧ g.char.rune = r ∧ g.index = 0 ∧ g.atime = now ∧
      (∃ l, st'.log = st.log ++ l ∧ ∀ e ∈ l, e.isQuery = true) ∧
      (∀ f, f ≠ face → mapGet st'.atlases f = mapGet st.atlases f) ∧
      mapGet st'.atlases face = some ((mapGet st.atlases face).getD []) ∧
      Resolves env st st' := by
  obtain ⟨⟨g, st'⟩, h⟩ := getGlyph_empty_total env face r now st he
  obtain ⟨hres, hcase⟩ := getGlyph_cases env face r now st g st' h
  rcases hcase with ⟨m, a, g0, hm, ha, hg0, _⟩ | ⟨_, h1, h2, h3, h4, h5, h6, h7⟩ | ⟨hne, _⟩
  · have := ((hwf face m _ a hm ha).glyphs r g0 (mem_of_mapGet hg0)).nonEmpty
    rw [he] at this; cases this
  · exact ⟨g, st', h, h1, h2, h3, h4, h7, h5, h6, hres⟩
  · rw [he] at hne; cases hne

/-- A round of the loop of `Draw` for a rune whose glyph is empty, in a state
that satisfies the invariant: the round returns, the pen has advanced by the
kerning and by the advance of the rune, nothing but queries of glyph bounds
is logged, and every family of atlases is as before. -/
theorem round_empty (env : Fonts) (dst : Nat) (face : Face) (y : Int) (clr : Color) (n : Int)
    (s : State) (fx prevC c : Int) (hwf : WF env s)
    (he : emptyB (boundsOf env s (fontFaceToFace face s).1 c) = true) :
    ∃ s', drawRune env dst face y clr n s fx prevC c =
        .ok (s', wrap32 ((if prevC ≥ 0 then wrap32 (fx + env.Kern face prevC c) else fx) +
          env.GlyphAdvance face c), c) ∧
      (∃ l, s'.log = s.log ++ l ∧ ∀ e ∈ l, e.isQuery = true) ∧
      (∀ f, f ≠ (fontFaceToFace face s).1 → mapGet s'.atlases f = mapGet s.atlases f) ∧
      mapGet s'.atlases (fontFaceToFace face s).1 =
        some ((mapGet s.atlases (fontFaceToFace face s).1).getD []) := by
  have hsb1 : SameBounds env s (fontFaceToFace face s).2 :=
    SameBounds.of_charBounds (fontFaceToFace_charBounds face s)
  have hat1 : (fontFaceToFace face s).2.atlases = s.atlases := fontFaceToFace_atlases face s
  have hwf1 : WF env (fontFaceToFace face s).2 := hwf.wfMono hat1 hsb1 (by simp)
  obtain ⟨g, s2, hg, hgf, hgr, _, _, ⟨l, hl, hq⟩, hother, hfam, hres⟩ :=
    getGlyph_empty env (fontFaceToFace face s).1 c n (fontFaceToFace face s).2 hwf1
      (by rw [hsb1.1]; exact he)
  have he2 : emptyB (boundsOf env s2 g.char.face g.char.rune) = true := by
    rw [hgf, hgr, hres.bounds.1, hsb1.1]; exact he
  refine ⟨queried env s2 g.char.face g.char.rune, ?_, ?_, ?_, ?_⟩
  · unfold drawRune
    simp only [hg, empty_eq, he2, Bool.not_true, Bool.false_eq_true, if_false]
  · obtain ⟨l2, hl2, hq2⟩ := logExt_queried env s2 g.char.face g.char.rune
    refine ⟨l ++ l2, by rw [hl2, hl, fontFaceToFace_log, List.append_assoc], ?_⟩
    intro e he'
    rcases List.mem_append.mp he' with h | h
    · exact hq e h
    · exact hq2 e h
  · intro f hf
    rw [queried_atlases, hother f hf, hat1]
  · rw [queried_atlases, hfam, hat1]

/-- C14: in a reachable state, for a face and a rune whose bounds have zero
width or zero height (`char.empty`), `getGlyphFromCache` returns a glyph of
the rune with index 0; it allocates no image and rasterises nothing (the log
grows by queries of glyph bounds at most), every family of atlases that
existed is unchanged, with all its atlases and their tables, and no atlas
exists afterwards that did not exist before.  A round of the loop of `Draw`
for that rune returns, with the pen advanced by the kerning, if any, and by
the rune's `GlyphAdvance`, and with the same frame. -/
theorem empty_glyph_no_atlas (env : Fonts) (st : State) (face : Face) (r : Int)
    (hreach : Reachable env st)
    (hempty : (char.empty env { face := face, rune := r, atlasG := 0 } st).1 = true) :
    (∀ now : Int, ∃ g st', getGlyphFromCache env face r now st = .ok (g, st') ∧
      g.char.face = face ∧ g.char.rune = r ∧ g.index = 0 ∧ g.atime = now ∧
      (∃ l, st'.log = st.log ++ l ∧ ∀ e ∈ l, e.isQuery = true) ∧
      (∀ f fam, mapGet st.atlases f = some fam → mapGet st'.atlases f = some fam) ∧
      (∀ f fam' key a, mapGet st'.atlases f = some fam' → mapGet fam' key = some a →
        ∃ fam, mapGet st.atlases f = some fam ∧ mapGet fam key = some a)) ∧
    (∀ (dst : Nat) (face0 : Face) (y : Int) (clr : Color) (n fx prevC : Int),
      (fontFaceToFace face0 st).1 = face →
      ∃ s', drawRune env dst face0 y clr n st fx prevC r =
          .ok (s', wrap32 ((if prevC ≥ 0 then wrap32 (fx + env.Kern face0 prevC r) else fx) +
            env.GlyphAdvance face0 r), r) ∧
        (∃ l, s'.log = st.log ++ l ∧ ∀ e ∈ l, e.isQuery = true) ∧
        (∀ f fam, mapGet st.atlases f = some fam → mapGet s'.atlases f = some fam) ∧
        (∀ f fam' key a, mapGet s'.atlases f = some fam' → mapGet fam' key = some a →
          ∃ fam, mapGet st.atlases f = some fam ∧ mapGet fam key = some a)) := by
  rw [empty_eq] at hempty
  simp only at hempty
  have hwf := hreach.wf
  have hframe : ∀ s' : State,
      (∀ f, f ≠ face → mapGet s'.atlases f = mapGet st.atlases f) →
      mapGet s'.atlases face = some ((mapGet st.atlases face).getD []) →
      (∀ f fam, mapGet st.atlases f = some fam → mapGet s'.atlases f = some fam) ∧
      (∀ f fam' key a, mapGet s'.atlases f = some fam' → mapGet fam' key = some a →
        ∃ fam, mapGet st.atlases f = some fam ∧ mapGet fam key = some a) := by
    intro s' hother hfam
    constructor
    · intro f fam hf
      by_cases hface : f = face
      · subst hface; rw [hfam, hf]; rfl
      · rw [hother f hface]; exact hf
    · intro f fam' key a hf ha
      by_cases hface : f = face
      · subst hface
        rw [hfam] at hf
        simp only [Option.some.injEq] at hf
        subst hf
        exact ⟨_, getD_of_mapGet ha, ha⟩
      · rw [hother f hface] at hf; exact ⟨fam', hf, ha⟩
  constructor
  · intro now
    obtain ⟨g, st', h, h1, h2, h3, h4, h5, h6, h7, _⟩ := getGlyph_empty env face r now st hwf hempty
    exact ⟨g, st', h, h1, h2, h3, h4, h5, hframe st' h6 h7⟩
  · intro dst face0 y clr n fx prevC hfa
    subst hfa
    obtain ⟨s', h, h1, h2, h3⟩ := round_empty env dst face0 y clr n st fx prevC r hwf hempty
    exact ⟨s', h, h1, hframe s' h2 h3⟩

/-- C14, at a concrete input: a space after "A" has been drawn. -/
theorem empty_glyph_no_atlas_witness :
    ∃ st, Draw exSpaced 0 [65] exFace 0 0 exWhite State.init = .ok st ∧
      Reachable exSpaced st ∧
      (char.empty exSpaced { face := exFace, rune := 32, atlasG := 0 } st).1 = true ∧
      ∃ s', drawRune exSpaced 0 exFace 0 exWhite 3 st 20480 65 32 =
          .ok (s', wrap32 ((if (65 : Int) ≥ 0 then
            wrap32 (20480 + exSpaced.Kern exFace 65 32) else 20480) +
            exSpaced.GlyphAdvance exFace 32), 32) ∧
        (∃ l, s'.log = st.log ++ l ∧ ∀ e ∈ l, e.isQuery = true) ∧
        (∀ f fam, mapGet st.atlases f = some fam → mapGet s'.atlases f = some fam) ∧
        (∀ f fam' key a, mapGet s'.atlases f = some fam' → mapGet fam' key = some a →
          ∃ fam, mapGet st.atlases f = some fam ∧ mapGet fam key = some a) :=
  ⟨_, rfl, reachable_Draw Reachable.init 0 [65] exFace 0 0 exWhite rfl, by decide,
    (empty_glyph_no_atlas exSpaced _ exFace 32
      (reachable_Draw Reachable.init 0 [65] exFace 0 0 exWhite rfl) (by decide)).2
      0 exFace 0 exWhite 3 20480 65 (by decide)⟩

/-! ## Atlases: one per face and group, created on demand, never removed -/

/-- For a rune whose glyph is empty, `getGlyphFromCache` leaves the atlases
as they are, except that it stores an empty family for a face that has
none. -/
theorem getGlyph_empty_atlases (env : Fonts) (face : Face) (r now : Int) (st : State)
    (g : glyph) (st' : State) (hwf : WF env st) (he : emptyB (boundsOf env st face r) = true)
    (h : getGlyphFromCache env face r now st = .ok (g, st')) :
    st'.atlases = st.atlases ∨
    (mapGet st.atlases face = none ∧ st'.atlases = mapSet st.atlases face []) := by
  have he' : emptyB (boundsOf env (queried env st face r) (settled env st face r).face
      (settled env st face r).rune) = true := by
    show emptyB (boundsOf env (queried env st face r) face r) = true
    rw [boundsOf_queried]; exact he
  have key : ∀ (ch : char) (slot : Option (Int × atlas)) (s : State),
      getGlyphMiss env face ch now slot s = .ok (g, st') →
      emptyB (boundsOf env s ch.face ch.rune) = true → st'.atlases = s.atlases := by
    intro ch slot s hmiss hs
    rw [getGlyphMiss_empty env face ch now slot s hs] at hmiss
    simp only [Except.ok.injEq, Prod.mk.injEq] at hmiss
    rw [← hmiss.2, queried_atlases]
  cases hm : mapGet st.atlases face with
  | none =>
    unfold getGlyphFromCache at h
    simp only [hm] at h
    right
    exact ⟨rfl, key _ _ _ h he⟩
  | some m =>
    cases ha : mapGet m (groupB (boundsOf env st face r)) with
    | none =>
      unfold getGlyphFromCache at h
      simp only [hm, atlasGroup_fresh, ha] at h
      left
      rw [key _ _ _ h he', queried_atlases]
    | some a =>
      cases hg : mapGet a.runeToGlyph r with
      | some g0 =>
        have := ((hwf face m _ a hm ha).glyphs r g0 (mem_of_mapGet hg)).nonEmpty
        rw [he] at this; cases this
      | none =>
        unfold getGlyphFromCache at h
        simp only [hm, atlasGroup_fresh, ha, hg] at h
        left
        rw [key _ _ _ h he', queried_atlases]

/-- The invariant of the map of atlases: the faces are pairwise distinct keys,
so are the groups of each family, and every atlas has its temporary image. -/
theorem Reachable.atlasInv {env : Fonts} {st : State} (h : Reachable env st) :
    (st.atlases.map Prod.fst).Nodup ∧
    (∀ e ∈ st.atlases, (e.2.map Prod.fst).Nodup) ∧
    (∀ f fam key a, mapGet st.atlases f = some fam → mapGet fam key = some a →
      a.tmpImage = true) := by
  induction h with
  | init => simp [State.init, mapGet]
  | tick _ ih => exact ih
  | face f0 _ ih => simpa using ih
  | @bounds s c _ ih =>
    have : (c.bounds env s).2 = queried env s c.face c.rune := by rw [bounds_eq]
    rw [this]
    simpa using ih
  | @getGlyph s s' face r now g hr _ hg ih =>
    obtain ⟨h1, h2, h3⟩ := ih
    have hwf := hr.wf
    have hfam : ∀ fam, mapGet s.atlases face = some fam → (fam.map Prod.fst).Nodup :=
      fun fam hf => h2 (face, fam) (mem_of_mapGet hf)
    have hgetD : (((mapGet s.atlases face).getD []).map Prod.fst).Nodup := by
      cases hm : mapGet s.atlases face with
      | none => simp
      | some fam => exact hfam fam hm
    have hset : ∀ fam' : List (Int × atlas), (fam'.map Prod.fst).Nodup →
        s'.atlases = mapSet s.atlases face fam' →
        (s'.atlases.map Prod.fst).Nodup ∧ (∀ e ∈ s'.atlases, (e.2.map Prod.fst).Nodup) := by
      intro fam' hnd hat
      rw [hat]
      refine ⟨mapSet_nodup _ _ _ h1, ?_⟩
      intro e he
      rcases mem_mapSet he with he | he
      · rw [he]; exact hnd
      · exact h2 e he
    have h12 : (s'.atlases.map Prod.fst).Nodup ∧
        (∀ e ∈ s'.atlases, (e.2.map Prod.fst).Nodup) := by
      obtain ⟨_, hcase⟩ := getGlyph_cases env face r now s g s' hg
      rcases hcase with ⟨m, a, g0, hm, _, _, _, hat, _⟩ | ⟨he, _⟩ |
          ⟨_, a, idx, mm, _, _, _, _, _, _, hat, _⟩
      · exact hset _ (mapSet_nodup _ _ _ (hfam m hm)) hat
      · rcases getGlyph_empty_atlases env face r now s g s' hwf he hg with hat | ⟨_, hat⟩
        · rw [hat]; exact ⟨h1, h2⟩
        · exact hset [] (by simp) hat
      · exact hset _ (mapSet_nodup _ _ _ hgetD) hat
    refine ⟨h12.1, h12.2, ?_⟩
    intro f fam' key a' hf ha
    rcases getGlyph_atlas_origin env face r now s g s' hg f fam' key a' hf ha with
      ⟨fam, a, k1, k2⟩ | ⟨_, _, _, k4⟩
    · obtain ⟨fam'', a'', e1, e2, _, _, _, e6, _⟩ :=
        getGlyph_atlas_kept env face r now s g s' hg f fam key a k1 k2
      rw [hf] at e1
      simp only [Option.some.injEq] at e1
      subst e1
      rw [ha] at e2
      simp only [Option.some.injEq] at e2
      subst e2
      exact e6 (h3 f fam key a k1 k2)
    · rw [k4]
  | glyphDraw _ hd ih =>
    rw [(glyph_draw_frame env _ _ _ _ _ _ _ _ hd).2.1]
    exact ih

theorem AtlasesKept.keptRefl (st : State) : AtlasesKept st st :=
  fun _ fam _ a hf ha => ⟨fam, a, hf, ha, rfl, rfl, rfl, rfl⟩

theorem AtlasesKept.keptTrans {s1 s2 s3 : State} (h12 : AtlasesKept s1 s2)
    (h23 : AtlasesKept s2 s3) : AtlasesKept s1 s3 := by
  intro f fam key a hf ha
  obtain ⟨fam2, a2, e1, e2, k1, k2, k3, k4⟩ := h12 f fam key a hf ha
  obtain ⟨fam3, a3, e3, e4, j1, j2, j3, j4⟩ := h23 f fam2 key a2 e1 e2
  exact ⟨fam3, a3, e3, e4, j1.trans k1, j2.trans k2, j3.trans k3, j4.trans k4⟩

theorem AtlasesKept.of_atlases {st st' : State} (h : st'.atlases = st.atlases) :
    AtlasesKept st st' := by
  intro f fam key a hf ha
  exact ⟨fam, a, by rw [h]; exact hf, ha, rfl, rfl, rfl, rfl⟩

/-- No operation of the package removes an atlas or puts another atlas in its
place. -/
theorem kept_later {env : Fonts} {st st' : State} (hr : Reachable env st)
    (hl : Later env st st') : AtlasesKept st st' := by
  induction hl with
  | here => exact AtlasesKept.keptRefl st
  | tick _ ih => exact ih.keptTrans (AtlasesKept.of_atlases rfl)
  | face f0 _ ih => exact ih.keptTrans (AtlasesKept.of_atlases (fontFaceToFace_atlases f0 _))
  | @bounds s c _ ih =>
    have : (c.bounds env s).2 = queried env s c.face c.rune := by rw [bounds_eq]
    rw [this]
    exact ih.keptTrans (AtlasesKept.of_atlases (queried_atlases env s _ _))
  | @getGlyph s s' face r now g hl' _ hg ih =>
    refine ih.keptTrans ?_
    have h3 := (hr.reachLater hl').atlasInv.2.2
    intro f fam key a hf ha
    obtain ⟨fam', a', e1, e2, k1, k2, k3, k4, _⟩ :=
      getGlyph_atlas_kept env face r now s g s' hg f fam key a hf ha
    have ht := h3 f fam key a hf ha
    exact ⟨fam', a', e1, e2, k1, k2, k3, by rw [k4 ht, ht]⟩
  | glyphDraw _ hd ih =>
    exact ih.keptTrans (AtlasesKept.of_atlases (glyph_draw_frame env _ _ _ _ _ _ _ _ hd).2.1)

/-- An atlas that exists after a call of `Draw` existed before it, or it is
the atlas of the group of a rune of the text whose glyph is not empty, in the
family of the face that `fontFaceToFace` returns. -/
theorem Draw_atlas_origin (env : Fonts) (dst : Nat) (text : List Int) (face : Face)
    (x y : Int) (clr : Color) (st st' : State) (hr : Reachable env st)
    (h : Draw env dst text face x y clr st = .ok st') :
    ∀ f fam' key a', mapGet st'.atlases f = some fam' → mapGet fam' key = some a' →
      (∃ fam a, mapGet st.atlases f = some fam ∧ mapGet fam key = some a) ∨
      (f = (fontFaceToFace face st).1 ∧ ∃ c ∈ text,
        key = groupB (boundsOf env st (fontFaceToFace face st).1 c) ∧
        emptyB (boundsOf env st (fontFaceToFace face st).1 c) = false) := by
  refine Draw_rel env dst face x y clr text st st'
    (fun s s' => ∀ f fam' key a', mapGet s'.atlases f = some fam' → mapGet fam' key = some a' →
      (∃ fam a, mapGet s.atlases f = some fam ∧ mapGet fam key = some a) ∨
      (f = (fontFaceToFace face st).1 ∧ ∃ c ∈ text,
        key = groupB (boundsOf env st (fontFaceToFace face st).1 c) ∧
        emptyB (boundsOf env st (fontFaceToFace face st).1 c) = false))
    ?_ ?_ ?_ ?_ hr h
  · intro s f fam' key a' hf ha
    exact Or.inl ⟨fam', a', hf, ha⟩
  · intro s1 s2 s3 h12 h23 f fam' key a' hf ha
    rcases h23 f fam' key a' hf ha with ⟨fam2, a2, e1, e2⟩ | hnew
    · exact h12 f fam2 key a2 e1 e2
    · exact Or.inr hnew
  · intro f fam' key a' hf ha
    exact Or.inl ⟨fam', a', hf, ha⟩
  · intro s fx p c s' fx' p' hc hl _ _ hfa hrd f fam' key a' hf ha
    obtain ⟨g, t1, t2, e1, hsb, _, hg, e2⟩ :=
      drawRune_atlases env dst face y clr _ s fx p c s' fx' p' hrd
    rw [e2] at hf
    have hb : boundsOf env t1 (fontFaceToFace face st).1 c =
        boundsOf env st (fontFaceToFace face st).1 c := by
      rw [hsb.1, hl.laterBounds.1]
    rw [hfa] at hg
    rcases getGlyph_atlas_origin env _ c _ t1 g t2 hg f fam' key a' hf ha with
      ⟨fam, a, k1, k2⟩ | ⟨k1, k2, k3, _⟩
    · rw [e1] at k1
      exact Or.inl ⟨fam, a, k1, k2⟩
    · rw [hb] at k2 k3
      exact Or.inr ⟨k1, c, hc, k2, k3⟩

/-! ## Images allocated and atlases created -/

theorem countImages_append (l1 l2 : List Event) :
    countImages (l1 ++ l2) = countImages l1 + countImages l2 := by
  simp [countImages]

theorem Allocates.allocRefl (st : State) : Allocates 0 st st :=
  ⟨[], by simp, rfl⟩

theorem Allocates.allocTrans {n m : Nat} {s1 s2 s3 : State} (h12 : Allocates n s1 s2)
    (h23 : Allocates m s2 s3) : Allocates (n + m) s1 s3 := by
  obtain ⟨l1, e1, c1⟩ := h12
  obtain ⟨l2, e2, c2⟩ := h23
  exact ⟨l1 ++ l2, by rw [e2, e1, List.append_assoc], by rw [countImages_append, c1, c2]⟩

theorem Allocates.of_sameLog {st st' : State} (h : st'.log = st.log) : Allocates 0 st st' :=
  ⟨[], by simp [h], rfl⟩

theorem Allocates.of_none {st st' : State}
    (h : LogExt (fun e => e.isNewImage = false) st st') : Allocates 0 st st' := by
  obtain ⟨l, hl, hp⟩ := h
  refine ⟨l, hl, ?_⟩
  unfold countImages
  rw [List.length_eq_zero, List.filter_eq_nil_iff]
  intro e he
  rw [hp e he]
  simp

theorem Allocates.of_queries {st st' : State}
    (h : LogExt (fun e => e.isQuery = true) st st') : Allocates 0 st st' := by
  apply Allocates.of_none
  refine h.logMono ?_
  intro e he
  cases e <;> simp_all [Event.isQuery, Event.isNewImage]

/-- The number of images that a sequence of events allocates is fixed by the
two logs. -/
theorem Allocates.unique {n m : Nat} {st st' : State} (h1 : Allocates n st st')
    (h2 : Allocates m st st') : n = m := by
  obtain ⟨l1, e1, c1⟩ := h1
  obtain ⟨l2, e2, c2⟩ := h2
  rw [e1] at e2
  have := List.append_cancel_left e2
  rw [← c1, ← c2, this]

theorem allocates_drawState (env : Fonts) (a : atlas) (g : glyph) (st : State) :
    Allocates (if a.tmpImage = true then 0 else 1) st (drawState env a g st) := by
  unfold drawState
  have h1 : Allocates (if a.tmpImage = true then 0 else 1) st (if a.tmpImage = true then st
      else { st with log := st.log ++ [Event.newImage a.glyphSize a.glyphSize] }) := by
    split
    · exact Allocates.allocRefl st
    · exact ⟨[Event.newImage a.glyphSize a.glyphSize], rfl, rfl⟩
  have h2 := Allocates.of_queries (logExt_queried env (if a.tmpImage = true then st
      else { st with log := st.log ++ [Event.newImage a.glyphSize a.glyphSize] })
      g.char.face g.char.rune)
  have h3 := Allocates.of_queries (atlasGroup_logExt env g.char
    (queried env (if a.tmpImage = true then st
      else { st with log := st.log ++ [Event.newImage a.glyphSize a.glyphSize] })
      g.char.face g.char.rune))
  have h123 := (h1.allocTrans h2).allocTrans h3
  obtain ⟨l, hl, hc⟩ := h123
  refine ⟨l ++ [Event.rasterize g.char.face g.char.rune a.glyphSize
      (Int.tmod g.index (Int.tdiv a.imageWidth a.glyphSize) * a.glyphSize)
      (Int.tdiv g.index (Int.tdiv a.imageWidth a.glyphSize) * a.glyphSize)], ?_, ?_⟩
  · simp only [hl, List.append_assoc]
  · rw [countImages_append, hc]
    simp [countImages, Event.isNewImage]

theorem Allocates.congr_log {n : Nat} {st st' st'' : State} (h : Allocates n st st')
    (hl : st''.log = st'.log) : Allocates n st st'' := by
  obtain ⟨l, e, c⟩ := h
  exact ⟨l, by rw [hl, e], c⟩

/-- A call of `createAtlas` that returns allocates one image, the image of
the atlas. -/
theorem createAtlas_allocates (env : Fonts) (face : Face) (ch : char) (st : State)
    (key : Int) (a : atlas) (ch2 : char) (st' : State)
    (h : createAtlas env face ch st = .ok (key, a, ch2, st')) : Allocates 1 st st' := by
  have h1 : Allocates 1 st { st with log := st.log ++ [Event.newImage 1024 1024] } :=
    ⟨[Event.newImage 1024 1024], rfl, rfl⟩
  have h2 := Allocates.of_queries
    (atlasGroup_logExt env ch { st with log := st.log ++ [Event.newImage 1024 1024] })
  have h3 := Allocates.of_queries
    (atlasGroup_logExt env
      (ch.atlasGroup env { st with log := st.log ++ [Event.newImage 1024 1024] }).2.1
      (ch.atlasGroup env { st with log := st.log ++ [Event.newImage 1024 1024] }).2.2)
  have h123 := (h1.allocTrans h2).allocTrans h3
  unfold createAtlas storeAtlas at h
  simp only at h
  split at h
  · cases h
  · rename_i st5 heq
    simp only [Except.ok.injEq, Prod.mk.injEq] at h
    obtain ⟨_, _, _, hst⟩ := h
    split at heq
    · cases heq
    · simp only [Except.ok.injEq] at heq
      exact h123.congr_log (by rw [← hst, ← heq])

/-- A call of `insertGlyph` that returns allocates the temporary image of the
atlas if the atlas has none, and no other image. -/
theorem insertGlyph_allocates (env : Fonts) (face : Face) (key : Int) (a : atlas) (ch : char)
    (now : Int) (st : State) (g : glyph) (st' : State)
    (h : insertGlyph env face key a ch now st = .ok (g, st')) :
    Allocates (if a.tmpImage = true then 0 else 1) st st' := by
  obtain ⟨m, idx, mm, hm, hsel, hsize, hgs, hx, _⟩ :=
    insertGlyph_inv env face key a ch now st g st' h
  unfold insertGlyph storeAtlas at h
  rw [appendGlyph_eq, hsel] at h
  simp only [hgs, if_false] at h
  rw [if_neg (not_not.mpr hsize), if_neg hx] at h
  simp only [drawState_atlases, hm, Except.ok.injEq, Prod.mk.injEq] at h
  obtain ⟨_, hst⟩ := h
  exact (allocates_drawState env a _ st).congr_log (by rw [← hst])

/-- The images that the part of `getGlyphFromCache` after a miss allocates:
none for an empty glyph; for a glyph that goes into an atlas found, the
temporary image if the atlas has none; for a glyph that goes into a new
atlas, the image of the atlas and its temporary image. -/
theorem getGlyphMiss_allocates (env : Fonts) (face : Face) (ch : char) (now : Int)
    (slot : Option (Int × atlas)) (st : State) (g : glyph) (st' : State)
    (h : getGlyphMiss env face ch now slot st = .ok (g, st')) :
    Allocates (if emptyB (boundsOf env st ch.face ch.rune) = true then 0
      else match slot with
        | some ka => if ka.2.tmpImage = true then 0 else 1
        | none => 2) st st' := by
  unfold getGlyphMiss at h
  rw [empty_eq] at h
  have hq := Allocates.of_queries (logExt_queried env st ch.face ch.rune)
  cases he : emptyB (boundsOf env st ch.face ch.rune) with
  | true =>
    simp only [he, if_true, Except.ok.injEq, Prod.mk.injEq] at h
    simp only [if_true]
    rw [← h.2]; exact hq
  | false =>
    simp only [he, Bool.false_eq_true, if_false] at h
    simp only [Bool.false_eq_true, if_false]
    cases slot with
    | some ka =>
      obtain ⟨key, a⟩ := ka
      simp only at h
      have := hq.allocTrans (insertGlyph_allocates env face key a ch now _ g st' h)
      simpa using this
    | none =>
      simp only at h
      cases hm : mapGet (queried env st ch.face ch.rune).atlases face with
      | none =>
        rw [createAtlas_of_none env face ch _ hm] at h
        cases h
      | some fam =>
        obtain ⟨st2, hc, _⟩ := createAtlas_of_some env face ch _ fam hm
        have h1 := createAtlas_allocates env face ch _ _ _ _ st2 hc
        rw [hc] at h
        simp only at h
        have h2 := insertGlyph_allocates env face _ _ _ now st2 g st' h
        have := (hq.allocTrans h1).allocTrans h2
        simpa [freshAtlas] using this

/-- The images that a call of `getGlyphFromCache` in a reachable state
allocates: none when the glyph is empty or the atlas of its group exists, two
(the image of the new atlas and its temporary image) otherwise. -/
theorem getGlyph_allocates (env : Fonts) (face : Face) (r now : Int) (st : State)
    (g : glyph) (st' : State) (hreach : Reachable env st)
    (h : getGlyphFromCache env face r now st = .ok (g, st')) :
    Allocates (if (emptyB (boundsOf env st face r) ||
        (mapGet ((mapGet st.atlases face).getD []) (groupB (boundsOf env st face r))).isSome) = true
      then 0 else 2) st st' := by
  have hbq : boundsOf env (queried env st face r) face r = boundsOf env st face r :=
    boundsOf_queried env st _ _ _ _
  have hq := Allocates.of_queries (logExt_queried env st face r)
  unfold getGlyphFromCache at h
  cases hm : mapGet st.atlases face with
  | none =>
    simp only [hm] at h
    have h1 := getGlyphMiss_allocates env face _ now none _ g st' h
    have hb : boundsOf env { st with atlases := mapSet st.atlases face [] } face r =
        boundsOf env st face r := rfl
    simp only [hb] at h1
    have h0 : Allocates 0 st { st with atlases := mapSet st.atlases face [] } :=
      Allocates.of_sameLog rfl
    have := h0.allocTrans h1
    simp only [Option.getD_none, mapGet, Option.isSome_none, Bool.or_false]
    simpa using this
  | some m =>
    simp only [hm, atlasGroup_fresh] at h
    simp only [Option.getD_some]
    obtain ha | ⟨a, ha⟩ : mapGet m (groupB (boundsOf env st face r)) = none ∨
        ∃ a, mapGet m (groupB (boundsOf env st face r)) = some a := by
      cases mapGet m (groupB (boundsOf env st face r)) with
      | none => exact Or.inl rfl
      | some a => exact Or.inr ⟨a, rfl⟩
    · simp only [ha] at h
      have h1 := getGlyphMiss_allocates env face _ now none _ g st' h
      have hb : boundsOf env (queried env st face r) (settled env st face r).face
          (settled env st face r).rune = boundsOf env st face r := hbq
      rw [hb] at h1
      have := hq.allocTrans h1
      simp only [ha, Option.isSome_none, Bool.or_false]
      simpa using this
    · simp only [ha] at h
      simp only [ha, Option.isSome_some, Bool.or_true, if_true]
      have htmp := hreach.atlasInv.2.2 face m _ a hm ha
      cases hg : mapGet a.runeToGlyph r with
      | some g0 =>
        simp only [hg, Except.ok.injEq, Prod.mk.injEq] at h
        exact hq.congr_log (by rw [← h.2])
      | none =>
        simp only [hg] at h
        have h1 := getGlyphMiss_allocates env face _ now (some (_, a)) _ g st' h
        have := hq.allocTrans h1
        simp only [htmp, if_true] at this
        split at this <;> simpa using this

theorem sum_lengths_mapSet (m : List (Face × List (Int × atlas))) (f : Face)
    (fam' : List (Int × atlas)) :
    ((mapSet m f fam').map (fun e => e.2.length)).sum + ((mapGet m f).getD []).length =
      (m.map (fun e => e.2.length)).sum + fam'.length := by
  induction m with
  | nil => simp [mapSet, mapGet]
  | cons e rest ih =>
    obtain ⟨k0, v0⟩ := e
    by_cases h0 : k0 = f
    · simp [mapSet, mapGet, h0]
      omega
    · simp only [mapSet, mapGet, h0, if_false, List.map_cons, List.sum_cons]
      omega

/-- The number of atlases after `atlases[face][key] = a`. -/
theorem atlasCount_store (st st' : State) (face : Face) (key : Int) (a : atlas)
    (h : st'.atlases = mapSet st.atlases face
      (mapSet ((mapGet st.atlases face).getD []) key a)) :
    atlasCount st' = atlasCount st +
      (if (mapGet ((mapGet st.atlases face).getD []) key).isSome = true then 0 else 1) := by
  have hs := sum_lengths_mapSet st.atlases face
    (mapSet ((mapGet st.atlases face).getD []) key a)
  unfold atlasCount
  rw [h]
  obtain hk | ⟨a0, hk⟩ : mapGet ((mapGet st.atlases face).getD []) key = none ∨
      ∃ a0, mapGet ((mapGet st.atlases face).getD []) key = some a0 := by
    cases mapGet ((mapGet st.atlases face).getD []) key with
    | none => exact Or.inl rfl
    | some a0 => exact Or.inr ⟨a0, rfl⟩
  · have hl := mapSet_length_of_not_mem ((mapGet st.atlases face).getD []) key a
      ((mapGet_eq_none_iff _ _).mp hk)
    simp only [hk, Option.isSome_none, Bool.false_eq_true, if_false]
    omega
  · have hl := mapSet_length_of_mem ((mapGet st.atlases face).getD []) key a
      (List.mem_map.mpr ⟨(key, a0), mem_of_mapGet hk, rfl⟩)
    simp only [hk, Option.isSome_some, if_true]
    omega

/-- The number of atlases after a call of `getGlyphFromCache` in a reachable
state: one more when the glyph is not empty and the atlas of its group does
not exist, the same otherwise. -/
theorem getGlyph_count (env : Fonts) (face : Face) (r now : Int) (st : State)
    (g : glyph) (st' : State) (hreach : Reachable env st)
    (h : getGlyphFromCache env face r now st = .ok (g, st')) :
    atlasCount st' = atlasCount st +
      (if (emptyB (boundsOf env st face r) ||
        (mapGet ((mapGet st.atlases face).getD []) (groupB (boundsOf env st face r))).isSome) = true
      then 0 else 1) := by
  obtain ⟨_, hcase⟩ := getGlyph_cases env face r now st g st' h
  rcases hcase with ⟨m, a, g0, hm, ha, _, _, hat, _⟩ | ⟨he, _⟩ |
      ⟨he, a, idx, mm, hslot, _, _, _, _, _, hat, _⟩
  · have hat' : st'.atlases = mapSet st.atlases face
        (mapSet ((mapGet st.atlases face).getD []) (groupB (boundsOf env st face r))
          { a with runeToGlyph := mapSet a.runeToGlyph r { g0 with atime := now } }) := by
      rw [hat, hm]; rfl
    have := atlasCount_store st st' face _ _ hat'
    rw [hm] at this
    simp only [Option.getD_some, ha, Option.isSome_some, if_true] at this
    rw [this, hm]
    simp [ha]
  · simp only [he, Bool.true_or, if_true]
    rcases getGlyph_empty_atlases env face r now st g st' hreach.wf he h with hat | ⟨hm, hat⟩
    · unfold atlasCount; rw [hat]; rfl
    · have := sum_lengths_mapSet st.atlases face []
      unfold atlasCount
      rw [hat]
      simp only [hm, Option.getD_none, List.length_nil] at this
      omega
  · have := atlasCount_store st st' face _ _ hat
    rw [this, he]
    simp

theorem Allocates.of_eq {n m : Nat} {st st' : State} (h : Allocates n st st') (e : n = m) :
    Allocates m st st' := e ▸ h

theorem Created.createdRefl (st : State) : Created st st :=
  ⟨le_refl _, (Allocates.allocRefl st).of_eq (by omega)⟩

theorem Created.createdTrans {s1 s2 s3 : State} (h12 : Created s1 s2) (h23 : Created s2 s3) :
    Created s1 s3 := by
  obtain ⟨c1, a1⟩ := h12
  obtain ⟨c2, a2⟩ := h23
  exact ⟨le_trans c1 c2, (a1.allocTrans a2).of_eq (by omega)⟩

theorem Created.of_frame {st st' : State} (hat : st'.atlases = st.atlases)
    (hl : Allocates 0 st st') : Created st st' := by
  have hc : atlasCount st' = atlasCount st := by unfold atlasCount; rw [hat]
  exact ⟨by omega, hl.of_eq (by omega)⟩

/-- A call of `getGlyphFromCache` in a reachable state allocates images for a
new atlas only. -/
theorem created_getGlyph (env : Fonts) (face : Face) (r now : Int) (st : State)
    (g : glyph) (st' : State) (hreach : Reachable env st)
    (h : getGlyphFromCache env face r now st = .ok (g, st')) : Created st st' := by
  have h1 := getGlyph_allocates env face r now st g st' hreach h
  have h2 := getGlyph_count env face r now st g st' hreach h
  refine ⟨by omega, h1.of_eq ?_⟩
  rw [h2]
  split <;> omega

theorem allocates_glyph_draw (env : Fonts) (g : glyph) (dst : Nat) (x y : Int) (clr : Color)
    (st : State) (g' : glyph) (st' : State)
    (h : g.draw env dst x y clr st = .ok (g', st')) : Allocates 0 st st' := by
  by_cases hA : clr.A = 0
  · rw [glyph_draw_transparent env g dst x y clr st hA] at h
    simp only [Except.ok.injEq, Prod.mk.injEq] at h
    rw [← h.2]
    exact Allocates.allocRefl st
  · obtain ⟨l, sx, sy, size, cm, hlog, hq, _⟩ := glyph_draw_inv env g dst x y clr st g' st' hA h
    refine ⟨l ++ [Event.drawImage dst g.char.face g.char.rune
      (wrap32 (x + (boundsOf env st g.char.face g.char.rune).Min.X))
      (wrap32 (y + (boundsOf env st g.char.face g.char.rune).Min.Y)) sx sy size cm],
      by rw [hlog, List.append_assoc], ?_⟩
    rw [countImages_append]
    have : countImages l = 0 := by
      unfold countImages
      rw [List.length_eq_zero, List.filter_eq_nil_iff]
      intro e he
      have := hq e he
      cases e <;> simp_all [Event.isQuery, Event.isNewImage]
    rw [this]
    simp [countImages, Event.isNewImage]

/-- From a reachable state on, the operations of the package allocate images
for new atlases only: two for each atlas that the later state has more. -/
theorem later_created {env : Fonts} {st st' : State} (hr : Reachable env st)
    (hl : Later env st st') : Created st st' := by
  induction hl with
  | here => exact Created.createdRefl st
  | tick _ ih => exact ih.createdTrans (Created.of_frame rfl (Allocates.of_sameLog rfl))
  | face f0 _ ih =>
    exact ih.createdTrans (Created.of_frame (fontFaceToFace_atlases f0 _)
      (Allocates.of_sameLog (fontFaceToFace_log f0 _)))
  | @bounds s c _ ih =>
    have : (c.bounds env s).2 = queried env s c.face c.rune := by rw [bounds_eq]
    rw [this]
    exact ih.createdTrans (Created.of_frame (queried_atlases env s _ _)
      (Allocates.of_queries (logExt_queried env s _ _)))
  | @getGlyph s s' face r now g hl' _ hg ih =>
    exact ih.createdTrans (created_getGlyph env face r now s g s' (hr.reachLater hl') hg)
  | glyphDraw _ hd ih =>
    exact ih.createdTrans (Created.of_frame (glyph_draw_frame env _ _ _ _ _ _ _ _ hd).2.1
      (allocates_glyph_draw env _ _ _ _ _ _ _ _ hd))

/-- What a call of `getGlyphFromCache` in a reachable state does to an atlas
that exists: the atlas stays under its face and key with its image, glyph
size and temporary image.  An atlas other than the one of the group of the
resolved rune is as before, and so is every atlas when the glyph is empty.
In the atlas of the group of the rune, a hit rewrites the glyph of the rune
with the new `atime`, and a miss puts the new glyph into the table that
`selectCell` leaves (the table as it was, or without the evicted glyph). -/
theorem getGlyph_table (env : Fonts) (face : Face) (r now : Int) (st : State)
    (g : glyph) (st' : State) (hreach : Reachable env st)
    (h : getGlyphFromCache env face r now st = .ok (g, st'))
    (f : Face) (fam : List (Int × atlas)) (key : Int) (a : atlas)
    (hf : mapGet st.atlases f = some fam) (ha : mapGet fam key = some a) :
    ∃ fam' a', mapGet st'.atlases f = some fam' ∧ mapGet fam' key = some a' ∧
      a.sameImage a' ∧
      (a' = a ∨
        (f = face ∧ key = groupB (boundsOf env st face r) ∧
          ((∃ g0, mapGet a.runeToGlyph r = some g0 ∧ g = { g0 with atime := now } ∧
              a'.runeToGlyph = mapSet a.runeToGlyph r g) ∨
           (mapGet a.runeToGlyph r = none ∧
              ∃ idx mm, a.selectCell a.cells = .ok (idx, mm) ∧ g.index = idx ∧
                a'.runeToGlyph = mapSet mm r g)))) := by
  have htmp := hreach.atlasInv.2.2
  obtain ⟨_, hcase⟩ := getGlyph_cases env face r now st g st' h
  have hstore : ∀ (fam0 : List (Int × atlas)) (a1 : atlas),
      mapGet st.atlases face = some fam0 →
      st'.atlases = mapSet st.atlases face (mapSet fam0 (groupB (boundsOf env st face r)) a1) →
      (f = face ∧ key = groupB (boundsOf env st face r) ∧ fam0 = fam ∧
        mapGet st'.atlases f =
          some (mapSet fam0 (groupB (boundsOf env st face r)) a1) ∧
        mapGet (mapSet fam0 (groupB (boundsOf env st face r)) a1) key = some a1) ∨
      (∃ fam', mapGet st'.atlases f = some fam' ∧ mapGet fam' key = some a) := by
    intro fam0 a1 hfam0 hat
    by_cases hface : f = face
    · subst hface
      have hfam : fam0 = fam := by
        rw [hf] at hfam0; exact (Option.some.inj hfam0).symm
      by_cases hkey : key = groupB (boundsOf env st f r)
      · subst hkey
        exact Or.inl ⟨rfl, rfl, hfam, by rw [hat]; exact mapGet_mapSet_self _ _ _,
          mapGet_mapSet_self _ _ _⟩
      · refine Or.inr ⟨_, by rw [hat]; exact mapGet_mapSet_self _ _ _, ?_⟩
        rw [mapGet_mapSet_ne _ _ (Ne.symm hkey), hfam]; exact ha
    · refine Or.inr ⟨fam, ?_, ha⟩
      rw [hat, mapGet_mapSet_ne _ _ (Ne.symm hface)]; exact hf
  rcases hcase with ⟨m, a0, g0, hm, ha0, hg0, hg, hat, _⟩ | ⟨he, _⟩ |
      ⟨_, a0, idx, mm, hslot, _, _, _, hsel, hg, hat, _⟩
  · rcases hstore m _ hm hat with ⟨h1, h2, h3, h4, h5⟩ | ⟨fam', h1, h2⟩
    · subst h1; subst h2; subst h3
      have haa : a0 = a := by rw [ha] at ha0; exact (Option.some.inj ha0).symm
      subst haa
      refine ⟨_, _, h4, h5, ⟨rfl, rfl, rfl, rfl⟩, Or.inr ⟨rfl, rfl, Or.inl ⟨g0, hg0, hg, ?_⟩⟩⟩
      rw [hg]
    · exact ⟨fam', a, h1, h2, ⟨rfl, rfl, rfl, rfl⟩, Or.inl rfl⟩
  · rcases getGlyph_empty_atlases env face r now st g st' hreach.wf he h with hat | ⟨hm, hat⟩
    · exact ⟨fam, a, by rw [hat]; exact hf, ha, ⟨rfl, rfl, rfl, rfl⟩, Or.inl rfl⟩
    · have hne : f ≠ face := by
        intro hface; rw [hface, hm] at hf; cases hf
      refine ⟨fam, a, ?_, ha, ⟨rfl, rfl, rfl, rfl⟩, Or.inl rfl⟩
      rw [hat, mapGet_mapSet_ne _ _ (Ne.symm hne)]; exact hf
  · cases hm : mapGet st.atlases face with
    | none =>
      have hne : f ≠ face := by
        intro hface; rw [hface, hm] at hf; cases hf
      refine ⟨fam, a, ?_, ha, ⟨rfl, rfl, rfl, rfl⟩, Or.inl rfl⟩
      rw [hat, mapGet_mapSet_ne _ _ (Ne.symm hne)]; exact hf
    | some m =>
      rw [hm] at hslot hat
      simp only [Option.getD_some] at hslot hat
      rcases hstore m _ hm hat with ⟨h1, h2, h3, h4, h5⟩ | ⟨fam', h1, h2⟩
      · subst h1; subst h2; subst h3
        rcases hslot with ⟨hex, hnew⟩ | ⟨hno, _⟩
        · have haa : a0 = a := by rw [ha] at hex; exact (Option.some.inj hex).symm
          subst haa
          have ht := htmp f m _ a0 hm ha
          refine ⟨_, _, h4, h5, ⟨rfl, rfl, rfl, by simp [ht]⟩,
            Or.inr ⟨rfl, rfl, Or.inr ⟨hnew, idx, mm, hsel, by rw [hg], ?_⟩⟩⟩
          rw [hg]
        · rw [ha] at hno; cases hno
      · exact ⟨fam', a, h1, h2, ⟨rfl, rfl, rfl, rfl⟩, Or.inl rfl⟩

/-- C18: in every reachable state the faces are pairwise distinct keys of
`atlases` and the groups pairwise distinct keys of each family, and an atlas
has its key as glyph size: there is at most one atlas per face and group.  No
later operation of the package (`getGlyphFromCache`, `Draw` and the functions
they call) removes an atlas or puts another in its place.  The model has no
pointers; that an atlas is not replaced shows in what a replacement would
do.  Under the same face and key there is an atlas with the same image size,
glyph size and temporary image.  The images allocated from then on are those
of the atlases that did not exist: two for each new atlas (its image and its
temporary image), none for an atlas that exists.  And a call of
`getGlyphFromCache` leaves every atlas as it is but the one of the group of
the rune, in which a hit rewrites the `atime` of the rune's glyph and a miss
puts the new glyph into the table that the selection of the cell leaves (the
table as it was, or without the one evicted glyph); the call allocates no
image when the glyph is empty or the atlas of its group exists, and two
otherwise.  An atlas that exists after a call of `getGlyphFromCache` and did
not exist before is the atlas of the group of the rune that was resolved,
whose glyph is not empty, and holds that glyph only; an atlas that exists
after a call of `Draw` and did not exist before is the atlas of the group of
a rune of the text whose glyph is not empty. -/
theorem atlases_lazy_permanent (env : Fonts) (st : State) (hreach : Reachable env st) :
    ((st.atlases.map Prod.fst).Nodup ∧
      ∀ f fam, mapGet st.atlases f = some fam → (fam.map Prod.fst).Nodup ∧
        ∀ key a, mapGet fam key = some a → a.glyphSize = key) ∧
    (∀ st', Later env st st' →
      AtlasesKept st st' ∧ atlasCount st ≤ atlasCount st' ∧
      ∃ l, st'.log = st.log ++ l ∧ countImages l = 2 * (atlasCount st' - atlasCount st)) ∧
    (∀ (face : Face) (r now : Int) (g : glyph) (st' : State),
      getGlyphFromCache env face r now st = .ok (g, st') →
      (∀ f fam key a, mapGet st.atlases f = some fam → mapGet fam key = some a →
        ∃ fam' a', mapGet st'.atlases f = some fam' ∧ mapGet fam' key = some a' ∧
          a.sameImage a' ∧
          (a' = a ∨
            (f = face ∧
              key = (char.atlasGroup env { face := face, rune := r, atlasG := 0 } st).1 ∧
              ((∃ g0, mapGet a.runeToGlyph r = some g0 ∧ g = { g0 with atime := now } ∧
                  a'.runeToGlyph = mapSet a.runeToGlyph r g) ∨
               (mapGet a.runeToGlyph r = none ∧
                  ∃ idx mm, a.selectCell a.cells = .ok (idx, mm) ∧ g.index = idx ∧
                    a'.runeToGlyph = mapSet mm r g))))) ∧
      (∃ l, st'.log = st.log ++ l ∧
        countImages l =
          if ((char.empty env { face := face, rune := r, atlasG := 0 } st).1 ||
              (mapGet ((mapGet st.atlases face).getD [])
                (char.atlasGroup env { face := face, rune := r, atlasG := 0 } st).1).isSome) = true
          then 0 else 2) ∧
      ∀ f fam' key a', mapGet st'.atlases f = some fam' → mapGet fam' key = some a' →
        (∃ fam a, mapGet st.atlases f = some fam ∧ mapGet fam key = some a) ∨
        (f = face ∧
          key = (char.atlasGroup env { face := face, rune := r, atlasG := 0 } st).1 ∧
          (char.empty env { face := face, rune := r, atlasG := 0 } st).1 = false ∧
          a'.runeToGlyph = [(r, g)])) ∧
    (∀ (dst : Nat) (text : List Int) (face : Face) (x y : Int) (clr : Color) (st' : State),
      Draw env dst text face x y clr st = .ok st' →
      AtlasesKept st st' ∧ atlasCount st ≤ atlasCount st' ∧
      (∃ l, st'.log = st.log ++ l ∧ countImages l = 2 * (atlasCount st' - atlasCount st)) ∧
      ∀ f fam' key a', mapGet st'.atlases f = some fam' → mapGet fam' key = some a' →
        (∃ fam a, mapGet st.atlases f = some fam ∧ mapGet fam key = some a) ∨
        (f = (fontFaceToFace face st).1 ∧ ∃ c ∈ text,
          key = (char.atlasGroup env
            { face := (fontFaceToFace face st).1, rune := c, atlasG := 0 } st).1 ∧
          (char.empty env
            { face := (fontFaceToFace face st).1, rune := c, atlasG := 0 } st).1 = false)) := by
  obtain ⟨h1, h2, _⟩ := hreach.atlasInv
  refine ⟨⟨h1, fun f fam hf => ⟨h2 (f, fam) (mem_of_mapGet hf),
    fun key a ha => (hreach.wf f fam key a hf ha).size⟩⟩, ?_, ?_, ?_⟩
  · intro st' hl
    obtain ⟨hc, ha⟩ := later_created hreach hl
    exact ⟨kept_later hreach hl, hc, ha⟩
  · intro face r now g st' hg
    rw [atlasGroup_fresh, empty_eq]
    refine ⟨?_, getGlyph_allocates env face r now st g st' hreach hg, ?_⟩
    · intro f fam key a hf ha
      exact getGlyph_table env face r now st g st' hreach hg f fam key a hf ha
    · intro f fam' key a' hf ha
      rcases getGlyph_atlas_origin env face r now st g st' hg f fam' key a' hf ha with
        hold | ⟨k1, k2, k3, k4⟩
      · exact Or.inl hold
      · exact Or.inr ⟨k1, k2, k3, by rw [k4]⟩
  · intro dst text face x y clr st' hd
    have hl := later_Draw env dst text face x y clr st st' hd
    obtain ⟨hc, ha⟩ := later_created hreach hl
    refine ⟨kept_later hreach hl, hc, ha, ?_⟩
    intro f fam' key a' hf ha
    rcases Draw_atlas_origin env dst text face x y clr st st' hreach hd f fam' key a' hf ha with
      hold | ⟨k1, c, hc, k2, k3⟩
    · exact Or.inl hold
    · refine Or.inr ⟨k1, c, hc, ?_, ?_⟩
      · rw [atlasGroup_fresh]; exact k2
      · rw [empty_eq]; exact k3

/-- C18, at a concrete input: after "A" has been drawn, "AB" is drawn; the
atlas of group 512 is still there, there is no other atlas, and the second
call has allocated no image. -/
theorem atlases_lazy_permanent_witness :
    ∃ st, Draw exFonts 0 [65] exFace 0 0 exWhite State.init = .ok st ∧
      Reachable exFonts st ∧
      ∃ a, mapGet st.atlases exFace = some [(512, a)] ∧
      ∃ st', Draw exFonts 0 [65, 66] exFace 0 0 exWhite st = .ok st' ∧
        atlasCount st = 1 ∧ atlasCount st' = 1 ∧
        AtlasesKept st st' ∧ atlasCount st ≤ atlasCount st' ∧
        ∃ l, st'.log = st.log ++ l ∧ countImages l = 2 * (atlasCount st' - atlasCount st) :=
  ⟨_, rfl, reachable_Draw Reachable.init 0 [65] exFace 0 0 exWhite rfl, _, rfl, _, rfl,
    by decide, by decide,
    ((atlases_lazy_permanent exFonts _
      (reachable_Draw Reachable.init 0 [65] exFace 0 0 exWhite rfl)).2.2.2
      0 [65, 66] exFace 0 0 exWhite _ rfl).1,
    ((atlases_lazy_permanent exFonts _
      (reachable_Draw Reachable.init 0 [65] exFace 0 0 exWhite rfl)).2.2.2
      0 [65, 66] exFace 0 0 exWhite _ rfl).2.1,
    ((atlases_lazy_permanent exFonts _
      (reachable_Draw Reachable.init 0 [65] exFace 0 0 exWhite rfl)).2.2.2
      0 [65, 66] exFace 0 0 exWhite _ rfl).2.2.1⟩

/-! ## The pen of `Draw` -/

theorem wrap32_idem (a : Int) : wrap32 (wrap32 a) = wrap32 a := by
  unfold wrap32; omega

theorem wrap32_of_range (a : Int) (h1 : -2147483648 ≤ a) (h2 : a < 2147483648) :
    wrap32 a = a := by
  unfold wrap32; omega

theorem advSum_snoc (env : Fonts) (face : Face) (pre : List Int) (c : Int) :
    advSum env face (pre ++ [c]) = advSum env face pre + env.GlyphAdvance face c := by
  simp [advSum]

theorem kernSum_snoc (env : Fonts) (face : Face) (pre : List Int) (c : Int) :
    kernSum env face (pre ++ [c]) =
      kernSum env face pre + (if pre = [] then 0 else env.Kern face (pre.getLastD (-1)) c) := by
  induction pre with
  | nil => simp [kernSum]
  | cons a rest ih =>
    cases rest with
    | nil => simp [kernSum]
    | cons b rest' =>
      have h1 : kernSum env face (a :: b :: rest' ++ [c]) =
          env.Kern face a b + kernSum env face (b :: rest' ++ [c]) := by
        simp [kernSum]
      have h2 : kernSum env face (a :: b :: rest') =
          env.Kern face a b + kernSum env face (b :: rest') := by
        simp [kernSum]
      rw [h1, h2, ih]
      simp only [List.cons_ne_nil, if_false]
      have h3 : (a :: b :: rest').getLastD (-1) = (b :: rest').getLastD (-1) := by
        simp [List.getLastD]
      rw [h3]; ring

theorem getLastD_nonneg (pre : List Int) (h : ∀ c ∈ pre, 0 ≤ c) (hne : pre ≠ []) :
    0 ≤ pre.getLastD (-1) := by
  have : pre.getLastD (-1) = pre.getLast hne := by
    cases pre with
    | nil => exact absurd rfl hne
    | cons a rest => rfl
  rw [this]
  exact h _ (List.getLast_mem hne)

/-- The pen after the kerning for the rune `c` that follows the runes `pre`,
when the loop variables are the pen and the last rune after `pre`. -/
theorem pen_kerned (env : Fonts) (face : Face) (x : Int) (pre : List Int) (c : Int)
    (h : ∀ c ∈ pre, 0 ≤ c) :
    (if pre.getLastD (-1) ≥ 0 then
        wrap32 (wrap32 (fixedI x + advSum env face pre + kernSum env face pre) +
          env.Kern face (pre.getLastD (-1)) c)
      else wrap32 (fixedI x + advSum env face pre + kernSum env face pre)) =
    wrap32 (fixedI x + advSum env face pre + kernSum env face (pre ++ [c])) := by
  rw [kernSum_snoc]
  by_cases hne : pre = []
  · subst hne
    simp [List.getLastD]
  · have := getLastD_nonneg pre h hne
    rw [if_pos (ge_iff_le.mpr this), if_neg hne, wrap32_wrap32_add]
    congr 1; ring

theorem pen_advanced (env : Fonts) (face : Face) (x : Int) (pre : List Int) (c : Int) :
    wrap32 (wrap32 (fixedI x + advSum env face pre + kernSum env face (pre ++ [c])) +
      env.GlyphAdvance face c) =
    wrap32 (fixedI x + advSum env face (pre ++ [c]) + kernSum env face (pre ++ [c])) := by
  rw [wrap32_wrap32_add, advSum_snoc]
  congr 1; ring

theorem drawLoop_cons (env : Fonts) (dst : Nat) (face : Face) (y : Int) (clr : Color)
    (n : Int) (c : Int) (rest : List Int) (s : State) (fx p : Int) :
    drawLoop env dst face y clr n (c :: rest) s fx p =
      match drawRune env dst face y clr n s fx p c with
      | .error e => .error e
      | .ok (s1, fx1, p1) => drawLoop env dst face y clr n rest s1 fx1 p1 := by
  rw [drawLoop]

/-- The loop variables after the loop of `Draw` has run over the runes `l`,
when it started after the runes `pre`. -/
theorem drawLoop_pen (env : Fonts) (dst : Nat) (face : Face) (x y : Int) (clr : Color)
    (n : Int) (l pre : List Int) (s : State) (fx p : Int) (s' : State) (fx' p' : Int)
    (hrunes : ∀ c ∈ pre ++ l, 0 ≤ c)
    (hfx : fx = wrap32 (fixedI x + advSum env face pre + kernSum env face pre))
    (hp : p = pre.getLastD (-1))
    (h : drawLoop env dst face y clr n l s fx p = .ok (s', fx', p')) :
    fx' = wrap32 (fixedI x + advSum env face (pre ++ l) + kernSum env face (pre ++ l)) ∧
    p' = (pre ++ l).getLastD (-1) := by
  induction l generalizing pre s fx p with
  | nil =>
    simp only [drawLoop, Except.ok.injEq, Prod.mk.injEq] at h
    rw [List.append_nil, ← h.2.1, ← h.2.2]
    exact ⟨hfx, hp⟩
  | cons c rest ih =>
    rw [drawLoop_cons] at h
    cases hrd : drawRune env dst face y clr n s fx p c with
    | error e => rw [hrd] at h; cases h
    | ok r =>
      obtain ⟨s1, fx1, p1⟩ := r
      rw [hrd] at h
      obtain ⟨_, _, _, hfx1, hp1, _⟩ := drawRune_inv env dst face y clr n s _ _ c s1 fx1 p1 hrd
      rw [hfx, hp, pen_kerned env face x pre c (fun c hc => hrunes c (by simp [hc])),
        pen_advanced] at hfx1
      have hp1' : p1 = (pre ++ [c]).getLastD (-1) := by rw [hp1]; simp
      have := ih (pre ++ [c]) s1 fx1 p1 (by simpa using hrunes) hfx1 hp1' h
      simpa using this

theorem drawLoop_append (env : Fonts) (dst : Nat) (face : Face) (y : Int) (clr : Color)
    (n : Int) (l1 l2 : List Int) (s : State) (fx p : Int) :
    drawLoop env dst face y clr n (l1 ++ l2) s fx p =
      match drawLoop env dst face y clr n l1 s fx p with
      | .error e => .error e
      | .ok (s1, fx1, p1) => drawLoop env dst face y clr n l2 s1 fx1 p1 := by
  induction l1 generalizing s fx p with
  | nil => simp [drawLoop]
  | cons c rest ih =>
    rw [List.cons_append, drawLoop_cons, drawLoop_cons]
    cases hrd : drawRune env dst face y clr n s fx p c with
    | error e => rfl
    | ok r =>
      obtain ⟨s1, fx1, p1⟩ := r
      exact ih s1 fx1 p1

theorem pens_of_countDraws {l : List Event} (h : countDraws l = 0) : pens l = [] := by
  apply pens_eq_nil
  intro e he
  simp only [countDraws, Nat.cast_eq_zero, List.length_eq_zero, List.filter_eq_nil_iff] at h
  simpa using h e he

/-- The composites of one round of the loop of `Draw`, in a state that
satisfies the invariant: none when the colour is transparent or the glyph
empty, otherwise one, at the pen after the kerning plus the minimum of the
glyph's bounds. -/
theorem round_pens (env : Fonts) (dst : Nat) (face : Face) (y : Int) (clr : Color) (n : Int)
    (s : State) (fx prevC c : Int) (s' : State) (fx' p' : Int) (fa : Face)
    (hfa : (fontFaceToFace face s).1 = fa) (hwf : WF env s) (hn : n ≤ s.monotonicClock)
    (h : drawRune env dst face y clr n s fx prevC c = .ok (s', fx', p')) :
    ∃ l, s'.log = s.log ++ l ∧
      pens l =
        if clr.A = 0 ∨ emptyB (boundsOf env s fa c) = true then []
        else [(dst, c,
          wrap32 ((if prevC ≥ 0 then wrap32 (fx + env.Kern face prevC c) else fx) +
            (boundsOf env s fa c).Min.X),
          wrap32 (fixedI y + (boundsOf env s fa c).Min.Y))] := by
  subst hfa
  cases he : emptyB (boundsOf env s (fontFaceToFace face s).1 c) with
  | true =>
    obtain ⟨s0, h0, ⟨l, hl, hq⟩, _⟩ := round_empty env dst face y clr n s fx prevC c hwf he
    rw [h] at h0
    simp only [Except.ok.injEq, Prod.mk.injEq] at h0
    rw [← h0.1] at hl
    refine ⟨l, hl, ?_⟩
    rw [if_pos (Or.inr rfl)]
    exact pens_eq_nil (fun e he' => isQuery_not_drawImage e (hq e he'))
  | false =>
    by_cases hA : clr.A = 0
    · obtain ⟨l, hl, _, _, h0⟩ := drawRune_frame env dst face y clr n s fx prevC c s' fx' p' h
      refine ⟨l, hl, ?_⟩
      rw [if_pos (Or.inl hA)]
      exact pens_of_countDraws (h0 hA).1
    · obtain ⟨_, _, _, _, _, _, _, _, _, l, sx, sy, size, cm, hl, hnd, _⟩ :=
        round_core env dst face y clr n s fx prevC c s' fx' p' hwf hn hA he h
      refine ⟨l ++ [Event.drawImage dst (fontFaceToFace face s).1 c
        (wrap32 ((if prevC ≥ 0 then wrap32 (fx + env.Kern face prevC c) else fx) +
          (boundsOf env s (fontFaceToFace face s).1 c).Min.X))
        (wrap32 (fixedI y + (boundsOf env s (fontFaceToFace face s).1 c).Min.Y))
        sx sy size cm], by rw [hl, List.append_assoc], ?_⟩
      have hcond : ¬ (clr.A = 0 ∨ false = true) := by simp [hA]
      rw [if_neg hcond, pens_append, pens_eq_nil hnd]
      simp [pens]

theorem penAt_prefix (env : Fonts) (face : Face) (x : Int) (pre : List Int) (c : Int)
    (rest : List Int) :
    penAt env face x (pre ++ c :: rest) pre.length =
      wrap32 (fixedI x + advSum env face pre + kernSum env face (pre ++ [c])) := by
  unfold penAt
  rw [List.take_left]
  have : List.take (pre.length + 1) (pre ++ c :: rest) = pre ++ [c] := by
    rw [List.take_append]; simp
  rw [this]

/-- The composites of the loop of `Draw` over the runes `l` that follow the
runes `pre` of the text. -/
theorem drawLoop_pens (env : Fonts) (dst : Nat) (face : Face) (x y : Int) (clr : Color)
    (n : Int) (st : State) (fa : Face) (text : List Int) (hrunes : ∀ c ∈ text, 0 ≤ c)
    (l pre : List Int) (s : State) (fx p : Int) (s' : State) (fx' p' : Int)
    (htext : text = pre ++ l) (hl0 : Later env st s) (hr : Reachable env s)
    (hn : n ≤ s.monotonicClock) (hfa : (fontFaceToFace face s).1 = fa)
    (hfx : fx = wrap32 (fixedI x + advSum env face pre + kernSum env face pre))
    (hp : p = pre.getLastD (-1))
    (h : drawLoop env dst face y clr n l s fx p = .ok (s', fx', p')) :
    ∃ lg, s'.log = s.log ++ lg ∧
      pens lg = (List.range l.length).filterMap
        (fun k => compositeAt env dst face fa x y clr st text (pre.length + k)) := by
  induction l generalizing pre s fx p with
  | nil =>
    simp only [drawLoop, Except.ok.injEq, Prod.mk.injEq] at h
    exact ⟨[], by rw [← h.1]; simp, by simp [pens]⟩
  | cons c rest ih =>
    rw [drawLoop_cons] at h
    cases hrd : drawRune env dst face y clr n s fx p c with
    | error e => rw [hrd] at h; cases h
    | ok r =>
      obtain ⟨s1, fx1, p1⟩ := r
      rw [hrd] at h
      have hpre : ∀ c ∈ pre, 0 ≤ c := fun c hc => hrunes c (by rw [htext]; simp [hc])
      obtain ⟨_, _, _, hfx1, hp1, _⟩ := drawRune_inv env dst face y clr n s _ _ c s1 fx1 p1 hrd
      obtain ⟨l1, hl1, hpens1⟩ :=
        round_pens env dst face y clr n s fx p c s1 fx1 p1 fa hfa hr.wf hn hrd
      rw [hfx, hp, pen_kerned env face x pre c hpre] at hfx1 hpens1
      rw [pen_advanced] at hfx1
      have hp1' : p1 = (pre ++ [c]).getLastD (-1) := by rw [hp1]; simp
      obtain ⟨hr1, hn1, hc1⟩ := drawRune_canon env dst face y clr n s fx p c s1 fx1 p1 hr hn hrd
      have hfa1 : (fontFaceToFace face s1).1 = fa := by rw [hc1]; exact hfa
      have hl1' : Later env st s1 :=
        hl0.laterTrans (later_drawRune env dst face y clr n s fx p c s1 fx1 p1 hn hrd)
      obtain ⟨l2, hl2, hpens2⟩ := ih (pre ++ [c]) s1 fx1 p1 (by rw [htext]; simp) hl1' hr1 hn1
        hfa1 hfx1 hp1' h
      refine ⟨l1 ++ l2, by rw [hl2, hl1, List.append_assoc], ?_⟩
      rw [pens_append, hpens1, hpens2, List.length_cons, List.range_succ_eq_map,
        List.filterMap_cons, List.filterMap_map]
      have hb : boundsOf env s fa c = boundsOf env st fa c := hl0.laterBounds.1 fa c
      have hget : text.getD pre.length 0 = c := by
        rw [htext, List.getD_eq_getElem?_getD, List.getElem?_append_right (le_refl _)]
        simp
      have hhead : compositeAt env dst face fa x y clr st text (pre.length + 0) =
          if clr.A = 0 ∨ emptyB (boundsOf env s fa c) = true then none
          else some (dst, c,
            wrap32 (wrap32 (fixedI x + advSum env face pre + kernSum env face (pre ++ [c])) +
              (boundsOf env s fa c).Min.X),
            wrap32 (fixedI y + (boundsOf env s fa c).Min.Y)) := by
        unfold compositeAt
        rw [Nat.add_zero, hget, hb]
        have : penAt env face x text pre.length =
            wrap32 (fixedI x + advSum env face pre + kernSum env face (pre ++ [c])) := by
          rw [htext]; exact penAt_prefix env face x pre c rest
        rw [this]
      have htail : (fun k => compositeAt env dst face fa x y clr st text
            ((pre ++ [c]).length + k)) =
          ((fun k => compositeAt env dst face fa x y clr st text (pre.length + k)) ∘
            Nat.succ) := by
        funext k
        simp only [Function.comp, List.length_append, List.length_singleton]
        congr 1
        omega
      rw [hhead, htail]
      split <;> simp

theorem take_succ_getD (text : List Int) (k : Nat) (hk : k < text.length) :
    text.take (k + 1) = text.take k ++ [text.getD k 0] := by
  rw [List.take_succ, List.getD_eq_getElem?_getD, List.getElem?_eq_getElem hk]
  simp

/-- C11: in a reachable state, for a text whose runes are not negative (as
the runes of a Go string are), when `Draw` returns: for every index `k` the
loop reaches the rune `r_k` with the pen, after the kerning,
`fixed.I(x) + sum_{j<k} GlyphAdvance(r_j) + sum_{1<=j<=k} Kern(r_{j-1}, r_j)`
in `fixed.Int26_6` arithmetic (`penAt`; the sum itself when it is in the range
of `int32`), and leaves the rune with the pen advanced by `GlyphAdvance(r_k)`,
whether the glyph is empty or not.  The composites that the call issues on
the destination are, in the order of the text, one for every rune whose glyph
is not empty, at `(pen + bounds.Min.X, fixed.I(y) + bounds.Min.Y)`, when the
colour is not transparent, and none when it is. -/
theorem Draw_pen_positions (env : Fonts) (st : State) (dst : Nat) (text : List Int)
    (face : Face) (x y : Int) (clr : Color) (st' : State)
    (hreach : Reachable env st) (hrunes : ∀ c ∈ text, 0 ≤ c)
    (h : Draw env dst text face x y clr st = .ok st') :
    (∀ k, k < text.length →
      ∃ s fx p s',
        drawLoop env dst face y clr (now st).1 (text.take k) (now st).2 (fixedI x) (-1) =
          .ok (s, fx, p) ∧
        (if p ≥ 0 then wrap32 (fx + env.Kern face p (text.getD k 0)) else fx) =
          penAt env face x text k ∧
        drawLoop env dst face y clr (now st).1 (text.take (k + 1)) (now st).2 (fixedI x)
            (-1) =
          .ok (s', wrap32 (penAt env face x text k + env.GlyphAdvance face (text.getD k 0)),
            text.getD k 0)) ∧
    (∃ l, st'.log = st.log ++ l ∧
      pens l = (List.range text.length).filterMap (fun k =>
        if clr.A = 0 ∨ (char.empty env
            { face := (fontFaceToFace face st).1, rune := text.getD k 0, atlasG := 0 } st).1 =
              true then none
        else some (dst, text.getD k 0,
          wrap32 (penAt env face x text k + (char.bounds env
            { face := (fontFaceToFace face st).1, rune := text.getD k 0, atlasG := 0 }
              st).1.Min.X),
          wrap32 (fixedI y + (char.bounds env
            { face := (fontFaceToFace face st).1, rune := text.getD k 0, atlasG := 0 }
              st).1.Min.Y)))) ∧
    (∀ k : Nat,
      -2147483648 ≤ fixedI x + advSum env face (text.take k) +
        kernSum env face (text.take (k + 1)) →
      fixedI x + advSum env face (text.take k) + kernSum env face (text.take (k + 1)) <
        2147483648 →
      penAt env face x text k =
        fixedI x + advSum env face (text.take k) + kernSum env face (text.take (k + 1))) := by
  have hstart : fixedI x = wrap32 (fixedI x + advSum env face [] + kernSum env face []) := by
    simp only [advSum, kernSum, List.map_nil, List.sum_nil, add_zero]
    unfold fixedI
    rw [wrap32_idem]
  rw [Draw_eq] at h
  cases hl : drawLoop env dst face y clr (now st).1 text (now st).2 (fixedI x) (-1) with
  | error e => rw [hl] at h; cases h
  | ok r =>
    rw [hl] at h
    obtain ⟨sE, fxE, pE⟩ := r
    simp only [Except.ok.injEq] at h
    subst h
    refine ⟨?_, ?_, ?_⟩
    · intro k hk
      have hsplit : text = text.take (k + 1) ++ text.drop (k + 1) :=
        (List.take_append_drop _ _).symm
      have hl1 := hl
      rw [hsplit, drawLoop_append] at hl1
      cases h1 : drawLoop env dst face y clr (now st).1 (text.take (k + 1)) (now st).2
          (fixedI x) (-1) with
      | error e => rw [h1] at hl1; cases hl1
      | ok r1 =>
        obtain ⟨s1, fx1, p1⟩ := r1
        have h1' := h1
        rw [take_succ_getD text k hk, drawLoop_append] at h1'
        cases h0 : drawLoop env dst face y clr (now st).1 (text.take k) (now st).2
            (fixedI x) (-1) with
        | error e => rw [h0] at h1'; cases h1'
        | ok r0 =>
          obtain ⟨s0, fx0, p0⟩ := r0
          have hr0 : ∀ c ∈ text.take k, 0 ≤ c := fun c hc => hrunes c (List.mem_of_mem_take hc)
          have hr1 : ∀ c ∈ text.take (k + 1), 0 ≤ c :=
            fun c hc => hrunes c (List.mem_of_mem_take hc)
          obtain ⟨e1, e2⟩ := drawLoop_pen env dst face x y clr _ (text.take k) [] _ _ _ s0 fx0 p0
            (by simpa using hr0) hstart rfl h0
          obtain ⟨e3, e4⟩ := drawLoop_pen env dst face x y clr _ (text.take (k + 1)) [] _ _ _
            s1 fx1 p1 (by simpa using hr1) hstart rfl h1
          simp only [List.nil_append] at e1 e2 e3 e4
          have hpen : (if p0 ≥ 0 then wrap32 (fx0 + env.Kern face p0 (text.getD k 0))
              else fx0) = penAt env face x text k := by
            rw [e1, e2, pen_kerned env face x (text.take k) (text.getD k 0) hr0]
            unfold penAt
            rw [take_succ_getD text k hk]
          refine ⟨s0, fx0, p0, s1, rfl, hpen, ?_⟩
          rw [e3, e4]
          have : penAt env face x text k =
              wrap32 (fixedI x + advSum env face (text.take k) +
                kernSum env face (text.take k ++ [text.getD k 0])) := by
            unfold penAt
            rw [take_succ_getD text k hk]
          rw [this, pen_advanced, take_succ_getD text k hk]
          simp
    · obtain ⟨lg, hlg, hpens⟩ := drawLoop_pens env dst face x y clr (now st).1 st
        (fontFaceToFace face st).1 text hrunes text [] (now st).2 (fixedI x) (-1) sE fxE pE
        rfl (Later.tick Later.here) (Reachable.tick hreach) (by simp)
        (fontFaceToFace_congr face st (now st).2 rfl).1 hstart rfl hl
      refine ⟨lg, hlg, ?_⟩
      rw [hpens]
      simp only [bounds_eq, empty_eq, List.length_nil, Nat.zero_add, compositeAt]
    · intro k h1 h2
      exact wrap32_of_range _ h1 h2

/-- C11, at a concrete input: "A B" in white from the initial state, with an
empty glyph for the space: two composites, the second at the pen
`320 + 10 - 1 - 1` pixels. -/
theorem Draw_pen_positions_witness :
    Reachable exSpaced State.init ∧ (∀ c ∈ ([65, 32, 66] : List Int), 0 ≤ c) ∧
    ∃ st', Draw exSpaced 0 [65, 32, 66] exFace 0 0 exWhite State.init = .ok st' ∧
      penAt exSpaced exFace 0 [65, 32, 66] 2 = 20992 ∧
      ∃ l, st'.log = State.init.log ++ l ∧
        pens l = [(0, 65, 0, -25600), (0, 66, 20992, -25600)] :=
  ⟨Reachable.init, by decide, _, rfl, by decide,
    (Draw_pen_positions exSpaced State.init 0 [65, 32, 66] exFace 0 0 exWhite _ Reachable.init
      (by decide) rfl).2.1⟩

/-! ## The cell-size check of `atlas.at` -/

theorem selectCell_not_at (a : atlas) (max : Int) :
    a.selectCell max ≠ .error .atNotReached := by
  unfold atlas.selectCell
  split
  · split
    · intro h; cases h
    · intro h; cases h
  · intro h; cases h

/-- The check of `atlas.at` passes in `appendGlyph` when the atlas has the
glyph size of the character's group. -/
theorem appendGlyph_not_at (env : Fonts) (a : atlas) (ch : char) (now : Int) (st : State)
    (hsize : a.glyphSize = (ch.atlasGroup env st).1) :
    a.appendGlyph env ch now st ≠ .error .atNotReached := by
  rw [appendGlyph_eq]
  by_cases h0 : a.glyphSize = 0
  · rw [if_pos h0]; intro h; cases h
  · rw [if_neg h0]
    cases hsel : a.selectCell a.cells with
    | error e =>
      simp only
      intro h
      simp only [Except.error.injEq] at h
      subst h
      exact selectCell_not_at a a.cells hsel
    | ok r =>
      obtain ⟨idx, mm⟩ := r
      simp only
      rw [if_neg (not_not.mpr hsize)]
      split
      · intro h; cases h
      · intro h; cases h

theorem insertGlyph_not_at (env : Fonts) (face : Face) (key : Int) (a : atlas) (ch : char)
    (now : Int) (st : State) (hsize : a.glyphSize = (ch.atlasGroup env st).1) :
    insertGlyph env face key a ch now st ≠ .error .atNotReached := by
  unfold insertGlyph
  cases happ : a.appendGlyph env ch now st with
  | error e =>
    simp only
    intro h
    simp only [Except.error.injEq] at h
    subst h
    exact appendGlyph_not_at env a ch now st hsize happ
  | ok r =>
    obtain ⟨g, a1, st1⟩ := r
    simp only
    unfold storeAtlas
    cases mapGet st1.atlases face with
    | none => simp
    | some m => simp

/-- The part of `getGlyphFromCache` after a miss does not fail the check of
`atlas.at` when the atlas found, if any, has the glyph size of the
character's group. -/
theorem getGlyphMiss_not_at (env : Fonts) (face : Face) (ch : char) (now : Int)
    (slot : Option (Int × atlas)) (st : State)
    (hslot : ∀ key a, slot = some (key, a) → a.glyphSize = (ch.atlasGroup env st).1) :
    getGlyphMiss env face ch now slot st ≠ .error .atNotReached := by
  unfold getGlyphMiss
  rw [empty_eq]
  have hbq : boundsOf env (queried env st ch.face ch.rune) ch.face ch.rune =
      boundsOf env st ch.face ch.rune := boundsOf_queried env st _ _ _ _
  have hG := atlasGroup_congr env ch hbq
  cases he : emptyB (boundsOf env st ch.face ch.rune) with
  | true => simp only [if_true]; intro h; cases h
  | false =>
    simp only [Bool.false_eq_true, if_false]
    cases slot with
    | some ka =>
      obtain ⟨key, a⟩ := ka
      simp only
      exact insertGlyph_not_at env face key a ch now _ (by rw [hG]; exact hslot key a rfl)
    | none =>
      simp only
      cases hm : mapGet (queried env st ch.face ch.rune).atlases face with
      | none =>
        rw [createAtlas_of_none env face ch _ hm]
        intro h; cases h
      | some fam =>
        obtain ⟨st2, hc, _, hcres, _⟩ := createAtlas_of_some env face ch _ fam hm
        rw [hc]
        simp only
        have hb2 : boundsOf env st2 ch.face ch.rune =
            boundsOf env (queried env st ch.face ch.rune) ch.face ch.rune := hcres.bounds.1 _ _
        have hidem := atlasGroup_idem env ch hb2
        exact insertGlyph_not_at env face _ _ _ now st2 (by rw [hidem.1]; rfl)

/-- In a state that satisfies the invariant of the atlases,
`getGlyphFromCache` does not fail the check of `atlas.at`. -/
theorem getGlyph_not_at (env : Fonts) (face : Face) (r now : Int) (st : State)
    (hwf : WF env st) :
    getGlyphFromCache env face r now st ≠ .error .atNotReached := by
  have hbq : boundsOf env (queried env st face r) face r = boundsOf env st face r :=
    boundsOf_queried env st _ _ _ _
  unfold getGlyphFromCache
  cases hm : mapGet st.atlases face with
  | none =>
    simp only
    exact getGlyphMiss_not_at env face _ now none _ (by intro key a h; cases h)
  | some m =>
    simp only [atlasGroup_fresh]
    cases ha : mapGet m (groupB (boundsOf env st face r)) with
    | none =>
      simp only
      exact getGlyphMiss_not_at env face _ now none _ (by intro key a h; cases h)
    | some a =>
      simp only
      cases hg : mapGet a.runeToGlyph r with
      | some g => simp only; intro h; cases h
      | none =>
        simp only
        apply getGlyphMiss_not_at
        intro key a' h
        simp only [Option.some.injEq, Prod.mk.injEq] at h
        obtain ⟨_, ha'⟩ := h
        rw [← ha', (hwf face m _ a hm ha).size]
        have := atlasGroup_settled env face r st (queried env st face r) hbq
        exact this.1.symm

/-- In a state that satisfies the invariant of the atlases, `glyph.draw` does
not fail the check of `atlas.at`: the atlas it looks up under the glyph's
group has that group as its glyph size. -/
theorem glyph_draw_not_at (env : Fonts) (g : glyph) (dst : Nat) (x y : Int) (clr : Color)
    (st : State) (hwf : WF env st) :
    g.draw env dst x y clr st ≠ .error .atNotReached := by
  by_cases hA : clr.A = 0
  · rw [glyph_draw_transparent env g dst x y clr st hA]
    intro h; cases h
  · rw [glyph_draw_eq env g dst x y clr st hA]
    cases hb : (mapGet st.atlases g.char.face).bind
        (fun m => mapGet m (g.char.atlasGroup env st).1) with
    | none => simp only; intro h; cases h
    | some a =>
      have hsize : a.glyphSize = (g.char.atlasGroup env st).1 := by
        cases hm : mapGet st.atlases g.char.face with
        | none => rw [hm] at hb; cases hb
        | some m =>
          rw [hm] at hb
          exact (hwf g.char.face m _ a hm hb).size
      simp only
      rw [if_neg (not_not.mpr hsize)]
      split
      · intro h; cases h
      · split
        · intro h; cases h
        · intro h; cases h

/-- A round of the loop of `Draw` does not fail the check of `atlas.at`. -/
theorem drawRune_not_at (env : Fonts) (dst : Nat) (face : Face) (y : Int) (clr : Color)
    (n : Int) (s : State) (fx prevC c : Int) (hr : Reachable env s)
    (hn : n ≤ s.monotonicClock) :
    drawRune env dst face y clr n s fx prevC c ≠ .error .atNotReached := by
  have hr1 : Reachable env (fontFaceToFace face s).2 := Reachable.face face hr
  unfold drawRune
  simp only
  cases hg : getGlyphFromCache env (fontFaceToFace face s).1 c n (fontFaceToFace face s).2 with
  | error e =>
    simp only
    intro h
    simp only [Except.error.injEq] at h
    subst h
    exact getGlyph_not_at env _ c n _ hr1.wf hg
  | ok r =>
    obtain ⟨g, st2⟩ := r
    have hr2 : Reachable env st2 := Reachable.getGlyph hr1 (by simpa using hn) hg
    have hr3 : Reachable env (g.char.empty env st2).2 := by
      rw [empty_eq]
      have : queried env st2 g.char.face g.char.rune = (g.char.bounds env st2).2 := by
        rw [bounds_eq]
      rw [this]
      exact Reachable.bounds g.char hr2
    simp only
    cases he : (g.char.empty env st2).1 with
    | true => simp
    | false =>
      simp only [Bool.not_false, if_true]
      cases hd : g.draw env dst
          (if prevC ≥ 0 then wrap32 (fx + env.Kern face prevC c) else fx) (fixedI y) clr
          (g.char.empty env st2).2 with
      | error e =>
        simp only
        intro h
        simp only [Except.error.injEq] at h
        subst h
        exact glyph_draw_not_at env g dst _ _ clr _ hr3.wf hd
      | ok r2 => simp

/-- The loop of `Draw` does not fail the check of `atlas.at`. -/
theorem drawLoop_not_at (env : Fonts) (dst : Nat) (face : Face) (y : Int) (clr : Color)
    (n : Int) (text : List Int) (s : State) (fx prevC : Int) (hr : Reachable env s)
    (hn : n ≤ s.monotonicClock) :
    drawLoop env dst face y clr n text s fx prevC ≠ .error .atNotReached := by
  induction text generalizing s fx prevC with
  | nil => unfold drawLoop; intro h; cases h
  | cons c rest ih =>
    rw [drawLoop_cons]
    cases hd : drawRune env dst face y clr n s fx prevC c with
    | error e =>
      simp only
      intro h
      simp only [Except.error.injEq] at h
      subst h
      exact drawRune_not_at env dst face y clr n s fx prevC c hr hn hd
    | ok r =>
      obtain ⟨s1, fx1, p1⟩ := r
      simp only
      have hl := later_drawRune env dst face y clr n s fx prevC c s1 fx1 p1 hn hd
      exact ih s1 fx1 p1 (hr.reachLater hl) (le_trans hn hl.laterClock)

/-- C21: the cell-size check of `atlas.at` never fails in a state that the
package reaches.  Every atlas `atlases[face][key]` has `glyphSize == key`,
and every glyph in its table has that atlas group; so neither
`getGlyphFromCache` (which calls `atlas.at` from `atlas.draw` when it inserts
a glyph) nor `glyph.draw` (when it composites) nor a call of `Draw` ends in
the panic of `atlas.at`. -/
theorem at_panic_unreachable (env : Fonts) (st : State) (hreach : Reachable env st) :
    (∀ face m key a, mapGet st.atlases face = some m → mapGet m key = some a →
      a.glyphSize = key ∧
      ∀ k g, (k, g) ∈ a.runeToGlyph → (g.char.atlasGroup env st).1 = a.glyphSize) ∧
    (∀ face r now, getGlyphFromCache env face r now st ≠ .error .atNotReached) ∧
    (∀ (g : glyph) dst x y clr, g.draw env dst x y clr st ≠ .error .atNotReached) ∧
    (∀ dst text face x y clr, Draw env dst text face x y clr st ≠ .error .atNotReached) := by
  have hwf := hreach.wf
  refine ⟨?_, ?_, ?_, ?_⟩
  · intro face m key a hm ha
    have hok := hwf face m key a hm ha
    refine ⟨hok.size, ?_⟩
    intro k g hkg
    have hg := hok.glyphs k g hkg
    rw [hg.char, (atlasGroup_settled env face k st st rfl).1, hg.group, hok.size]
  · intro face r now
    exact getGlyph_not_at env face r now st hwf
  · intro g dst x y clr
    exact glyph_draw_not_at env g dst x y clr st hwf
  · intro dst text face x y clr
    rw [Draw_eq]
    cases hl : drawLoop env dst face y clr (now st).1 text (now st).2 (fixedI x) (-1) with
    | error e =>
      simp only
      intro h
      simp only [Except.error.injEq] at h
      subst h
      exact drawLoop_not_at env dst face y clr _ text _ _ _ (Reachable.tick hreach)
        (by simp [now]) hl
    | ok r => simp

/-- The check of `atlas.at` does fail outside the invariant: a glyph of group
512 in an atlas whose glyph size is 256. -/
theorem atCell_mismatch_example :
    ({ exAtlasFull with glyphSize := 256 } : atlas).atCell exFonts (exGlyph 65 0 3) exState =
      .error .atNotReached := rfl

/-- C21, at a concrete input: the state after "A" has been drawn. -/
theorem at_panic_unreachable_witness :
    ∃ st, Draw exFonts 0 [65] exFace 0 0 exWhite State.init = .ok st ∧
      Reachable exFonts st ∧
      (∀ dst text face x y clr,
        Draw exFonts dst text face x y clr st ≠ .error .atNotReached) :=
  ⟨_, rfl, reachable_Draw Reachable.init 0 [65] exFace 0 0 exWhite rfl,
    (at_panic_unreachable exFonts _
      (reachable_Draw Reachable.init 0 [65] exFace 0 0 exWhite rfl)).2.2.2⟩

/-! ## The cells in use -/

theorem mapSet_of_absent {κ ν : Type} [DecidableEq κ] (m : List (κ × ν)) (k : κ) (v : ν)
    (h : mapGet m k = none) : mapSet m k v = m ++ [(k, v)] := by
  induction m with
  | nil => rfl
  | cons e rest ih =>
    obtain ⟨k0, v0⟩ := e
    unfold mapGet at h
    by_cases h0 : k0 = k
    · simp [h0] at h
    · simp only [h0, if_false] at h
      simp [mapSet, h0, ih h]

theorem perm_mapDelete {κ ν : Type} [DecidableEq κ] (m : List (κ × ν)) (k : κ) (v : ν)
    (hkeys : (m.map Prod.fst).Nodup) (hmem : (k, v) ∈ m) :
    m.Perm ((k, v) :: mapDelete m k) := by
  induction m with
  | nil => cases hmem
  | cons e rest ih =>
    obtain ⟨k0, v0⟩ := e
    simp only [List.map_cons, List.nodup_cons] at hkeys
    rcases List.mem_cons.mp hmem with h | h
    · simp only [Prod.mk.injEq] at h
      obtain ⟨hk, hv⟩ := h
      subst hk; subst hv
      have hnot : k ∉ rest.map Prod.fst := hkeys.1
      simp [mapDelete, mapDelete_of_not_mem rest k hnot]
    · have hne : k0 ≠ k := by
        intro he
        subst he
        exact hkeys.1 (List.mem_map.mpr ⟨(k0, v), h, rfl⟩)
      simp only [mapDelete, hne, if_false]
      exact ((ih hkeys.2 h).cons (k0, v0)).trans (List.Perm.swap _ _ _)

theorem cellIndices_touch (m : List (Int × glyph)) (k : Int) (g0 g : glyph)
    (hg : mapGet m k = some g0) (hidx : g.index = g0.index) :
    cellIndices (mapSet m k g) = cellIndices m := by
  induction m with
  | nil => simp [mapGet] at hg
  | cons e rest ih =>
    obtain ⟨k0, v0⟩ := e
    unfold mapGet at hg
    by_cases h0 : k0 = k
    · simp only [h0, if_true, Option.some.injEq] at hg
      subst hg
      simp [mapSet, h0, cellIndices, hidx]
    · simp only [h0, if_false] at hg
      have := ih hg
      simp only [cellIndices] at this ⊢
      simp [mapSet, h0, this]

/-- The cells of the atlas after a hit. -/
theorem CellsOK.cellsTouch {a : atlas} (h : CellsOK a) {r : Int} {g0 : glyph} (now : Int)
    (hg : mapGet a.runeToGlyph r = some g0) :
    CellsOK { a with runeToGlyph := mapSet a.runeToGlyph r { g0 with atime := now } } := by
  have hkey : r ∈ a.runeToGlyph.map Prod.fst :=
    List.mem_map.mpr ⟨(r, g0), mem_of_mapGet hg, rfl⟩
  unfold CellsOK
  simp only
  rw [cellIndices_touch a.runeToGlyph r g0 { g0 with atime := now } hg rfl,
    mapSet_length_of_mem _ _ _ hkey]
  exact h

/-- The cells of the atlas after the insertion of a new glyph into the cell
that `selectCell` chose: the next free cell, or the cell of the glyph that
went. -/
theorem CellsOK.cellsInsert {a : atlas} (h : CellsOK a) {r idx : Int} {mm : List (Int × glyph)}
    {max : Int} {g : glyph}
    (hkeys : (a.runeToGlyph.map Prod.fst).Nodup)
    (hown : ∀ k v, (k, v) ∈ a.runeToGlyph → v.char.rune = k)
    (hnew : mapGet a.runeToGlyph r = none)
    (hsel : a.selectCell max = .ok (idx, mm)) (hidx : g.index = idx) :
    CellsOK { a with tmpImage := true, runeToGlyph := mapSet mm r g } := by
  unfold CellsOK at h ⊢
  simp only
  rcases selectCell_inv a max idx mm hsel with ⟨_, hi, hmm⟩ | ⟨_, k, old, hmem, _, hi, hmm⟩
  · subst hmm
    rw [mapSet_of_absent _ _ _ hnew]
    simp only [cellIndices, List.map_append, List.map_cons, List.map_nil, List.length_append,
      List.length_singleton, List.range_succ]
    rw [hidx, hi]
    exact List.Perm.append_right _ h
  · subst hmm
    have hk : old.char.rune = k := hown k old hmem
    rw [hk]
    have hp := perm_mapDelete a.runeToGlyph k old hkeys hmem
    have hnew2 : mapGet (mapDelete a.runeToGlyph k) r = none := by
      rw [mapGet_eq_none_iff] at hnew ⊢
      intro hin
      exact hnew ((mapDelete_keys_sublist a.runeToGlyph k).subset hin)
    rw [mapSet_of_absent _ _ _ hnew2]
    have hlen : (mapDelete a.runeToGlyph k ++ [(r, g)]).length = a.runeToGlyph.length := by
      have := hp.length_eq
      simp only [List.length_cons] at this
      simp only [List.length_append, List.length_singleton]
      omega
    rw [hlen]
    refine List.Perm.trans ?_ h
    have h1 : (cellIndices a.runeToGlyph).Perm
        (old.index :: cellIndices (mapDelete a.runeToGlyph k)) := by
      have := hp.map (fun e : Int × glyph => e.2.index)
      simpa [cellIndices] using this
    refine List.Perm.trans ?_ h1.symm
    simp only [cellIndices, List.map_append, List.map_cons, List.map_nil]
    rw [hidx, hi]
    exact List.perm_append_singleton _ _

theorem cellsOK_fresh (size : Int) : CellsOK (freshAtlas size) := by
  unfold CellsOK freshAtlas cellIndices
  simp

/-- A call of `getGlyphFromCache` keeps the invariant of the cells. -/
theorem cells_getGlyph (env : Fonts) (face : Face) (r : Int) (now : Int) (st : State)
    (g : glyph) (st' : State) (hwf : WF env st) (hc : CellsWF st)
    (h : getGlyphFromCache env face r now st = .ok (g, st')) : CellsWF st' := by
  obtain ⟨_, hcase⟩ := getGlyph_cases env face r now st g st' h
  intro f m' key a' hm' hk'
  rcases hcase with ⟨m, a, g0, hm, ha, hg, _, hat, _⟩ |
      ⟨_, _, _, _, _, hother, hface, _⟩ |
      ⟨_, a, idx, mm, hslot, _, _, _, hsel, _, hat, _⟩
  · rw [hat] at hm'
    by_cases hf : f = face
    · subst hf
      rw [mapGet_mapSet_self] at hm'
      simp only [Option.some.injEq] at hm'
      subst hm'
      by_cases hkey : key = groupB (boundsOf env st f r)
      · subst hkey
        rw [mapGet_mapSet_self] at hk'
        simp only [Option.some.injEq] at hk'
        subst hk'
        exact (hc f m _ a hm ha).cellsTouch now hg
      · rw [mapGet_mapSet_ne _ _ (Ne.symm hkey)] at hk'
        exact hc f m key a' hm hk'
    · rw [mapGet_mapSet_ne _ _ (Ne.symm hf)] at hm'
      exact hc f m' key a' hm' hk'
  · by_cases hf : f = face
    · subst hf
      rw [hface] at hm'
      simp only [Option.some.injEq] at hm'
      subst hm'
      exact hc f _ key a' (getD_of_mapGet hk') hk'
    · rw [hother f hf] at hm'
      exact hc f m' key a' hm' hk'
  · rw [hat] at hm'
    by_cases hf : f = face
    · subst hf
      rw [mapGet_mapSet_self] at hm'
      simp only [Option.some.injEq] at hm'
      subst hm'
      by_cases hkey : key = groupB (boundsOf env st f r)
      · subst hkey
        rw [mapGet_mapSet_self] at hk'
        simp only [Option.some.injEq] at hk'
        subst hk'
        rcases hslot with ⟨hex, hnew⟩ | ⟨_, hfresh⟩
        · have hok := hwf f _ _ a (getD_of_mapGet hex) hex
          refine (hc f _ _ a (getD_of_mapGet hex) hex).cellsInsert hok.keys ?_ hnew hsel rfl
          intro k v hkv
          rw [(hok.glyphs k v hkv).char]
          rfl
        · subst hfresh
          refine (cellsOK_fresh _).cellsInsert (by simp [freshAtlas]) ?_ (by simp [freshAtlas, mapGet])
            hsel rfl
          intro k v hkv
          simp [freshAtlas] at hkv
      · rw [mapGet_mapSet_ne _ _ (Ne.symm hkey)] at hk'
        exact hc f _ key a' (getD_of_mapGet hk') hk'
    · rw [mapGet_mapSet_ne _ _ (Ne.symm hf)] at hm'
      exact hc f m' key a' hm' hk'

/-- Every reachable state satisfies the invariant of the cells. -/
theorem Reachable.cellsInv {env : Fonts} {st : State} (h : Reachable env st) : CellsWF st := by
  induction h with
  | init =>
    intro face m key a hm _
    simp [State.init, mapGet] at hm
  | tick _ ih => exact ih
  | face f _ ih =>
    intro face m key a hm ha
    rw [fontFaceToFace_atlases] at hm
    exact ih face m key a hm ha
  | bounds c _ ih =>
    intro face m key a hm ha
    rw [bounds_eq] at hm
    simp only [queried_atlases] at hm
    exact ih face m key a hm ha
  | getGlyph hr _ hg ih => exact cells_getGlyph env _ _ _ _ _ _ hr.wf ih hg
  | @glyphDraw st st' g g' dst x y clr _ hd ih =>
    intro face m key a hm ha
    rw [(glyph_draw_frame env g dst x y clr st g' st' hd).2.1] at hm
    exact ih face m key a hm ha

/-- C25: in every atlas of a state that the package reaches, each glyph of
`runeToGlyph` is stored under its own rune, the cell indices of the glyphs
are exactly the numbers `0, ..., len(runeToGlyph) - 1`, two runes never share
a cell, and every index is below `maxGlyphNum()`. -/
theorem cell_indices_exact (env : Fonts) (st : State) (hreach : Reachable env st)
    (face : Face) (m : List (Int × atlas)) (key : Int) (a : atlas)
    (hm : mapGet st.atlases face = some m) (ha : mapGet m key = some a) :
    (∀ k g, (k, g) ∈ a.runeToGlyph → g.char.rune = k ∧ mapGet a.runeToGlyph k = some g) ∧
    (∀ i : Int, (∃ k g, (k, g) ∈ a.runeToGlyph ∧ g.index = i) ↔
      (0 ≤ i ∧ i < mapLen a.runeToGlyph)) ∧
    (∀ k g k' g', (k, g) ∈ a.runeToGlyph → (k', g') ∈ a.runeToGlyph →
      g.index = g'.index → k = k') ∧
    (∃ n, a.maxGlyphNum = .ok n ∧ ∀ k g, (k, g) ∈ a.runeToGlyph → g.index < n) := by
  have hok := hreach.wf face m key a hm ha
  have hcells : CellsOK a := hreach.cellsInv face m key a hm ha
  unfold CellsOK cellIndices at hcells
  have hset : ∀ i : Int, (∃ k g, (k, g) ∈ a.runeToGlyph ∧ g.index = i) ↔
      (0 ≤ i ∧ i < mapLen a.runeToGlyph) := by
    intro i
    have hiff := hcells.mem_iff (a := i)
    simp only [List.mem_map, List.mem_range, Prod.exists] at hiff
    constructor
    · rintro ⟨k, g, hkg, hi⟩
      obtain ⟨n, hn, hni⟩ := hiff.mp ⟨k, g, hkg, hi⟩
      subst hni
      simp only [mapLen]
      exact ⟨Int.ofNat_nonneg n, Int.ofNat_lt.mpr hn⟩
    · rintro ⟨h0, hlt⟩
      simp only [mapLen] at hlt
      obtain ⟨k, g, hkg, hi⟩ := hiff.mpr ⟨i.toNat, by omega, by
        show ((i.toNat : Nat) : Int) = i
        omega⟩
      exact ⟨k, g, hkg, hi⟩
  have hgs : a.glyphSize ≠ 0 := by rw [hok.size]; exact ne_of_gt hok.pos
  refine ⟨?_, hset, ?_, ?_⟩
  · intro k g hkg
    refine ⟨by rw [(hok.glyphs k g hkg).char]; rfl, mapGet_of_mem hok.keys hkg⟩
  · intro k g k' g' hkg hkg' hidx
    have hnd : (a.runeToGlyph.map (fun e => e.2.index)).Nodup :=
      hcells.nodup_iff.mpr ((List.nodup_range _).map (fun x y h => Int.ofNat.inj h))
    have := List.inj_on_of_nodup_map hnd hkg hkg' hidx
    simp only [Prod.mk.injEq] at this
    exact this.1
  · refine ⟨a.cells, by rw [maxGlyphNum_eq]; simp [hgs], ?_⟩
    intro k g hkg
    have := (hset g.index).mp ⟨k, g, hkg, rfl⟩
    have hb := hok.bound
    omega

/-- C25, at a concrete input: the atlas after "AB" has been drawn holds the
two glyphs in the cells 0 and 1. -/
theorem cell_indices_exact_witness :
    ∃ st m a, Draw exFonts 0 [65, 66] exFace 0 0 exWhite State.init = .ok st ∧
      mapGet st.atlases exFace = some m ∧ mapGet m 512 = some a ∧
      cellIndices a.runeToGlyph = [0, 1] ∧
      (∀ i : Int, (∃ k g, (k, g) ∈ a.runeToGlyph ∧ g.index = i) ↔
        (0 ≤ i ∧ i < mapLen a.runeToGlyph)) :=
  ⟨_, _, _, rfl, rfl, rfl, by decide,
    (cell_indices_exact exFonts _
      (reachable_Draw Reachable.init 0 [65, 66] exFace 0 0 exWhite rfl)
      exFace _ 512 _ rfl rfl).2.1⟩

/-! ## Eviction from an atlas of four cells -/

/-- C8, at a concrete input: after "AB" and "BACD" have been drawn the atlas
of group 512 holds four glyphs in its four cells, and "E" is resolved. -/
theorem evicts_then_misses_witness :
    ∃ s1 s2 m a,
      Draw exFonts 0 [65, 66] exFace 0 0 exWhite State.init = .ok s1 ∧
      Draw exFonts 0 [66, 65, 67, 68] exFace 0 0 exWhite s1 = .ok s2 ∧
      mapGet s2.atlases exFace = some m ∧ mapGet m 512 = some a ∧
      a.runeToGlyph.map Prod.fst = [65, 66, 67, 68] ∧
      ∃ g st1 k old m1 a1,
        getGlyphFromCache exFonts exFace 69 8 s2 = .ok (g, st1) ∧
        (k, old) ∈ a.runeToGlyph ∧ (∀ e ∈ a.runeToGlyph, old.atime ≤ e.2.atime) ∧
        (∃ pre post, a.runeToGlyph = pre ++ (k, old) :: post ∧
          (∀ e ∈ pre, old.atime < e.2.atime) ∧ (∀ e ∈ post, old.atime ≤ e.2.atime)) ∧
        ((∀ e ∈ a.runeToGlyph, e ≠ (k, old) → e.2.atime ≠ old.atime) →
          ∀ e ∈ a.runeToGlyph, e ≠ (k, old) → old.atime < e.2.atime) ∧
        mapGet st1.atlases exFace = some m1 ∧
        mapGet m1 (({ face := exFace, rune := 69, atlasG := 0 } : char).atlasGroup exFonts s2).1 =
          some a1 ∧
        mapGet a1.runeToGlyph k = none ∧
        mapGet a1.runeToGlyph 69 = some g ∧ g.index = old.index ∧
        (∀ k', k' ≠ k → k' ≠ 69 → mapGet a1.runeToGlyph k' = mapGet a.runeToGlyph k') ∧
        mapLen a1.runeToGlyph = mapLen a.runeToGlyph ∧
        ∀ now2, now2 ≤ st1.monotonicClock →
          ∃ g2 st2 l x y, getGlyphFromCache exFonts exFace k now2 st1 = .ok (g2, st2) ∧
            st2.log = st1.log ++ l ++
              [Event.rasterize exFace k
                (({ face := exFace, rune := 69, atlasG := 0 } : char).atlasGroup exFonts s2).1
                x y] :=
  ⟨_, _, _, _, rfl, rfl, rfl, rfl, rfl,
    evicts_then_misses exFonts _
      (reachable_Draw (reachable_Draw Reachable.init 0 [65, 66] exFace 0 0 exWhite rfl)
        0 [66, 65, 67, 68] exFace 0 0 exWhite rfl)
      (by decide) exFace 69 8 _ _ (by decide) rfl rfl rfl rfl rfl⟩

end Text

/-! # The example `hsv` -/

namespace Hsv

/-- C23: for `min <= max`, `clamp(v, min, max)` returns a value in
`[min, max]`: `v` itself when `min <= v <= max`, `min` when `v < min`, `max`
when `v > max`; and `clamp` panics if and only if `min > max`. -/
theorem clamp_spec (v min max : Int) :
    (min ≤ max →
      ∃ r, clamp v min max = .ok r ∧ min ≤ r ∧ r ≤ max ∧
        (min ≤ v → v ≤ max → r = v) ∧ (v < min → r = min) ∧ (max < v → r = max)) ∧
    ((∃ e, clamp v min max = .error e) ↔ min > max) := by
  unfold clamp
  constructor
  · intro hle
    rw [if_neg (by omega)]
    by_cases h1 : v < min
    · rw [if_pos h1]
      exact ⟨min, rfl, le_refl _, hle, by omega, fun _ => rfl, by omega⟩
    · rw [if_neg h1]
      by_cases h2 : max < v
      · rw [if_pos h2]
        exact ⟨max, rfl, hle, le_refl _, by omega, by omega, fun _ => rfl⟩
      · rw [if_neg h2]
        exact ⟨v, rfl, by omega, by omega, fun _ _ => rfl, by omega, by omega⟩
  · constructor
    · rintro ⟨e, he⟩
      by_contra hc
      rw [if_neg hc] at he
      split_ifs at he
    · intro h
      rw [if_pos h]
      exact ⟨_, rfl⟩

/-- C23, at concrete inputs: the three cases of `clamp(v, 0, 256)`, as the
example calls it, and the panic for `min > max`. -/
theorem clamp_spec_witness :
    clamp (-1) 0 256 = .ok 0 ∧ clamp 257 0 256 = .ok 256 ∧ clamp 128 0 256 = .ok 128 ∧
    ((∃ e, clamp 128 256 0 = .error e) ↔ (256 : Int) > 0) :=
  ⟨rfl, rfl, rfl, (clamp_spec 128 256 0).2⟩

end Hsv

/-! # Package `ebiten`: `Touches` -/

namespace Ebiten

theorem set_take_replicate (l : List Touch) (i : Nat) (hi : i < l.length) :
    (l.take i ++ List.replicate (l.length - i) Touch.nil).set i l[i] =
      l.take (i + 1) ++ List.replicate (l.length - (i + 1)) Touch.nil := by
  apply List.ext_getElem
  · simp
    omega
  · intro n h1 h2
    rw [List.getElem_set]
    by_cases hn : i = n
    · subst hn
      rw [if_pos rfl, List.getElem_append_left (by simp; omega)]
      simp
    · rw [if_neg hn]
      by_cases hlt : n < i
      · rw [List.getElem_append_left (by simp; omega),
          List.getElem_append_left (by simp; omega)]
        simp
      · rw [List.getElem_append_right (by simp; omega),
          List.getElem_append_right (by simp; omega)]
        simp

/-- The loop of `Touches` from the counter `i` on, when the first `i`
elements are copied already. -/
theorem copyLoop_some (l : List Touch) (fuel i : Nat) (hi : i ≤ l.length)
    (hfuel : l.length - i < fuel) :
    copyLoop (some l) fuel i (some (l.take i ++ List.replicate (l.length - i) Touch.nil)) =
      .ok (some l) := by
  induction fuel generalizing i with
  | zero => omega
  | succ k ih =>
    unfold copyLoop
    have hlen : len (some (l.take i ++ List.replicate (l.length - i) Touch.nil)) = l.length := by
      simp [len]; omega
    rw [hlen]
    by_cases hlt : i < l.length
    · rw [if_pos hlt]
      have hidx : index (some l) i = .ok l[i] := by
        simp [index, List.getElem?_eq_getElem hlt]
      have hasg : assign (some (l.take i ++ List.replicate (l.length - i) Touch.nil)) i l[i] =
          .ok (some (l.take (i + 1) ++ List.replicate (l.length - (i + 1)) Touch.nil)) := by
        unfold assign
        have : i < (l.take i ++ List.replicate (l.length - i) Touch.nil).length := by
          simp; omega
        simp only [this, if_true]
        rw [set_take_replicate l i hlt]
      rw [hidx]
      simp only
      rw [hasg]
      simp only
      exact ih (i + 1) (by omega) (by omega)
    · rw [if_neg hlt]
      have : i = l.length := by omega
      subst this
      simp

/-- The slice that `Touches` returns is never the nil slice: it holds the
elements of the underlying slice, in the same order. -/
theorem Touches_eq (t : Slice Touch) : Touches t = .ok (some (elems t)) := by
  cases t with
  | none => rfl
  | some l =>
    unfold Touches make
    have h := copyLoop_some l (l.length + 1) 0 (by omega) (by omega)
    simpa [len, elems] using h

/-- C24: when the underlying input reports no touches (the nil slice, as on
desktops, or an empty one), `Touches` returns a slice of length zero that is
not nil, where its documentation promises nil; in general it returns the
underlying touches in the same order, in a slice that is not nil. -/
theorem Touches_not_nil :
    Touches none = .ok (some []) ∧ Touches none ≠ .ok none ∧
    Touches (some []) = .ok (some []) ∧
    (∀ t : Slice Touch, Touches t = .ok (some (elems t)) ∧ Touches t ≠ .ok none) := by
  refine ⟨rfl, ?_, rfl, ?_⟩
  · rw [Touches_eq]
    simp
  intro t
  rw [Touches_eq]
  exact ⟨rfl, by simp⟩

end Ebiten

/-! # The generator `genkeys.go` -/

namespace Genkeys

set_option maxRecDepth 100000 in
theorem lessTable_true : lessTable = true := by decide

set_option maxRecDepth 100000 in
theorem sortedNames_perm : sortedNames.Perm keyNames := by decide

theorem sortedNames_length : sortedNames.length = 78 := by decide

theorem sortedNames_last : sortedNames.getLast? = some (str "Up") := by decide

/-- On the sorted names `lessNames` is the order of the indices. -/
theorem less_sorted (i j : Nat) (hi : i < 78) (hj : j < 78) :
    KeyNames.lessNames (sortedNames.getD i []) (sortedNames.getD j []) = decide (i < j) := by
  have h := lessTable_true
  unfold lessTable at h
  rw [List.all_eq_true] at h
  have h1 := h i (List.mem_range.mpr hi)
  rw [List.all_eq_true] at h1
  have h2 := h1 j (List.mem_range.mpr hj)
  exact beq_iff_eq.mp h2

/-- Every key name has its place in the sorted list. -/
theorem index_of_keyName (a : GoString) (ha : a ∈ keyNames) :
    ∃ i, i < 78 ∧ sortedNames.getD i [] = a := by
  have hs : a ∈ sortedNames := sortedNames_perm.mem_iff.mpr ha
  obtain ⟨i, hi, hget⟩ := List.getElem_of_mem hs
  refine ⟨i, by rw [← sortedNames_length]; exact hi, ?_⟩
  rw [List.getD_eq_getElem _ _ hi]
  exact hget

theorem Less_eq (k : KeyNames) (i j : Nat) (hi : i < k.length) (hj : j < k.length) :
    KeyNames.Less k i j = .ok (KeyNames.lessNames k[i] k[j]) := by
  unfold KeyNames.Less
  rw [List.getElem?_eq_getElem hi, List.getElem?_eq_getElem hj]

theorem indexIn_lt (l : List GoString) (a : GoString) (h : a ∈ l) :
    indexIn l a < l.length := by
  induction l with
  | nil => cases h
  | cons b rest ih =>
    unfold indexIn
    by_cases hb : b = a
    · simp [hb]
    · rw [if_neg hb]
      rcases List.mem_cons.mp h with h1 | h1
      · exact absurd h1.symm hb
      · have := ih h1
        simp only [List.length_cons]
        omega

theorem getD_indexIn (l : List GoString) (a : GoString) (h : a ∈ l) :
    l.getD (indexIn l a) [] = a := by
  induction l with
  | nil => cases h
  | cons b rest ih =>
    unfold indexIn
    by_cases hb : b = a
    · simp [hb]
    · rw [if_neg hb]
      rcases List.mem_cons.mp h with h1 | h1
      · exact absurd h1.symm hb
      · simpa using ih h1

theorem rank_lt (a : GoString) (ha : a ∈ keyNames) : rank a < 78 := by
  have hs : a ∈ sortedNames := sortedNames_perm.mem_iff.mpr ha
  have := indexIn_lt sortedNames a hs
  rw [sortedNames_length] at this
  exact this

theorem get_rank (a : GoString) (ha : a ∈ keyNames) : sortedNames.getD (rank a) [] = a :=
  getD_indexIn sortedNames a (sortedNames_perm.mem_iff.mpr ha)

/-- On the key names `lessNames` is the order of the places in the sorted
list. -/
theorem less_rank (a b : GoString) (ha : a ∈ keyNames) (hb : b ∈ keyNames) :
    KeyNames.lessNames a b = decide (rank a < rank b) := by
  have h := less_sorted (rank a) (rank b) (rank_lt a ha) (rank_lt b hb)
  rw [get_rank a ha, get_rank b hb] at h
  exact h

theorem rank_inj (a b : GoString) (ha : a ∈ keyNames) (hb : b ∈ keyNames)
    (h : rank a = rank b) : a = b := by
  rw [← get_rank a ha, ← get_rank b hb, h]

/-- What `sort.IsSorted` checks: no name is less than the one before it. -/
theorem chain_of_IsSorted (k : KeyNames) (h : IsSorted k = true) :
    List.Chain' (fun a b => KeyNames.lessNames b a = false) k := by
  rw [List.chain'_iff_get]
  intro i hi
  unfold IsSorted at h
  rw [List.all_eq_true] at h
  have h1 := h i (List.mem_range.mpr hi)
  rw [Less_eq k (i + 1) i (by omega) (by omega)] at h1
  simpa using h1

set_option maxRecDepth 100000 in
theorem sortedNames_ranks : sortedNames.map rank = List.range 78 := by decide

/-- A list of the key names that `sort.IsSorted` accepts is the list
`sortedNames`. -/
theorem sorted_unique (names : KeyNames) (hperm : names.Perm keyNames)
    (hsorted : IsSorted names = true) : names = sortedNames := by
  have hmem : ∀ a ∈ names, a ∈ keyNames := fun a ha => hperm.mem_iff.mp ha
  have hchain := (chain_of_IsSorted names hsorted)
  rw [List.Chain'.iff_mem] at hchain
  have hle : List.Chain' (fun a b => rank a ≤ rank b) names := by
    refine hchain.imp ?_
    intro a b ⟨ha, hb, hab⟩
    rw [less_rank b a (hmem b hb) (hmem a ha)] at hab
    have := of_decide_eq_false hab
    omega
  have hs1 : List.Sorted (fun x y : Nat => x ≤ y) (names.map rank) :=
    List.chain'_iff_pairwise.mp ((List.chain'_map rank).mpr hle)
  have hs2 : List.Sorted (fun x y : Nat => x ≤ y) (sortedNames.map rank) := by
    rw [sortedNames_ranks]
    exact List.sorted_le_range 78
  have hp : (names.map rank).Perm (sortedNames.map rank) :=
    (hperm.trans sortedNames_perm.symm).map rank
  have heq := List.eq_of_perm_of_sorted hp hs1 hs2
  have hback : ∀ l : List GoString, (∀ a ∈ l, a ∈ keyNames) →
      (l.map rank).map (fun i => sortedNames.getD i []) = l := by
    intro l hl
    rw [List.map_map]
    calc l.map ((fun i => sortedNames.getD i []) ∘ rank) = l.map id := by
          apply List.map_congr_left
          intro a ha
          exact get_rank a (hl a ha)
      _ = l := List.map_id l
  rw [← hback names hmem, heq]
  exact hback sortedNames (fun a ha => sortedNames_perm.mem_iff.mp ha)

/-- C26: on the key names that `init` builds (the digits, the letters A to Z,
F1 to F12 and the 30 named keys), `KeyNames.Less` compares the names of two
indices by `lessNames`, which is a strict total order there: irreflexive,
asymmetric, transitive and total.  Its order is that of the list
`sortedNames`: the digits in numeric order, then the letters A to Z, then the
other names, with F1 to F12 in the order of their numbers (F2 before F10).
Hence a list of the key names that is sorted by `Less` is `sortedNames`, and
its last name, the `LastKeyName` of `main`, is "Up". -/
theorem Less_strict_total_order :
    (∀ (k : KeyNames) (i j : Nat) (hi : i < k.length) (hj : j < k.length),
      KeyNames.Less k i j = .ok (KeyNames.lessNames k[i] k[j])) ∧
    (∀ a ∈ keyNames, KeyNames.lessNames a a = false) ∧
    (∀ a ∈ keyNames, ∀ b ∈ keyNames,
      KeyNames.lessNames a b = true → KeyNames.lessNames b a = false) ∧
    (∀ a ∈ keyNames, ∀ b ∈ keyNames, ∀ c ∈ keyNames,
      KeyNames.lessNames a b = true → KeyNames.lessNames b c = true →
      KeyNames.lessNames a c = true) ∧
    (∀ a ∈ keyNames, ∀ b ∈ keyNames, a ≠ b →
      KeyNames.lessNames a b = true ∨ KeyNames.lessNames b a = true) ∧
    sortedNames.Perm keyNames ∧
    (∀ i j, i < sortedNames.length → j < sortedNames.length →
      KeyNames.Less sortedNames i j = .ok (decide (i < j))) ∧
    KeyNames.lessNames (str "F2") (str "F10") = true ∧
    (∀ names : KeyNames, names.Perm keyNames → IsSorted names = true →
      names = sortedNames ∧ LastKeyName names = .ok (str "Up")) := by
  refine ⟨Less_eq, ?_, ?_, ?_, ?_, sortedNames_perm, ?_, by decide, ?_⟩
  · intro a ha
    rw [less_rank a a ha ha]
    simp
  · intro a ha b hb hab
    rw [less_rank a b ha hb] at hab
    rw [less_rank b a hb ha]
    have := of_decide_eq_true hab
    exact decide_eq_false (by omega)
  · intro a ha b hb c hc hab hbc
    rw [less_rank a b ha hb] at hab
    rw [less_rank b c hb hc] at hbc
    rw [less_rank a c ha hc]
    have h1 := of_decide_eq_true hab
    have h2 := of_decide_eq_true hbc
    exact decide_eq_true (by omega)
  · intro a ha b hb hne
    rw [less_rank a b ha hb, less_rank b a hb ha]
    have hr : rank a ≠ rank b := fun h => hne (rank_inj a b ha hb h)
    rcases Nat.lt_or_gt_of_ne hr with h | h
    · exact Or.inl (decide_eq_true h)
    · exact Or.inr (decide_eq_true h)
  · intro i j hi hj
    rw [Less_eq sortedNames i j hi hj]
    rw [sortedNames_length] at hi hj
    have := less_sorted i j hi hj
    rw [List.getD_eq_getElem _ _ (by rw [sortedNames_length]; exact hi),
      List.getD_eq_getElem _ _ (by rw [sortedNames_length]; exact hj)] at this
    rw [this]
  · intro names hperm hsorted
    have h := sorted_unique names hperm hsorted
    refine ⟨h, ?_⟩
    rw [h]
    unfold LastKeyName
    rw [sortedNames_last]

set_option maxRecDepth 100000 in
/-- C26, at a concrete input: the names in the order in which `init` adds
them are not sorted; the list `sortedNames` is, and its last name is "Up". -/
theorem Less_strict_total_order_witness :
    IsSorted keyNames = false ∧
    sortedNames.Perm keyNames ∧ IsSorted sortedNames = true ∧
    LastKeyName sortedNames = .ok (str "Up") :=
  ⟨by decide, Less_strict_total_order.2.2.2.2.2.1, by decide,
    (Less_strict_total_order.2.2.2.2.2.2.2.2 sortedNames
      Less_strict_total_order.2.2.2.2.2.1 (by decide)).2⟩

end Genkeys
